import Mathlib

/-!
# The type-phrase translator `types.c`

A shallow embedding of `types.c`. The global variables of the C program are
the fields of two records: `Phrases` holds the globals that the
type-description functions (`process_array`, `process_pointer`, ...) only read,
`State` those they write. Every C function is a Lean function of the same
name, and the ways a run can stop early are the constructors of `Halt`.

Conventions of the embedding.

* A C string is a `String`; `strcmp(a, b) == 0` is `a = b`, `strlen` is the
  length of `String.data`.
* `argv` is the whole argument vector, `argv[0]` (the program name) included,
  so word indices are those of the C program (`1 .. argc - 1`).
* An array indexed by phrase number is a function on `Nat`; the arrays have
  `max_phrase_index + 1` cells in C and the program indexes them with phrase
  numbers only.
* An index the C program computes outside an array (a write outside the rows
  `0 .. MAX_OUTPUT` of `phrase_output`, following `continuation == NO_DATA`,
  the character before an empty word) is undefined behaviour in C and is
  `Halt.undefined` here: what the program reads or writes there is not given
  by its source.
* `atoi` is the function of the C library the program is linked with,
  `(int) strtol(word, NULL, 10)`: a number that does not fit an `int` is cut
  to its low 32 bits, and the rules of the program go on with that value.
* `printf("Incorrect input\n"); return EXIT_FAILURE;` is `Halt.incorrect_input`.
* The `while` loops are run on fuel; `Halt.out_of_fuel` marks exhaustion and is
  shown never to occur.
-/

namespace Types

/-! ## Constants (`#define`s) -/

abbrev BASIC : Nat := 0
abbrev ARRAY : Nat := 1
abbrev POINTER : Nat := 2
abbrev FUNCTION : Nat := 3

abbrev START : Nat := 1
abbrev CONTINUE : Nat := 2
abbrev REFER : Nat := 3
abbrev FINISHED : Nat := 4
abbrev ERROR : Nat := 5

abbrev INT : Nat := 1
abbrev CHAR : Nat := 2
abbrev DOUBLE : Nat := 4
abbrev FLOAT : Nat := 8
abbrev SIGNED : Nat := 16
abbrev UNSIGNED : Nat := 32
abbrev SHORT : Nat := 64
abbrev LONG : Nat := 128
abbrev LONGLONG : Nat := 256

abbrev MAX_OUTPUT : Nat := 200
abbrev NO_DATA : Int := -1
abbrev EMPTY_CHAR_BEFORE : Int := 99
abbrev EMPTY_CHAR_AFTER : Int := 100
abbrev MIN_BASIC : Nat := 2
abbrev MIN_COMPLEX : Nat := 4

/-- The table `illegal_variables` of reserved words. -/
def illegal_variables : List String :=
  ["a", "an", "to", "array", "pointer", "function", "signed", "unsigned", "int", "char",
   "double", "float", "long", "short", "void", "datum", "data", "of", "type", "returning",
   "A", "An", "pointers", "functions", "arrays"]

/-! ## Results of a run -/

/-- The ways a run stops before the final print loop. -/
inductive Halt where
  /-- The statement pair `printf("Incorrect input\n"); return EXIT_FAILURE;`. -/
  | incorrect_input
  /-- The C program indexes outside an array. -/
  | undefined
  /-- The fuel of a `while` loop ran out. -/
  | out_of_fuel
  deriving DecidableEq, Repr

/-- Computations of the program: a value, or an early stop. -/
abbrev M (α : Type) : Type := Except Halt α

deriving instance DecidableEq for Except

/-! ## The global variables -/

/-- The assignment `f[i] = v` on an array seen as a function. -/
def upd {α : Type} (f : Nat → α) (i : Nat) (v : α) : Nat → α :=
  fun j => if j = i then v else f j

/-- The globals that the type-description functions only read: the words,
the phrase endpoints, the references and the scratch array of the loop
check. -/
structure Phrases where
  argv : List String
  max_phrase_index : Int
  phrase_end : Nat → Nat
  phrase_start : Nat → Nat
  reference : Nat → Option String
  continuation : Nat → Int
  chain : Nat → Nat

/-- The globals that the type-description functions write.
`phrase_output i p` is the cell `phrase_output[i][p]`. -/
structure State where
  current : Nat
  phrase_nb : Nat
  original_phrase_nb : Nat
  var_name : Nat → Option String
  stage : Nat → Nat
  type : Nat → Nat
  phrase_output : Nat → Nat → Char
  output_start : Nat → Int
  output_end : Nat → Int

/-- The word `*(argv + i)`. -/
def Phrases.word (g : Phrases) (i : Nat) : String := g.argv.getD i ""

/-- The number of phrases, `max_phrase_index + 1`. -/
def Phrases.nb_phrases (g : Phrases) : Nat := (g.max_phrase_index + 1).toNat

/-! ## Reading the text -/

/-- Mirrors `check_vowel`. -/
def check_vowel (letter : Char) : Bool :=
  letter = 'a' || letter = 'e' || letter = 'i' || letter = 'o' || letter = 'u'

/-- The character `*word`: the first character, or NUL for the empty string. -/
def first_char (word : String) : Char := word.data.headD (Char.ofNat 0)

/-- Mirrors `check_preposition`. -/
def check_preposition (word_1 word_2 : String) (start : Bool) : Bool :=
  if start then
    if word_1 = "A" ∧ !check_vowel (first_char word_2) then true
    else if word_1 = "An" ∧ check_vowel (first_char word_2) then true
    else false
  else if word_1 = "a" ∧ !check_vowel (first_char word_2) then true
  else if word_1 = "an" ∧ check_vowel (first_char word_2) then true
  else false

/-- Mirrors `first_phrase_type`. -/
def first_phrase_type (word : String) : Nat :=
  if word = "array" then ARRAY
  else if word = "pointer" then POINTER
  else if word = "function" then FUNCTION
  else BASIC

/-- The character `*(word + strlen(word) - 1)`; for the empty word the C
program reads the byte before the string, which is undefined. -/
def last_char (word : String) : M Char :=
  match word.data.getLast? with
  | some c => pure c
  | none => throw Halt.undefined

/-- Mirrors `ends_with_full_stop`. -/
def ends_with_full_stop (word : String) : M Bool :=
  (last_char word).map fun c => decide (c = '.')

/-- Mirrors `permitted_variable_name`. -/
def permitted_variable_name (variable_name : String) : Bool :=
  if variable_name ∈ illegal_variables then false
  else if (first_char variable_name).isDigit ∨ variable_name.data = [] then false
  else variable_name.data.all fun c => c.isAlphanum || c = '_'

/-- The conversion of a `long` to an `int`: the low 32 bits, as a signed
number. -/
def int_of_long (l : Int) : Int := (l + 2147483648) % 4294967296 - 2147483648

/-- The C library function `atoi`, which is `(int) strtol(word, NULL, 10)`:
optional white space, an optional sign, then decimal digits. `strtol` stops at
the bounds of a `long` of 64 bits when the number is outside them, and the
conversion to `int` keeps the low 32 bits: `2147483648` is read as
`-2147483648` and `4294967297` as `1`. -/
def atoi (word : String) : M Int :=
  let cs := word.data.dropWhile fun c =>
    c = ' ' || c = '\t' || c = '\n' || c = '\r' || c = Char.ofNat 11 || c = Char.ofNat 12
  let neg := cs.head? = some '-'
  let ds := (if cs.head? = some '-' ∨ cs.head? = some '+' then cs.tail else cs).takeWhile
    Char.isDigit
  let n : Nat := ds.foldl (fun acc c => 10 * acc + (c.toNat - 48)) 0
  let v : Int := if neg then -(n : Int) else (n : Int)
  let l : Int :=
    if v < -9223372036854775808 then -9223372036854775808
    else if 9223372036854775807 < v then 9223372036854775807 else v
  pure (int_of_long l)

/-! ## Basic type descriptions -/

/-- Mirrors `basic_word_type`. -/
def basic_word_type (word : String) : Nat :=
  if word = "int" then INT
  else if word = "char" then CHAR
  else if word = "double" then DOUBLE
  else if word = "float" then FLOAT
  else if word = "signed" then SIGNED
  else if word = "unsigned" then UNSIGNED
  else if word = "short" then SHORT
  else if word = "long" then LONG
  else 0

/-- Mirrors `standardise_basic_phrase`; `0` is the C `false`. -/
def standardise_basic_phrase (basic_phrase_type : Nat) : Nat :=
  if basic_phrase_type = 0 then 0
  else
    let t1 := if basic_phrase_type &&& (CHAR + DOUBLE + FLOAT) = 0
      then basic_phrase_type ||| INT else basic_phrase_type
    let t := if t1 &&& INT ≠ 0 ∧ t1 &&& UNSIGNED = 0 then t1 ||| SIGNED else t1
    if t &&& INT ≠ 0 ∧ t &&& (CHAR + DOUBLE + FLOAT) ≠ 0 then 0
    else if t &&& INT ≠ 0 ∧ (t &&& SIGNED ≠ 0 ∧ t &&& UNSIGNED ≠ 0) then 0
    else if t &&& INT ≠ 0 ∧ (t &&& SHORT ≠ 0 ∧ (t &&& LONG ≠ 0 ∨ t &&& LONGLONG ≠ 0)) then 0
    else if t &&& INT ≠ 0 ∧ (t &&& LONG ≠ 0 ∧ (t &&& SHORT ≠ 0 ∨ t &&& LONGLONG ≠ 0)) then 0
    else if t &&& INT ≠ 0 ∧ (t &&& LONGLONG ≠ 0 ∧ (t &&& SHORT ≠ 0 ∨ t &&& LONG ≠ 0)) then 0
    else if t &&& CHAR ≠ 0 ∧
        t &&& (INT + DOUBLE + FLOAT + SHORT + LONG + LONGLONG) ≠ 0 then 0
    else if t &&& CHAR ≠ 0 ∧ (t &&& SIGNED ≠ 0 ∧ t &&& UNSIGNED ≠ 0) then 0
    else if t &&& FLOAT ≠ 0 ∧
        t &&& (INT + CHAR + DOUBLE + SHORT + LONG + LONGLONG + SIGNED + UNSIGNED) ≠ 0 then 0
    else if t &&& DOUBLE ≠ 0 ∧
        t &&& (INT + CHAR + FLOAT + SHORT + LONGLONG + SIGNED + UNSIGNED) ≠ 0 then 0
    else t

/-- The loop of `read_basic_phrase` over the words `word_nb, word_nb + 1, ...`
(`k` of them); `none` is the early `return false`. -/
def read_basic_words (argv : List String) (basic_end : Int) :
    Nat → Nat → Nat → Option Nat
  | 0, _, basic_phrase_type => some basic_phrase_type
  | k + 1, word_nb, basic_phrase_type =>
    let word_type := basic_word_type (argv.getD word_nb "")
    if word_type = 0 ∧ (word_nb : Int) ≠ basic_end then none
    else if word_type = LONG then
      if basic_phrase_type &&& LONGLONG ≠ 0 then none
      else if basic_phrase_type &&& LONG ≠ 0 then
        read_basic_words argv basic_end k (word_nb + 1)
          ((basic_phrase_type ^^^ LONG) ||| LONGLONG)
      else read_basic_words argv basic_end k (word_nb + 1) (basic_phrase_type ||| LONG)
    else if basic_phrase_type &&& word_type ≠ 0 then none
    else read_basic_words argv basic_end k (word_nb + 1) (basic_phrase_type ||| word_type)

/-- Mirrors `read_basic_phrase`; `0` is the C `false`. The loop runs for
`word_nb = basic_start, ..., basic_end`. -/
def read_basic_phrase (basic_start : Nat) (basic_end : Int) (argv : List String) : Nat :=
  match read_basic_words argv basic_end (basic_end + 1 - basic_start).toNat basic_start 0 with
  | none => 0
  | some basic_phrase_type => standardise_basic_phrase basic_phrase_type

/-- Mirrors `make_basic_output`. The fall-through prints
`ERROR - UNKNOWN BASIC TYPE` and returns no value: undefined. -/
def make_basic_output (basic_phrase_type : Nat) : M String :=
  if basic_phrase_type = CHAR + SIGNED then pure "signed char"
  else if basic_phrase_type = CHAR + UNSIGNED then pure "unsigned char"
  else if basic_phrase_type = CHAR then pure "char"
  else if basic_phrase_type = DOUBLE then pure "double"
  else if basic_phrase_type = DOUBLE + LONG then pure "long double"
  else if basic_phrase_type = FLOAT then pure "float"
  else if basic_phrase_type = INT + LONGLONG + SIGNED then pure "long long"
  else if basic_phrase_type = INT + LONGLONG + UNSIGNED then pure "unsigned long long"
  else if basic_phrase_type = INT + LONG + SIGNED then pure "long"
  else if basic_phrase_type = INT + LONG + UNSIGNED then pure "unsigned long"
  else if basic_phrase_type = INT + SHORT + SIGNED then pure "short"
  else if basic_phrase_type = INT + SHORT + UNSIGNED then pure "unsigned short"
  else if basic_phrase_type = INT + SIGNED then pure "int"
  else if basic_phrase_type = INT + UNSIGNED then pure "unsigned"
  else throw Halt.undefined

/-! ## The output buffers -/

/-- The assignments `phrase_output[i][p] = c`, for the characters of a string
in order, starting at row `i`. The rows are those that the loop of
`resize_arrays` allocates, `0 .. MAX_OUTPUT`; a row outside them is outside
the array. -/
def put_chars (out : Nat → Nat → Char) (p : Nat) : Int → List Char → M (Nat → Nat → Char)
  | _, [] => pure out
  | i, c :: cs =>
    if 0 ≤ i ∧ i ≤ MAX_OUTPUT then put_chars (upd out i.toNat (upd (out i.toNat) p c)) p (i + 1) cs
    else throw Halt.undefined

/-- Mirrors `output_at_front`. -/
def output_at_front (s : State) (phrase_nb : Nat) (string_to_add : String) : M State :=
  let start := s.output_start phrase_nb - string_to_add.data.length
  (put_chars s.phrase_output phrase_nb (start + 1) string_to_add.data).map fun out =>
    { s with output_start := upd s.output_start phrase_nb start, phrase_output := out }

/-- Mirrors `output_at_back`. -/
def output_at_back (s : State) (phrase_nb : Nat) (string_to_add : String) : M State :=
  (put_chars s.phrase_output phrase_nb (s.output_end phrase_nb) string_to_add.data).map
    fun out =>
      { s with output_end :=
                 upd s.output_end phrase_nb (s.output_end phrase_nb + string_to_add.data.length),
               phrase_output := out }

/-- The characters the print loop of `main` writes for phrase `p`: the cells
`phrase_output[i][p]` for `i = output_start[p] + 1, ..., output_end[p] - 1`. -/
def State.line (s : State) (p : Nat) : String :=
  ⟨(List.range (s.output_end p - s.output_start p - 1).toNat).map fun k =>
    s.phrase_output ((s.output_start p + 1).toNat + k) p⟩

/-! ## Moving through a phrase -/

/-- Mirrors `inc_current`. -/
def inc_current (g : Phrases) (s : State) : Bool × State :=
  if s.current = g.phrase_end s.phrase_nb then (false, s)
  else (true, { s with current := s.current + 1 })

/-- The statement `if (!inc_current()) return err;` followed by `body`. -/
def advance {α : Type} (g : Phrases) (s : State) (err : α)
    (body : State → M (α × State)) : M (α × State) :=
  let r := inc_current g s
  if !r.1 then pure (err, r.2) else body r.2

/-- Mirrors `complex_variable`. -/
def complex_variable (g : Phrases) (s : State) : M (Bool × State) :=
  advance g s false fun s1 =>
    let named : M (Bool × State) :=
      if s1.stage s1.original_phrase_nb = START ∧ (s1.var_name s1.phrase_nb).isSome then
        advance g s1 false fun s2 =>
          (output_at_front s2 s2.original_phrase_nb
            ((s2.var_name s2.phrase_nb).getD "")).map fun s3 => (true, s3)
      else pure (true, s1)
    named.bind fun r =>
      if !r.1 then pure (false, r.2)
      else if r.2.stage r.2.original_phrase_nb = REFER then
        advance g r.2 false fun s4 => pure (true, s4)
      else pure (true, r.2)

/-! ## The type descriptions -/

/-- The end of the branch `the type of` of `data_continuation`: the jump to
the phrase `continuation[phrase_nb]`. Following `continuation[phrase_nb]` when
it is `NO_DATA` (or any value that is not a phrase index) makes the C program
read `phrase_start` and `type` outside their bounds: the values it reads
there, and with them the rest of the run, are not given by the source of the
program, and the run is `Halt.undefined` from there on. -/
def refer (g : Phrases) (previous_type : Nat) (s5 : State) : M (Nat × State) :=
  let target := g.continuation s5.phrase_nb
  if target < 0 ∨ g.max_phrase_index < target then throw Halt.undefined
  else
    let s6 := { s5 with phrase_nb := target.toNat,
                        current := g.phrase_start target.toNat + 1 }
    let spaced : M State :=
      if s6.type s6.phrase_nb = BASIC then output_at_front s6 s6.original_phrase_nb " "
      else pure s6
    spaced.bind fun s7 =>
      if previous_type = POINTER ∧
          (s7.type s7.phrase_nb = FUNCTION ∨ s7.type s7.phrase_nb = ARRAY) then
        (output_at_front s7 s7.original_phrase_nb "(").bind fun s8 =>
          (output_at_back s8 s8.original_phrase_nb ")").map fun s9 => (REFER, s9)
      else pure (REFER, s7)

/-- Mirrors `data_continuation`. -/
def data_continuation (g : Phrases) (s : State) : M (Nat × State) :=
  let previous_type := s.type s.phrase_nb
  advance g { s with type := upd s.type s.phrase_nb BASIC } ERROR fun s1 =>
    if g.word s1.current ≠ "of" then pure (ERROR, s1)
    else advance g s1 ERROR fun s2 =>
      if g.word s2.current ≠ "type" then pure (ERROR, s2)
      else advance g s2 ERROR fun s3 =>
        if g.word s3.current = "the" then
          advance g s3 ERROR fun s4 =>
            if g.word s4.current ≠ "type" then pure (ERROR, s4)
            else advance g s4 ERROR fun s5 =>
              if g.word s5.current ≠ "of" then pure (ERROR, s5)
              else refer g previous_type s5
        else
          (output_at_front s3 s3.original_phrase_nb " ").map fun s4 => (CONTINUE, s4)

/-- The end of `process_basic`: `ERROR` when `basic_phrase_type` is zero,
otherwise the text of the type is written at the front. -/
def finish_basic (s : State) (basic_phrase_type : Nat) : M (Nat × State) :=
  if basic_phrase_type = 0 then pure (ERROR, s)
  else
    (make_basic_output basic_phrase_type).bind fun text =>
      (output_at_front s s.original_phrase_nb text).map fun s1 => (FINISHED, s1)

/-- Mirrors `process_basic`. At stage `START` the tests for `CONTINUE` and
`REFER` that follow do not apply; at the other stages `basic_phrase_type`
starts at zero. -/
def process_basic (g : Phrases) (s : State) : M (Nat × State) :=
  let stage := s.stage s.original_phrase_nb
  let last := g.word (g.phrase_end s.phrase_nb)
  if stage = START then
    if basic_word_type last = 0 then
      if !permitted_variable_name last then pure (ERROR, s)
      else
        (output_at_back s s.phrase_nb last).bind fun s1 =>
          (output_at_front s1 s1.phrase_nb " ").bind fun s2 =>
            finish_basic { s2 with var_name := upd s2.var_name s2.phrase_nb (some last) }
              (read_basic_phrase (g.phrase_start s2.phrase_nb + 1)
                ((g.phrase_end s2.phrase_nb : Int) - 1) g.argv)
    else
      finish_basic s
        (read_basic_phrase (g.phrase_start s.phrase_nb + 1) (g.phrase_end s.phrase_nb : Int)
          g.argv)
  else
    let t1 := if stage = CONTINUE then
      read_basic_phrase s.current (g.phrase_end s.phrase_nb : Int) g.argv else 0
    let t2 := if stage = REFER then
      read_basic_phrase s.current ((g.phrase_end s.phrase_nb : Int) - 1) g.argv else t1
    finish_basic s t2

/-- Mirrors `process_array`. -/
def process_array (g : Phrases) (s : State) : M (Nat × State) :=
  (complex_variable g s).bind fun r =>
    if !r.1 then pure (ERROR, r.2)
    else if g.word r.2.current ≠ "of" then pure (ERROR, r.2)
    else advance g r.2 ERROR fun s1 =>
      (atoi (g.word s1.current)).bind fun elements =>
        if elements = 0 then pure (ERROR, s1)
        else if !(g.word s1.current).data.all Char.isDigit then pure (ERROR, s1)
        else
          (output_at_back s1 s1.original_phrase_nb "[").bind fun s2 =>
          (output_at_back s2 s2.original_phrase_nb (g.word s2.current)).bind fun s3 =>
          (output_at_back s3 s3.original_phrase_nb "]").bind fun s4 =>
            advance g s4 ERROR fun s5 =>
              let w := g.word s5.current
              if (elements = 1 ∧ w = "datum") ∨ (elements > 1 ∧ w = "data") then
                data_continuation g s5
              else if (elements = 1 ∧ w = "array") ∨ (elements > 1 ∧ w = "arrays") then
                pure (CONTINUE, s5)
              else if (elements = 1 ∧ w = "pointer") ∨ (elements > 1 ∧ w = "pointers") then
                pure (CONTINUE, { s5 with type := upd s5.type s5.phrase_nb POINTER })
              else pure (ERROR, s5)

/-- The end of `process_pointer`: the four possibilities pointer, array,
function or datum (or their plurals). -/
def pointer_kind (g : Phrases) (singular : Bool) (s4 : State) : M (Nat × State) :=
  let w := g.word s4.current
  if (singular ∧ w = "pointer") ∨ (!singular ∧ w = "pointers") then
    pure (CONTINUE, s4)
  else if (singular ∧ w = "array") ∨ (!singular ∧ w = "arrays") then
    (output_at_front { s4 with type := upd s4.type s4.phrase_nb ARRAY }
        s4.original_phrase_nb "(").bind fun s5 =>
      (output_at_back s5 s5.original_phrase_nb ")").map fun s6 => (CONTINUE, s6)
  else if (singular ∧ w = "function") ∨ (!singular ∧ w = "functions") then
    (output_at_front { s4 with type := upd s4.type s4.phrase_nb FUNCTION }
        s4.original_phrase_nb "(").bind fun s5 =>
      (output_at_back s5 s5.original_phrase_nb ")").map fun s6 => (CONTINUE, s6)
  else if (singular ∧ w = "datum") ∨ (!singular ∧ w = "data") then
    data_continuation g s4
  else pure (ERROR, s4)

/-- The part of `process_pointer` after the star is written: the test for
`void`, then the article of a singular pointer, then `pointer_kind`. -/
def pointer_target (g : Phrases) (singular : Bool) (s2 : State) : M (Nat × State) :=
  if g.word s2.current = "void" then
    (output_at_front s2 s2.original_phrase_nb "void ").map fun s3 => (FINISHED, s3)
  else if singular then
    advance g s2 ERROR fun s3 =>
      if !check_preposition (g.word (s3.current - 1)) (g.word s3.current) false then
        pure (ERROR, s3)
      else pointer_kind g singular s3
  else pointer_kind g singular s2

/-- Mirrors `process_pointer`. -/
def process_pointer (g : Phrases) (s : State) : M (Nat × State) :=
  (last_char (g.word s.current)).bind fun c =>
    let singular : Bool := !decide (c = 's')
    (complex_variable g s).bind fun r =>
      if !r.1 then pure (ERROR, r.2)
      else if g.word r.2.current ≠ "to" then pure (ERROR, r.2)
      else advance g r.2 ERROR fun s1 =>
        (output_at_front s1 s1.original_phrase_nb "*").bind fun s2 =>
          pointer_target g singular s2

/-- Mirrors `process_function`. -/
def process_function (g : Phrases) (s : State) : M (Nat × State) :=
  (complex_variable g s).bind fun r =>
    if !r.1 then pure (ERROR, r.2)
    else if g.word r.2.current ≠ "returning" then pure (ERROR, r.2)
    else advance g r.2 ERROR fun s1 =>
      (output_at_back s1 s1.original_phrase_nb "()").bind fun s2 =>
        if g.word s2.current = "void" then
          (output_at_front s2 s2.original_phrase_nb "void ").map fun s3 => (FINISHED, s3)
        else
          advance g { s2 with stage := upd s2.stage s2.original_phrase_nb CONTINUE } ERROR
            fun s4 =>
              if !check_preposition (g.word (s4.current - 1)) (g.word s4.current) false then
                pure (ERROR, s4)
              else if g.word s4.current = "pointer" then
                pure (CONTINUE, { s4 with type := upd s4.type s4.phrase_nb POINTER })
              else if g.word s4.current = "datum" then data_continuation g s4
              else pure (ERROR, s4)

/-! ## The main function -/

/-- Mirrors `resize_arrays`: every cell of every array is zero. Storage is not
modelled: the arrays are functions on `Nat`. The loop of `resize_arrays` that
allocates the rows of `phrase_output` runs for `i = 0, ..., MAX_OUTPUT`, so
the rows `0 .. MAX_OUTPUT` are the allocated ones, one more than the
`MAX_OUTPUT` that the name suggests (the pointer of the last row is stored in
the cell after the `MAX_OUTPUT` cells obtained from `calloc`, in the same
block of memory, and the program reads it back from there). -/
def resize_arrays (argv : List String) (max_phrase_index : Int) : Phrases × State :=
  ({ argv := argv, max_phrase_index := max_phrase_index,
     phrase_end := fun _ => 0, phrase_start := fun _ => 0,
     reference := fun _ => none, continuation := fun _ => 0, chain := fun _ => 0 },
   { current := 0, phrase_nb := 0, original_phrase_nb := 0,
     var_name := fun _ => none, stage := fun _ => 0, type := fun _ => 0,
     phrase_output := fun _ _ => Char.ofNat 0,
     output_start := fun _ => 0, output_end := fun _ => 0 })

/-- The first loop of `main`: `max_phrase_index` after the words `words`. -/
def count_phrases : List String → Int → M Int
  | [], max_phrase_index => pure max_phrase_index
  | word :: words, max_phrase_index =>
    (ends_with_full_stop word).bind fun b =>
      count_phrases words (if b then max_phrase_index + 1 else max_phrase_index)

/-- The loop of `main` that finds the endpoints of each phrase and removes the
final full stops, for `k` words from `word_nb` on. -/
def find_endpoints : Nat → Nat → Phrases × State → M (Phrases × State)
  | 0, _, gs => pure gs
  | k + 1, word_nb, (g, s) =>
    (ends_with_full_stop (g.word word_nb)).bind fun b =>
      if b then
        let g1 := { g with argv := g.argv.set word_nb ⟨(g.word word_nb).data.dropLast⟩,
                           phrase_end := upd g.phrase_end s.phrase_nb word_nb }
        let s1 := { s with phrase_nb := s.phrase_nb + 1 }
        let g2 := if (s1.phrase_nb : Int) ≤ g1.max_phrase_index then
          { g1 with phrase_start := upd g1.phrase_start s1.phrase_nb (word_nb + 1) } else g1
        find_endpoints k (word_nb + 1) (g2, s1)
      else find_endpoints k (word_nb + 1) (g, s)

/-- The body of the first pass of `main` for the phrase `phrase_nb`. -/
def first_pass_phrase (g : Phrases) (s : State) : M (Phrases × State) :=
  let p := s.phrase_nb
  let g1 := { g with continuation := upd g.continuation p NO_DATA }
  let s1 := { s with original_phrase_nb := p, stage := upd s.stage p START,
                     type := upd s.type p BASIC,
                     current := g.phrase_start p + 1,
                     output_start := upd s.output_start p EMPTY_CHAR_BEFORE,
                     output_end := upd s.output_end p EMPTY_CHAR_AFTER }
  if (g1.phrase_end p : Int) - g1.phrase_start p < (MIN_BASIC : Int) - 1 then
    throw Halt.incorrect_input
  else if !check_preposition (g1.word (s1.current - 1)) (g1.word s1.current) true then
    throw Halt.incorrect_input
  else
    let s2 := { s1 with type := upd s1.type p (first_phrase_type (g1.word s1.current)) }
    if s2.type p = BASIC then
      (process_basic g1 s2).map fun r => (g1, { r.2 with stage := upd r.2.stage r.2.phrase_nb r.1 })
    else if (g1.phrase_end p : Int) - g1.phrase_start p < (MIN_COMPLEX : Int) - 1 then
      throw Halt.incorrect_input
    else
      let s3 := { s2 with current := s2.current + 1 }
      let w := g1.word s3.current
      let t := s3.type p
      let s4 :=
        if (t = ARRAY ∧ w ≠ "of") ∨ (t = POINTER ∧ w ≠ "to") ∨
            (t = FUNCTION ∧ w ≠ "returning") then
          if !permitted_variable_name w then { s3 with stage := upd s3.stage p ERROR }
          else { s3 with var_name := upd s3.var_name p (some w) }
        else s3
      let last := g1.word (g1.phrase_end p)
      pure (if permitted_variable_name last then
        { g1 with reference := upd g1.reference p (some last) } else g1, s4)

/-- The first pass of `main` over `k` phrases from `phrase_nb` on. -/
def first_pass : Nat → Phrases × State → M (Phrases × State)
  | 0, gs => pure gs
  | k + 1, (g, s) =>
    (first_pass_phrase g s).bind fun r =>
      first_pass k (r.1, { r.2 with phrase_nb := r.2.phrase_nb + 1 })

/-- The inner loop of the reference pass for the phrase `p`, over `k`
candidate phrases from `ref_phrase` on: the pair is `reference_count` and the
array `continuation`. -/
def match_references (g : Phrases) (s : State) (p : Nat) :
    Nat → Nat → Nat × (Nat → Int) → Nat × (Nat → Int)
  | 0, _, acc => acc
  | k + 1, ref_phrase, (reference_count, continuation) =>
    let hit : Bool :=
      match g.reference p, s.var_name ref_phrase with
      | some r, some v => decide (r = v)
      | _, _ => false
    if hit then
      match_references g s p k (ref_phrase + 1)
        (reference_count + 1, upd continuation p (ref_phrase : Int))
    else match_references g s p k (ref_phrase + 1) (reference_count, continuation)

/-- The reference pass of `main` over `k` phrases from `phrase_nb` on. -/
def reference_pass : Nat → Phrases × State → M (Phrases × State)
  | 0, gs => pure gs
  | k + 1, (g, s) =>
    let r := match_references g s s.phrase_nb g.nb_phrases 0 (0, g.continuation)
    if (g.reference s.phrase_nb).isSome ∧ r.1 ≠ 1 then throw Halt.incorrect_input
    else
      reference_pass k ({ g with continuation := r.2 }, { s with phrase_nb := s.phrase_nb + 1 })

/-- The `while (next_variable != NO_DATA)` loop of the loop check; the result
is the array `chain`. -/
def follow_chain (g : Phrases) : Nat → Int → (Nat → Nat) → M (Nat → Nat)
  | 0, next_variable, chain =>
    if next_variable = NO_DATA then pure chain else throw Halt.out_of_fuel
  | k + 1, next_variable, chain =>
    if next_variable = NO_DATA then pure chain
    else if chain next_variable.toNat ≠ 0 then throw Halt.incorrect_input
    else follow_chain g k (g.continuation next_variable.toNat) (upd chain next_variable.toNat 1)

/-- The loop check of `main` over `k` phrases from `phrase_nb` on. After each
walk every cell of `chain` is set to zero again. -/
def check_loops : Nat → Phrases × State → M (Phrases × State)
  | 0, gs => pure gs
  | k + 1, (g, s) =>
    (follow_chain g (g.nb_phrases + 1) (g.continuation s.phrase_nb)
        (upd g.chain s.phrase_nb 1)).bind fun chain =>
      check_loops k
        ({ g with chain := fun ref_phrase =>
                    if (ref_phrase : Int) ≤ g.max_phrase_index then 0 else chain ref_phrase },
         { s with phrase_nb := s.phrase_nb + 1 })

/-- One iteration of the `while` loop of the second pass: the dispatch on
`type[phrase_nb]` and the assignment to `stage[original_phrase_nb]`. -/
def step (g : Phrases) (s : State) : M State :=
  let r : M (Nat × State) :=
    if s.type s.phrase_nb = ARRAY then process_array g s
    else if s.type s.phrase_nb = FUNCTION then process_function g s
    else if s.type s.phrase_nb = POINTER then process_pointer g s
    else process_basic g s
  r.map fun r => { r.2 with stage := upd r.2.stage r.2.original_phrase_nb r.1 }

/-- The `while` loop of the second pass, on fuel. -/
def resolve (g : Phrases) : Nat → State → M State
  | 0, s =>
    if s.stage s.original_phrase_nb = FINISHED ∨ s.stage s.original_phrase_nb = ERROR then
      pure s
    else throw Halt.out_of_fuel
  | k + 1, s =>
    if s.stage s.original_phrase_nb = FINISHED ∨ s.stage s.original_phrase_nb = ERROR then
      pure s
    else (step g s).bind fun s1 => resolve g k s1

/-- The fuel given to the `while` loop of the second pass. -/
def Phrases.fuel (g : Phrases) : Nat := (g.nb_phrases + 3) * (g.argv.length + 1)

/-- What `main` does with an originating phrase once its `while` loop has
ended: the diagnostic if the stage is `ERROR`, otherwise all types are reset to
the type of the second word of their phrase and `rest` (the later phrases)
runs. -/
def after_phrase (g : Phrases) (rest : State → M State) (s2 : State) : M State :=
  if s2.stage s2.original_phrase_nb = ERROR then throw Halt.incorrect_input
  else
    rest { s2 with type := fun ref_phrase =>
                     if (ref_phrase : Int) ≤ g.max_phrase_index then
                       first_phrase_type (g.word (g.phrase_start ref_phrase + 1))
                     else s2.type ref_phrase,
                   original_phrase_nb := s2.original_phrase_nb + 1 }

/-- The second pass of `main` over `k` phrases from `original_phrase_nb` on. -/
def second_pass (g : Phrases) : Nat → State → M State
  | 0, s => pure s
  | k + 1, s =>
    let s1 := { s with phrase_nb := s.original_phrase_nb,
                       current := g.phrase_start s.original_phrase_nb + 1 }
    (resolve g g.fuel s1).bind (after_phrase g (second_pass g k))

/-- The part of `main` up to the first pass: counting, allocation, the check
of the last word, the endpoints. -/
def segment (argv : List String) : M (Phrases × State) :=
  (count_phrases (argv.drop 1) NO_DATA).bind fun max_phrase_index =>
    let gs := resize_arrays argv max_phrase_index
    if max_phrase_index = NO_DATA then throw Halt.incorrect_input
    else
      (ends_with_full_stop (argv.getD (argv.length - 1) "")).bind fun b =>
        if !b then throw Halt.incorrect_input
        else
          find_endpoints (argv.length - 1) 1
            ({ gs.1 with phrase_start := upd gs.1.phrase_start 0 1 }, gs.2)

/-- The run of `main` up to the end of the first pass. -/
def pass_one (argv : List String) : M (Phrases × State) :=
  (segment argv).bind fun r0 => first_pass r0.1.nb_phrases (r0.1, { r0.2 with phrase_nb := 0 })

/-- The run of `main` up to the end of the reference pass. -/
def pass_refs (argv : List String) : M (Phrases × State) :=
  (pass_one argv).bind fun r1 =>
    reference_pass r1.1.nb_phrases (r1.1, { r1.2 with phrase_nb := 0 })

/-- The run of `main` up to the end of the loop check. -/
def prepare (argv : List String) : M (Phrases × State) :=
  (pass_refs argv).bind fun r2 => check_loops r2.1.nb_phrases (r2.1, { r2.2 with phrase_nb := 0 })

/-- The globals of `main` when it reaches its print loop. -/
def main_state (argv : List String) : M (Phrases × State) :=
  (prepare argv).bind fun r3 =>
    (second_pass r3.1 r3.1.nb_phrases { r3.2 with original_phrase_nb := 0 }).map fun s =>
      (r3.1, s)

/-- Mirrors `main`: the lines printed by the final loop (each followed by a
newline, with `EXIT_SUCCESS`), or the early stop. -/
def main (argv : List String) : M (List String) :=
  (main_state argv).map fun r => (List.range r.1.nb_phrases).map r.2.line

/-- The number of phrases among the first `n` whose declared name is `r`. -/
def declared_count (s : State) (n : Nat) (r : String) : Nat :=
  ((List.range n).filter fun q => decide (s.var_name q = some r)).length

/-- One continuation edge: the phrase that `x` continues with, `NO_DATA`
when there is none. -/
def next_phrase (g : Phrases) (x : Int) : Int :=
  if x = NO_DATA then NO_DATA else g.continuation x.toNat

/-- The phrase reached from `x` after `k` continuation edges. -/
def walk (g : Phrases) : Nat → Int → Int
  | 0, x => x
  | k + 1, x => walk g k (next_phrase g x)

/-- Every continuation of the `nb_phrases` phrases is `NO_DATA` or a phrase
index. -/
def Valid (g : Phrases) : Prop :=
  ∀ p, p < g.nb_phrases →
    g.continuation p = NO_DATA ∨ ∃ q : Nat, q < g.nb_phrases ∧ g.continuation p = (q : Int)

/-- The kind of the phrase `p` as its second word gives it (the value that
`main` stores in `type[p]` in the first pass and at each reset). -/
def intrinsic_type (g : Phrases) (p : Nat) : Nat :=
  first_phrase_type (g.word (g.phrase_start p + 1))

/-! ## Elementary facts -/

@[simp] theorem upd_same {α : Type} (f : Nat → α) (i : Nat) (v : α) : upd f i v i = v := by
  simp [upd]

@[simp] theorem upd_other {α : Type} (f : Nat → α) (i j : Nat) (v : α) (h : j ≠ i) :
    upd f i v j = f j := by
  simp [upd, h]

theorem upd_apply {α : Type} (f : Nat → α) (i j : Nat) (v : α) :
    upd f i v j = if j = i then v else f j := rfl

@[simp] theorem pure_eq_ok {α : Type} (a : α) : (pure a : M α) = .ok a := rfl

@[simp] theorem throw_eq_error {α : Type} (e : Halt) : (throw e : M α) = .error e := rfl

@[simp] theorem bind_ok {α β : Type} (a : α) (f : α → M β) : (Except.ok a : M α).bind f = f a :=
  rfl

@[simp] theorem bind_error {α β : Type} (e : Halt) (f : α → M β) :
    (Except.error e : M α).bind f = .error e := rfl

@[simp] theorem map_ok {α β : Type} (a : α) (f : α → β) :
    (Except.ok a : M α).map f = .ok (f a) := rfl

@[simp] theorem map_error {α β : Type} (e : Halt) (f : α → β) :
    (Except.error e : M α).map f = .error e := rfl

theorem bind_eq_ok {α β : Type} {x : M α} {f : α → M β} {b : β} (h : x.bind f = .ok b) :
    ∃ a, x = .ok a ∧ f a = .ok b := by
  cases x with
  | error e => simp at h
  | ok a => exact ⟨a, rfl, by simpa using h⟩

theorem map_eq_ok {α β : Type} {x : M α} {f : α → β} {b : β} (h : x.map f = .ok b) :
    ∃ a, x = .ok a ∧ f a = b := by
  cases x with
  | error e => simp at h
  | ok a => exact ⟨a, rfl, by simpa using h⟩

/-! ## Postconditions of computations -/

/-- The value of `x`, when `x` is a value, satisfies `Q`. -/
def Post {α : Type} (x : M α) (Q : α → Prop) : Prop := ∀ a, x = .ok a → Q a

theorem post_ok {α : Type} (a : α) (Q : α → Prop) : Post (Except.ok a : M α) Q ↔ Q a := by
  constructor
  · intro h; exact h a rfl
  · intro h b e; injection e with e; rw [← e]; exact h

theorem post_pure {α : Type} (a : α) (Q : α → Prop) : Post (pure a : M α) Q ↔ Q a :=
  post_ok a Q

theorem post_error {α : Type} (e : Halt) (Q : α → Prop) :
    Post (Except.error e : M α) Q ↔ True := by
  constructor
  · intro _; trivial
  · intro _ b h; cases h

theorem post_throw {α : Type} (e : Halt) (Q : α → Prop) : Post (throw e : M α) Q ↔ True :=
  post_error e Q

theorem post_bind {α β : Type} (x : M α) (f : α → M β) (Q : β → Prop) :
    Post (x.bind f) Q ↔ Post x fun a => Post (f a) Q := by
  cases x with
  | error e => simp [Post]
  | ok a => simp [Post]

theorem post_map {α β : Type} (x : M α) (f : α → β) (Q : β → Prop) :
    Post (x.map f) Q ↔ Post x fun a => Q (f a) := by
  cases x with
  | error e => simp [Post]
  | ok a => simp [Post]

theorem post_ite {α : Type} (c : Prop) [Decidable c] (x y : M α) (Q : α → Prop) :
    Post (if c then x else y) Q ↔ (c → Post x Q) ∧ (¬ c → Post y Q) := by
  by_cases h : c <;> simp [h]

theorem post_intro {α : Type} {x : M α} {Q : α → Prop} (h : ∀ a, Q a) : Post x Q :=
  fun a _ => h a

theorem post_mono {α : Type} {x : M α} {Q R : α → Prop} (h : Post x Q)
    (hqr : ∀ a, Q a → R a) : Post x R := fun a e => hqr a (h a e)

theorem post_and {α : Type} {x : M α} {Q R : α → Prop} (h : Post x Q) (h' : Post x R) :
    Post x fun a => Q a ∧ R a := fun a e => ⟨h a e, h' a e⟩

/-- The output functions change only the output arrays. -/
theorem post_output_at_front (s : State) (p : Nat) (str : String) (Q : State → Prop)
    (h : ∀ out start, Q { s with output_start := start, phrase_output := out }) :
    Post (output_at_front s p str) Q := by
  unfold output_at_front
  rw [post_map]
  intro out _
  exact h _ _

theorem post_output_at_back (s : State) (p : Nat) (str : String) (Q : State → Prop)
    (h : ∀ out e, Q { s with output_end := e, phrase_output := out }) :
    Post (output_at_back s p str) Q := by
  unfold output_at_back
  rw [post_map]
  intro out _
  exact h _ _

/-- The part of the state that drives the control flow of the second pass. -/
structure Control where
  current : Nat
  phrase_nb : Nat
  original_phrase_nb : Nat
  var_name : Nat → Option String
  stage : Nat → Nat
  type : Nat → Nat

/-- The control part of a state. -/
def State.control (s : State) : Control :=
  { current := s.current, phrase_nb := s.phrase_nb, original_phrase_nb := s.original_phrase_nb,
    var_name := s.var_name, stage := s.stage, type := s.type }

theorem output_at_front_control (s : State) (p : Nat) (str : String) :
    Post (output_at_front s p str) fun s' => s'.control = s.control :=
  post_output_at_front s p str _ fun _ _ => rfl

theorem output_at_back_control (s : State) (p : Nat) (str : String) :
    Post (output_at_back s p str) fun s' => s'.control = s.control :=
  post_output_at_back s p str _ fun _ _ => rfl

/-! ## Progress of the type-description functions -/

theorem advance_eq {α : Type} (g : Phrases) (s : State) (err : α)
    (body : State → M (α × State)) :
    advance g s err body =
      if s.current = g.phrase_end s.phrase_nb then pure (err, s)
      else body { s with current := s.current + 1 } := by
  unfold advance inc_current
  by_cases h : s.current = g.phrase_end s.phrase_nb <;> simp [h]

theorem post_advance {α : Type} (g : Phrases) (s : State) (err : α)
    (body : State → M (α × State)) (Q : α × State → Prop) :
    Post (advance g s err body) Q ↔
      (s.current = g.phrase_end s.phrase_nb → Q (err, s)) ∧
      (¬ s.current = g.phrase_end s.phrase_nb →
        Post (body { s with current := s.current + 1 }) Q) := by
  rw [advance_eq, post_ite, post_pure]

theorem post_output_at_front_iff (s : State) (p : Nat) (str : String) (Q : State → Prop) :
    Post (output_at_front s p str) Q ↔
      ∀ out, put_chars s.phrase_output p (s.output_start p - str.data.length + 1) str.data
          = .ok out →
        Q { s with output_start := upd s.output_start p (s.output_start p - str.data.length),
                   phrase_output := out } := by
  unfold output_at_front
  rw [post_map]
  rfl

theorem post_output_at_back_iff (s : State) (p : Nat) (str : String) (Q : State → Prop) :
    Post (output_at_back s p str) Q ↔
      ∀ out, put_chars s.phrase_output p (s.output_end p) str.data = .ok out →
        Q { s with output_end := upd s.output_end p (s.output_end p + str.data.length),
                   phrase_output := out } := by
  unfold output_at_back
  rw [post_map]
  rfl

/-- What a type-description function can return: `FINISHED`, `ERROR`,
`CONTINUE` at a later word of the same phrase, or `REFER` at the second word of
the phrase that `continuation` names. -/
def Outcome (g : Phrases) (s : State) (r : Nat × State) : Prop :=
  r.2.original_phrase_nb = s.original_phrase_nb ∧
  (∀ q, q ≠ s.original_phrase_nb → r.2.stage q = s.stage q) ∧
  (r.1 = FINISHED ∨ r.1 = ERROR ∨
    (r.1 = CONTINUE ∧ r.2.phrase_nb = s.phrase_nb ∧ s.current < r.2.current ∧
      (s.current ≤ g.phrase_end s.phrase_nb → r.2.current ≤ g.phrase_end s.phrase_nb)) ∨
    (r.1 = REFER ∧ 0 ≤ g.continuation s.phrase_nb ∧
      g.continuation s.phrase_nb ≤ g.max_phrase_index ∧
      r.2.phrase_nb = (g.continuation s.phrase_nb).toNat ∧
      r.2.current = g.phrase_start r.2.phrase_nb + 1))

attribute [irreducible] Post

theorem refer_outcome (g : Phrases) (previous_type : Nat) (s0 s : State)
    (h1 : s.original_phrase_nb = s0.original_phrase_nb) (h2 : s.phrase_nb = s0.phrase_nb)
    (h5 : ∀ q, q ≠ s0.original_phrase_nb → s.stage q = s0.stage q) :
    Post (refer g previous_type s) (Outcome g s0) := by
  unfold refer
  simp only [post_ite, post_pure, post_ok, post_bind, post_map, post_throw, post_output_at_front_iff,
    post_output_at_back_iff, post_advance, Outcome]
  repeat' first | apply And.intro | intro _
  all_goals simp_all

theorem data_continuation_outcome (g : Phrases) (s : State) :
    Post (data_continuation g s) (Outcome g s) := by
  unfold data_continuation
  simp only [post_ite, post_pure, post_ok, post_bind, post_map, post_throw, post_output_at_front_iff,
    post_output_at_back_iff, post_advance]
  repeat' first | apply And.intro | intro _
  all_goals first | exact refer_outcome _ _ _ _ rfl rfl (fun _ _ => rfl) | simp [Outcome]
  all_goals omega

/-- `data_continuation` started at a later word `s` of the phrase of `s0`. -/
theorem data_continuation_later (g : Phrases) (s0 s : State)
    (h1 : s.original_phrase_nb = s0.original_phrase_nb) (h2 : s.phrase_nb = s0.phrase_nb)
    (h3 : s0.current ≤ s.current)
    (h4 : s0.current ≤ g.phrase_end s0.phrase_nb → s.current ≤ g.phrase_end s0.phrase_nb)
    (h5 : ∀ q, q ≠ s0.original_phrase_nb → s.stage q = s0.stage q) :
    Post (data_continuation g s) (Outcome g s0) := by
  refine post_mono (data_continuation_outcome g s) ?_
  intro r hr
  unfold Outcome at hr ⊢
  rw [h1, h2] at hr
  refine ⟨hr.1, fun q hq => (hr.2.1 q hq).trans (h5 q hq), ?_⟩
  rcases hr.2.2 with h | h | ⟨a, b, c, d⟩ | h
  · exact Or.inl h
  · exact Or.inr (Or.inl h)
  · exact Or.inr (Or.inr (Or.inl ⟨a, b, by omega, fun h => d (h4 h)⟩))
  · exact Or.inr (Or.inr (Or.inr h))

/-- What `complex_variable` does to the position: it stays in the phrase, and
on success it has moved forward. -/
def Forward (g : Phrases) (s : State) (r : Bool × State) : Prop :=
  r.2.original_phrase_nb = s.original_phrase_nb ∧ r.2.phrase_nb = s.phrase_nb ∧
  (∀ q, q ≠ s.original_phrase_nb → r.2.stage q = s.stage q) ∧
  (r.1 = true → s.current < r.2.current ∧
    (s.current ≤ g.phrase_end s.phrase_nb → r.2.current ≤ g.phrase_end s.phrase_nb))

theorem complex_variable_forward (g : Phrases) (s : State) :
    Post (complex_variable g s) (Forward g s) := by
  unfold complex_variable
  simp only [post_ite, post_pure, post_ok, post_bind, post_map, post_throw, post_output_at_front_iff,
    post_output_at_back_iff, post_advance]
  repeat' first | apply And.intro | intro _
  all_goals first | trivial | omega | (simp_all [Forward] <;> omega)

theorem finish_basic_outcome (g : Phrases) (s0 s : State) (t : Nat)
    (h1 : s.original_phrase_nb = s0.original_phrase_nb)
    (h5 : ∀ q, q ≠ s0.original_phrase_nb → s.stage q = s0.stage q) :
    Post (finish_basic s t) (Outcome g s0) := by
  unfold finish_basic
  simp only [post_ite, post_pure, post_ok, post_bind, post_map, post_throw, post_output_at_front_iff,
    post_output_at_back_iff, post_advance]
  repeat' first | apply And.intro | intro _ | apply post_intro
  all_goals first | trivial | omega | (simp_all [Outcome] <;> omega)

theorem process_basic_outcome (g : Phrases) (s : State) :
    Post (process_basic g s) (Outcome g s) := by
  unfold process_basic
  simp only [post_ite, post_pure, post_ok, post_bind, post_map, post_throw, post_output_at_front_iff,
    post_output_at_back_iff, post_advance]
  repeat' first | apply And.intro | intro _ | exact finish_basic_outcome _ _ _ _ rfl (fun _ _ => rfl)
  all_goals first | trivial | omega | (simp_all [Outcome] <;> omega)

theorem process_basic_phrase_nb (g : Phrases) (s : State) :
    Post (process_basic g s) fun r => r.2.phrase_nb = s.phrase_nb ∧
      r.2.original_phrase_nb = s.original_phrase_nb := by
  unfold process_basic finish_basic
  simp only [post_ite, post_pure, post_ok, post_bind, post_map, post_throw, post_output_at_front_iff,
    post_output_at_back_iff, post_advance]
  repeat' first | apply And.intro | intro _ | apply post_intro
  all_goals first | trivial | omega | (simp_all <;> omega)

theorem process_array_outcome (g : Phrases) (s : State) :
    Post (process_array g s) (Outcome g s) := by
  unfold process_array
  rw [post_bind]
  refine post_mono (complex_variable_forward g s) ?_
  intro r hr
  obtain ⟨h1, h2, h5, h3⟩ := hr
  rw [post_ite]
  refine ⟨fun _ => by simpa [post_ok, Outcome, h1] using h5, fun hb => ?_⟩
  obtain ⟨h3, h4⟩ := h3 (by simpa using hb)
  simp only [post_ite, post_pure, post_ok, post_bind, post_map, post_throw, post_output_at_front_iff,
    post_output_at_back_iff, post_advance]
  repeat' first | apply And.intro | intro _ | refine data_continuation_later _ _ _ ?_ ?_ ?_ ?_ ?_ | apply post_mono (post_intro _)
  all_goals first | trivial | omega | (simp_all [Outcome] <;> omega)

theorem pointer_kind_outcome (g : Phrases) (singular : Bool) (s0 s : State)
    (h1 : s.original_phrase_nb = s0.original_phrase_nb) (h2 : s.phrase_nb = s0.phrase_nb)
    (h3 : s0.current < s.current)
    (h4 : s0.current ≤ g.phrase_end s0.phrase_nb → s.current ≤ g.phrase_end s0.phrase_nb)
    (h5 : ∀ q, q ≠ s0.original_phrase_nb → s.stage q = s0.stage q) :
    Post (pointer_kind g singular s) (Outcome g s0) := by
  unfold pointer_kind
  simp only [post_ite, post_pure, post_ok, post_bind, post_map, post_throw, post_output_at_front_iff,
    post_output_at_back_iff, post_advance]
  repeat' first | apply And.intro | intro _ | refine data_continuation_later _ _ _ ?_ ?_ ?_ ?_ ?_
  all_goals first | trivial | omega | (simp_all [Outcome] <;> omega)

theorem pointer_target_outcome (g : Phrases) (singular : Bool) (s0 s : State)
    (h1 : s.original_phrase_nb = s0.original_phrase_nb) (h2 : s.phrase_nb = s0.phrase_nb)
    (h3 : s0.current < s.current)
    (h4 : s0.current ≤ g.phrase_end s0.phrase_nb → s.current ≤ g.phrase_end s0.phrase_nb)
    (h5 : ∀ q, q ≠ s0.original_phrase_nb → s.stage q = s0.stage q) :
    Post (pointer_target g singular s) (Outcome g s0) := by
  unfold pointer_target
  simp only [post_ite, post_pure, post_ok, post_bind, post_map, post_throw, post_output_at_front_iff,
    post_output_at_back_iff, post_advance]
  repeat' first | apply And.intro | intro _ | refine pointer_kind_outcome _ _ _ _ ?_ ?_ ?_ ?_ ?_
  all_goals first | trivial | omega | (simp_all [Outcome] <;> omega)

theorem process_pointer_outcome (g : Phrases) (s : State) :
    Post (process_pointer g s) (Outcome g s) := by
  unfold process_pointer
  rw [post_bind]
  refine post_intro fun c => ?_
  rw [post_bind]
  refine post_mono (complex_variable_forward g s) ?_
  intro r hr
  obtain ⟨h1, h2, h5, h3⟩ := hr
  rw [post_ite]
  refine ⟨fun _ => by simpa [post_ok, Outcome, h1] using h5, fun hb => ?_⟩
  obtain ⟨h3, h4⟩ := h3 (by simpa using hb)
  simp only [post_ite, post_pure, post_ok, post_bind, post_map, post_throw, post_output_at_front_iff,
    post_output_at_back_iff, post_advance]
  repeat' first | apply And.intro | intro _ | refine pointer_target_outcome _ _ _ _ ?_ ?_ ?_ ?_ ?_
  all_goals first | trivial | omega | (simp_all [Outcome] <;> omega)

theorem process_function_outcome (g : Phrases) (s : State) :
    Post (process_function g s) (Outcome g s) := by
  unfold process_function
  rw [post_bind]
  refine post_mono (complex_variable_forward g s) ?_
  intro r hr
  obtain ⟨h1, h2, h5, h3⟩ := hr
  rw [post_ite]
  refine ⟨fun _ => by simpa [post_ok, Outcome, h1] using h5, fun hb => ?_⟩
  obtain ⟨h3, h4⟩ := h3 (by simpa using hb)
  simp only [post_ite, post_pure, post_ok, post_bind, post_map, post_throw, post_output_at_front_iff,
    post_output_at_back_iff, post_advance]
  repeat' first | apply And.intro | intro _ | refine data_continuation_later _ _ _ ?_ ?_ ?_ ?_ ?_
  all_goals first | trivial | omega | (simp_all [Outcome] <;> omega)

/-! ## The reference pass -/

/-- Whether phrase `q` declares the name that phrase `p` refers to: the test
of the inner loop of the reference pass. -/
def is_match (g : Phrases) (s : State) (p q : Nat) : Bool :=
  match g.reference p, s.var_name q with
  | some r, some v => decide (r = v)
  | _, _ => false

theorem match_references_step (g : Phrases) (s : State) (p k i c : Nat) (cont : Nat → Int) :
    match_references g s p (k + 1) i (c, cont) =
      if is_match g s p i then match_references g s p k (i + 1) (c + 1, upd cont p (i : Int))
      else match_references g s p k (i + 1) (c, cont) := by
  simp only [match_references, is_match]

theorem is_match_iff (g : Phrases) (s : State) (p q : Nat) (r : String)
    (hr : g.reference p = some r) : is_match g s p q = decide (s.var_name q = some r) := by
  unfold is_match
  rw [hr]
  cases h : s.var_name q with
  | none => simp
  | some v =>
    simp only [Option.some.injEq]
    by_cases hv : r = v
    · simp [hv]
    · have : ¬ v = r := fun e => hv e.symm
      simp [hv, this]

theorem match_references_count (g : Phrases) (s : State) (p : Nat) (r : String)
    (hr : g.reference p = some r) :
    ∀ k i c cont, (match_references g s p k i (c, cont)).1 =
      c + ((List.range' i k).filter fun q => decide (s.var_name q = some r)).length := by
  intro k
  induction k with
  | zero => intro i c cont; simp [match_references]
  | succ k ih =>
    intro i c cont
    rw [match_references_step, is_match_iff g s p i r hr, List.range'_succ, List.filter_cons]
    by_cases h : s.var_name i = some r
    · simp [h, ih]
      omega
    · simp [h, ih]

theorem match_references_other (g : Phrases) (s : State) (p p' : Nat) (hp : p' ≠ p) :
    ∀ k i c cont, (match_references g s p k i (c, cont)).2 p' = cont p' := by
  intro k
  induction k with
  | zero => intro i c cont; simp [match_references]
  | succ k ih =>
    intro i c cont
    rw [match_references_step]
    split
    · rw [ih]; exact upd_other _ _ _ _ hp
    · rw [ih]

/-- After the inner loop, `continuation[p]` is its old value or the index of
a phrase that was examined. -/
theorem match_references_range (g : Phrases) (s : State) (p : Nat) :
    ∀ k i c cont, (match_references g s p k i (c, cont)).2 p = cont p ∨
      ∃ q : Nat, i ≤ q ∧ q < i + k ∧ (match_references g s p k i (c, cont)).2 p = (q : Int) := by
  intro k
  induction k with
  | zero => intro i c cont; simp [match_references]
  | succ k ih =>
    intro i c cont
    rw [match_references_step]
    split
    · rcases ih (i + 1) (c + 1) (upd cont p (i : Int)) with h | ⟨q, h1, h2, h3⟩
      · right; exact ⟨i, le_refl _, by omega, by rw [h]; simp⟩
      · right; exact ⟨q, by omega, by omega, h3⟩
    · rcases ih (i + 1) c cont with h | ⟨q, h1, h2, h3⟩
      · left; exact h
      · right; exact ⟨q, by omega, by omega, h3⟩

theorem match_references_nohit (g : Phrases) (s : State) (p : Nat) (r : String)
    (hr : g.reference p = some r) :
    ∀ k i c cont, (∀ q', i ≤ q' → q' < i + k → ¬ s.var_name q' = some r) →
      (match_references g s p k i (c, cont)).2 p = cont p := by
  intro k
  induction k with
  | zero => intro i c cont _; simp [match_references]
  | succ k ih =>
    intro i c cont hu
    rw [match_references_step, is_match_iff g s p i r hr]
    have hne : ¬ s.var_name i = some r := hu i (le_refl _) (by omega)
    simp only [hne, decide_False]
    exact ih (i + 1) c cont (fun q' a b => hu q' (by omega) (by omega))

/-- When exactly the phrase `q` of the examined range declares the name, the
inner loop leaves `continuation[p] = q`. -/
theorem match_references_unique (g : Phrases) (s : State) (p q : Nat) (r : String)
    (hr : g.reference p = some r) (hq : s.var_name q = some r) :
    ∀ k i c cont, i ≤ q → q < i + k →
      (∀ q', i ≤ q' → q' < i + k → s.var_name q' = some r → q' = q) →
      (match_references g s p k i (c, cont)).2 p = (q : Int) := by
  intro k
  induction k with
  | zero => intro i c cont h1 h2; omega
  | succ k ih =>
    intro i c cont h1 h2 huniq
    rw [match_references_step, is_match_iff g s p i r hr]
    by_cases h : s.var_name i = some r
    · have hiq : i = q := huniq i (le_refl _) (by omega) h
      simp only [h, decide_True, if_true]
      rw [match_references_nohit g s p r hr k (i + 1) (c + 1) _
        (fun q' a b e => by have := huniq q' (by omega) (by omega) e; omega), hiq]
      simp
    · simp only [h, decide_False]
      exact ih (i + 1) c cont
        (by rcases Nat.lt_or_ge i q with h' | h'
            · omega
            · exfalso; have : i = q := by omega
              rw [this] at h; exact h hq)
        (by omega)
        (fun q' a b c => huniq q' (by omega) (by omega) c)

theorem declared_count_unique (s : State) (n : Nat) (r : String)
    (h : declared_count s n r = 1) (q q' : Nat) (hq : q < n) (hq' : q' < n)
    (e : s.var_name q = some r) (e' : s.var_name q' = some r) : q' = q := by
  unfold declared_count at h
  obtain ⟨x, hx⟩ := List.length_eq_one.mp h
  have m : q ∈ (List.range n).filter fun q => decide (s.var_name q = some r) := by
    simp [List.mem_filter, hq, e]
  have m' : q' ∈ (List.range n).filter fun q => decide (s.var_name q = some r) := by
    simp [List.mem_filter, hq', e']
  rw [hx] at m m'
  simp at m m'
  rw [m, m']

theorem reference_pass_step (k : Nat) (g : Phrases) (s : State) :
    reference_pass (k + 1) (g, s) =
      if (g.reference s.phrase_nb).isSome ∧
          (match_references g s s.phrase_nb g.nb_phrases 0 (0, g.continuation)).1 ≠ 1 then
        .error Halt.incorrect_input
      else
        reference_pass k
          ({ g with continuation :=
              (match_references g s s.phrase_nb g.nb_phrases 0 (0, g.continuation)).2 },
           { s with phrase_nb := s.phrase_nb + 1 }) := by
  simp only [reference_pass, throw_eq_error]

/-- The reference pass either stops with the diagnostic, at a phrase whose
reference is not declared exactly once, or changes only `continuation` and
the loop counter. -/
theorem reference_pass_spec : ∀ (k : Nat) (g : Phrases) (s : State),
    (reference_pass k (g, s) = .error Halt.incorrect_input ∧
      ∃ p r, s.phrase_nb ≤ p ∧ p < s.phrase_nb + k ∧ g.reference p = some r ∧
        declared_count s g.nb_phrases r ≠ 1) ∨
    (∃ cont, reference_pass k (g, s)
        = .ok ({ g with continuation := cont }, { s with phrase_nb := s.phrase_nb + k }) ∧
      (∀ p r, s.phrase_nb ≤ p → p < s.phrase_nb + k → g.reference p = some r →
        declared_count s g.nb_phrases r = 1 ∧
        ∀ q, q < g.nb_phrases → s.var_name q = some r → cont p = (q : Int)) ∧
      (∀ p, cont p = g.continuation p ∨ ∃ q : Nat, q < g.nb_phrases ∧ cont p = (q : Int)) ∧
      (∀ p, (p < s.phrase_nb ∨ s.phrase_nb + k ≤ p) → cont p = g.continuation p)) := by
  intro k
  induction k with
  | zero =>
    intro g s
    right
    refine ⟨g.continuation, by simp [reference_pass], ?_, ?_, ?_⟩
    · intro p r h1 h2; omega
    · intro p; left; rfl
    · intro p _; rfl
  | succ k ih =>
    intro g s
    rw [reference_pass_step]
    -- the count found for the current phrase
    have hcount : ∀ r, g.reference s.phrase_nb = some r →
        (match_references g s s.phrase_nb g.nb_phrases 0 (0, g.continuation)).1
          = declared_count s g.nb_phrases r := by
      intro r hr
      rw [match_references_count g s s.phrase_nb r hr]
      simp [declared_count, List.range_eq_range']
    by_cases hbad : (g.reference s.phrase_nb).isSome ∧
        (match_references g s s.phrase_nb g.nb_phrases 0 (0, g.continuation)).1 ≠ 1
    · left
      rw [if_pos hbad]
      obtain ⟨r, hr⟩ := Option.isSome_iff_exists.mp hbad.1
      refine ⟨rfl, s.phrase_nb, r, le_refl _, by omega, hr, ?_⟩
      rw [← hcount r hr]; exact hbad.2
    · rw [if_neg hbad]
      have hgood : ∀ r, g.reference s.phrase_nb = some r →
          declared_count s g.nb_phrases r = 1 := by
        intro r hr
        by_contra hne
        apply hbad
        refine ⟨by simp [hr], ?_⟩
        rw [hcount r hr]; exact hne
      rcases ih ({ g with continuation :=
              (match_references g s s.phrase_nb g.nb_phrases 0 (0, g.continuation)).2 })
          ({ s with phrase_nb := s.phrase_nb + 1 }) with ⟨he, p, r, h1, h2, h3, h4⟩ |
          ⟨cont, he, hA, hB, hC⟩
      · left
        exact ⟨he, p, r, by simp at h1; omega, by simp at h2; omega, h3, h4⟩
      · right
        refine ⟨cont, ?_, ?_, ?_, ?_⟩
        · rw [he]; simp [Nat.add_assoc, Nat.add_comm 1 k]
        · intro p r h1 h2 h3
          by_cases hp : p = s.phrase_nb
          · subst hp
            refine ⟨hgood r h3, ?_⟩
            intro q hq hv
            rw [hC s.phrase_nb (Or.inl (by simp))]
            simp only
            exact match_references_unique g s s.phrase_nb q r h3 hv g.nb_phrases 0 0 _
              (Nat.zero_le _) (by omega)
              (fun q' _ b c => declared_count_unique s g.nb_phrases r (hgood r h3) q q' hq
                (by omega) hv c)
          · exact hA p r (by simp; omega) (by simp; omega) h3
        · intro p
          rcases hB p with h | ⟨q, h1, h2⟩
          · by_cases hp : p = s.phrase_nb
            · subst hp
              simp only at h
              rcases match_references_range g s s.phrase_nb g.nb_phrases 0 0 g.continuation
                with h' | ⟨q, _, h2, h3⟩
              · left; rw [h, h']
              · right; exact ⟨q, by omega, by rw [h, h3]⟩
            · left
              rw [h]
              exact match_references_other g s s.phrase_nb p hp _ _ _ _
          · right; exact ⟨q, h1, h2⟩
        · intro p hp
          have hne : p ≠ s.phrase_nb := by omega
          rw [hC p (by simp; omega)]
          exact match_references_other g s s.phrase_nb p hne _ _ _ _

/-! ## The first pass and the segmentation -/

theorem post_elim {α : Type} {x : M α} {Q : α → Prop} {a : α} (h : Post x Q) (e : x = .ok a) :
    Q a := by
  rw [e, post_ok] at h
  exact h

theorem post_of_forall {α : Type} {x : M α} {Q : α → Prop} (h : ∀ a, x = .ok a → Q a) :
    Post x Q := by
  cases x with
  | error e => rw [post_error]; trivial
  | ok a => rw [post_ok]; exact h a rfl

/-- The words and endpoints are fixed by the first pass, which sets
`continuation[phrase_nb]` to `NO_DATA` and goes on only for a phrase of at
least two words. -/
def FirstPassStep (g : Phrases) (s : State) (r : Phrases × State) : Prop :=
  r.1.argv = g.argv ∧ r.1.max_phrase_index = g.max_phrase_index ∧
  r.1.phrase_start = g.phrase_start ∧ r.1.phrase_end = g.phrase_end ∧
  r.1.continuation = upd g.continuation s.phrase_nb NO_DATA ∧
  r.2.phrase_nb = s.phrase_nb ∧
  g.phrase_start s.phrase_nb + 1 ≤ g.phrase_end s.phrase_nb

theorem first_pass_phrase_spec (g : Phrases) (s : State) :
    Post (first_pass_phrase g s) (FirstPassStep g s) := by
  unfold first_pass_phrase
  simp only [post_ite, post_pure, post_ok, post_bind, post_map, post_throw]
  repeat' first | apply And.intro | intro _ | refine post_mono (process_basic_phrase_nb _ _) ?_
  all_goals first
    | trivial
    | omega
    | (simp_all [FirstPassStep] <;> omega)
    | (simp only [FirstPassStep]; split_ifs <;> simp_all <;> omega)

theorem first_pass_step (k : Nat) (g : Phrases) (s : State) :
    first_pass (k + 1) (g, s) =
      (first_pass_phrase g s).bind fun r =>
        first_pass k (r.1, { r.2 with phrase_nb := r.2.phrase_nb + 1 }) := rfl

theorem first_pass_earlier : ∀ (k : Nat) (g : Phrases) (s : State),
    Post (first_pass k (g, s)) fun r =>
      ∀ q, q < s.phrase_nb → r.1.continuation q = g.continuation q := by
  intro k
  induction k with
  | zero => intro g s; simp [first_pass, post_ok]
  | succ k ih =>
    intro g s
    rw [first_pass_step, post_bind]
    refine post_mono (first_pass_phrase_spec g s) ?_
    intro r hr
    refine post_mono (ih r.1 { r.2 with phrase_nb := r.2.phrase_nb + 1 }) ?_
    intro r' hr' q hq
    rw [hr' q (by simp [hr.2.2.2.2.2.1]; omega), hr.2.2.2.2.1]
    exact upd_other _ _ _ _ (by omega)

/-- After the first pass the phrases it went through have at least two words
and no continuation yet. -/
theorem first_pass_spec : ∀ (k : Nat) (g : Phrases) (s : State),
    Post (first_pass k (g, s)) fun r =>
      r.1.argv = g.argv ∧ r.1.max_phrase_index = g.max_phrase_index ∧
      r.1.phrase_start = g.phrase_start ∧ r.1.phrase_end = g.phrase_end ∧
      ∀ p, s.phrase_nb ≤ p → p < s.phrase_nb + k →
        r.1.continuation p = NO_DATA ∧ g.phrase_start p + 1 ≤ g.phrase_end p := by
  intro k
  induction k with
  | zero =>
    intro g s
    rw [first_pass, post_pure]
    refine ⟨rfl, rfl, rfl, rfl, ?_⟩
    intro p h1 h2; omega
  | succ k ih =>
    intro g s
    rw [first_pass_step, post_bind]
    refine post_mono (first_pass_phrase_spec g s) ?_
    intro r hr
    obtain ⟨a1, a2, a3, a4, a5, a6, a7⟩ := hr
    refine post_mono (post_and (ih r.1 { r.2 with phrase_nb := r.2.phrase_nb + 1 })
      (first_pass_earlier k r.1 { r.2 with phrase_nb := r.2.phrase_nb + 1 })) ?_
    intro r' hr'
    obtain ⟨⟨b1, b2, b3, b4, b5⟩, b6⟩ := hr'
    refine ⟨b1.trans a1, b2.trans a2, b3.trans a3, b4.trans a4, ?_⟩
    intro p h1 h2
    by_cases hp : p = s.phrase_nb
    · subst hp
      refine ⟨?_, a7⟩
      rw [b6 s.phrase_nb (by simp [a6]), a5]
      simp
    · have := b5 p (by simp [a6]; omega) (by simp [a6]; omega)
      rw [a3, a4] at this
      exact this

/-! ## The loop check -/

theorem walk_no_data (g : Phrases) : ∀ k, walk g k NO_DATA = NO_DATA := by
  intro k
  induction k with
  | zero => rfl
  | succ k ih => simp only [walk, next_phrase, if_true]; exact ih

theorem walk_congr (g g' : Phrases) (h : g'.continuation = g.continuation) :
    ∀ k x, walk g' k x = walk g k x := by
  intro k
  induction k with
  | zero => intro x; rfl
  | succ k ih => intro x; simp only [walk, next_phrase, h, ih]

theorem walk_add (g : Phrases) : ∀ a b x, walk g (a + b) x = walk g b (walk g a x) := by
  intro a
  induction a with
  | zero => intro b x; simp [walk]
  | succ a ih =>
    intro b x
    rw [Nat.add_right_comm, walk, ih]
    rfl

theorem walk_cycle (g : Phrases) (k : Nat) (x : Int) (h : walk g k x = x) :
    ∀ m, walk g (k * m) x = x := by
  intro m
  induction m with
  | zero => rfl
  | succ m ih => rw [Nat.mul_succ, walk_add, ih, h]

/-- The walk of the loop check from `x` ends: it reaches `NO_DATA` after `d`
edges. -/
def Ends (g : Phrases) (x : Int) (d : Nat) : Prop := walk g d x = NO_DATA

theorem Ends.mono {g : Phrases} {x : Int} {d : Nat} (h : Ends g x d) (e : Nat) :
    Ends g x (d + e) := by
  unfold Ends at *
  rw [walk_add, h, walk_no_data]

theorem Ends.congr {g g' : Phrases} {x : Int} {d : Nat} (he : Ends g' x d)
    (h : g'.continuation = g.continuation) : Ends g x d := by
  unfold Ends at *
  rw [← walk_congr g g' h]
  exact he

/-- A phrase on a cycle of continuation edges never reaches `NO_DATA`. -/
theorem not_ends_of_cycle (g : Phrases) (k : Nat) (hk : 1 ≤ k) (p : Nat)
    (h : walk g k (p : Int) = (p : Int)) (d : Nat) : ¬ Ends g (p : Int) d := by
  intro he
  have h1 := walk_cycle g k _ h d
  have h2 : Ends g (p : Int) (k * d) := by
    have : k * d = d + (k * d - d) := by
      have : d ≤ k * d := Nat.le_mul_of_pos_left d hk
      omega
    rw [this]
    exact he.mono _
  unfold Ends at h2
  rw [h1] at h2
  simp only [NO_DATA] at h2
  omega

/-- The number of phrases not yet marked in `chain`. -/
def unmarked (g : Phrases) (chain : Nat → Nat) : Nat :=
  ((Finset.range g.nb_phrases).filter fun q => chain q = 0).card

theorem unmarked_upd (g : Phrases) (chain : Nat → Nat) (x : Nat) (hx : x < g.nb_phrases)
    (h0 : chain x = 0) : unmarked g (upd chain x 1) < unmarked g chain := by
  unfold unmarked
  apply Finset.card_lt_card
  rw [Finset.ssubset_iff_of_subset]
  · refine ⟨x, ?_, ?_⟩
    · simp [hx, h0]
    · simp
  · intro q hq
    simp only [Finset.mem_filter, Finset.mem_range] at hq ⊢
    refine ⟨hq.1, ?_⟩
    by_cases hqx : q = x
    · rw [hqx] at hq; simp at hq
    · rw [upd_other _ _ _ _ hqx] at hq
      exact hq.2

theorem follow_chain_step (g : Phrases) (k : Nat) (x : Int) (chain : Nat → Nat) :
    follow_chain g (k + 1) x chain =
      if x = NO_DATA then .ok chain
      else if chain x.toNat ≠ 0 then .error Halt.incorrect_input
      else follow_chain g k (g.continuation x.toNat) (upd chain x.toNat 1) := rfl

/-- A walk that comes back reached `NO_DATA`. -/
theorem follow_chain_ends (g : Phrases) : ∀ (fuel : Nat) (x : Int) (chain c : Nat → Nat),
    follow_chain g fuel x chain = .ok c → ∃ d, d ≤ fuel ∧ Ends g x d := by
  intro fuel
  induction fuel with
  | zero =>
    intro x chain c h
    simp only [follow_chain] at h
    split at h
    · rename_i hx; exact ⟨0, le_refl _, hx⟩
    · cases h
  | succ k ih =>
    intro x chain c h
    rw [follow_chain_step] at h
    split at h
    · rename_i hx; exact ⟨0, Nat.zero_le _, hx⟩
    · rename_i hx
      split at h
      · cases h
      · obtain ⟨d, hd, he⟩ := ih _ _ _ h
        refine ⟨d + 1, by omega, ?_⟩
        unfold Ends at *
        rw [walk, next_phrase, if_neg hx]
        exact he

/-- With more fuel than unmarked phrases, the walk of the loop check comes
back or stops with the diagnostic. -/
theorem follow_chain_total (g : Phrases) (hv : Valid g) :
    ∀ (fuel : Nat) (x : Int) (chain : Nat → Nat),
      (x = NO_DATA ∨ ∃ q : Nat, q < g.nb_phrases ∧ x = (q : Int)) →
      unmarked g chain < fuel →
      (∃ c, follow_chain g fuel x chain = .ok c) ∨
        follow_chain g fuel x chain = .error Halt.incorrect_input := by
  intro fuel
  induction fuel with
  | zero => intro x chain _ h; omega
  | succ k ih =>
    intro x chain hx hu
    rw [follow_chain_step]
    by_cases h1 : x = NO_DATA
    · left; exact ⟨chain, by simp [h1]⟩
    · rw [if_neg h1]
      by_cases h2 : chain x.toNat ≠ 0
      · right; simp [h2]
      · rw [if_neg h2]
        rcases hx with hx | ⟨q, hq, hx⟩
        · exact absurd hx h1
        · have hq' : x.toNat = q := by rw [hx]; simp
          rw [hq']
          have h0 : chain q = 0 := by
            rw [hq'] at h2
            simpa using h2
          apply ih
          · exact hv q hq
          · have := unmarked_upd g chain q hq h0
            omega

theorem unmarked_le (g : Phrases) (chain : Nat → Nat) : unmarked g chain ≤ g.nb_phrases := by
  unfold unmarked
  calc _ ≤ (Finset.range g.nb_phrases).card := Finset.card_filter_le _ _
    _ = g.nb_phrases := Finset.card_range _

theorem check_loops_step (k : Nat) (g : Phrases) (s : State) :
    check_loops (k + 1) (g, s) =
      (follow_chain g (g.nb_phrases + 1) (g.continuation s.phrase_nb)
          (upd g.chain s.phrase_nb 1)).bind fun chain =>
        check_loops k
          ({ g with chain := fun ref_phrase =>
                      if (ref_phrase : Int) ≤ g.max_phrase_index then 0 else chain ref_phrase },
           { s with phrase_nb := s.phrase_nb + 1 }) := rfl

/-- The loop check stops with the diagnostic, or changes only `chain` and the
loop counter, and then the walk from every phrase it went through ends. -/
theorem check_loops_spec : ∀ (k : Nat) (g : Phrases) (s : State), Valid g →
    s.phrase_nb + k ≤ g.nb_phrases →
    check_loops k (g, s) = .error Halt.incorrect_input ∨
    ∃ chain, check_loops k (g, s)
        = .ok ({ g with chain := chain }, { s with phrase_nb := s.phrase_nb + k }) ∧
      ∀ p, s.phrase_nb ≤ p → p < s.phrase_nb + k →
        ∃ d, d ≤ g.nb_phrases + 1 ∧ Ends g (g.continuation p) d := by
  intro k
  induction k with
  | zero =>
    intro g s _ _
    right
    exact ⟨g.chain, rfl, fun p h1 h2 => by omega⟩
  | succ k ih =>
    intro g s hv hle
    rw [check_loops_step]
    rcases follow_chain_total g hv (g.nb_phrases + 1) (g.continuation s.phrase_nb)
        (upd g.chain s.phrase_nb 1) (hv s.phrase_nb (by omega))
        (Nat.lt_succ_of_le (unmarked_le g _)) with ⟨c, hc⟩ | he
    · rw [hc, bind_ok]
      have hends := follow_chain_ends g _ _ _ _ hc
      rcases ih { g with chain := fun ref_phrase =>
            if (ref_phrase : Int) ≤ g.max_phrase_index then 0 else c ref_phrase }
          { s with phrase_nb := s.phrase_nb + 1 } hv (by simp [Phrases.nb_phrases] at hle ⊢; omega)
        with he | ⟨chain, hok, hall⟩
      · left; exact he
      · right
        refine ⟨chain, ?_, ?_⟩
        · rw [hok]; simp [Nat.add_assoc, Nat.add_comm 1 k]
        · intro p h1 h2
          by_cases hp : p = s.phrase_nb
          · rw [hp]; exact hends
          · obtain ⟨d, hd, he⟩ := hall p (by simp; omega) (by simp; omega)
            exact ⟨d, hd, Ends.congr he rfl⟩
    · left; rw [he]; rfl

/-! ## No loop of the first passes runs out of fuel -/

/-- The computation `x` does not stop for lack of fuel. -/
def Safe {α : Type} (x : M α) : Prop := x ≠ .error Halt.out_of_fuel

theorem safe_ok {α : Type} (a : α) : Safe (Except.ok a : M α) ↔ True := by
  simp [Safe]

theorem safe_pure {α : Type} (a : α) : Safe (pure a : M α) ↔ True := safe_ok a

theorem safe_error {α : Type} (e : Halt) :
    Safe (Except.error e : M α) ↔ e ≠ Halt.out_of_fuel := by
  simp [Safe]

theorem safe_throw {α : Type} (e : Halt) : Safe (throw e : M α) ↔ e ≠ Halt.out_of_fuel :=
  safe_error e

theorem safe_bind {α β : Type} (x : M α) (f : α → M β) :
    Safe (x.bind f) ↔ Safe x ∧ Post x fun a => Safe (f a) := by
  cases x with
  | error e => simp [Safe, post_error]
  | ok a => simp [Safe, post_ok]

theorem safe_map {α β : Type} (x : M α) (f : α → β) : Safe (x.map f) ↔ Safe x := by
  cases x with
  | error e => simp [Safe]
  | ok a => simp [Safe]

theorem safe_ite {α : Type} (c : Prop) [Decidable c] (x y : M α) :
    Safe (if c then x else y) ↔ (c → Safe x) ∧ (¬ c → Safe y) := by
  by_cases h : c <;> simp [h]

theorem safe_advance {α : Type} (g : Phrases) (s : State) (err : α)
    (body : State → M (α × State)) :
    Safe (advance g s err body) ↔
      (¬ s.current = g.phrase_end s.phrase_nb → Safe (body { s with current := s.current + 1 })) := by
  rw [advance_eq, safe_ite, safe_pure]
  simp

theorem safe_last_char (w : String) : Safe (last_char w) := by
  unfold last_char
  split <;> simp [Safe]

attribute [irreducible] Safe

theorem safe_put_chars (out : Nat → Nat → Char) (p : Nat) :
    ∀ (cs : List Char) (i : Int), Safe (put_chars out p i cs) := by
  intro cs
  induction cs generalizing out with
  | nil => intro i; simp [put_chars, safe_ok]
  | cons c cs ih =>
    intro i
    simp only [put_chars, safe_ite, safe_throw]
    exact ⟨fun _ => ih _ _, fun _ => by decide⟩

theorem safe_output_at_front (s : State) (p : Nat) (str : String) :
    Safe (output_at_front s p str) := by
  unfold output_at_front
  rw [safe_map]
  exact safe_put_chars _ _ _ _

theorem safe_output_at_back (s : State) (p : Nat) (str : String) :
    Safe (output_at_back s p str) := by
  unfold output_at_back
  rw [safe_map]
  exact safe_put_chars _ _ _ _

theorem safe_ends_with_full_stop (w : String) : Safe (ends_with_full_stop w) := by
  unfold ends_with_full_stop
  rw [safe_map]
  exact safe_last_char w

theorem safe_atoi (w : String) : Safe (atoi w) := by
  unfold atoi
  simp only [safe_pure]

theorem safe_make_basic_output (t : Nat) : Safe (make_basic_output t) := by
  unfold make_basic_output
  simp only [safe_ite, safe_pure, safe_throw]
  repeat' first | apply And.intro | intro _
  all_goals first | trivial | decide

theorem safe_complex_variable (g : Phrases) (s : State) : Safe (complex_variable g s) := by
  unfold complex_variable
  simp only [safe_ite, safe_pure, safe_throw, safe_bind, safe_map, safe_advance, post_ite,
    post_pure, post_ok, post_bind, post_map, post_throw, post_advance,
    post_output_at_front_iff, post_output_at_back_iff]
  repeat' first | apply And.intro | intro _ | exact safe_output_at_front _ _ _
  all_goals first | trivial | decide

theorem safe_refer (g : Phrases) (t : Nat) (s : State) : Safe (refer g t s) := by
  unfold refer
  simp only [safe_ite, safe_pure, safe_throw, safe_bind, safe_map, safe_advance, post_ite,
    post_pure, post_ok, post_bind, post_map, post_throw, post_advance,
    post_output_at_front_iff, post_output_at_back_iff]
  repeat' first
    | apply And.intro | intro _ | exact safe_output_at_front _ _ _
    | exact safe_output_at_back _ _ _
  all_goals first | trivial | decide

theorem safe_data_continuation (g : Phrases) (s : State) : Safe (data_continuation g s) := by
  unfold data_continuation
  simp only [safe_ite, safe_pure, safe_throw, safe_bind, safe_map, safe_advance, post_ite,
    post_pure, post_ok, post_bind, post_map, post_throw, post_advance,
    post_output_at_front_iff, post_output_at_back_iff]
  repeat' first
    | apply And.intro | intro _ | exact safe_output_at_front _ _ _
    | exact safe_output_at_back _ _ _ | exact safe_refer _ _ _
  all_goals first | trivial | decide

theorem safe_finish_basic (s : State) (t : Nat) : Safe (finish_basic s t) := by
  unfold finish_basic
  simp only [safe_ite, safe_pure, safe_throw, safe_bind, safe_map, safe_advance, post_ite,
    post_pure, post_ok, post_bind, post_map, post_throw, post_advance,
    post_output_at_front_iff, post_output_at_back_iff]
  repeat' first
    | apply And.intro | intro _ | exact safe_output_at_front _ _ _
    | exact safe_make_basic_output _ | apply post_intro
  all_goals first | trivial | decide

theorem safe_process_basic (g : Phrases) (s : State) : Safe (process_basic g s) := by
  unfold process_basic
  simp only [safe_ite, safe_pure, safe_throw, safe_bind, safe_map, safe_advance, post_ite,
    post_pure, post_ok, post_bind, post_map, post_throw, post_advance,
    post_output_at_front_iff, post_output_at_back_iff]
  repeat' first
    | apply And.intro | intro _ | exact safe_output_at_front _ _ _
    | exact safe_output_at_back _ _ _ | exact safe_finish_basic _ _
  all_goals first | trivial | decide

theorem safe_process_array (g : Phrases) (s : State) : Safe (process_array g s) := by
  unfold process_array
  simp only [safe_ite, safe_pure, safe_throw, safe_bind, safe_map, safe_advance, post_ite,
    post_pure, post_ok, post_bind, post_map, post_throw, post_advance,
    post_output_at_front_iff, post_output_at_back_iff]
  repeat' first
    | apply And.intro | intro _ | exact safe_output_at_front _ _ _
    | exact safe_output_at_back _ _ _ | exact safe_data_continuation _ _
    | exact safe_complex_variable _ _ | exact safe_atoi _ | apply post_intro
  all_goals first | trivial | decide

theorem safe_pointer_kind (g : Phrases) (b : Bool) (s : State) : Safe (pointer_kind g b s) := by
  unfold pointer_kind
  simp only [safe_ite, safe_pure, safe_throw, safe_bind, safe_map, safe_advance, post_ite,
    post_pure, post_ok, post_bind, post_map, post_throw, post_advance,
    post_output_at_front_iff, post_output_at_back_iff]
  repeat' first
    | apply And.intro | intro _ | exact safe_output_at_front _ _ _
    | exact safe_output_at_back _ _ _ | exact safe_data_continuation _ _
  all_goals first | trivial | decide

theorem safe_pointer_target (g : Phrases) (b : Bool) (s : State) :
    Safe (pointer_target g b s) := by
  unfold pointer_target
  simp only [safe_ite, safe_pure, safe_throw, safe_bind, safe_map, safe_advance, post_ite,
    post_pure, post_ok, post_bind, post_map, post_throw, post_advance,
    post_output_at_front_iff, post_output_at_back_iff]
  repeat' first
    | apply And.intro | intro _ | exact safe_output_at_front _ _ _
    | exact safe_pointer_kind _ _ _
  all_goals first | trivial | decide

theorem safe_process_pointer (g : Phrases) (s : State) : Safe (process_pointer g s) := by
  unfold process_pointer
  simp only [safe_ite, safe_pure, safe_throw, safe_bind, safe_map, safe_advance, post_ite,
    post_pure, post_ok, post_bind, post_map, post_throw, post_advance,
    post_output_at_front_iff, post_output_at_back_iff]
  repeat' first
    | apply And.intro | intro _ | exact safe_output_at_front _ _ _
    | exact safe_pointer_target _ _ _ | exact safe_complex_variable _ _
    | exact safe_last_char _ | apply post_intro
  all_goals first | trivial | decide

theorem safe_process_function (g : Phrases) (s : State) : Safe (process_function g s) := by
  unfold process_function
  simp only [safe_ite, safe_pure, safe_throw, safe_bind, safe_map, safe_advance, post_ite,
    post_pure, post_ok, post_bind, post_map, post_throw, post_advance,
    post_output_at_front_iff, post_output_at_back_iff]
  repeat' first
    | apply And.intro | intro _ | exact safe_output_at_front _ _ _
    | exact safe_output_at_back _ _ _ | exact safe_data_continuation _ _
    | exact safe_complex_variable _ _ | apply post_intro
  all_goals first | trivial | decide

theorem safe_step (g : Phrases) (s : State) : Safe (step g s) := by
  unfold step
  simp only [safe_ite, safe_map]
  repeat' first
    | apply And.intro | intro _ | exact safe_process_array _ _ | exact safe_process_basic _ _
    | exact safe_process_function _ _ | exact safe_process_pointer _ _

/-! ## What the three first passes establish -/

theorem safe_count_phrases : ∀ (ws : List String) (m : Int), Safe (count_phrases ws m) := by
  intro ws
  induction ws with
  | nil => intro m; simp [count_phrases, safe_ok]
  | cons w ws ih =>
    intro m
    simp only [count_phrases, safe_bind]
    exact ⟨safe_ends_with_full_stop w, post_intro fun _ => ih _⟩

theorem find_endpoints_step (k w : Nat) (g : Phrases) (s : State) :
    find_endpoints (k + 1) w (g, s) =
      (ends_with_full_stop (g.word w)).bind fun b =>
        if b then
          find_endpoints k (w + 1)
            (if ((s.phrase_nb + 1 : Nat) : Int) ≤ g.max_phrase_index then
              { g with argv := g.argv.set w ⟨(g.word w).data.dropLast⟩,
                       phrase_end := upd g.phrase_end s.phrase_nb w,
                       phrase_start := upd g.phrase_start (s.phrase_nb + 1) (w + 1) }
             else
              { g with argv := g.argv.set w ⟨(g.word w).data.dropLast⟩,
                       phrase_end := upd g.phrase_end s.phrase_nb w },
             { s with phrase_nb := s.phrase_nb + 1 })
        else find_endpoints k (w + 1) (g, s) := by
  simp only [find_endpoints]

theorem safe_find_endpoints : ∀ (k w : Nat) (g : Phrases) (s : State),
    Safe (find_endpoints k w (g, s)) := by
  intro k
  induction k with
  | zero => intro w g s; simp [find_endpoints, safe_ok]
  | succ k ih =>
    intro w g s
    rw [find_endpoints_step, safe_bind]
    refine ⟨safe_ends_with_full_stop _, post_intro fun b => ?_⟩
    split
    · exact ih _ _ _
    · exact ih _ _ _

/-- The endpoints loop keeps the number of words and of phrases, and every
phrase end it stores is the index of a word it went through. -/
theorem find_endpoints_spec : ∀ (k w : Nat) (g : Phrases) (s : State),
    Post (find_endpoints k w (g, s)) fun r =>
      r.1.argv.length = g.argv.length ∧ r.1.max_phrase_index = g.max_phrase_index ∧
      ((∀ p, g.phrase_end p < w + k) → ∀ p, r.1.phrase_end p < w + k) := by
  intro k
  induction k with
  | zero =>
    intro w g s
    rw [find_endpoints, post_pure]
    exact ⟨rfl, rfl, fun h => h⟩
  | succ k ih =>
    intro w g s
    rw [find_endpoints_step, post_bind]
    refine post_intro fun b => ?_
    split
    · refine post_mono (ih _ _ _) ?_
      intro r hr
      obtain ⟨h1, h2, h3⟩ := hr
      refine ⟨?_, ?_, ?_⟩
      · rw [h1]; split <;> simp
      · rw [h2]; split <;> rfl
      · intro hb p
        have := h3 (by
          intro q
          have hq := hb q
          split <;> (simp only [upd_apply]; split <;> omega)) p
        omega
    · refine post_mono (ih _ _ _) ?_
      intro r hr
      obtain ⟨h1, h2, h3⟩ := hr
      refine ⟨h1, h2, ?_⟩
      intro hb p
      have := h3 (fun q => by have := hb q; omega) p
      omega

theorem safe_segment (argv : List String) : Safe (segment argv) := by
  unfold segment
  simp only [safe_bind, safe_ite, safe_throw]
  refine ⟨safe_count_phrases _ _, post_intro fun m => ⟨fun _ => by decide, fun _ => ?_⟩⟩
  refine ⟨safe_ends_with_full_stop _, post_intro fun b => ⟨fun _ => by decide, fun _ => ?_⟩⟩
  exact safe_find_endpoints _ _ _ _

theorem segment_spec (argv : List String) :
    Post (segment argv) fun r =>
      r.1.argv.length = argv.length ∧ ∀ p, r.1.phrase_end p ≤ argv.length := by
  unfold segment
  simp only [post_bind, post_ite, post_throw]
  refine post_intro fun m => ⟨fun _ => trivial, fun _ => ?_⟩
  refine post_intro fun b => ⟨fun _ => trivial, fun _ => ?_⟩
  refine post_mono (find_endpoints_spec _ _ _ _) ?_
  intro r hr
  obtain ⟨h1, _, h3⟩ := hr
  refine ⟨by rw [h1]; rfl, ?_⟩
  intro p
  have := h3 (fun q => by simp [resize_arrays]) p
  omega

theorem safe_first_pass_phrase (g : Phrases) (s : State) : Safe (first_pass_phrase g s) := by
  unfold first_pass_phrase
  simp only [safe_ite, safe_pure, safe_throw, safe_map]
  repeat' first | apply And.intro | intro _ | exact safe_process_basic _ _
  all_goals first | trivial | decide

theorem safe_first_pass : ∀ (k : Nat) (g : Phrases) (s : State), Safe (first_pass k (g, s)) := by
  intro k
  induction k with
  | zero => intro g s; simp [first_pass, safe_ok]
  | succ k ih =>
    intro g s
    rw [first_pass_step, safe_bind]
    exact ⟨safe_first_pass_phrase g s, post_intro fun r => ih _ _⟩

/-- What the first pass establishes: every phrase has at least two words,
ends at a word of `argv`, and has no continuation yet. -/
def PassOne (argv : List String) (g : Phrases) : Prop :=
  g.argv.length = argv.length ∧ (∀ p, g.phrase_end p ≤ argv.length) ∧
  ∀ p, p < g.nb_phrases →
    g.continuation p = NO_DATA ∧ g.phrase_start p + 1 ≤ g.phrase_end p

theorem pass_one_spec (argv : List String) : Post (pass_one argv) fun r => PassOne argv r.1 := by
  unfold pass_one
  rw [post_bind]
  refine post_mono (segment_spec argv) ?_
  intro r0 h0
  refine post_mono (first_pass_spec _ _ _) ?_
  intro r hr
  obtain ⟨a1, a2, a3, a4, a5⟩ := hr
  refine ⟨by rw [a1]; exact h0.1, fun p => by rw [a4]; exact h0.2 p, ?_⟩
  intro p hp
  have hn : r.1.nb_phrases = r0.1.nb_phrases := by simp [Phrases.nb_phrases, a2]
  have := a5 p (Nat.zero_le _) (by simp; omega)
  rw [a3, a4]
  exact this

theorem safe_pass_one (argv : List String) : Safe (pass_one argv) := by
  unfold pass_one
  rw [safe_bind]
  exact ⟨safe_segment argv, post_intro fun r => safe_first_pass _ _ _⟩

/-- What the reference pass adds: every continuation is `NO_DATA` or a phrase
index. -/
def PassRefs (argv : List String) (g : Phrases) : Prop :=
  g.argv.length = argv.length ∧ (∀ p, g.phrase_end p ≤ argv.length) ∧
  (∀ p, p < g.nb_phrases → g.phrase_start p + 1 ≤ g.phrase_end p) ∧ Valid g

theorem reference_pass_valid (argv : List String) (g : Phrases) (s : State)
    (h : PassOne argv g) :
    Safe (reference_pass g.nb_phrases (g, s)) ∧
    Post (reference_pass g.nb_phrases (g, s)) fun r => PassRefs argv r.1 := by
  rcases reference_pass_spec g.nb_phrases g s with ⟨he, _⟩ | ⟨cont, he, _, hB, _⟩
  · rw [he, safe_error, post_error]
    exact ⟨by decide, trivial⟩
  · rw [he, safe_ok, post_ok]
    refine ⟨trivial, h.1, h.2.1, fun p hp => (h.2.2 p hp).2, ?_⟩
    intro p hp
    rcases hB p with e | ⟨q, hq, e⟩
    · left
      exact e.trans (h.2.2 p hp).1
    · right; exact ⟨q, hq, e⟩

theorem pass_refs_spec (argv : List String) :
    Post (pass_refs argv) fun r => PassRefs argv r.1 := by
  unfold pass_refs
  rw [post_bind]
  refine post_mono (pass_one_spec argv) ?_
  intro r hr
  exact (reference_pass_valid argv r.1 _ hr).2

theorem safe_pass_refs (argv : List String) : Safe (pass_refs argv) := by
  unfold pass_refs
  rw [safe_bind]
  refine ⟨safe_pass_one argv, post_mono (pass_one_spec argv) ?_⟩
  intro r hr
  exact (reference_pass_valid argv r.1 _ hr).1

/-- What the loop check adds: from every phrase the continuation edges
lead to `NO_DATA`. -/
def Ready (argv : List String) (g : Phrases) : Prop :=
  PassRefs argv g ∧
  ∀ p, p < g.nb_phrases → ∃ d, d ≤ g.nb_phrases + 1 ∧ Ends g (g.continuation p) d

theorem check_loops_ready (argv : List String) (g : Phrases) (s : State)
    (h : PassRefs argv g) (hs : s.phrase_nb = 0) :
    Safe (check_loops g.nb_phrases (g, s)) ∧
    Post (check_loops g.nb_phrases (g, s)) fun r => Ready argv r.1 := by
  rcases check_loops_spec g.nb_phrases g s h.2.2.2 (by omega) with he | ⟨chain, he, hall⟩
  · rw [he, safe_error, post_error]
    exact ⟨by decide, trivial⟩
  · rw [he, safe_ok, post_ok]
    refine ⟨trivial, ⟨h.1, h.2.1, h.2.2.1, h.2.2.2⟩, ?_⟩
    intro p hp
    obtain ⟨d, hd, hends⟩ := hall p (by omega) (by rw [hs]; simpa using hp)
    exact ⟨d, hd, Ends.congr hends rfl⟩

theorem prepare_spec (argv : List String) : Post (prepare argv) fun r => Ready argv r.1 := by
  unfold prepare
  rw [post_bind]
  refine post_mono (pass_refs_spec argv) ?_
  intro r hr
  exact (check_loops_ready argv r.1 _ hr rfl).2

theorem safe_prepare (argv : List String) : Safe (prepare argv) := by
  unfold prepare
  rw [safe_bind]
  refine ⟨safe_pass_refs argv, post_mono (pass_refs_spec argv) ?_⟩
  intro r hr
  exact (check_loops_ready argv r.1 _ hr rfl).1

/-! ## Termination of the second pass -/

/-- One iteration of the `while` loop: the new stage of the originating
phrase is `FINISHED`, `ERROR`, `CONTINUE` at a later word of the same phrase,
or `REFER` at the second word of the continuation. -/
def Stepped (g : Phrases) (s s1 : State) : Prop :=
  s1.original_phrase_nb = s.original_phrase_nb ∧
  (∀ q, q ≠ s.original_phrase_nb → s1.stage q = s.stage q) ∧
  (s1.stage s1.original_phrase_nb = FINISHED ∨ s1.stage s1.original_phrase_nb = ERROR ∨
    (s1.phrase_nb = s.phrase_nb ∧ s.current < s1.current ∧
      (s.current ≤ g.phrase_end s.phrase_nb → s1.current ≤ g.phrase_end s.phrase_nb)) ∨
    (0 ≤ g.continuation s.phrase_nb ∧
      g.continuation s.phrase_nb ≤ g.max_phrase_index ∧
      s1.phrase_nb = (g.continuation s.phrase_nb).toNat ∧
      s1.current = g.phrase_start s1.phrase_nb + 1))

theorem stepped_of_outcome (g : Phrases) (s : State) (r : Nat × State) (h : Outcome g s r) :
    Stepped g s { r.2 with stage := upd r.2.stage r.2.original_phrase_nb r.1 } := by
  obtain ⟨h1, h2, h3⟩ := h
  refine ⟨h1, ?_, ?_⟩
  · intro q hq
    simp only
    rw [upd_other _ _ _ _ (by rw [h1]; exact hq)]
    exact h2 q hq
  · simp only [upd_same]
    rcases h3 with h | h | ⟨_, b, c, d⟩ | ⟨_, b, c, d, e⟩
    · exact Or.inl h
    · exact Or.inr (Or.inl h)
    · exact Or.inr (Or.inr (Or.inl ⟨b, c, d⟩))
    · exact Or.inr (Or.inr (Or.inr ⟨b, c, d, e⟩))

theorem step_spec (g : Phrases) (s : State) : Post (step g s) (Stepped g s) := by
  unfold step
  rw [post_map]
  split
  · exact post_mono (process_array_outcome g s) (stepped_of_outcome g s)
  · split
    · exact post_mono (process_function_outcome g s) (stepped_of_outcome g s)
    · split
      · exact post_mono (process_pointer_outcome g s) (stepped_of_outcome g s)
      · exact post_mono (process_basic_outcome g s) (stepped_of_outcome g s)

theorem resolve_done (g : Phrases) (fuel : Nat) (s : State)
    (h : s.stage s.original_phrase_nb = FINISHED ∨ s.stage s.original_phrase_nb = ERROR) :
    resolve g fuel s = .ok s := by
  cases fuel <;> simp [resolve, h]

theorem resolve_step (g : Phrases) (k : Nat) (s : State)
    (h : ¬ (s.stage s.original_phrase_nb = FINISHED ∨ s.stage s.original_phrase_nb = ERROR)) :
    resolve g (k + 1) s = (step g s).bind fun s1 => resolve g k s1 := by
  simp [resolve, h]

/-- The `while` loop has ended on the originating phrase of `s`. -/
def Resolved (s s' : State) : Prop :=
  s'.original_phrase_nb = s.original_phrase_nb ∧
  (s'.stage s'.original_phrase_nb = FINISHED ∨ s'.stage s'.original_phrase_nb = ERROR) ∧
  ∀ q, q ≠ s.original_phrase_nb → s'.stage q = s.stage q

theorem ends_succ (g : Phrases) (p d : Nat) (h : Ends g (p : Int) d)
    (h0 : 0 ≤ g.continuation p) :
    ∃ d', d = d' + 1 ∧ Ends g (((g.continuation p).toNat : Nat) : Int) d' := by
  cases d with
  | zero =>
    unfold Ends at h
    simp only [walk, NO_DATA] at h
    omega
  | succ d' =>
    refine ⟨d', rfl, ?_⟩
    unfold Ends at h ⊢
    rw [walk, next_phrase, if_neg (by simp only [NO_DATA]; omega)] at h
    rw [Int.toNat_of_nonneg h0]
    simpa using h

/-- The `while` loop of the second pass ends before its fuel does: each
iteration that does not end it moves forward in the current phrase or follows
one continuation edge of a chain that ends. -/
theorem resolve_total (g : Phrases) (A : Nat) (hA : ∀ p, g.phrase_end p ≤ A)
    (hlen : ∀ p, p < g.nb_phrases → g.phrase_start p + 1 ≤ g.phrase_end p) :
    ∀ (fuel : Nat) (s : State) (d : Nat), Ends g (s.phrase_nb : Int) d →
      s.current ≤ g.phrase_end s.phrase_nb →
      d * (A + 1) + (g.phrase_end s.phrase_nb - s.current) < fuel →
      Safe (resolve g fuel s) ∧ Post (resolve g fuel s) (Resolved s) := by
  intro fuel
  induction fuel with
  | zero => intro s d _ _ h; omega
  | succ k ih =>
    intro s d hd hcur hfuel
    by_cases hterm : s.stage s.original_phrase_nb = FINISHED ∨
        s.stage s.original_phrase_nb = ERROR
    · rw [resolve_done g _ s hterm, safe_ok, post_ok]
      exact ⟨trivial, rfl, hterm, fun _ _ => rfl⟩
    · rw [resolve_step g k s hterm, safe_bind, post_bind]
      have key : Post (step g s) fun s1 =>
          Safe (resolve g k s1) ∧ Post (resolve g k s1) (Resolved s) := by
        refine post_mono (step_spec g s) ?_
        intro s1 hs1
        obtain ⟨h1, h2, h3⟩ := hs1
        have lift : Post (resolve g k s1) (Resolved s1) → Post (resolve g k s1) (Resolved s) := by
          intro hp
          refine post_mono hp ?_
          intro s' hs'
          refine ⟨hs'.1.trans h1, hs'.2.1, ?_⟩
          intro q hq
          rw [hs'.2.2 q (by rw [h1]; exact hq)]
          exact h2 q hq
        rcases h3 with h | h | ⟨a, b, c⟩ | ⟨a, b, c, e⟩
        · rw [resolve_done g _ s1 (Or.inl h), safe_ok, post_ok]
          exact ⟨trivial, h1, Or.inl h, h2⟩
        · rw [resolve_done g _ s1 (Or.inr h), safe_ok, post_ok]
          exact ⟨trivial, h1, Or.inr h, h2⟩
        · have hc := c hcur
          have := ih s1 d (by rw [a]; exact hd) (by rw [a]; exact hc) (by rw [a]; omega)
          exact ⟨this.1, lift this.2⟩
        · obtain ⟨d', hd', hends⟩ := ends_succ g s.phrase_nb d hd a
          have ht : s1.phrase_nb < g.nb_phrases := by
            rw [c]
            unfold Phrases.nb_phrases
            omega
          have hl := hlen s1.phrase_nb ht
          have hA' := hA s1.phrase_nb
          have hmul : (d' + 1) * (A + 1) = d' * (A + 1) + (A + 1) := Nat.succ_mul _ _
          rw [hd', hmul] at hfuel
          have := ih s1 d' (by rw [c]; exact hends) (by rw [e]; exact hl) (by rw [e]; omega)
          exact ⟨this.1, lift this.2⟩
      exact ⟨⟨safe_step g s, post_mono key fun _ h => h.1⟩,
        post_mono key fun _ h => h.2⟩

theorem second_pass_step (g : Phrases) (k : Nat) (s : State) :
    second_pass g (k + 1) s =
      (resolve g g.fuel { s with phrase_nb := s.original_phrase_nb,
                                 current := g.phrase_start s.original_phrase_nb + 1 }).bind
        (after_phrase g (second_pass g k)) := rfl

/-- After the loop check the second pass never lacks fuel, and when it
completes every phrase it went through has stage `FINISHED`. -/
theorem second_pass_spec (argv : List String) (g : Phrases) (h : Ready argv g) :
    ∀ (k : Nat) (s : State), s.original_phrase_nb + k ≤ g.nb_phrases →
      Safe (second_pass g k s) ∧
      Post (second_pass g k s) fun s' =>
        (∀ q, s.original_phrase_nb ≤ q → q < s.original_phrase_nb + k →
          s'.stage q = FINISHED) ∧
        ∀ q, q < s.original_phrase_nb → s'.stage q = s.stage q := by
  obtain ⟨⟨hlenA, hA, hlen, _⟩, hends⟩ := h
  intro k
  induction k with
  | zero =>
    intro s _
    rw [second_pass, safe_pure, post_pure]
    exact ⟨trivial, fun q h1 h2 => by omega, fun _ _ => rfl⟩
  | succ k ih =>
    intro s hle
    rw [second_pass_step, safe_bind, post_bind]
    have hp : s.original_phrase_nb < g.nb_phrases := by omega
    obtain ⟨d, hd, he⟩ := hends s.original_phrase_nb hp
    have he' : Ends g ((s.original_phrase_nb : Nat) : Int) (d + 1) := by
      unfold Ends at he ⊢
      rw [walk, next_phrase, if_neg (by simp only [NO_DATA]; omega)]
      simpa using he
    have hl := hlen s.original_phrase_nb hp
    have hA' : ∀ p, g.phrase_end p ≤ g.argv.length := fun p => by rw [hlenA]; exact hA p
    have hfuel : (d + 1) * (g.argv.length + 1) +
        (g.phrase_end s.original_phrase_nb - (g.phrase_start s.original_phrase_nb + 1))
          < g.fuel := by
      unfold Phrases.fuel
      have h1 : (d + 1) * (g.argv.length + 1) ≤ (g.nb_phrases + 2) * (g.argv.length + 1) :=
        Nat.mul_le_mul_right _ (by omega)
      have h2 : (g.nb_phrases + 3) * (g.argv.length + 1)
          = (g.nb_phrases + 2) * (g.argv.length + 1) + (g.argv.length + 1) := Nat.succ_mul _ _
      have h3 := hA' s.original_phrase_nb
      omega
    have hres := resolve_total g g.argv.length hA' hlen g.fuel
      { s with phrase_nb := s.original_phrase_nb,
               current := g.phrase_start s.original_phrase_nb + 1 }
      (d + 1) he' hl hfuel
    have key : Post
        (resolve g g.fuel
          { s with phrase_nb := s.original_phrase_nb,
                   current := g.phrase_start s.original_phrase_nb + 1 })
        fun s2 =>
        Safe (after_phrase g (second_pass g k) s2) ∧
        Post (after_phrase g (second_pass g k) s2) fun s' =>
          (∀ q, s.original_phrase_nb ≤ q → q < s.original_phrase_nb + (k + 1) →
            s'.stage q = FINISHED) ∧
          ∀ q, q < s.original_phrase_nb → s'.stage q = s.stage q := by
      refine post_mono hres.2 ?_
      intro s2 hs2
      obtain ⟨b1, b2, b3⟩ := hs2
      simp only at b1 b3
      unfold after_phrase
      rw [safe_ite, post_ite, safe_throw, post_throw]
      refine ⟨⟨fun _ => by decide, fun hne => ?_⟩, fun _ => trivial, fun hne => ?_⟩
      · exact (ih _ (by simp only; omega)).1
      · have hfin : s2.stage s2.original_phrase_nb = FINISHED := by
          rcases b2 with h | h
          · exact h
          · exact absurd h hne
        refine post_mono (ih _ (by simp only; omega)).2 ?_
        intro s' hs'
        obtain ⟨c1, c2⟩ := hs'
        simp only at c1 c2
        refine ⟨?_, ?_⟩
        · intro q h1 h2
          by_cases hq : q = s.original_phrase_nb
          · rw [hq, c2 _ (by omega), ← b1]
            exact hfin
          · exact c1 q (by omega) (by omega)
        · intro q hq
          rw [c2 q (by omega)]
          exact b3 q (by omega)
    exact ⟨⟨hres.1, post_mono key fun _ h => h.1⟩, post_mono key fun _ h => h.2⟩

/-! ## The output buffers as double-ended sequences -/

/-- The rows of phrase `p` after the characters `cs` are written from row `i`
on. -/
def written (out : Nat → Nat → Char) (p i : Nat) (cs : List Char) : Nat → Nat → Char :=
  fun j q => if q = p ∧ i ≤ j ∧ j < i + cs.length then cs.getD (j - i) (Char.ofNat 0) else out j q

theorem max_output_eq : MAX_OUTPUT = 200 := rfl

theorem put_chars_eq (p : Nat) : ∀ (cs : List Char) (out : Nat → Nat → Char) (i : Nat),
    i + cs.length ≤ MAX_OUTPUT + 1 → put_chars out p (i : Int) cs = .ok (written out p i cs) := by
  intro cs
  induction cs with
  | nil =>
    intro out i _
    simp only [put_chars, pure_eq_ok]
    congr 1
    funext j q
    have : ¬ (q = p ∧ i ≤ j ∧ j < i + ([] : List Char).length) := by
      simp only [List.length_nil]; omega
    simp only [written, this, if_false]
  | cons c cs ih =>
    intro out i h
    simp only [List.length_cons] at h
    have hM := max_output_eq
    have hi : (0 : Int) ≤ (i : Int) ∧ (i : Int) ≤ (MAX_OUTPUT : Nat) := by
      constructor <;> omega
    simp only [put_chars, hi, and_self, if_true, Int.toNat_ofNat]
    have e : ((i : Int) + 1) = ((i + 1 : Nat) : Int) := by omega
    rw [e, ih _ (i + 1) (by omega)]
    congr 1
    funext j q
    simp only [written, List.length_cons]
    by_cases hq : q = p
    · by_cases hj : j = i
      · subst hj; subst hq
        simp
      · by_cases hlt : i + 1 ≤ j ∧ j < i + 1 + cs.length
        · have h2 : i ≤ j ∧ j < i + (cs.length + 1) := by omega
          have h3 : j - i = (j - (i + 1)) + 1 := by omega
          simp only [hq, hlt, h2, and_self, if_true, true_and, h3, List.getD_cons_succ]
        · have h2 : ¬ (i ≤ j ∧ j < i + (cs.length + 1)) := by omega
          simp only [hq, hlt, h2, and_false, if_false, true_and]
          rw [upd_other _ _ _ _ hj]
    · simp only [hq, false_and, if_false]
      by_cases hj : j = i
      · rw [hj, upd_same, upd_other _ _ _ _ hq]
      · rw [upd_other _ _ _ _ hj]

/-- The buffer of phrase `p` occupies the rows `a .. e - 1`, among the rows
`0 .. MAX_OUTPUT`. -/
def Window (s : State) (p a e : Nat) : Prop :=
  s.output_start p = (a : Int) - 1 ∧ s.output_end p = (e : Int) ∧ a ≤ e ∧ e ≤ MAX_OUTPUT + 1

theorem line_of_window (s : State) (p a e : Nat) (h : Window s p a e) :
    (s.line p).data = (List.range (e - a)).map fun k => s.phrase_output (a + k) p := by
  obtain ⟨h1, h2, h3, _⟩ := h
  unfold State.line
  simp only [h1, h2]
  have e1 : ((e : Int) - ((a : Int) - 1) - 1).toNat = e - a := by omega
  have e2 : ((a : Int) - 1 + 1).toNat = a := by omega
  rw [e1, e2]

/-- The state after `output_at_front` when the string fits. -/
def front_state (s : State) (p : Nat) (str : String) : State :=
  { s with output_start := upd s.output_start p (s.output_start p - str.data.length),
           phrase_output := written s.phrase_output p
             (s.output_start p - str.data.length + 1).toNat str.data }

/-- The state after `output_at_back` when the string fits. -/
def back_state (s : State) (p : Nat) (str : String) : State :=
  { s with output_end := upd s.output_end p (s.output_end p + str.data.length),
           phrase_output := written s.phrase_output p (s.output_end p).toNat str.data }

theorem range_map_split (f : Nat → Char) (m n : Nat) :
    (List.range (m + n)).map f =
      (List.range m).map f ++ (List.range n).map fun k => f (m + k) := by
  rw [List.range_add, List.map_append, List.map_map]
  rfl

/-- Prepending: when `str` fits before the buffer, `output_at_front` puts it
in front of the line. -/
theorem output_at_front_window (s : State) (p a e : Nat) (str : String)
    (h : Window s p a e) (room : str.data.length ≤ a) :
    output_at_front s p str = .ok (front_state s p str) ∧
    Window (front_state s p str) p (a - str.data.length) e ∧
    ((front_state s p str).line p).data = str.data ++ (s.line p).data := by
  have hw := h
  obtain ⟨h1, h2, h3, h4⟩ := h
  have e1 : s.output_start p - (str.data.length : Int) + 1 = ((a - str.data.length : Nat) : Int) := by
    omega
  have hwin : Window (front_state s p str) p (a - str.data.length) e := by
    refine ⟨?_, ?_, by omega, h4⟩
    · simp only [front_state, upd_same]; omega
    · simp only [front_state]; exact h2
  refine ⟨?_, hwin, ?_⟩
  · unfold output_at_front front_state
    dsimp only
    rw [e1, put_chars_eq p _ _ _ (by have := max_output_eq; omega)]
    simp
  · rw [line_of_window _ _ _ _ hwin, line_of_window _ _ _ _ hw]
    have e2 : e - (a - str.data.length) = str.data.length + (e - a) := by omega
    rw [e2, range_map_split]
    congr 1
    · apply List.ext_getElem
      · simp
      · intro k hk1 hk2
        simp only [List.length_map, List.length_range] at hk1
        simp only [front_state, e1, Int.toNat_ofNat, written, List.getElem_map,
          List.getElem_range]
        have : a - str.data.length ≤ a - str.data.length + k ∧
            a - str.data.length + k < a - str.data.length + str.data.length := by omega
        simp only [this, and_self, if_true, Nat.add_sub_cancel_left]
        exact (List.getD_eq_getElem _ _ hk2)
    · apply List.map_congr_left
      intro k hk
      simp only [front_state, e1, Int.toNat_ofNat, written]
      have : ¬ (a - str.data.length ≤ a - str.data.length + (str.data.length + k) ∧
          a - str.data.length + (str.data.length + k)
            < a - str.data.length + str.data.length) := by omega
      simp only [this, and_false, if_false]
      congr 1
      omega

/-- Appending: when `str` fits after the buffer, `output_at_back` puts it at
the end of the line. -/
theorem output_at_back_window (s : State) (p a e : Nat) (str : String)
    (h : Window s p a e) (room : e + str.data.length ≤ MAX_OUTPUT + 1) :
    output_at_back s p str = .ok (back_state s p str) ∧
    Window (back_state s p str) p a (e + str.data.length) ∧
    ((back_state s p str).line p).data = (s.line p).data ++ str.data := by
  have hw := h
  obtain ⟨h1, h2, h3, h4⟩ := h
  have hwin : Window (back_state s p str) p a (e + str.data.length) := by
    refine ⟨?_, ?_, by omega, room⟩
    · simp only [back_state]; exact h1
    · simp only [back_state, upd_same]; omega
  refine ⟨?_, hwin, ?_⟩
  · unfold output_at_back back_state
    rw [h2, put_chars_eq p _ _ _ room]
    simp
  · rw [line_of_window _ _ _ _ hwin, line_of_window _ _ _ _ hw]
    have e2 : e + str.data.length - a = (e - a) + str.data.length := by omega
    rw [e2, range_map_split]
    congr 1
    · apply List.map_congr_left
      intro k hk
      simp only [List.mem_range] at hk
      simp only [back_state, h2, Int.toNat_ofNat, written]
      have : ¬ (e ≤ a + k ∧ a + k < e + str.data.length) := by omega
      simp only [this, and_false, if_false]
    · apply List.ext_getElem
      · simp
      · intro k hk1 hk2
        simp only [back_state, h2, Int.toNat_ofNat, written, List.getElem_map,
          List.getElem_range]
        have h5 : a + (e - a + k) = e + k := by omega
        have : e ≤ e + k ∧ e + k < e + str.data.length := by omega
        simp only [h5, this, and_self, if_true, Nat.add_sub_cancel_left]
        exact (List.getD_eq_getElem _ _ hk2)

/-! ## Runs that return -/

/-- The computation `x` returns a value, and the value satisfies `Q`. -/
def Returns {α : Type} (x : M α) (Q : α → Prop) : Prop := ∃ a, x = .ok a ∧ Q a

theorem returns_ok {α : Type} (a : α) (Q : α → Prop) : Returns (Except.ok a : M α) Q ↔ Q a := by
  constructor
  · rintro ⟨b, e, h⟩
    cases e
    exact h
  · intro h
    exact ⟨a, rfl, h⟩

theorem returns_pure {α : Type} (a : α) (Q : α → Prop) : Returns (pure a : M α) Q ↔ Q a :=
  returns_ok a Q

theorem returns_bind {α β : Type} (x : M α) (f : α → M β) (Q : β → Prop) :
    Returns (x.bind f) Q ↔ Returns x fun a => Returns (f a) Q := by
  cases x with
  | error e =>
    constructor
    · rintro ⟨b, e, _⟩
      cases e
    · rintro ⟨b, e, _⟩
      cases e
  | ok a => rw [bind_ok, returns_ok]

theorem returns_map {α β : Type} (x : M α) (f : α → β) (Q : β → Prop) :
    Returns (x.map f) Q ↔ Returns x fun a => Q (f a) := by
  cases x with
  | error e =>
    constructor
    · rintro ⟨b, e, _⟩
      cases e
    · rintro ⟨b, e, _⟩
      cases e
  | ok a => rw [map_ok, returns_ok, returns_ok]

theorem returns_mono {α : Type} {x : M α} {Q R : α → Prop} (h : Returns x Q)
    (hqr : ∀ a, Q a → R a) : Returns x R := by
  obtain ⟨a, e, q⟩ := h
  exact ⟨a, e, hqr a q⟩

theorem returns_advance {α : Type} (g : Phrases) (s : State) (err : α)
    (body : State → M (α × State)) (Q : α × State → Prop)
    (h : ¬ s.current = g.phrase_end s.phrase_nb)
    (k : Returns (body { s with current := s.current + 1 }) Q) :
    Returns (advance g s err body) Q := by
  rw [advance_eq, if_neg h]
  exact k

/-- The state `s` reads word `cur` of phrase 0 for the originating phrase 0, at
stage `st` and with kind `ty`; the declared name is `nm`, and the buffer holds
`text` in the rows `a .. e - 1`. -/
structure At (s : State) (cur st ty : Nat) (nm : Option String) (a e : Nat)
    (text : List Char) : Prop where
  cur : s.current = cur
  nb : s.phrase_nb = 0
  orig : s.original_phrase_nb = 0
  stage : s.stage 0 = st
  type : s.type 0 = ty
  name : s.var_name 0 = nm
  win : Window s 0 a e
  line : (s.line 0).data = text

theorem At.next {s : State} {cur st ty : Nat} {nm : Option String} {a e : Nat}
    {text : List Char} (h : At s cur st ty nm a e text) :
    At { s with current := s.current + 1 } (cur + 1) st ty nm a e text :=
  ⟨by simp [h.cur], h.nb, h.orig, h.stage, h.type, h.name, h.win, h.line⟩

theorem At.kind {s : State} {cur st ty : Nat} {nm : Option String} {a e : Nat}
    {text : List Char} (h : At s cur st ty nm a e text) (t : Nat) :
    At { s with type := upd s.type s.phrase_nb t } cur st t nm a e text :=
  ⟨h.cur, h.nb, h.orig, h.stage, by simp [h.nb, upd], h.name, h.win, h.line⟩

theorem At.staged {s : State} {cur st ty : Nat} {nm : Option String} {a e : Nat}
    {text : List Char} (h : At s cur st ty nm a e text) (t : Nat) :
    At { s with stage := upd s.stage s.original_phrase_nb t } cur t ty nm a e text :=
  ⟨h.cur, h.nb, h.orig, by simp [h.orig, upd], h.type, h.name, h.win, h.line⟩

theorem returns_front {s : State} {cur st ty : Nat} {nm : Option String} {a e : Nat}
    {text : List Char} (h : At s cur st ty nm a e text) (str : String) (Q : State → Prop)
    (room : str.data.length ≤ a)
    (k : ∀ s', At s' cur st ty nm (a - str.data.length) e (str.data ++ text) → Q s') :
    Returns (output_at_front s s.original_phrase_nb str) Q := by
  rw [h.orig]
  obtain ⟨f1, f2, f3⟩ := output_at_front_window s 0 a e str h.win room
  rw [f1, returns_ok]
  exact k _ ⟨h.cur, h.nb, h.orig, h.stage, h.type, h.name, f2, by rw [f3, h.line]⟩

theorem returns_back {s : State} {cur st ty : Nat} {nm : Option String} {a e : Nat}
    {text : List Char} (h : At s cur st ty nm a e text) (str : String) (Q : State → Prop)
    (room : e + str.data.length ≤ MAX_OUTPUT)
    (k : ∀ s', At s' cur st ty nm a (e + str.data.length) (text ++ str.data) → Q s') :
    Returns (output_at_back s s.original_phrase_nb str) Q := by
  rw [h.orig]
  obtain ⟨f1, f2, f3⟩ := output_at_back_window s 0 a e str h.win (Nat.le_succ_of_le room)
  rw [f1, returns_ok]
  exact k _ ⟨h.cur, h.nb, h.orig, h.stage, h.type, h.name, f2, by rw [f3, h.line]⟩

theorem returns_advance_at {α : Type} (g : Phrases) {s : State} {cur st ty : Nat}
    {nm : Option String} {a e : Nat} {text : List Char} (h : At s cur st ty nm a e text)
    (err : α) (body : State → M (α × State)) (Q : α × State → Prop)
    (hne : cur ≠ g.phrase_end 0)
    (k : ∀ s', At s' (cur + 1) st ty nm a e text → Returns (body s') Q) :
    Returns (advance g s err body) Q :=
  returns_advance g s err body Q (by rw [h.cur, h.nb]; exact hne) (k _ h.next)

/-! ## The type-description functions print no diagnostic -/

/-- The computation `x` does not stop with the diagnostic `Incorrect input`. -/
def Quiet {α : Type} (x : M α) : Prop := x ≠ .error Halt.incorrect_input

theorem quiet_ok {α : Type} (a : α) : Quiet (Except.ok a : M α) ↔ True := by
  simp [Quiet]

theorem quiet_pure {α : Type} (a : α) : Quiet (pure a : M α) ↔ True := quiet_ok a

theorem quiet_error {α : Type} (e : Halt) :
    Quiet (Except.error e : M α) ↔ e ≠ Halt.incorrect_input := by
  simp [Quiet]

theorem quiet_throw {α : Type} (e : Halt) : Quiet (throw e : M α) ↔ e ≠ Halt.incorrect_input :=
  quiet_error e

theorem quiet_bind {α β : Type} (x : M α) (f : α → M β) :
    Quiet (x.bind f) ↔ Quiet x ∧ Post x fun a => Quiet (f a) := by
  cases x with
  | error e => simp [Quiet, post_error]
  | ok a => simp [Quiet, post_ok]

theorem quiet_map {α β : Type} (x : M α) (f : α → β) : Quiet (x.map f) ↔ Quiet x := by
  cases x with
  | error e => simp [Quiet]
  | ok a => simp [Quiet]

theorem quiet_ite {α : Type} (c : Prop) [Decidable c] (x y : M α) :
    Quiet (if c then x else y) ↔ (c → Quiet x) ∧ (¬ c → Quiet y) := by
  by_cases h : c <;> simp [h]

theorem quiet_advance {α : Type} (g : Phrases) (s : State) (err : α)
    (body : State → M (α × State)) :
    Quiet (advance g s err body) ↔
      (¬ s.current = g.phrase_end s.phrase_nb → Quiet (body { s with current := s.current + 1 })) := by
  rw [advance_eq, quiet_ite, quiet_pure]
  simp

theorem quiet_last_char (w : String) : Quiet (last_char w) := by
  unfold last_char
  split <;> simp [Quiet]

attribute [irreducible] Quiet

theorem quiet_put_chars (out : Nat → Nat → Char) (p : Nat) :
    ∀ (cs : List Char) (i : Int), Quiet (put_chars out p i cs) := by
  intro cs
  induction cs generalizing out with
  | nil => intro i; simp [put_chars, quiet_ok]
  | cons c cs ih =>
    intro i
    simp only [put_chars, quiet_ite, quiet_throw]
    exact ⟨fun _ => ih _ _, fun _ => by decide⟩

theorem quiet_output_at_front (s : State) (p : Nat) (str : String) :
    Quiet (output_at_front s p str) := by
  unfold output_at_front
  rw [quiet_map]
  exact quiet_put_chars _ _ _ _

theorem quiet_output_at_back (s : State) (p : Nat) (str : String) :
    Quiet (output_at_back s p str) := by
  unfold output_at_back
  rw [quiet_map]
  exact quiet_put_chars _ _ _ _

theorem quiet_ends_with_full_stop (w : String) : Quiet (ends_with_full_stop w) := by
  unfold ends_with_full_stop
  rw [quiet_map]
  exact quiet_last_char w

theorem quiet_atoi (w : String) : Quiet (atoi w) := by
  unfold atoi
  simp only [quiet_pure]

theorem quiet_make_basic_output (t : Nat) : Quiet (make_basic_output t) := by
  unfold make_basic_output
  simp only [quiet_ite, quiet_pure, quiet_throw]
  repeat' first | apply And.intro | intro _
  all_goals first | trivial | decide

theorem quiet_complex_variable (g : Phrases) (s : State) : Quiet (complex_variable g s) := by
  unfold complex_variable
  simp only [quiet_ite, quiet_pure, quiet_throw, quiet_bind, quiet_map, quiet_advance, post_ite,
    post_pure, post_ok, post_bind, post_map, post_throw, post_advance,
    post_output_at_front_iff, post_output_at_back_iff]
  repeat' first | apply And.intro | intro _ | exact quiet_output_at_front _ _ _
  all_goals first | trivial | decide

theorem quiet_refer (g : Phrases) (t : Nat) (s : State) : Quiet (refer g t s) := by
  unfold refer
  simp only [quiet_ite, quiet_pure, quiet_throw, quiet_bind, quiet_map, quiet_advance, post_ite,
    post_pure, post_ok, post_bind, post_map, post_throw, post_advance,
    post_output_at_front_iff, post_output_at_back_iff]
  repeat' first
    | apply And.intro | intro _ | exact quiet_output_at_front _ _ _
    | exact quiet_output_at_back _ _ _
  all_goals first | trivial | decide

theorem quiet_data_continuation (g : Phrases) (s : State) : Quiet (data_continuation g s) := by
  unfold data_continuation
  simp only [quiet_ite, quiet_pure, quiet_throw, quiet_bind, quiet_map, quiet_advance, post_ite,
    post_pure, post_ok, post_bind, post_map, post_throw, post_advance,
    post_output_at_front_iff, post_output_at_back_iff]
  repeat' first
    | apply And.intro | intro _ | exact quiet_output_at_front _ _ _
    | exact quiet_output_at_back _ _ _ | exact quiet_refer _ _ _
  all_goals first | trivial | decide

theorem quiet_finish_basic (s : State) (t : Nat) : Quiet (finish_basic s t) := by
  unfold finish_basic
  simp only [quiet_ite, quiet_pure, quiet_throw, quiet_bind, quiet_map, quiet_advance, post_ite,
    post_pure, post_ok, post_bind, post_map, post_throw, post_advance,
    post_output_at_front_iff, post_output_at_back_iff]
  repeat' first
    | apply And.intro | intro _ | exact quiet_output_at_front _ _ _
    | exact quiet_make_basic_output _ | apply post_intro
  all_goals first | trivial | decide

theorem quiet_process_basic (g : Phrases) (s : State) : Quiet (process_basic g s) := by
  unfold process_basic
  simp only [quiet_ite, quiet_pure, quiet_throw, quiet_bind, quiet_map, quiet_advance, post_ite,
    post_pure, post_ok, post_bind, post_map, post_throw, post_advance,
    post_output_at_front_iff, post_output_at_back_iff]
  repeat' first
    | apply And.intro | intro _ | exact quiet_output_at_front _ _ _
    | exact quiet_output_at_back _ _ _ | exact quiet_finish_basic _ _
  all_goals first | trivial | decide

theorem quiet_process_array (g : Phrases) (s : State) : Quiet (process_array g s) := by
  unfold process_array
  simp only [quiet_ite, quiet_pure, quiet_throw, quiet_bind, quiet_map, quiet_advance, post_ite,
    post_pure, post_ok, post_bind, post_map, post_throw, post_advance,
    post_output_at_front_iff, post_output_at_back_iff]
  repeat' first
    | apply And.intro | intro _ | exact quiet_output_at_front _ _ _
    | exact quiet_output_at_back _ _ _ | exact quiet_data_continuation _ _
    | exact quiet_complex_variable _ _ | exact quiet_atoi _ | apply post_intro
  all_goals first | trivial | decide

theorem quiet_pointer_kind (g : Phrases) (b : Bool) (s : State) : Quiet (pointer_kind g b s) := by
  unfold pointer_kind
  simp only [quiet_ite, quiet_pure, quiet_throw, quiet_bind, quiet_map, quiet_advance, post_ite,
    post_pure, post_ok, post_bind, post_map, post_throw, post_advance,
    post_output_at_front_iff, post_output_at_back_iff]
  repeat' first
    | apply And.intro | intro _ | exact quiet_output_at_front _ _ _
    | exact quiet_output_at_back _ _ _ | exact quiet_data_continuation _ _
  all_goals first | trivial | decide

theorem quiet_pointer_target (g : Phrases) (b : Bool) (s : State) :
    Quiet (pointer_target g b s) := by
  unfold pointer_target
  simp only [quiet_ite, quiet_pure, quiet_throw, quiet_bind, quiet_map, quiet_advance, post_ite,
    post_pure, post_ok, post_bind, post_map, post_throw, post_advance,
    post_output_at_front_iff, post_output_at_back_iff]
  repeat' first
    | apply And.intro | intro _ | exact quiet_output_at_front _ _ _
    | exact quiet_pointer_kind _ _ _
  all_goals first | trivial | decide

theorem quiet_process_pointer (g : Phrases) (s : State) : Quiet (process_pointer g s) := by
  unfold process_pointer
  simp only [quiet_ite, quiet_pure, quiet_throw, quiet_bind, quiet_map, quiet_advance, post_ite,
    post_pure, post_ok, post_bind, post_map, post_throw, post_advance,
    post_output_at_front_iff, post_output_at_back_iff]
  repeat' first
    | apply And.intro | intro _ | exact quiet_output_at_front _ _ _
    | exact quiet_pointer_target _ _ _ | exact quiet_complex_variable _ _
    | exact quiet_last_char _ | apply post_intro
  all_goals first | trivial | decide

theorem quiet_process_function (g : Phrases) (s : State) : Quiet (process_function g s) := by
  unfold process_function
  simp only [quiet_ite, quiet_pure, quiet_throw, quiet_bind, quiet_map, quiet_advance, post_ite,
    post_pure, post_ok, post_bind, post_map, post_throw, post_advance,
    post_output_at_front_iff, post_output_at_back_iff]
  repeat' first
    | apply And.intro | intro _ | exact quiet_output_at_front _ _ _
    | exact quiet_output_at_back _ _ _ | exact quiet_data_continuation _ _
    | exact quiet_complex_variable _ _ | apply post_intro
  all_goals first | trivial | decide

theorem quiet_step (g : Phrases) (s : State) : Quiet (step g s) := by
  unfold step
  simp only [quiet_ite, quiet_map]
  repeat' first
    | apply And.intro | intro _ | exact quiet_process_array _ _ | exact quiet_process_basic _ _
    | exact quiet_process_function _ _ | exact quiet_process_pointer _ _

/-! ## The basic-type resolver on runs of words -/

/-- One iteration of the loop of `read_basic_phrase` after the test for a word
that is not a basic type: the new `basic_phrase_type`, or `none` for
`return false`. -/
def add_word (basic_phrase_type word_type : Nat) : Option Nat :=
  if word_type = LONG then
    if basic_phrase_type &&& LONGLONG ≠ 0 then none
    else if basic_phrase_type &&& LONG ≠ 0 then some ((basic_phrase_type ^^^ LONG) ||| LONGLONG)
    else some (basic_phrase_type ||| LONG)
  else if basic_phrase_type &&& word_type ≠ 0 then none
  else some (basic_phrase_type ||| word_type)

/-- The loop of `read_basic_phrase` over a list of words, the last of which is
the word `basic_end`. -/
def read_run : List String → Nat → Option Nat
  | [], basic_phrase_type => some basic_phrase_type
  | w :: ws, basic_phrase_type =>
    if basic_word_type w = 0 ∧ ws ≠ [] then none
    else (add_word basic_phrase_type (basic_word_type w)).bind (read_run ws)

/-- The words `argv[basic_start], ..., argv[basic_end]` that `read_basic_phrase`
goes through. -/
def basic_words (basic_start : Nat) (basic_end : Int) (argv : List String) : List String :=
  (List.range (basic_end + 1 - basic_start).toNat).map fun i => argv.getD (basic_start + i) ""

/-- The result of `read_basic_phrase` on a run of words. -/
def resolve_run (ws : List String) : Nat :=
  match read_run ws 0 with
  | none => 0
  | some basic_phrase_type => standardise_basic_phrase basic_phrase_type

/-- The bit `m` is set in `a`. -/
def bit (m a : Nat) : Prop := a &&& m ≠ 0

instance (m a : Nat) : Decidable (bit m a) := by unfold bit; infer_instance

/-- The number of times `long` was read, as the bits `LONG` and `LONGLONG` of
`a` record it. -/
def longs (a : Nat) : Nat := if bit LONGLONG a then 2 else if bit LONG a then 1 else 0

/-- The word types other than `LONG`. -/
def plain_types : List Nat := [INT, CHAR, DOUBLE, FLOAT, SIGNED, UNSIGNED, SHORT]

/-- The values of `basic_word_type`. -/
def word_types : List Nat := [0, INT, CHAR, DOUBLE, FLOAT, SIGNED, UNSIGNED, SHORT, LONG]

/-- What one iteration does to the bits, as a test on `a` and `wt`. -/
def step_check (a wt : Nat) : Bool :=
  match add_word a wt with
  | none => decide ((wt ∈ plain_types ∧ bit wt a) ∨ (wt = LONG ∧ bit LONGLONG a))
  | some a' =>
    decide (a' < 512 ∧
      (∀ m ∈ plain_types, m ≠ wt → (bit m a' ↔ bit m a)) ∧
      (wt ∈ plain_types → ¬ bit wt a ∧ bit wt a') ∧
      (¬ (bit LONG a ∧ bit LONGLONG a) →
        ¬ (bit LONG a' ∧ bit LONGLONG a') ∧
        longs a' = longs a + (if wt = LONG then 1 else 0)) ∧
      (wt = 0 → a' = a) ∧
      (∀ m ∈ [INT, SIGNED], m ≠ wt → ¬ bit m a → add_word (a ||| m) wt = some (a' ||| m)))

set_option maxRecDepth 100000 in
theorem step_check_all : ∀ a < 512, ∀ wt ∈ word_types, step_check a wt = true := by
  decide

/-- What a successful iteration does to the bits. -/
structure StepOk (a wt a' : Nat) : Prop where
  lt : a' < 512
  frame : ∀ m ∈ plain_types, m ≠ wt → (bit m a' ↔ bit m a)
  set : wt ∈ plain_types → ¬ bit wt a ∧ bit wt a'
  long : ¬ (bit LONG a ∧ bit LONGLONG a) →
    ¬ (bit LONG a' ∧ bit LONGLONG a') ∧ longs a' = longs a + (if wt = LONG then 1 else 0)
  zero : wt = 0 → a' = a
  comm : ∀ m ∈ [INT, SIGNED], m ≠ wt → ¬ bit m a → add_word (a ||| m) wt = some (a' ||| m)

theorem add_word_some (a wt a' : Nat) (ha : a < 512) (hwt : wt ∈ word_types)
    (h : add_word a wt = some a') : StepOk a wt a' := by
  have hc := step_check_all a ha wt hwt
  unfold step_check at hc
  rw [h] at hc
  simp only [decide_eq_true_eq] at hc
  obtain ⟨h1, h2, h3, h4, h5, h6⟩ := hc
  exact ⟨h1, h2, h3, h4, h5, h6⟩

theorem add_word_none (a wt : Nat) (ha : a < 512) (hwt : wt ∈ word_types)
    (h : add_word a wt = none) :
    (wt ∈ plain_types ∧ bit wt a) ∨ (wt = LONG ∧ bit LONGLONG a) := by
  have hc := step_check_all a ha wt hwt
  unfold step_check at hc
  rw [h] at hc
  simpa only [decide_eq_true_eq] using hc

theorem basic_word_type_mem (w : String) : basic_word_type w ∈ word_types := by
  unfold basic_word_type word_types
  repeat' split
  all_goals decide

theorem read_run_cons_some (w : String) (ws : List String) (a acc : Nat)
    (h : read_run (w :: ws) a = some acc) :
    ∃ a1, add_word a (basic_word_type w) = some a1 ∧ read_run ws a1 = some acc ∧
      (basic_word_type w = 0 → ws = []) := by
  unfold read_run at h
  split at h
  · cases h
  · rename_i hc
    cases h1 : add_word a (basic_word_type w) with
    | none => rw [h1] at h; cases h
    | some a1 =>
      rw [h1] at h
      refine ⟨a1, rfl, h, ?_⟩
      intro h0
      by_contra hne
      exact hc ⟨h0, hne⟩

theorem read_run_lt : ∀ (ws : List String) (a acc : Nat), a < 512 →
    read_run ws a = some acc → acc < 512 := by
  intro ws
  induction ws with
  | nil =>
    intro a acc ha h
    simp only [read_run, Option.some.injEq] at h
    omega
  | cons w ws ih =>
    intro a acc ha h
    obtain ⟨a1, h1, h2, _⟩ := read_run_cons_some w ws a acc h
    exact ih a1 acc (add_word_some a _ a1 ha (basic_word_type_mem w) h1).lt h2

/-- The bits other than `LONG` and `LONGLONG` after a run: a bit is set when
it was set before or a word of the run has it as its type, and a word of the
run has a type that was not set before. -/
theorem read_run_bits : ∀ (ws : List String) (a acc : Nat), a < 512 →
    read_run ws a = some acc → ∀ m ∈ plain_types,
      (bit m acc ↔ bit m a ∨ m ∈ ws.map basic_word_type) ∧
      (m ∈ ws.map basic_word_type → ¬ bit m a) := by
  intro ws
  induction ws with
  | nil =>
    intro a acc ha h m hm
    simp only [read_run, Option.some.injEq] at h
    subst h
    simp
  | cons w ws ih =>
    intro a acc ha h m hm
    obtain ⟨a1, h1, h2, _⟩ := read_run_cons_some w ws a acc h
    have hs := add_word_some a _ a1 ha (basic_word_type_mem w) h1
    obtain ⟨i1, i2⟩ := ih a1 acc hs.lt h2 m hm
    by_cases hw : m = basic_word_type w
    · have hset := hs.set (by rw [← hw]; exact hm)
      rw [← hw] at hset
      refine ⟨?_, fun _ => hset.1⟩
      rw [i1]
      simp only [List.map_cons, List.mem_cons]
      constructor
      · intro _; exact Or.inr (Or.inl hw)
      · intro _; exact Or.inl hset.2
    · have hf := hs.frame m hm hw
      refine ⟨?_, ?_⟩
      · rw [i1, hf]
        simp only [List.map_cons, List.mem_cons]
        constructor
        · rintro (h | h)
          · exact Or.inl h
          · exact Or.inr (Or.inr h)
        · rintro (h | h | h)
          · exact Or.inl h
          · exact absurd h hw
          · exact Or.inr h
      · intro hmem
        simp only [List.map_cons, List.mem_cons] at hmem
        rcases hmem with h | h
        · exact absurd h hw
        · rw [← hf]; exact i2 h

/-- A type other than `LONG` that occurs twice ends the loop with
`return false`. -/
theorem read_run_twice : ∀ (ws : List String) (a m : Nat), a < 512 → m ∈ plain_types →
    2 ≤ (ws.map basic_word_type).count m → read_run ws a = none := by
  intro ws
  induction ws with
  | nil => intro a m _ _ h; simp at h
  | cons w ws ih =>
    intro a m ha hm hc
    cases hr : read_run (w :: ws) a with
    | none => rfl
    | some acc =>
      exfalso
      obtain ⟨a1, h1, h2, _⟩ := read_run_cons_some w ws a acc hr
      have hs := add_word_some a _ a1 ha (basic_word_type_mem w) h1
      by_cases hw : basic_word_type w = m
      · have hset := hs.set (by rw [hw]; exact hm)
        rw [hw] at hset
        have hin : m ∈ ws.map basic_word_type := by
          rw [List.map_cons, List.count_cons, hw] at hc
          simp only [beq_self_eq_true, if_true] at hc
          exact List.count_pos_iff.mp (by omega)
        exact (read_run_bits ws a1 acc hs.lt h2 m hm).2 hin hset.2
      · have hc' : 2 ≤ (ws.map basic_word_type).count m := by
          rw [List.map_cons, List.count_cons] at hc
          have : (basic_word_type w == m) = false := by simpa using hw
          rw [this] at hc
          simpa using hc
        rw [ih a1 m hs.lt hm hc'] at h2
        cases h2

/-- The bits `LONG` and `LONGLONG` after a run count the words `long`. -/
theorem read_run_longs : ∀ (ws : List String) (a acc : Nat), a < 512 →
    ¬ (bit LONG a ∧ bit LONGLONG a) → read_run ws a = some acc →
    ¬ (bit LONG acc ∧ bit LONGLONG acc) ∧
    longs acc = longs a + (ws.map basic_word_type).count LONG := by
  intro ws
  induction ws with
  | nil =>
    intro a acc ha hb h
    simp only [read_run, Option.some.injEq] at h
    subst h
    exact ⟨hb, by simp⟩
  | cons w ws ih =>
    intro a acc ha hb h
    obtain ⟨a1, h1, h2, _⟩ := read_run_cons_some w ws a acc h
    have hs := add_word_some a _ a1 ha (basic_word_type_mem w) h1
    obtain ⟨l1, l2⟩ := hs.long hb
    obtain ⟨i1, i2⟩ := ih a1 acc hs.lt l1 h2
    refine ⟨i1, ?_⟩
    rw [i2, l2, List.map_cons, List.count_cons]
    by_cases hw : basic_word_type w = LONG
    · simp only [hw, if_true, beq_self_eq_true]; omega
    · have : (basic_word_type w == LONG) = false := by simpa using hw
      simp only [hw, if_false, this, Bool.false_eq_true]; omega

theorem longs_le (a : Nat) : longs a ≤ 2 := by
  unfold longs
  split
  · exact le_refl _
  · split <;> omega

theorem add_word_bind (argv : List String) (basic_end : Int) (k w a : Nat) :
    read_basic_words argv basic_end (k + 1) w a =
      if basic_word_type (argv.getD w "") = 0 ∧ (w : Int) ≠ basic_end then none
      else (add_word a (basic_word_type (argv.getD w ""))).bind
        (read_basic_words argv basic_end k (w + 1)) := by
  rw [read_basic_words]
  unfold add_word
  split
  · rfl
  · split
    · split
      · rfl
      · split <;> rfl
    · split <;> rfl

/-- The loop of `read_basic_phrase` is `read_run` on the words it goes
through. -/
theorem read_basic_words_run (argv : List String) (basic_end : Int) :
    ∀ (k w a : Nat), (w : Int) + k = basic_end + 1 →
      read_basic_words argv basic_end k w a =
        read_run ((List.range k).map fun i => argv.getD (w + i) "") a := by
  intro k
  induction k with
  | zero => intro w a _; rfl
  | succ k ih =>
    intro w a h
    rw [add_word_bind, List.range_succ_eq_map, List.map_cons, List.map_map, read_run]
    have hlast : ((w : Int) ≠ basic_end) ↔
        ((List.range k).map ((fun i => argv.getD (w + i) "") ∘ Nat.succ) ≠ []) := by
      rw [Ne, Ne, List.map_eq_nil_iff, List.range_eq_nil]
      omega
    have hrec := fun a1 => ih (w + 1) a1 (by push_cast; omega)
    have hfun : ((fun i => argv.getD (w + i) "") ∘ Nat.succ)
        = fun i => argv.getD (w + 1 + i) "" := by
      funext i
      simp only [Function.comp, Nat.succ_eq_add_one]
      congr 1
      omega
    simp only [Nat.add_zero, hlast, hfun]
    split
    · rfl
    · congr 1
      funext a1
      exact hrec a1

theorem read_basic_phrase_run (basic_start : Nat) (basic_end : Int) (argv : List String) :
    read_basic_phrase basic_start basic_end argv
      = resolve_run (basic_words basic_start basic_end argv) := by
  unfold read_basic_phrase resolve_run basic_words
  by_cases h : (basic_start : Int) ≤ basic_end + 1
  · rw [read_basic_words_run argv basic_end _ basic_start 0 (by omega)] <;> rfl
  · have hk : (basic_end + 1 - (basic_start : Int)).toNat = 0 := by omega
    rw [hk] <;> rfl

theorem basic_words_self (ws : List String) :
    basic_words 0 ((ws.length : Int) - 1) ws = ws := by
  unfold basic_words
  have hk : ((ws.length : Int) - 1 + 1 - ((0 : Nat) : Int)).toNat = ws.length := by omega
  rw [hk]
  apply List.ext_getElem
  · simp
  · intro i h1 h2
    simp [List.getD_eq_getElem?_getD, h2]

/-- The table of `make_basic_output`: each accepted `basic_phrase_type` with
the string returned for it, in the order of the tests. -/
def basic_table : List (Nat × String) :=
  [(CHAR + SIGNED, "signed char"), (CHAR + UNSIGNED, "unsigned char"), (CHAR, "char"),
   (DOUBLE, "double"), (DOUBLE + LONG, "long double"), (FLOAT, "float"),
   (INT + LONGLONG + SIGNED, "long long"), (INT + LONGLONG + UNSIGNED, "unsigned long long"),
   (INT + LONG + SIGNED, "long"), (INT + LONG + UNSIGNED, "unsigned long"),
   (INT + SHORT + SIGNED, "short"), (INT + SHORT + UNSIGNED, "unsigned short"),
   (INT + SIGNED, "int"), (INT + UNSIGNED, "unsigned")]

/-- The words of a text, separated by single spaces. -/
def words_of (text : String) : List String := (text.data.splitOn ' ').map String.mk

/-- The result of `read_basic_phrase` on the run of words `ws` alone. -/
def resolve_words (ws : List String) : Nat :=
  read_basic_phrase 0 ((ws.length : Int) - 1) ws

theorem table_round_trip : ∀ p ∈ basic_table,
    p.1 ≠ 0 ∧ resolve_words (words_of p.2) = p.1 ∧ make_basic_output p.1 = .ok p.2 := by
  decide

theorem table_injective : ∀ p ∈ basic_table, ∀ q ∈ basic_table, p.2 = q.2 → p.1 = q.1 := by
  decide

theorem make_basic_output_table (b : Nat) (text : String)
    (h : make_basic_output b = .ok text) : (b, text) ∈ basic_table := by
  by_cases h1 : b = CHAR + SIGNED
  · have e : make_basic_output (CHAR + SIGNED) = .ok "signed char" := by decide
    rw [h1, e] at h
    cases h
    rw [h1]
    decide
  by_cases h2 : b = CHAR + UNSIGNED
  · have e : make_basic_output (CHAR + UNSIGNED) = .ok "unsigned char" := by decide
    rw [h2, e] at h
    cases h
    rw [h2]
    decide
  by_cases h3 : b = CHAR
  · have e : make_basic_output (CHAR) = .ok "char" := by decide
    rw [h3, e] at h
    cases h
    rw [h3]
    decide
  by_cases h4 : b = DOUBLE
  · have e : make_basic_output (DOUBLE) = .ok "double" := by decide
    rw [h4, e] at h
    cases h
    rw [h4]
    decide
  by_cases h5 : b = DOUBLE + LONG
  · have e : make_basic_output (DOUBLE + LONG) = .ok "long double" := by decide
    rw [h5, e] at h
    cases h
    rw [h5]
    decide
  by_cases h6 : b = FLOAT
  · have e : make_basic_output (FLOAT) = .ok "float" := by decide
    rw [h6, e] at h
    cases h
    rw [h6]
    decide
  by_cases h7 : b = INT + LONGLONG + SIGNED
  · have e : make_basic_output (INT + LONGLONG + SIGNED) = .ok "long long" := by decide
    rw [h7, e] at h
    cases h
    rw [h7]
    decide
  by_cases h8 : b = INT + LONGLONG + UNSIGNED
  · have e : make_basic_output (INT + LONGLONG + UNSIGNED) = .ok "unsigned long long" := by decide
    rw [h8, e] at h
    cases h
    rw [h8]
    decide
  by_cases h9 : b = INT + LONG + SIGNED
  · have e : make_basic_output (INT + LONG + SIGNED) = .ok "long" := by decide
    rw [h9, e] at h
    cases h
    rw [h9]
    decide
  by_cases h10 : b = INT + LONG + UNSIGNED
  · have e : make_basic_output (INT + LONG + UNSIGNED) = .ok "unsigned long" := by decide
    rw [h10, e] at h
    cases h
    rw [h10]
    decide
  by_cases h11 : b = INT + SHORT + SIGNED
  · have e : make_basic_output (INT + SHORT + SIGNED) = .ok "short" := by decide
    rw [h11, e] at h
    cases h
    rw [h11]
    decide
  by_cases h12 : b = INT + SHORT + UNSIGNED
  · have e : make_basic_output (INT + SHORT + UNSIGNED) = .ok "unsigned short" := by decide
    rw [h12, e] at h
    cases h
    rw [h12]
    decide
  by_cases h13 : b = INT + SIGNED
  · have e : make_basic_output (INT + SIGNED) = .ok "int" := by decide
    rw [h13, e] at h
    cases h
    rw [h13]
    decide
  by_cases h14 : b = INT + UNSIGNED
  · have e : make_basic_output (INT + UNSIGNED) = .ok "unsigned" := by decide
    rw [h14, e] at h
    cases h
    rw [h14]
    decide
  unfold make_basic_output at h
  rw [if_neg h1, if_neg h2, if_neg h3, if_neg h4, if_neg h5, if_neg h6, if_neg h7, if_neg h8, if_neg h9, if_neg h10, if_neg h11, if_neg h12, if_neg h13, if_neg h14] at h
  cases h

/-- The accepted values of `basic_phrase_type`: the first components of the
table of `make_basic_output`. -/
def basic_codes : List Nat :=
  [CHAR + SIGNED, CHAR + UNSIGNED, CHAR, DOUBLE, DOUBLE + LONG, FLOAT,
   INT + LONGLONG + SIGNED, INT + LONGLONG + UNSIGNED, INT + LONG + SIGNED,
   INT + LONG + UNSIGNED, INT + SHORT + SIGNED, INT + SHORT + UNSIGNED, INT + SIGNED,
   INT + UNSIGNED]

/-- The rules of `standardise_basic_phrase` for the accepted values, as a
test on `t`. -/
def accept_check (t : Nat) : Bool :=
  decide (standardise_basic_phrase t ≠ 0 →
    standardise_basic_phrase t ∈ basic_codes ∧
    (standardise_basic_phrase t &&& (CHAR + DOUBLE + FLOAT) = 0 →
      standardise_basic_phrase t &&& INT ≠ 0) ∧
    (standardise_basic_phrase t &&& INT ≠ 0 →
      (standardise_basic_phrase t &&& SIGNED ≠ 0 ↔
        standardise_basic_phrase t &&& UNSIGNED = 0)) ∧
    (¬ bit CHAR t → ¬ bit DOUBLE t → ¬ bit FLOAT t →
      standardise_basic_phrase (t ||| INT) = standardise_basic_phrase t) ∧
    (¬ bit CHAR t → ¬ bit DOUBLE t → ¬ bit FLOAT t → ¬ bit UNSIGNED t →
      standardise_basic_phrase (t ||| SIGNED) = standardise_basic_phrase t))

/-- The combinations that `standardise_basic_phrase` rejects, as a test on
`t`. -/
def reject_check (t : Nat) : Bool :=
  decide (bit SIGNED t → bit UNSIGNED t → standardise_basic_phrase t = 0) &&
  decide (bit SHORT t → 1 ≤ longs t → standardise_basic_phrase t = 0) &&
  decide (bit CHAR t → (∃ m ∈ [INT, DOUBLE, FLOAT, SHORT], bit m t) →
    standardise_basic_phrase t = 0) &&
  decide (bit CHAR t → 1 ≤ longs t → standardise_basic_phrase t = 0) &&
  decide (bit FLOAT t → (∃ m ∈ [INT, CHAR, DOUBLE, SIGNED, UNSIGNED, SHORT], bit m t) →
    standardise_basic_phrase t = 0) &&
  decide (bit FLOAT t → 1 ≤ longs t → standardise_basic_phrase t = 0) &&
  decide (bit DOUBLE t → (∃ m ∈ [INT, CHAR, FLOAT, SIGNED, UNSIGNED, SHORT], bit m t) →
    standardise_basic_phrase t = 0) &&
  decide (bit DOUBLE t → 2 ≤ longs t → standardise_basic_phrase t = 0) &&
  decide (bit INT t → (∃ m ∈ [CHAR, DOUBLE, FLOAT], bit m t) → standardise_basic_phrase t = 0)

set_option maxRecDepth 100000 in
theorem accept_check_all : ∀ t < 512, accept_check t = true := by
  decide

set_option maxRecDepth 100000 in
theorem reject_check_all : ∀ t < 512, reject_check t = true := by
  decide

/-- The two ways `read_basic_phrase` ends: the loop returns `false`, or it
ends with a value below 512 that `standardise_basic_phrase` is applied to. -/
theorem read_basic_phrase_cases (basic_start : Nat) (basic_end : Int) (argv : List String) :
    (read_run (basic_words basic_start basic_end argv) 0 = none ∧
      read_basic_phrase basic_start basic_end argv = 0) ∨
    ∃ acc, acc < 512 ∧ read_run (basic_words basic_start basic_end argv) 0 = some acc ∧
      read_basic_phrase basic_start basic_end argv = standardise_basic_phrase acc := by
  rw [read_basic_phrase_run]
  unfold resolve_run
  cases h : read_run (basic_words basic_start basic_end argv) 0 with
  | none => exact Or.inl ⟨rfl, rfl⟩
  | some acc => exact Or.inr ⟨acc, read_run_lt _ 0 acc (by omega) h, rfl, rfl⟩

theorem accept_facts (t : Nat) (ht : t < 512) (h : standardise_basic_phrase t ≠ 0) :
    standardise_basic_phrase t ∈ basic_codes ∧
    (standardise_basic_phrase t &&& (CHAR + DOUBLE + FLOAT) = 0 →
      standardise_basic_phrase t &&& INT ≠ 0) ∧
    (standardise_basic_phrase t &&& INT ≠ 0 →
      (standardise_basic_phrase t &&& SIGNED ≠ 0 ↔
        standardise_basic_phrase t &&& UNSIGNED = 0)) ∧
    (¬ bit CHAR t → ¬ bit DOUBLE t → ¬ bit FLOAT t →
      standardise_basic_phrase (t ||| INT) = standardise_basic_phrase t) ∧
    (¬ bit CHAR t → ¬ bit DOUBLE t → ¬ bit FLOAT t → ¬ bit UNSIGNED t →
      standardise_basic_phrase (t ||| SIGNED) = standardise_basic_phrase t) := by
  have hc := accept_check_all t ht
  unfold accept_check at hc
  exact (of_decide_eq_true hc) h

theorem codes_in_table : ∀ c ∈ basic_codes, ∃ p ∈ basic_table, p.1 = c := by
  decide

/-- A value that `read_basic_phrase` returns, other than `false`, is in the
table of `make_basic_output`. -/
theorem read_basic_phrase_table (basic_start : Nat) (basic_end : Int) (argv : List String)
    (h : read_basic_phrase basic_start basic_end argv ≠ 0) :
    ∃ text, (read_basic_phrase basic_start basic_end argv, text) ∈ basic_table := by
  rcases read_basic_phrase_cases basic_start basic_end argv with ⟨_, h0⟩ | ⟨acc, hlt, _, he⟩
  · exact absurd h0 h
  · rw [he] at h ⊢
    obtain ⟨p, hp, hpc⟩ := codes_in_table _ (accept_facts acc hlt h).1
    refine ⟨p.2, ?_⟩
    rw [← hpc]
    exact hp

/-- The eight words that `basic_word_type` knows. -/
def keywords : List String :=
  ["int", "char", "double", "float", "signed", "unsigned", "short", "long"]

theorem basic_word_type_spec (w : String) :
    (w ∈ keywords ∧ basic_word_type w ≠ 0) ∨ (w ∉ keywords ∧ basic_word_type w = 0) := by
  by_cases h1 : w = "int"
  · left; rw [h1]; decide
  by_cases h2 : w = "char"
  · left; rw [h2]; decide
  by_cases h3 : w = "double"
  · left; rw [h3]; decide
  by_cases h4 : w = "float"
  · left; rw [h4]; decide
  by_cases h5 : w = "signed"
  · left; rw [h5]; decide
  by_cases h6 : w = "unsigned"
  · left; rw [h6]; decide
  by_cases h7 : w = "short"
  · left; rw [h7]; decide
  by_cases h8 : w = "long"
  · left; rw [h8]; decide
  right
  constructor
  · simp only [keywords, List.mem_cons, List.mem_singleton, List.not_mem_nil, or_false]
    tauto
  · unfold basic_word_type
    rw [if_neg h1, if_neg h2, if_neg h3, if_neg h4, if_neg h5, if_neg h6, if_neg h7, if_neg h8]

theorem keywords_injective : ∀ k ∈ keywords, ∀ k' ∈ keywords,
    basic_word_type k = basic_word_type k' → k = k' := by
  decide

theorem basic_word_type_inj (w k : String) (hk : k ∈ keywords) :
    basic_word_type w = basic_word_type k ↔ w = k := by
  constructor
  · intro h
    rcases basic_word_type_spec w with ⟨hw, _⟩ | ⟨_, h0⟩
    · exact keywords_injective w hw k hk h
    · exfalso
      rw [h0] at h
      have : ∀ k ∈ keywords, basic_word_type k ≠ 0 := by decide
      exact this k hk h.symm
  · intro h; rw [h]

theorem type_mem (ws : List String) (k : String) (hk : k ∈ keywords) :
    basic_word_type k ∈ ws.map basic_word_type ↔ k ∈ ws := by
  rw [List.mem_map]
  constructor
  · rintro ⟨w, hw, he⟩
    rw [← (basic_word_type_inj w k hk).mp he]
    exact hw
  · intro h
    exact ⟨k, h, rfl⟩

theorem type_count (ws : List String) (k : String) (hk : k ∈ keywords) :
    (ws.map basic_word_type).count (basic_word_type k) = ws.count k := by
  induction ws with
  | nil => rfl
  | cons w ws ih =>
    rw [List.map_cons, List.count_cons, List.count_cons, ih]
    by_cases h : w = k
    · rw [h]; simp
    · have h' : ¬ basic_word_type w = basic_word_type k := fun e =>
        h ((basic_word_type_inj w k hk).mp e)
      simp [h, h']

theorem read_basic_words_range (basic_start : Nat) (basic_end : Int) (argv : List String) :
    read_basic_words argv basic_end (basic_end + 1 - basic_start).toNat basic_start 0
      = read_run (basic_words basic_start basic_end argv) 0 := by
  unfold basic_words
  by_cases h : (basic_start : Int) ≤ basic_end + 1
  · rw [read_basic_words_run argv basic_end _ basic_start 0 (by omega)] <;> rfl
  · have hk : (basic_end + 1 - (basic_start : Int)).toNat = 0 := by omega
    rw [hk] <;> rfl

/-- The loop succeeds on a run whose words, but perhaps the last, are basic
types, none of them repeated except `long`, which occurs at most twice. -/
theorem read_run_total : ∀ (ws : List String) (a : Nat), a < 512 →
    ¬ (bit LONG a ∧ bit LONGLONG a) →
    (∀ m ∈ plain_types, bit m a → m ∉ ws.map basic_word_type) →
    (∀ m ∈ plain_types, (ws.map basic_word_type).count m ≤ 1) →
    longs a + (ws.map basic_word_type).count LONG ≤ 2 →
    (∀ w ∈ ws.dropLast, basic_word_type w ≠ 0) →
    ∃ acc, read_run ws a = some acc := by
  intro ws
  induction ws with
  | nil => intro a _ _ _ _ _ _; exact ⟨a, rfl⟩
  | cons w ws ih =>
    intro a ha hb hbits hcount hlong hkey
    have hmem := basic_word_type_mem w
    have hfirst : ¬ (basic_word_type w = 0 ∧ ws ≠ []) := by
      rintro ⟨h0, hne⟩
      refine hkey w ?_ h0
      cases ws with
      | nil => exact absurd rfl hne
      | cons w' ws' => simp [List.dropLast]
    rw [read_run, if_neg hfirst]
    cases h1 : add_word a (basic_word_type w) with
    | none =>
      exfalso
      rcases add_word_none a _ ha hmem h1 with ⟨hp, hbit⟩ | ⟨hl, hbit⟩
      · exact hbits _ hp hbit (by simp)
      · have : longs a = 2 := by unfold longs; rw [if_pos hbit]
        rw [List.map_cons, List.count_cons, hl] at hlong
        simp only [beq_self_eq_true, if_true] at hlong
        omega
    | some a1 =>
      have hs := add_word_some a _ a1 ha hmem h1
      obtain ⟨l1, l2⟩ := hs.long hb
      rw [Option.bind]
      refine ih a1 hs.lt l1 ?_ ?_ ?_ ?_
      · intro m hm hbit hin
        by_cases hw : m = basic_word_type w
        · have := hcount m hm
          rw [List.map_cons, List.count_cons, ← hw] at this
          simp only [beq_self_eq_true, if_true] at this
          have hpos := List.count_pos_iff.mpr hin
          omega
        · exact hbits m hm ((hs.frame m hm hw).mp hbit)
            (by simp only [List.map_cons, List.mem_cons]; exact Or.inr hin)
      · intro m hm
        have := hcount m hm
        rw [List.map_cons, List.count_cons] at this
        omega
      · rw [List.map_cons, List.count_cons] at hlong
        rw [l2]
        by_cases hw : basic_word_type w = LONG
        · simp only [hw, beq_self_eq_true, if_true] at hlong ⊢; omega
        · have hb' : (basic_word_type w == LONG) = false := by simpa using hw
          simp only [hw, hb', if_false, Bool.false_eq_true] at hlong ⊢; omega
      · intro w' hw'
        refine hkey w' ?_
        cases ws with
        | nil => simp at hw'
        | cons w2 ws2 =>
          simp only [List.dropLast] at hw' ⊢
          exact List.mem_cons_of_mem _ hw'

theorem bit_zero (m : Nat) : ¬ bit m 0 := by
  unfold bit
  simp

theorem longs_zero : longs 0 = 0 := by
  unfold longs
  rw [if_neg (bit_zero _), if_neg (bit_zero _)]

theorem plain_keywords : ∀ k ∈ ["int", "char", "double", "float", "signed", "unsigned", "short"],
    k ∈ keywords ∧ basic_word_type k ∈ plain_types := by
  decide

theorem plain_types_keywords : ∀ m ∈ plain_types,
    ∃ k ∈ ["int", "char", "double", "float", "signed", "unsigned", "short"],
      basic_word_type k = m := by
  decide

/-! ## The ends of the array rule and of the function rule -/

/-- The end of `process_array`: the word after the dimension `elements`. -/
def array_kind (g : Phrases) (elements : Int) (s5 : State) : M (Nat × State) :=
  let w := g.word s5.current
  if (elements = 1 ∧ w = "datum") ∨ (elements > 1 ∧ w = "data") then
    data_continuation g s5
  else if (elements = 1 ∧ w = "array") ∨ (elements > 1 ∧ w = "arrays") then
    pure (CONTINUE, s5)
  else if (elements = 1 ∧ w = "pointer") ∨ (elements > 1 ∧ w = "pointers") then
    pure (CONTINUE, { s5 with type := upd s5.type s5.phrase_nb POINTER })
  else pure (ERROR, s5)

/-- The part of `process_array` from the dimension on: `current` is at the
word after `of`. -/
def array_dimension (g : Phrases) (s1 : State) : M (Nat × State) :=
  (atoi (g.word s1.current)).bind fun elements =>
    if elements = 0 then pure (ERROR, s1)
    else if !(g.word s1.current).data.all Char.isDigit then pure (ERROR, s1)
    else
      (output_at_back s1 s1.original_phrase_nb "[").bind fun s2 =>
      (output_at_back s2 s2.original_phrase_nb (g.word s2.current)).bind fun s3 =>
      (output_at_back s3 s3.original_phrase_nb "]").bind fun s4 =>
        advance g s4 ERROR (array_kind g elements)

theorem process_array_eq (g : Phrases) (s : State) :
    process_array g s =
      (complex_variable g s).bind fun r =>
        if !r.1 then pure (ERROR, r.2)
        else if g.word r.2.current ≠ "of" then pure (ERROR, r.2)
        else advance g r.2 ERROR (array_dimension g) := rfl

/-- The part of `process_function` after `()` is written: `current` is at
the word after `returning`. -/
def function_result (g : Phrases) (s2 : State) : M (Nat × State) :=
  if g.word s2.current = "void" then
    (output_at_front s2 s2.original_phrase_nb "void ").map fun s3 => (FINISHED, s3)
  else
    advance g { s2 with stage := upd s2.stage s2.original_phrase_nb CONTINUE } ERROR
      fun s4 =>
        if !check_preposition (g.word (s4.current - 1)) (g.word s4.current) false then
          pure (ERROR, s4)
        else if g.word s4.current = "pointer" then
          pure (CONTINUE, { s4 with type := upd s4.type s4.phrase_nb POINTER })
        else if g.word s4.current = "datum" then data_continuation g s4
        else pure (ERROR, s4)

theorem process_function_eq (g : Phrases) (s : State) :
    process_function g s =
      (complex_variable g s).bind fun r =>
        if !r.1 then pure (ERROR, r.2)
        else if g.word r.2.current ≠ "returning" then pure (ERROR, r.2)
        else advance g r.2 ERROR fun s1 =>
          (output_at_back s1 s1.original_phrase_nb "()").bind (function_result g) := rfl

/-! ## `atoi` on strings of digits -/

/-- C2. On the single-phrase input `A pointer to a function returning void.`
the run succeeds and its only output line is exactly `void (*)()`. -/
theorem scenario_pointer_to_function :
    main ["types", "A", "pointer", "to", "a", "function", "returning", "void."]
      = .ok ["void (*)()"] := by
  decide

/-- C3, as stated, fails: on `A pointer to an int.` the run does not print
`int *`. -/
theorem scenario_pointer_to_int_refuted :
    ¬ main ["types", "A", "pointer", "to", "an", "int."] = .ok ["int *"] := by
  decide

/-- C3, amended. On `A pointer to an int.` the run stops with the diagnostic
(after the article the pointer rule accepts only pointer, array, function or
datum); on `A pointer to a datum of type int.` the run succeeds and its only
output line is exactly `int *`. -/
theorem scenario_pointer_to_datum_int :
    main ["types", "A", "pointer", "to", "an", "int."] = .error Halt.incorrect_input ∧
    main ["types", "A", "pointer", "to", "a", "datum", "of", "type", "int."]
      = .ok ["int *"] := by
  decide

/-- C4, as stated, fails: on `An array of 3 ints.` the run does not print
`int [3]`. -/
theorem scenario_array_of_ints_refuted :
    ¬ main ["types", "An", "array", "of", "3", "ints."] = .ok ["int [3]"] := by
  decide

/-- C4, amended. On `An array of 3 ints.` the run stops with the diagnostic
(`ints` is read as a reference to a variable that no phrase declares, and is
not a word of the array rule); on `An array of 3 data of type int.` the run
succeeds and its only output line is exactly `int [3]`. -/
theorem scenario_array_of_data_int :
    main ["types", "An", "array", "of", "3", "ints."] = .error Halt.incorrect_input ∧
    main ["types", "An", "array", "of", "3", "data", "of", "type", "int."]
      = .ok ["int [3]"] := by
  decide

/-- C6, as stated, fails: on `An array of 2 X. A pointer to an int X.` the run
does not succeed. -/
theorem scenario_reference_refuted :
    ¬ ∃ lines, main ["types", "An", "array", "of", "2", "X.",
        "A", "pointer", "to", "an", "int", "X."] = .ok lines := by
  rw [show main ["types", "An", "array", "of", "2", "X.",
        "A", "pointer", "to", "an", "int", "X."] = .error Halt.incorrect_input by decide]
  simp

/-- C6, amended. On `An array of 2 X. A pointer to an int X.` the run stops
with the diagnostic (neither phrase declares `X`: a complex phrase declares
its name in third position). On `An array of 2 data of type the type of X.
A pointer X to a datum of type int.` the run succeeds, the second phrase
declares `X`, the continuation of the first phrase is the second phrase, and
the first line is `int *[2]`: an array of 2 of the type `int *` that the
second phrase describes. -/
theorem scenario_reference_resolved :
    main ["types", "An", "array", "of", "2", "X.",
        "A", "pointer", "to", "an", "int", "X."] = .error Halt.incorrect_input ∧
    (∃ g s, main_state ["types", "An", "array", "of", "2", "data", "of", "type", "the", "type",
          "of", "X.", "A", "pointer", "X", "to", "a", "datum", "of", "type", "int."]
          = .ok (g, s) ∧
      g.nb_phrases = 2 ∧
      s.var_name 0 = none ∧ s.var_name 1 = some "X" ∧
      g.reference 0 = some "X" ∧ g.continuation 0 = 1 ∧
      s.line 0 = "int *[2]" ∧ s.line 1 = "int *X") ∧
    main ["types", "A", "pointer", "to", "a", "datum", "of", "type", "int."]
      = .ok ["int *"] := by
  refine ⟨by decide, ⟨_, _, rfl, ?_⟩, by decide⟩
  decide

/-! ## The buffers that a type-description function writes -/

/-- Every buffer but that of phrase `p` is in `r` as it is in `s`. -/
def Kept (p : Nat) (s r : State) : Prop :=
  ∀ q, q ≠ p → (∀ i, r.phrase_output i q = s.phrase_output i q) ∧
    r.output_start q = s.output_start q ∧ r.output_end q = s.output_end q

/-- From `s` to `r` the originating phrase is the same and only its buffer
has changed. -/
def Own (s r : State) : Prop :=
  r.original_phrase_nb = s.original_phrase_nb ∧ Kept s.original_phrase_nb s r

theorem own_refl (s : State) : Own s s := ⟨rfl, fun _ _ => ⟨fun _ => rfl, rfl, rfl⟩⟩

theorem own_trans {s r t : State} (h1 : Own s r) (h2 : Own r t) : Own s t := by
  refine ⟨h2.1.trans h1.1, fun q hq => ?_⟩
  obtain ⟨a1, a2, a3⟩ := h1.2 q hq
  obtain ⟨b1, b2, b3⟩ := h2.2 q (by rw [h1.1]; exact hq)
  exact ⟨fun i => (b1 i).trans (a1 i), b2.trans a2, b3.trans a3⟩

theorem put_chars_other (p : Nat) : ∀ (cs : List Char) (out out' : Nat → Nat → Char) (i : Int),
    put_chars out p i cs = .ok out' → ∀ j q, q ≠ p → out' j q = out j q := by
  intro cs
  induction cs with
  | nil =>
    intro out out' i h j q _
    simp only [put_chars, pure_eq_ok] at h
    injection h with h
    rw [h]
  | cons c cs ih =>
    intro out out' i h j q hq
    by_cases hi : 0 ≤ i ∧ i ≤ MAX_OUTPUT
    · simp only [put_chars, hi, and_self, if_true] at h
      rw [ih _ _ _ h j q hq]
      by_cases hj : j = i.toNat
      · rw [hj, upd_same, upd_other _ _ _ _ hq]
      · rw [upd_other _ _ _ _ hj]
    · simp only [put_chars, hi, if_false] at h
      cases h

theorem post_front_kept (s : State) (p : Nat) (str : String) (Q : State → Prop)
    (h : ∀ out, (∀ i q, q ≠ p → out i q = s.phrase_output i q) →
      Q { s with output_start := upd s.output_start p (s.output_start p - str.data.length),
                 phrase_output := out }) :
    Post (output_at_front s p str) Q := by
  rw [post_output_at_front_iff]
  intro out hout
  exact h out (put_chars_other p _ _ _ _ hout)

theorem post_back_kept (s : State) (p : Nat) (str : String) (Q : State → Prop)
    (h : ∀ out, (∀ i q, q ≠ p → out i q = s.phrase_output i q) →
      Q { s with output_end := upd s.output_end p (s.output_end p + str.data.length),
                 phrase_output := out }) :
    Post (output_at_back s p str) Q := by
  rw [post_output_at_back_iff]
  intro out hout
  exact h out (put_chars_other p _ _ _ _ hout)

theorem refer_own (g : Phrases) (previous_type : Nat) (s : State) :
    Post (refer g previous_type s) fun r => Own s r.2 := by
  unfold refer
  simp only [post_ite, post_pure, post_ok, post_bind, post_map, post_throw, post_advance]
  repeat' first | apply And.intro | intro _ | apply post_front_kept | apply post_back_kept
  all_goals first | trivial | (simp_all [Own, Kept, upd]; done)

theorem data_continuation_own (g : Phrases) (s : State) :
    Post (data_continuation g s) fun r => Own s r.2 := by
  unfold data_continuation
  simp only [post_ite, post_pure, post_ok, post_bind, post_map, post_throw, post_advance]
  repeat' first
    | apply And.intro
    | intro _
    | apply post_front_kept
    | apply post_back_kept
    | refine post_mono (refer_own _ _ _) (fun r hr => own_trans ?_ hr)
  all_goals first | trivial | (simp_all [Own, Kept, upd]; done)

theorem complex_variable_own (g : Phrases) (s : State) :
    Post (complex_variable g s) fun r => Own s r.2 := by
  unfold complex_variable
  simp only [post_ite, post_pure, post_ok, post_bind, post_map, post_throw, post_advance]
  repeat' first | apply And.intro | intro _ | apply post_front_kept | apply post_back_kept
  all_goals first | trivial | (simp_all [Own, Kept, upd]; done)

theorem finish_basic_own (s : State) (t : Nat) :
    Post (finish_basic s t) fun r => Own s r.2 := by
  unfold finish_basic
  simp only [post_ite, post_pure, post_ok, post_bind, post_map, post_throw, post_advance]
  repeat' first | apply And.intro | intro _ | apply post_front_kept | apply post_back_kept | apply post_intro
  all_goals first | trivial | (simp_all [Own, Kept, upd]; done)

/-- At stage `START` the function `process_basic` writes into the buffer of
`phrase_nb`: it is that of the originating phrase when the two are the same. -/
theorem process_basic_own (g : Phrases) (s : State)
    (hst : s.stage s.original_phrase_nb = START → s.phrase_nb = s.original_phrase_nb) :
    Post (process_basic g s) fun r => Own s r.2 := by
  unfold process_basic
  simp only [post_ite, post_pure, post_ok, post_bind, post_map, post_throw, post_advance]
  repeat' first
    | apply And.intro
    | intro _
    | apply post_front_kept
    | apply post_back_kept
    | refine post_mono (finish_basic_own _ _) (fun r hr => own_trans ?_ hr)
  all_goals first | trivial | (simp_all [Own, Kept, upd]; done)

theorem array_kind_own (g : Phrases) (n : Int) (s : State) :
    Post (array_kind g n s) fun r => Own s r.2 := by
  unfold array_kind
  simp only [post_ite, post_pure, post_ok, post_bind, post_map, post_throw, post_advance]
  repeat' first
    | apply And.intro
    | intro _
    | refine post_mono (data_continuation_own _ _) (fun r hr => own_trans ?_ hr)
  all_goals first | trivial | (simp_all [Own, Kept, upd]; done)

theorem array_dimension_own (g : Phrases) (s : State) :
    Post (array_dimension g s) fun r => Own s r.2 := by
  unfold array_dimension
  simp only [post_ite, post_pure, post_ok, post_bind, post_map, post_throw, post_advance]
  refine post_intro fun n => ?_
  repeat' first
    | apply And.intro
    | intro _
    | apply post_front_kept
    | apply post_back_kept
    | refine post_mono (array_kind_own _ _ _) (fun r hr => own_trans ?_ hr)
  all_goals first | trivial | (simp_all [Own, Kept, upd]; done)

theorem process_array_own (g : Phrases) (s : State) :
    Post (process_array g s) fun r => Own s r.2 := by
  rw [process_array_eq, post_bind]
  refine post_mono (complex_variable_own g s) ?_
  intro r hr
  simp only [post_ite, post_pure, post_ok, post_bind, post_map, post_throw, post_advance]
  repeat' first
    | apply And.intro
    | intro _
    | refine post_mono (array_dimension_own _ _) (fun r hr => own_trans ?_ hr)
  all_goals first | assumption | (simp_all [Own, Kept, upd]; done)

theorem pointer_kind_own (g : Phrases) (singular : Bool) (s : State) :
    Post (pointer_kind g singular s) fun r => Own s r.2 := by
  unfold pointer_kind
  simp only [post_ite, post_pure, post_ok, post_bind, post_map, post_throw, post_advance]
  repeat' first
    | apply And.intro
    | intro _
    | apply post_front_kept
    | apply post_back_kept
    | refine post_mono (data_continuation_own _ _) (fun r hr => own_trans ?_ hr)
  all_goals first | trivial | (simp_all [Own, Kept, upd]; done)

theorem pointer_target_own (g : Phrases) (singular : Bool) (s : State) :
    Post (pointer_target g singular s) fun r => Own s r.2 := by
  unfold pointer_target
  simp only [post_ite, post_pure, post_ok, post_bind, post_map, post_throw, post_advance]
  repeat' first
    | apply And.intro
    | intro _
    | apply post_front_kept
    | apply post_back_kept
    | refine post_mono (pointer_kind_own _ _ _) (fun r hr => own_trans ?_ hr)
  all_goals first | trivial | (simp_all [Own, Kept, upd]; done)

theorem process_pointer_own (g : Phrases) (s : State) :
    Post (process_pointer g s) fun r => Own s r.2 := by
  unfold process_pointer
  rw [post_bind]
  refine post_intro fun c => ?_
  rw [post_bind]
  refine post_mono (complex_variable_own g s) ?_
  intro r hr
  simp only [post_ite, post_pure, post_ok, post_bind, post_map, post_throw, post_advance]
  repeat' first
    | apply And.intro
    | intro _
    | apply post_front_kept
    | apply post_back_kept
    | refine post_mono (pointer_target_own _ _ _) (fun r hr => own_trans ?_ hr)
  all_goals first | assumption | (simp_all [Own, Kept, upd]; done)

theorem function_result_own (g : Phrases) (s : State) :
    Post (function_result g s) fun r => Own s r.2 := by
  unfold function_result
  simp only [post_ite, post_pure, post_ok, post_bind, post_map, post_throw, post_advance]
  repeat' first
    | apply And.intro
    | intro _
    | apply post_front_kept
    | apply post_back_kept
    | refine post_mono (data_continuation_own _ _) (fun r hr => own_trans ?_ hr)
  all_goals first | trivial | (simp_all [Own, Kept, upd]; done)

theorem process_function_own (g : Phrases) (s : State) :
    Post (process_function g s) fun r => Own s r.2 := by
  rw [process_function_eq, post_bind]
  refine post_mono (complex_variable_own g s) ?_
  intro r hr
  simp only [post_ite, post_pure, post_ok, post_bind, post_map, post_throw, post_advance]
  repeat' first
    | apply And.intro
    | intro _
    | apply post_front_kept
    | apply post_back_kept
    | refine post_mono (function_result_own _ _) (fun r hr => own_trans ?_ hr)
  all_goals first | assumption | (simp_all [Own, Kept, upd]; done)

/-! ## The states of the loop of the second pass -/

/-- The states of the `while` loop of the second pass for one originating
phrase: the loop that starts in `s` reaches `t` after some iterations. -/
inductive Loop (g : Phrases) : State → State → Prop
  | start (s : State) : Loop g s s
  | next (s s1 t : State) :
    ¬ (s.stage s.original_phrase_nb = FINISHED ∨ s.stage s.original_phrase_nb = ERROR) →
    step g s = .ok s1 → Loop g s1 t → Loop g s t

/-- The state in which the loop ends is one of the states of the loop. -/
theorem resolve_loop (g : Phrases) : ∀ (fuel : Nat) (s t : State),
    resolve g fuel s = .ok t → Loop g s t := by
  intro fuel
  induction fuel with
  | zero =>
    intro s t h
    by_cases hd : s.stage s.original_phrase_nb = FINISHED ∨ s.stage s.original_phrase_nb = ERROR
    · rw [resolve_done g 0 s hd] at h
      injection h with h
      rw [← h]
      exact Loop.start s
    · simp only [resolve, hd, if_false] at h
      cases h
  | succ k ih =>
    intro s t h
    by_cases hd : s.stage s.original_phrase_nb = FINISHED ∨ s.stage s.original_phrase_nb = ERROR
    · rw [resolve_done g (k + 1) s hd] at h
      injection h with h
      rw [← h]
      exact Loop.start s
    · rw [resolve_step g k s hd] at h
      cases hs : step g s with
      | error e => rw [hs] at h; cases h
      | ok s1 =>
        rw [hs] at h
        exact Loop.next s s1 t hd hs (ih s1 t h)

theorem step_own (g : Phrases) (s : State)
    (hst : s.stage s.original_phrase_nb = START → s.phrase_nb = s.original_phrase_nb) :
    Post (step g s) (Own s) := by
  have key : ∀ r : Nat × State, Own s r.2 →
      Own s { r.2 with stage := upd r.2.stage r.2.original_phrase_nb r.1 } :=
    fun r hr => ⟨hr.1, hr.2⟩
  unfold step
  rw [post_map]
  split
  · exact post_mono (process_array_own g s) key
  · split
    · exact post_mono (process_function_own g s) key
    · split
      · exact post_mono (process_pointer_own g s) key
      · exact post_mono (process_basic_own g s hst) key

/-- After an iteration the stage of the originating phrase is not `START`. -/
theorem step_started (g : Phrases) (s : State) :
    Post (step g s) fun s1 => s1.stage s1.original_phrase_nb ≠ START := by
  have key : ∀ r : Nat × State, Outcome g s r →
      ({ r.2 with stage := upd r.2.stage r.2.original_phrase_nb r.1 } : State).stage
        r.2.original_phrase_nb ≠ START := by
    intro r hr
    simp only [upd_same]
    rcases hr.2.2 with h | h | h | h
    · rw [h]; decide
    · rw [h]; decide
    · rw [h.1]; decide
    · rw [h.1]; decide
  unfold step
  rw [post_map]
  split
  · exact post_mono (process_array_outcome g s) key
  · split
    · exact post_mono (process_function_outcome g s) key
    · split
      · exact post_mono (process_pointer_outcome g s) key
      · exact post_mono (process_basic_outcome g s) key

theorem loop_own (g : Phrases) (s t : State) (h : Loop g s t)
    (hst : s.stage s.original_phrase_nb = START → s.phrase_nb = s.original_phrase_nb) :
    Own s t := by
  induction h with
  | start s => exact own_refl s
  | next s s1 t _ hs _ ih =>
    have h1 := post_elim (step_own g s hst) hs
    have h2 := post_elim (step_started g s) hs
    exact own_trans h1 (ih (fun h => absurd h h2))

theorem resolve_own (g : Phrases) (fuel : Nat) (s : State)
    (hst : s.stage s.original_phrase_nb = START → s.phrase_nb = s.original_phrase_nb) :
    Post (resolve g fuel s) (Own s) := by
  cases h : resolve g fuel s with
  | error e => exact (post_error e _).2 trivial
  | ok t => exact (post_ok t _).2 (loop_own g s t (resolve_loop g fuel s t h) hst)

theorem line_of_kept (p q : Nat) (s t : State) (h : Kept p s t) (hq : q ≠ p) :
    t.line q = s.line q := by
  obtain ⟨h1, h2, h3⟩ := h q hq
  unfold State.line
  simp only [h1, h2, h3]

/-! ## Reference resolution -/

theorem main_of_pass_refs_error (argv : List String) (e : Halt)
    (h : pass_refs argv = .error e) : main argv = .error e := by
  simp [main, main_state, prepare, h]

/-- C9. Reference resolution requires exactly one match. Let `g`, `s` be the
globals after the first pass, with `n = g.nb_phrases` phrases (any number).
For every phrase `p` with a reference name `r`: if the number of phrases whose
declared name is `r` is not 1 (zero, or two or more), the run stops with the
diagnostic; if it is 1, the inner loop of the reference pass leaves
`continuation[p]` equal to the index `q` of the unique phrase declaring `r`,
and so does the whole reference pass whenever it completes. The pass
completes exactly when every reference is declared once. -/
theorem reference_resolution (argv : List String) (g : Phrases) (s : State)
    (h : pass_one argv = .ok (g, s)) :
    (∀ p r, p < g.nb_phrases → g.reference p = some r →
      declared_count s g.nb_phrases r ≠ 1 → main argv = .error Halt.incorrect_input) ∧
    (∀ p r q, p < g.nb_phrases → g.reference p = some r →
      declared_count s g.nb_phrases r = 1 → q < g.nb_phrases → s.var_name q = some r →
      (∀ cont, (match_references g s p g.nb_phrases 0 (0, cont)).2 p = (q : Int)) ∧
      ∀ g' s', pass_refs argv = .ok (g', s') → g'.continuation p = (q : Int)) ∧
    ((∀ p r, p < g.nb_phrases → g.reference p = some r →
        declared_count s g.nb_phrases r = 1) ↔
      ∃ g' s', pass_refs argv = .ok (g', s')) := by
  have hrefs : pass_refs argv =
      reference_pass g.nb_phrases (g, { s with phrase_nb := 0 }) := by
    simp [pass_refs, h]
  have hspec := reference_pass_spec g.nb_phrases g { s with phrase_nb := 0 }
  refine ⟨?_, ?_, ?_⟩
  · intro p r hp hr hne
    apply main_of_pass_refs_error
    rw [hrefs]
    rcases hspec with ⟨he, _⟩ | ⟨cont, _, hA, _, _⟩
    · exact he
    · exact absurd (hA p r (Nat.zero_le _) (by simpa using hp) hr).1 hne
  · intro p r q hp hr hone hq hv
    refine ⟨?_, ?_⟩
    · intro cont
      exact match_references_unique g s p q r hr hv g.nb_phrases 0 0 cont (Nat.zero_le _)
        (by omega)
        (fun q' _ b c => declared_count_unique s g.nb_phrases r hone q q' hq (by omega) hv c)
    · intro g' s' hok
      rw [hrefs] at hok
      rcases hspec with ⟨he, _⟩ | ⟨cont, he, hA, _, _⟩
      · rw [he] at hok; cases hok
      · rw [he] at hok
        injection hok with hok
        injection hok with hg _
        rw [← hg]
        exact (hA p r (Nat.zero_le _) (by simpa using hp) hr).2 q hq hv
  · constructor
    · intro hall
      rw [hrefs]
      rcases hspec with ⟨_, p, r, _, h2, h3, h4⟩ | ⟨cont, he, _, _, _⟩
      · exact absurd (hall p r (by simpa using h2) h3) h4
      · exact ⟨_, _, he⟩
    · rintro ⟨g', s', hok⟩ p r hp hr
      rw [hrefs] at hok
      rcases hspec with ⟨he, _⟩ | ⟨cont, _, hA, _, _⟩
      · rw [he] at hok; cases hok
      · exact (hA p r (Nat.zero_le _) (by simpa using hp) hr).1

/-- Witness of C9 on `An array of 2 data of type the type of X. A pointer X
to a datum of type int.`: the first pass completes, phrase 0 refers to `X`,
which phrase 1 alone declares, and the reference pass sets `continuation[0]`
to 1. -/
theorem reference_resolution_witness :
    ∃ g s, pass_one ["types", "An", "array", "of", "2", "data", "of", "type", "the", "type",
        "of", "X.", "A", "pointer", "X", "to", "a", "datum", "of", "type", "int."]
        = .ok (g, s) ∧
      g.nb_phrases = 2 ∧ g.reference 0 = some "X" ∧ s.var_name 1 = some "X" ∧
      declared_count s g.nb_phrases "X" = 1 ∧
      ∀ g' s', pass_refs ["types", "An", "array", "of", "2", "data", "of", "type", "the",
        "type", "of", "X.", "A", "pointer", "X", "to", "a", "datum", "of", "type", "int."]
        = .ok (g', s') → g'.continuation 0 = 1 :=
  by
  refine ⟨_, _, rfl, by decide, by decide, by decide, by decide, ?_⟩
  exact ((reference_resolution ["types", "An", "array", "of", "2", "data", "of", "type", "the",
    "type", "of", "X.", "A", "pointer", "X", "to", "a", "datum", "of", "type", "int."] _ _
    rfl).2.1 0 "X" 1 (by decide) (by decide) (by decide) (by decide) (by decide)).2

/-! ## Rejection of reference loops -/

theorem main_of_prepare_error (argv : List String) (e : Halt)
    (h : prepare argv = .error e) : main argv = .error e := by
  simp [main, main_state, h]

/-- C10. Loop rejection. Let `g` be the globals after the reference pass. If
for some `k ≥ 1` a phrase `p` comes back to itself after `k` continuation
edges (`k = 1`: the phrase refers to the name it declares), the run stops with
the diagnostic, wherever the phrases of the loop stand in the input. -/
theorem loop_rejected (argv : List String) (g : Phrases) (s : State)
    (h : pass_refs argv = .ok (g, s)) (k p : Nat) (hk : 1 ≤ k) (hp : p < g.nb_phrases)
    (hc : walk g k (p : Int) = (p : Int)) :
    main argv = .error Halt.incorrect_input := by
  apply main_of_prepare_error
  have hrefs : PassRefs argv g :=
    post_elim (Q := fun r => PassRefs argv r.1) (pass_refs_spec argv) h
  have hprep : prepare argv = check_loops g.nb_phrases (g, { s with phrase_nb := 0 }) := by
    simp [prepare, h]
  rw [hprep]
  rcases check_loops_spec g.nb_phrases g { s with phrase_nb := 0 } hrefs.2.2.2 (by simp)
    with he | ⟨chain, _, hall⟩
  · exact he
  · exfalso
    obtain ⟨d, _, hends⟩ := hall p (Nat.zero_le _) (by simpa using hp)
    apply not_ends_of_cycle g k hk p hc (d + 1)
    unfold Ends at hends ⊢
    rw [walk, next_phrase, if_neg (by simp only [NO_DATA]; omega)]
    simpa using hends

/-- Witness of C10: in `A pointer a1 to a datum of type the type of a2. A
pointer a2 to a datum of type the type of a1.` phrase 0 comes back to itself
after two continuation edges, and the run stops with the diagnostic. -/
theorem loop_rejected_witness :
    (∃ g s, pass_refs ["types", "A", "pointer", "a1", "to", "a", "datum", "of", "type", "the",
        "type", "of", "a2.", "A", "pointer", "a2", "to", "a", "datum", "of", "type", "the",
        "type", "of", "a1."] = .ok (g, s) ∧ g.nb_phrases = 2 ∧
        walk g 2 ((0 : Nat) : Int) = ((0 : Nat) : Int)) ∧
      main ["types", "A", "pointer", "a1", "to", "a", "datum", "of", "type", "the",
        "type", "of", "a2.", "A", "pointer", "a2", "to", "a", "datum", "of", "type", "the",
        "type", "of", "a1."] = .error Halt.incorrect_input := by
  refine ⟨⟨_, _, rfl, by decide, by decide⟩, ?_⟩
  exact loop_rejected ["types", "A", "pointer", "a1", "to", "a", "datum", "of", "type", "the",
        "type", "of", "a2.", "A", "pointer", "a2", "to", "a", "datum", "of", "type", "the",
        "type", "of", "a1."] _ _ rfl 2 0 (by decide) (by decide) (by decide)

/-! ## The run is all or nothing -/

/-- C1, as stated, fails: on `An int NAME.` with a name of 120 letters the run
prints neither the phrase line nor the diagnostic, it writes outside the
`MAX_OUTPUT` rows of `phrase_output`. -/
theorem all_or_nothing_refuted :
    main ["types", "An", "int",
      "aaaaaaaaaaaaaaaaaaaaaaaaaaaaaaaaaaaaaaaaaaaaaaaaaaaaaaaaaaaaaaaaaaaaaaaaaaaaaaaaaaaaaaaaaaaaaaaaaaaaaaaaaaaaaaaaaaaaaaaa."]
      = .error Halt.undefined := by
  decide

/-- C1, amended. For every input word sequence the run either leaves the
bounds of its arrays or of `int` (undefined behaviour), or is all-or-nothing:
it stops with the single diagnostic `Incorrect input` and no phrase line, or
it reaches the print loop, which prints exactly one line per phrase, in input
order, each line being the output buffer of that phrase, and then every
phrase has stage `FINISHED`. The run never lacks fuel: the loops end. -/
theorem all_or_nothing (argv : List String) :
    main argv = .error Halt.undefined ∨
    main argv = .error Halt.incorrect_input ∨
    ∃ g s, main_state argv = .ok (g, s) ∧
      main argv = .ok ((List.range g.nb_phrases).map s.line) ∧
      ((List.range g.nb_phrases).map s.line).length = g.nb_phrases ∧
      ∀ p, p < g.nb_phrases → s.stage p = FINISHED := by
  have hsafe := safe_prepare argv
  have hspec := prepare_spec argv
  have halt : ∀ e : Halt, e ≠ Halt.out_of_fuel →
      e = Halt.undefined ∨ e = Halt.incorrect_input := by
    intro e he
    cases e
    · exact Or.inr rfl
    · exact Or.inl rfl
    · exact absurd rfl he
  cases hprep : prepare argv with
  | error e =>
    rw [hprep, safe_error] at hsafe
    have hm := main_of_prepare_error argv e hprep
    rcases halt e hsafe with h | h
    · left; rw [hm, h]
    · right; left; rw [hm, h]
  | ok r =>
    have hready : Ready argv r.1 := post_elim (Q := fun r => Ready argv r.1) hspec hprep
    have hpass := second_pass_spec argv r.1 hready r.1.nb_phrases
      { r.2 with original_phrase_nb := 0 } (by simp)
    have hstate : main_state argv =
        (second_pass r.1 r.1.nb_phrases { r.2 with original_phrase_nb := 0 }).map fun s =>
          (r.1, s) := by
      simp [main_state, hprep]
    cases hsec : second_pass r.1 r.1.nb_phrases { r.2 with original_phrase_nb := 0 } with
    | error e =>
      rw [hsec, safe_error] at hpass
      have hm : main argv = .error e := by simp [main, hstate, hsec]
      rcases halt e hpass.1 with h | h
      · left; rw [hm, h]
      · right; left; rw [hm, h]
    | ok s =>
      right; right
      have hfin := post_elim hpass.2 hsec
      refine ⟨r.1, s, by simp [hstate, hsec], by simp [main, hstate, hsec], by simp, ?_⟩
      intro p hp
      exact hfin.1 p (Nat.zero_le _) (by simpa using hp)

/-! ## Parentheses across a reference -/

/-- The jump of `data_continuation` to the continuation `t`, when the buffer
has room for one more character on each side. -/
theorem refer_text (g : Phrases) (previous_type : Nat) (s : State) (t a e : Nat)
    (ht : g.continuation s.phrase_nb = (t : Int)) (hv : (t : Int) ≤ g.max_phrase_index)
    (hw : Window s s.original_phrase_nb a e) (ha : 1 ≤ a) (he : e + 1 ≤ MAX_OUTPUT) :
    ∃ s', refer g previous_type s = .ok (REFER, s') ∧
      s'.phrase_nb = t ∧ s'.current = g.phrase_start t + 1 ∧
      s'.original_phrase_nb = s.original_phrase_nb ∧ s'.type = s.type ∧
      (s'.line s.original_phrase_nb).data =
        if s.type t = BASIC then ' ' :: (s.line s.original_phrase_nb).data
        else if previous_type = POINTER ∧ (s.type t = FUNCTION ∨ s.type t = ARRAY) then
          '(' :: (s.line s.original_phrase_nb).data ++ [')']
        else (s.line s.original_phrase_nb).data := by
  unfold refer
  have h1 : ¬ ((t : Int) < 0 ∨ g.max_phrase_index < (t : Int)) := by omega
  simp only [ht, h1, if_false, Int.toNat_ofNat]
  by_cases hb : s.type t = BASIC
  · have hne : ¬ (previous_type = POINTER ∧ (s.type t = FUNCTION ∨ s.type t = ARRAY)) := by
      rw [hb]; simp
    obtain ⟨f1, f2, f3⟩ := output_at_front_window
      { s with phrase_nb := t, current := g.phrase_start t + 1 } s.original_phrase_nb a e " "
      hw (by simpa using ha)
    simp only [hb, if_true, f1, bind_ok]
    have hne' : ¬ (previous_type = POINTER ∧
        ((front_state { s with phrase_nb := t, current := g.phrase_start t + 1 }
            s.original_phrase_nb " ").type t = FUNCTION ∨
         (front_state { s with phrase_nb := t, current := g.phrase_start t + 1 }
            s.original_phrase_nb " ").type t = ARRAY)) := hne
    simp only [front_state] at hne'
    simp only [front_state, hne', if_false, pure_eq_ok]
    refine ⟨_, rfl, rfl, rfl, rfl, rfl, ?_⟩
    exact f3
  · simp only [hb, if_false, pure_eq_ok, bind_ok]
    by_cases hp : previous_type = POINTER ∧ (s.type t = FUNCTION ∨ s.type t = ARRAY)
    · obtain ⟨f1, f2, f3⟩ := output_at_front_window
        { s with phrase_nb := t, current := g.phrase_start t + 1 } s.original_phrase_nb a e "("
        hw (by simpa using ha)
      obtain ⟨b1, b2, b3⟩ := output_at_back_window _ s.original_phrase_nb _ e ")" f2
        (Nat.le_succ_of_le (by simpa using he))
      simp only [hp, and_self, if_true, f1, bind_ok]
      have e1 : (front_state { s with phrase_nb := t, current := g.phrase_start t + 1 }
            s.original_phrase_nb "(").original_phrase_nb = s.original_phrase_nb := rfl
      rw [e1, b1, map_ok]
      refine ⟨_, rfl, rfl, rfl, rfl, rfl, ?_⟩
      rw [b3, f3]
      rfl
    · simp only [hp, if_false, pure_eq_ok]
      refine ⟨_, rfl, rfl, rfl, rfl, rfl, ?_⟩
      rfl


theorem data_continuation_refer (g : Phrases) (s : State)
    (h1 : g.word (s.current + 1) = "of") (h2 : g.word (s.current + 2) = "type")
    (h3 : g.word (s.current + 3) = "the") (h4 : g.word (s.current + 4) = "type")
    (h5 : g.word (s.current + 5) = "of")
    (hend : s.current + 5 ≤ g.phrase_end s.phrase_nb) :
    data_continuation g s =
      refer g (s.type s.phrase_nb)
        { s with type := upd s.type s.phrase_nb BASIC, current := s.current + 5 } := by
  unfold data_continuation
  have e0 : ¬ s.current = g.phrase_end s.phrase_nb := by omega
  have e1 : ¬ s.current + 1 = g.phrase_end s.phrase_nb := by omega
  have e2 : ¬ s.current + 1 + 1 = g.phrase_end s.phrase_nb := by omega
  have e3 : ¬ s.current + 1 + 1 + 1 = g.phrase_end s.phrase_nb := by omega
  have e4 : ¬ s.current + 1 + 1 + 1 + 1 = g.phrase_end s.phrase_nb := by omega
  simp only [advance_eq, e0, e1, e2, e3, e4, if_false, h1, h2, h3, h4, h5, ne_eq,
    not_true_eq_false, if_true]

/-- Parentheses across a reference, the rule. Take `data_continuation` on the branch
`of type the type of`, with a continuation `t` that is a phrase index, other
than the phrase being read, whose kind in `type` is its intrinsic kind, and a
buffer with room for one character on each side. It returns `REFER` at the
second word of phrase `t`, and the content `c` of the originating buffer
becomes `(c)` if and only if the kind in force before the data word was
`POINTER` and the intrinsic kind of `t` is `ARRAY` or `FUNCTION`; it becomes
`c` preceded by one space if and only if the intrinsic kind of `t` is `BASIC`;
otherwise it stays `c`: the jump writes nothing else. -/
theorem reference_hop_text (g : Phrases) (s : State) (t a e : Nat)
    (h1 : g.word (s.current + 1) = "of") (h2 : g.word (s.current + 2) = "type")
    (h3 : g.word (s.current + 3) = "the") (h4 : g.word (s.current + 4) = "type")
    (h5 : g.word (s.current + 5) = "of")
    (hend : s.current + 5 ≤ g.phrase_end s.phrase_nb)
    (ht : g.continuation s.phrase_nb = (t : Int)) (hv : (t : Int) ≤ g.max_phrase_index)
    (hne : t ≠ s.phrase_nb) (hkind : s.type t = intrinsic_type g t)
    (hw : Window s s.original_phrase_nb a e) (ha : 1 ≤ a) (he : e + 1 ≤ MAX_OUTPUT) :
    ∃ s', data_continuation g s = .ok (REFER, s') ∧
      s'.phrase_nb = t ∧ s'.current = g.phrase_start t + 1 ∧
      ((s'.line s.original_phrase_nb).data = '(' :: (s.line s.original_phrase_nb).data ++ [')']
        ↔ s.type s.phrase_nb = POINTER ∧
          (intrinsic_type g t = ARRAY ∨ intrinsic_type g t = FUNCTION)) ∧
      ((s'.line s.original_phrase_nb).data = ' ' :: (s.line s.original_phrase_nb).data
        ↔ intrinsic_type g t = BASIC) ∧
      ((s'.line s.original_phrase_nb).data = '(' :: (s.line s.original_phrase_nb).data ++ [')'] ∨
        (s'.line s.original_phrase_nb).data = ' ' :: (s.line s.original_phrase_nb).data ∨
        (s'.line s.original_phrase_nb).data = (s.line s.original_phrase_nb).data) := by
  rw [data_continuation_refer g s h1 h2 h3 h4 h5 hend]
  obtain ⟨s', r1, r2, r3, _, _, r6⟩ := refer_text g (s.type s.phrase_nb)
    { s with type := upd s.type s.phrase_nb BASIC, current := s.current + 5 } t a e ht hv hw ha he
  refine ⟨s', r1, r2, r3, ?_⟩
  have hty : upd s.type s.phrase_nb BASIC t = intrinsic_type g t := by
    rw [upd_other _ _ _ _ hne, hkind]
  simp only [hty] at r6
  have eline : ({ s with type := upd s.type s.phrase_nb BASIC, current := s.current + 5 } :
      State).line s.original_phrase_nb = s.line s.original_phrase_nb := rfl
  rw [eline] at r6
  generalize (s'.line s.original_phrase_nb).data = c' at r6 ⊢
  generalize (s.line s.original_phrase_nb).data = c at r6 ⊢
  have n1 : ¬ ('(' :: c ++ [')'] = ' ' :: c) := by
    intro h
    have := congrArg List.length h
    simp only [List.length_cons, List.length_append, List.length_nil] at this
    omega
  have n2 : ¬ ('(' :: c ++ [')'] = c) := by
    intro h
    have := congrArg List.length h
    simp only [List.length_cons, List.length_append, List.length_nil] at this
    omega
  have n3 : ¬ (' ' :: c = c) := by
    intro h
    have := congrArg List.length h
    simp only [List.length_cons, List.length_append, List.length_nil] at this
    omega
  have n4 : ¬ (' ' :: c = '(' :: c ++ [')']) := fun h => n1 h.symm
  have n5 : ¬ (c = '(' :: c ++ [')']) := fun h => n2 h.symm
  have n6 : ¬ (c = ' ' :: c) := fun h => n3 h.symm
  by_cases hb : intrinsic_type g t = BASIC
  · rw [if_pos hb] at r6
    subst r6
    refine ⟨⟨fun h => absurd h n4, fun h => ?_⟩, ⟨fun _ => hb, fun _ => rfl⟩, Or.inr (Or.inl rfl)⟩
    rw [hb] at h
    rcases h.2 with h | h <;> cases h
  · rw [if_neg hb] at r6
    by_cases hp : s.type s.phrase_nb = POINTER ∧
        (intrinsic_type g t = FUNCTION ∨ intrinsic_type g t = ARRAY)
    · rw [if_pos hp] at r6
      subst r6
      exact ⟨⟨fun _ => ⟨hp.1, hp.2.symm⟩, fun _ => rfl⟩,
        ⟨fun h => absurd h n1, fun h => absurd h hb⟩, Or.inl rfl⟩
    · rw [if_neg hp] at r6
      subst r6
      exact ⟨⟨fun h => absurd h n5, fun h => absurd ⟨h.1, h.2.symm⟩ hp⟩,
        ⟨fun h => absurd h n6, fun h => absurd h hb⟩, Or.inr (Or.inr rfl)⟩
/-! ## Article agreement in the pointer rule -/

theorem check_preposition_mismatch (art w : String)
    (h : (art = "a" ∧ check_vowel (first_char w) = true) ∨
      (art = "an" ∧ check_vowel (first_char w) = false)) :
    check_preposition art w false = false := by
  unfold check_preposition
  rcases h with ⟨ha, hv⟩ | ⟨ha, hv⟩
  · subst ha
    have : ¬ ("a" = "an") := by decide
    simp [hv, this]
  · subst ha
    have : ¬ ("an" = "a") := by decide
    simp [hv, this]

/-- After the star, a singular pointer whose article disagrees with the next
word is an error. -/
theorem pointer_target_mismatch (g : Phrases) (s2 : State)
    (h : (g.word s2.current = "a" ∧ check_vowel (first_char (g.word (s2.current + 1))) = true) ∨
      (g.word s2.current = "an" ∧
        check_vowel (first_char (g.word (s2.current + 1))) = false)) :
    ∃ s', pointer_target g true s2 = .ok (ERROR, s') ∧
      s'.original_phrase_nb = s2.original_phrase_nb := by
  unfold pointer_target
  have hvoid : ¬ g.word s2.current = "void" := by
    rcases h with ⟨ha, _⟩ | ⟨ha, _⟩ <;> rw [ha] <;> decide
  simp only [hvoid, if_false, if_true, advance_eq]
  by_cases hend : s2.current = g.phrase_end s2.phrase_nb
  · simp only [hend, if_true, pure_eq_ok]
    exact ⟨_, rfl, rfl⟩
  · have hm := check_preposition_mismatch (g.word s2.current) (g.word (s2.current + 1)) h
    simp only [hend, if_false, Nat.add_sub_cancel, hm, Bool.not_false, if_true, pure_eq_ok]
    exact ⟨_, rfl, rfl⟩
/-! ## A phrase in error stops the run -/

/-- The body of the first pass for a phrase writes no stage but that of the
phrase. -/
theorem first_pass_phrase_frame (g : Phrases) (s : State) :
    Post (first_pass_phrase g s) fun r =>
      r.2.phrase_nb = s.phrase_nb ∧ ∀ q, q ≠ s.phrase_nb → r.2.stage q = s.stage q := by
  unfold first_pass_phrase
  simp only [post_ite, post_pure, post_ok, post_bind, post_map, post_throw]
  repeat' first
    | apply And.intro
    | intro _
    | refine post_mono (post_and (process_basic_outcome _ _) (process_basic_phrase_nb _ _)) ?_
  all_goals first
    | trivial
    | (simp_all [Outcome, upd]; done)
    | (split_ifs <;> simp_all [upd])

/-- A phrase of the first pass, as the pass met it: the globals had the words
and endpoints of `g`, and the body of the pass returned `r`. -/
def Met (g : Phrases) (p : Nat) (r : Phrases × State) : Prop :=
  ∃ gp sp, first_pass_phrase gp sp = .ok r ∧ gp.argv = g.argv ∧
    gp.phrase_start = g.phrase_start ∧ gp.phrase_end = g.phrase_end ∧ sp.phrase_nb = p

theorem first_pass_frame : ∀ (k : Nat) (g : Phrases) (s : State),
    Post (first_pass k (g, s)) fun r =>
      ∀ q, q < s.phrase_nb → r.2.stage q = s.stage q := by
  intro k
  induction k with
  | zero => intro g s; simp [first_pass, post_ok]
  | succ k ih =>
    intro g s
    rw [first_pass_step, post_bind]
    refine post_mono (first_pass_phrase_frame g s) ?_
    intro r hr
    refine post_mono (ih r.1 { r.2 with phrase_nb := r.2.phrase_nb + 1 }) ?_
    intro r' hr' q hq
    rw [hr' q (by simp only [hr.1]; omega)]
    exact hr.2 q (by omega)

/-- Every phrase the first pass went through was met by its body, and keeps
the stage the body gave it. -/
theorem first_pass_trace : ∀ (k : Nat) (g : Phrases) (s : State),
    Post (first_pass k (g, s)) fun r =>
      ∀ p, s.phrase_nb ≤ p → p < s.phrase_nb + k →
        ∃ rp, Met g p rp ∧ r.2.stage p = rp.2.stage p := by
  intro k
  induction k with
  | zero =>
    intro g s
    rw [first_pass, post_pure]
    intro p h1 h2; omega
  | succ k ih =>
    intro g s
    rw [first_pass_step, post_bind]
    refine post_of_forall ?_
    intro r hr
    have hspec := post_elim (first_pass_phrase_spec g s) hr
    have hframe := post_elim (first_pass_phrase_frame g s) hr
    obtain ⟨a1, _, a3, a4, _, a6, _⟩ := hspec
    refine post_mono (post_and (ih r.1 { r.2 with phrase_nb := r.2.phrase_nb + 1 })
      (first_pass_frame k r.1 { r.2 with phrase_nb := r.2.phrase_nb + 1 })) ?_
    intro r' hr' p h1 h2
    obtain ⟨b1, b2⟩ := hr'
    by_cases hp : p = s.phrase_nb
    · refine ⟨r, ⟨g, s, hr, rfl, rfl, rfl, hp.symm⟩, ?_⟩
      rw [b2 p (by simp only [a6]; omega)]
    · obtain ⟨rp, ⟨gp, sp, c1, c2, c3, c4, c5⟩, hst⟩ :=
        b1 p (by simp only [a6]; omega) (by simp only [a6]; omega)
      exact ⟨rp, ⟨gp, sp, c1, c2.trans a1, c3.trans a3, c4.trans a4, c5⟩, hst⟩

/-- The reference pass and the loop check write `continuation`, `chain` and
the loop counter only. -/
theorem prepare_of_pass_one (argv : List String) (g : Phrases) (s : State)
    (h : prepare argv = .ok (g, s)) :
    ∃ g1 s1, pass_one argv = .ok (g1, s1) ∧
      g.argv = g1.argv ∧ g.max_phrase_index = g1.max_phrase_index ∧
      g.phrase_start = g1.phrase_start ∧ g.phrase_end = g1.phrase_end ∧
      g.reference = g1.reference ∧
      s.stage = s1.stage ∧ s.var_name = s1.var_name ∧ s.type = s1.type ∧
      s.phrase_output = s1.phrase_output ∧ s.output_start = s1.output_start ∧
      s.output_end = s1.output_end := by
  unfold prepare at h
  obtain ⟨r2, h2, h3⟩ := bind_eq_ok h
  have hrefs : PassRefs argv r2.1 :=
    post_elim (Q := fun r => PassRefs argv r.1) (pass_refs_spec argv) h2
  unfold pass_refs at h2
  obtain ⟨r1, h1, h2'⟩ := bind_eq_ok h2
  refine ⟨r1.1, r1.2, h1, ?_⟩
  rcases reference_pass_spec r1.1.nb_phrases r1.1 { r1.2 with phrase_nb := 0 }
    with ⟨he, _⟩ | ⟨cont, he, _⟩
  · rw [he] at h2'; cases h2'
  · rw [he] at h2'
    cases h2'
    rcases check_loops_spec ({ r1.1 with continuation := cont } : Phrases).nb_phrases
      { r1.1 with continuation := cont }
      { ({ r1.2 with phrase_nb := 0 } : State) with phrase_nb := 0 } hrefs.2.2.2
      (by simp) with he' | ⟨chain, he', _⟩
    · rw [he'] at h3; cases h3
    · rw [he'] at h3
      cases h3
      exact ⟨rfl, rfl, rfl, rfl, rfl, rfl, rfl, rfl, rfl, rfl, rfl⟩

/-- After the loop check, every phrase was met by the body of the first pass
with the words and endpoints of the final globals, and has the stage that the
body gave it. -/
theorem prepare_trace (argv : List String) (g : Phrases) (s : State)
    (h : prepare argv = .ok (g, s)) :
    ∀ p, p < g.nb_phrases → ∃ rp, Met g p rp ∧ s.stage p = rp.2.stage p := by
  obtain ⟨g1, s1, h1, a1, a2, a3, a4, _, a6, _⟩ := prepare_of_pass_one argv g s h
  unfold pass_one at h1
  obtain ⟨r0, h0, h1'⟩ := bind_eq_ok h1
  have hspec := post_elim (first_pass_spec _ _ _) h1'
  have htrace := post_elim (first_pass_trace _ _ _) h1'
  obtain ⟨b1, b2, b3, b4, _⟩ := hspec
  simp only at b1 b2 b3 b4
  intro p hp
  have hnb : g.nb_phrases = r0.1.nb_phrases := by
    unfold Phrases.nb_phrases
    rw [a2, b2]
  obtain ⟨rp, ⟨gp, sp, c1, c2, c3, c4, c5⟩, hst⟩ :=
    htrace p (Nat.zero_le _) (by simp only [Nat.zero_add]; omega)
  refine ⟨rp, ⟨gp, sp, c1, ?_, ?_, ?_, c5⟩, ?_⟩
  · rw [c2, a1, b1]
  · rw [c3, a3, b3]
  · rw [c4, a4, b4]
  · rw [a6]; exact hst

/-- The `while` loop of an originating phrase writes no stage but that of the
phrase. -/
theorem resolve_frame (g : Phrases) : ∀ (fuel : Nat) (s : State),
    Post (resolve g fuel s) fun s' =>
      s'.original_phrase_nb = s.original_phrase_nb ∧
      ∀ q, q ≠ s.original_phrase_nb → s'.stage q = s.stage q := by
  intro fuel
  induction fuel with
  | zero =>
    intro s
    unfold resolve
    rw [post_ite, post_pure, post_throw]
    exact ⟨fun _ => ⟨rfl, fun _ _ => rfl⟩, fun _ => trivial⟩
  | succ k ih =>
    intro s
    unfold resolve
    rw [post_ite, post_pure, post_bind]
    refine ⟨fun _ => ⟨rfl, fun _ _ => rfl⟩, fun _ => ?_⟩
    refine post_mono (step_spec g s) ?_
    intro s1 hs1
    refine post_mono (ih s1) ?_
    intro s' hs'
    refine ⟨hs'.1.trans hs1.1, ?_⟩
    intro q hq
    rw [hs'.2 q (by rw [hs1.1]; exact hq)]
    exact hs1.2.1 q hq

/-- The second pass does not complete when one of the phrases it has to go
through has stage `ERROR`. -/
theorem second_pass_error (g : Phrases) : ∀ (k : Nat) (s : State) (p : Nat),
    s.original_phrase_nb ≤ p → p < s.original_phrase_nb + k → s.stage p = ERROR →
    ∀ s', second_pass g k s ≠ .ok s' := by
  intro k
  induction k with
  | zero => intro s p h1 h2; omega
  | succ k ih =>
    intro s p h1 h2 hst s' hok
    rw [second_pass_step] at hok
    obtain ⟨s2, e2, e3⟩ := bind_eq_ok hok
    have hf := post_elim (resolve_frame g _ _) e2
    simp only at hf
    obtain ⟨f1, f2⟩ := hf
    unfold after_phrase at e3
    by_cases herr : s2.stage s2.original_phrase_nb = ERROR
    · rw [if_pos herr] at e3
      cases e3
    · rw [if_neg herr] at e3
      have hne : p ≠ s.original_phrase_nb := by
        intro e
        apply herr
        rw [f1]
        by_cases hterm : s.stage s.original_phrase_nb = FINISHED ∨
            s.stage s.original_phrase_nb = ERROR
        · have := resolve_done g g.fuel
            { s with phrase_nb := s.original_phrase_nb,
                     current := g.phrase_start s.original_phrase_nb + 1 } hterm
          rw [this] at e2
          cases e2
          rw [← e]; exact hst
        · exact absurd (Or.inr (by rw [← e]; exact hst)) hterm
      exact ih _ p (by simp only [f1]; omega) (by simp only [f1]; omega)
        (by simp only; rw [f2 p hne]; exact hst) s' e3

theorem safe_main (argv : List String) : Safe (main argv) := by
  unfold main main_state
  rw [safe_map, safe_bind]
  refine ⟨safe_prepare argv, post_mono (prepare_spec argv) ?_⟩
  intro r hr
  rw [safe_map]
  exact (second_pass_spec argv r.1 hr r.1.nb_phrases _ (by simp)).1

theorem quiet_or_undefined (argv : List String) (h : ∀ r, main argv ≠ .ok r) :
    main argv = .error Halt.incorrect_input ∨ main argv = .error Halt.undefined := by
  have hs := safe_main argv
  cases hm : main argv with
  | ok r => exact absurd hm (h r)
  | error e =>
    rw [hm, safe_error] at hs
    cases e
    · exact Or.inl rfl
    · exact Or.inr rfl
    · exact absurd rfl hs

/-- A phrase that the first three passes leave with stage `ERROR` stops the
run: no line is printed. -/
theorem main_fails_of_stage (argv : List String) (g : Phrases) (s : State)
    (h : prepare argv = .ok (g, s)) (p : Nat) (hp : p < g.nb_phrases)
    (hst : s.stage p = ERROR) :
    main argv = .error Halt.incorrect_input ∨ main argv = .error Halt.undefined := by
  apply quiet_or_undefined
  intro r hm
  unfold main main_state at hm
  rw [h, bind_ok] at hm
  obtain ⟨a, ha, _⟩ := map_eq_ok hm
  obtain ⟨s', hs', _⟩ := map_eq_ok ha
  exact second_pass_error g g.nb_phrases { s with original_phrase_nb := 0 } p (Nat.zero_le _)
    (by simp only [Nat.zero_add]; exact hp) hst s' hs'

/-! ## The parentheses of a pointer to an array or to a function -/

theorem getLast_all {cs : List Char} {P : Char → Bool} (h : cs.all P = true) (c : Char)
    (hc : cs.getLast? = some c) : P c = true := by
  have hm : c ∈ cs := List.mem_of_getLast?_eq_some hc
  exact List.all_eq_true.mp h c hm

theorem full_stop_of_all (w : String) (P : Char → Bool) (hne : w.data ≠ [])
    (h : w.data.all P = true) (hP : P '.' = false) : ends_with_full_stop w = .ok false := by
  unfold ends_with_full_stop last_char
  cases hl : w.data.getLast? with
  | none => exact absurd (List.getLast?_eq_none_iff.mp hl) hne
  | some c =>
    have := getLast_all h c hl
    have hc : c ≠ '.' := by
      intro e; rw [e, hP] at this; cases this
    simp [hc]

theorem permitted_data (v : String) (h : permitted_variable_name v = true) :
    v ∉ illegal_variables ∧ v.data ≠ [] ∧
      v.data.all (fun c => c.isAlphanum || c = '_') = true := by
  unfold permitted_variable_name at h
  split at h
  · cases h
  · rename_i h1
    split at h
    · cases h
    · rename_i h2
      exact ⟨h1, fun e => h2 (Or.inr e), h⟩

theorem permitted_stop (v : String) (h : permitted_variable_name v = true) :
    ends_with_full_stop v = .ok false :=
  full_stop_of_all v _ (permitted_data v h).2.1 (permitted_data v h).2.2 (by decide)


theorem count_phrases_single : ∀ (ws : List String) (lastdot : String) (m : Int),
    (∀ w ∈ ws, ends_with_full_stop w = .ok false) → ends_with_full_stop lastdot = .ok true →
    count_phrases (ws ++ [lastdot]) m = .ok (m + 1) := by
  intro ws
  induction ws with
  | nil => intro lastdot m _ hl; simp [count_phrases, hl]
  | cons w ws ih =>
    intro lastdot m hws hl
    have hw := hws w (List.mem_cons_self _ _)
    simp only [List.cons_append, count_phrases, hw, bind_ok]
    exact ih lastdot m (fun x hx => hws x (List.mem_cons_of_mem _ hx)) hl

theorem find_endpoints_skip : ∀ (k j w : Nat) (g : Phrases) (s : State),
    (∀ i, w ≤ i → i < w + k → ends_with_full_stop (g.word i) = .ok false) →
    find_endpoints (k + j) w (g, s) = find_endpoints j (w + k) (g, s) := by
  intro k
  induction k with
  | zero => intro j w g s _; simp
  | succ k ih =>
    intro j w g s h
    have hw := h w (le_refl _) (by omega)
    have e : k + 1 + j = (k + j) + 1 := by omega
    rw [e, find_endpoints_step, hw, bind_ok]
    simp only [Bool.false_eq_true, if_false]
    rw [ih j (w + 1) g s (fun i h1 h2 => h i (by omega) (by omega))]
    congr 1
    omega

/-- Segmentation of an input of one phrase: the words `ws` do not end in a
full stop, the last word does. -/
theorem segment_single (prog : String) (ws : List String) (lastdot : String)
    (hws : ∀ w ∈ ws, ends_with_full_stop w = .ok false)
    (hl : ends_with_full_stop lastdot = .ok true) :
    segment (prog :: ws ++ [lastdot]) =
      .ok ({ argv := prog :: ws ++ [⟨lastdot.data.dropLast⟩], max_phrase_index := 0,
             phrase_end := upd (fun _ => 0) 0 (ws.length + 1),
             phrase_start := upd (fun _ => 0) 0 1,
             reference := fun _ => none, continuation := fun _ => 0, chain := fun _ => 0 },
           { (resize_arrays (prog :: ws ++ [lastdot]) 0).2 with phrase_nb := 1 }) := by
  unfold segment
  have hc : count_phrases ((prog :: ws ++ [lastdot]).drop 1) NO_DATA = .ok 0 := by
    simpa using count_phrases_single ws lastdot NO_DATA hws hl
  rw [hc, bind_ok]
  have hlast : (prog :: ws ++ [lastdot]).getD ((prog :: ws ++ [lastdot]).length - 1) "" = lastdot := by
    simp [List.getD_eq_getElem?_getD]
  have h0 : ¬ ((0 : Int) = NO_DATA) := by decide
  simp only [h0, if_false, hlast, hl, bind_ok, Bool.not_true, Bool.false_eq_true]
  have hlen : (prog :: ws ++ [lastdot]).length - 1 = ws.length + 1 := by simp
  rw [hlen, find_endpoints_skip ws.length 1 1 _ _ (by
    intro i h1 h2
    have : ({ (resize_arrays (prog :: ws ++ [lastdot]) 0).1 with
        phrase_start := upd (resize_arrays (prog :: ws ++ [lastdot]) 0).1.phrase_start 0 1 } :
        Phrases).word i = ws.getD (i - 1) "" := by
      obtain ⟨i', rfl⟩ : ∃ i', i = i' + 1 := ⟨i - 1, by omega⟩
      simp [Phrases.word, resize_arrays, List.getD_eq_getElem?_getD, List.getElem?_append_left,
        (by omega : i' < ws.length)]
    rw [this]
    have hi : i - 1 < ws.length := by omega
    rw [List.getD_eq_getElem _ _ hi]
    exact hws _ (List.getElem_mem hi))]
  have hword : ({ (resize_arrays (prog :: ws ++ [lastdot]) 0).1 with
      phrase_start := upd (resize_arrays (prog :: ws ++ [lastdot]) 0).1.phrase_start 0 1 } :
      Phrases).word (1 + ws.length) = lastdot := by
    simp [Phrases.word, resize_arrays, List.getD_eq_getElem?_getD, Nat.add_comm 1]
  rw [find_endpoints_step, hword, hl, bind_ok]
  have hset : (prog :: ws ++ [lastdot]).set (ws.length + 1) ⟨lastdot.data.dropLast⟩
      = prog :: ws ++ [⟨lastdot.data.dropLast⟩] := by
    rw [List.cons_append, List.set_cons_succ, List.set_append_right _ _ (le_refl _)]
    simp
  have hmax : ¬ (((0 + 1 : Nat) : Int) ≤ 0) := by decide
  simp only [resize_arrays, if_true, find_endpoints, pure_eq_ok, hmax, if_false,
    Nat.add_comm 1 ws.length, Nat.zero_add]
  rw [hset]

/-- The words of `A pointer v to an array of N data of type int.` before the
last one. -/
def pointer_array_words (v N : String) : List String :=
  ["A", "pointer", v, "to", "an", "array", "of", N, "data", "of", "type"]

theorem digits_stop (N : String) (hne : N.data ≠ []) (hd : N.data.all Char.isDigit = true) :
    ends_with_full_stop N = .ok false :=
  full_stop_of_all N _ hne hd (by decide)

theorem prepare_pointer_array (prog v N : String) (hv : permitted_variable_name v = true)
    (hne : N.data ≠ []) (hd : N.data.all Char.isDigit = true) :
    ∃ g s, prepare (prog :: pointer_array_words v N ++ ["int."]) = .ok (g, s) ∧
      g.argv = prog :: pointer_array_words v N ++ ["int"] ∧ g.max_phrase_index = 0 ∧
      g.phrase_end 0 = 12 ∧ g.phrase_start 0 = 1 ∧ g.reference 0 = none ∧
      g.continuation 0 = NO_DATA ∧
      s.var_name 0 = some v ∧ s.stage 0 = START ∧ s.type 0 = POINTER ∧
      s.output_start 0 = 99 ∧ s.output_end 0 = 100 := by
  have hvs := permitted_stop v hv
  have hns := digits_stop N hne hd
  have hvto : v ≠ "to" := by
    intro e; rw [e] at hv; revert hv; decide
  have hseg := segment_single prog (pointer_array_words v N) "int."
    (by
      intro w hw
      simp only [pointer_array_words, List.mem_cons, List.mem_singleton, List.not_mem_nil,
        or_false] at hw
      rcases hw with h | h | h | h | h | h | h | h | h | h | h <;> rw [h] <;>
        first | exact hvs | exact hns | decide)
    (by decide)
  unfold prepare pass_refs pass_one
  rw [hseg, bind_ok]
  have hdrop : (⟨"int.".data.dropLast⟩ : String) = "int" := by decide
  rw [hdrop]
  have hint : permitted_variable_name "int" = false := by decide
  simp [Phrases.nb_phrases, first_pass, first_pass_phrase, Phrases.word, pointer_array_words,
    resize_arrays, check_preposition, first_phrase_type, check_vowel, first_char, upd, hv, hvto,
    hint, reference_pass, match_references, check_loops, follow_chain]
  exact ⟨_, _, ⟨rfl, rfl⟩, rfl, rfl, rfl, rfl, rfl, rfl, rfl, rfl, rfl, rfl, rfl⟩

theorem word_of_argv (g : Phrases) (ws : List String) (hg : g.argv = ws) (k : Nat) :
    g.word k = ws.getD k "" := by
  rw [Phrases.word, hg]

theorem step_eq_pointer (g : Phrases) (s : State) (h : s.type s.phrase_nb = POINTER) :
    step g s = (process_pointer g s).map fun r =>
      { r.2 with stage := upd r.2.stage r.2.original_phrase_nb r.1 } := by
  simp [step, h]

theorem step_eq_array (g : Phrases) (s : State) (h : s.type s.phrase_nb = ARRAY) :
    step g s = (process_array g s).map fun r =>
      { r.2 with stage := upd r.2.stage r.2.original_phrase_nb r.1 } := by
  simp [step, h]

theorem step_eq_basic (g : Phrases) (s : State) (h : s.type s.phrase_nb = BASIC) :
    step g s = (process_basic g s).map fun r =>
      { r.2 with stage := upd r.2.stage r.2.original_phrase_nb r.1 } := by
  simp [step, h]

/-- The first step of the family: `complex_variable` at a named phrase at
stage `START` writes the name. -/
theorem complex_variable_named (g : Phrases) (s : State) (cur ty a e : Nat) (v : String)
    (text : List Char) (Q : Bool × State → Prop)
    (h : At s cur START ty (some v) a e text) (hend : cur + 2 ≤ g.phrase_end 0)
    (room : v.data.length ≤ a)
    (k : ∀ s', At s' (cur + 2) START ty (some v) (a - v.data.length) e (v.data ++ text) →
      Q (true, s')) :
    Returns (complex_variable g s) Q := by
  unfold complex_variable
  refine returns_advance g s _ _ _ (by rw [h.cur, h.nb]; omega) ?_
  have h1 := h.next
  rw [returns_bind]
  have c1 : ({ s with current := s.current + 1 } : State).stage
      ({ s with current := s.current + 1 } : State).original_phrase_nb = START ∧
      (({ s with current := s.current + 1 } : State).var_name
        ({ s with current := s.current + 1 } : State).phrase_nb).isSome := by
    rw [h1.orig, h1.nb, h1.stage, h1.name]
    exact ⟨rfl, rfl⟩
  rw [if_pos c1]
  refine returns_advance g _ _ _ _ (by rw [h1.cur, h1.nb]; omega) ?_
  have h2 := h1.next
  rw [returns_map]
  have e2 : (({ s with current := s.current + 1 + 1 } : State).var_name
      ({ s with current := s.current + 1 + 1 } : State).phrase_nb).getD "" = v := by
    rw [h2.nb, h2.name]; rfl
  rw [e2]
  refine returns_front h2 v _ room ?_
  intro s3 h3
  have c3 : ¬ (s3.stage s3.original_phrase_nb = REFER) := by
    rw [h3.orig, h3.stage]; decide
  simp only [Bool.not_true, Bool.false_eq_true, if_false, c3]
  rw [returns_pure]
  exact k s3 h3

theorem complex_variable_plain (g : Phrases) (s : State) (cur ty a e : Nat) (nm : Option String)
    (text : List Char) (Q : Bool × State → Prop)
    (h : At s cur CONTINUE ty nm a e text) (hend : cur + 1 ≤ g.phrase_end 0)
    (k : ∀ s', At s' (cur + 1) CONTINUE ty nm a e text → Q (true, s')) :
    Returns (complex_variable g s) Q := by
  unfold complex_variable
  refine returns_advance g s _ _ _ (by rw [h.cur, h.nb]; omega) ?_
  have h1 := h.next
  rw [returns_bind]
  have c1 : ¬ (({ s with current := s.current + 1 } : State).stage
      ({ s with current := s.current + 1 } : State).original_phrase_nb = START ∧
      (({ s with current := s.current + 1 } : State).var_name
        ({ s with current := s.current + 1 } : State).phrase_nb).isSome) := by
    rw [h1.orig, h1.stage]
    intro c; exact absurd c.1 (by decide)
  rw [if_neg c1, returns_pure]
  have c3 : ¬ (({ s with current := s.current + 1 } : State).stage
      ({ s with current := s.current + 1 } : State).original_phrase_nb = REFER) := by
    rw [h1.orig, h1.stage]; decide
  simp only [Bool.not_true, Bool.false_eq_true, if_false, c3]
  rw [returns_pure]
  exact k _ h1

theorem pointer_kind_array (g : Phrases) (s : State) (hw : g.word s.current = "array") :
    pointer_kind g true s =
      (output_at_front { s with type := upd s.type s.phrase_nb ARRAY }
          s.original_phrase_nb "(").bind fun s5 =>
        (output_at_back s5 s5.original_phrase_nb ")").map fun s6 => (CONTINUE, s6) := by
  unfold pointer_kind
  simp [hw]

theorem returns_pointer_kind_array (g : Phrases) {s : State} {cur st ty : Nat}
    {nm : Option String} {a e : Nat} {text : List Char} (h : At s cur st ty nm a e text)
    (Q : Nat × State → Prop) (hw : g.word cur = "array") (ha : 1 ≤ a)
    (he : e + 1 ≤ MAX_OUTPUT)
    (k : ∀ s', At s' cur st ARRAY nm (a - 1) (e + 1) ('(' :: text ++ [')']) →
      Q (CONTINUE, s')) :
    Returns (pointer_kind g true s) Q := by
  rw [pointer_kind_array g s (by rw [h.cur]; exact hw), returns_bind]
  refine returns_front (h.kind ARRAY) "(" _ ha ?_
  intro s5 h5
  rw [returns_map]
  refine returns_back h5 ")" _ he ?_
  intro s6 h6
  exact k s6 h6

theorem step_pointer (g : Phrases) (prog v N : String)
    (hg : g.argv = prog :: pointer_array_words v N ++ ["int"]) (hend : g.phrase_end 0 = 12)
    (s : State) (a e : Nat) (text : List Char)
    (h : At s 2 START POINTER (some v) a e text) (ha : v.data.length + 2 ≤ a)
    (he : e + 1 ≤ MAX_OUTPUT) :
    Returns (step g s) fun s' =>
      At s' 6 CONTINUE ARRAY (some v) (a - v.data.length - 1 - 1) (e + 1)
        ('(' :: '*' :: (v.data ++ text) ++ [')']) := by
  have hw := word_of_argv g _ hg
  have w2 : g.word 2 = "pointer" := by rw [hw]; rfl
  have w4 : g.word 4 = "to" := by rw [hw]; rfl
  have w5 : g.word 5 = "an" := by rw [hw]; rfl
  have w6 : g.word 6 = "array" := by rw [hw]; rfl
  have hlast : last_char "pointer" = .ok 'r' := by rfl
  have t1 : s.type s.phrase_nb = POINTER := by rw [h.nb, h.type]
  rw [step_eq_pointer g s t1, returns_map]
  unfold process_pointer
  rw [h.cur, w2, hlast, bind_ok, returns_bind]
  refine complex_variable_named g s 2 POINTER a e v text _ h (by omega) (by omega) ?_
  intro s3 h3
  simp only [Bool.not_true, Bool.false_eq_true, if_false, h3.cur, w4, ne_eq, not_true_eq_false]
  refine returns_advance_at g h3 _ _ _ (by rw [hend]; decide) ?_
  intro s4 h4
  rw [returns_bind]
  refine returns_front h4 "*" _ (by simp only [String.data, List.length]; omega) ?_
  intro s5 h5
  unfold pointer_target
  have n1 : ¬ ("an" = "void") := by decide
  have n2 : (!decide ('r' = 's')) = true := by decide
  simp only [h5.cur, w5, n1, if_false, n2, if_true]
  refine returns_advance_at g h5 _ _ _ (by rw [hend]; decide) ?_
  intro s6 h6
  have c6 : s6.current = 6 := h6.cur
  have p6 : check_preposition "an" "array" false = true := by decide
  simp only [c6, Nat.reduceAdd, Nat.reduceSub, w5, w6, p6, Bool.not_true, Bool.false_eq_true,
    if_false]
  refine returns_pointer_kind_array g h6 _ w6 (by simp only [String.data, List.length]; omega) he ?_
  intro s7 h7
  exact ⟨h7.cur, h7.nb, h7.orig, by simp [h7.orig, upd], h7.type, h7.name, h7.win, h7.line⟩

theorem returns_data_continuation (g : Phrases) {s : State} {cur st ty : Nat}
    {nm : Option String} {a e : Nat} {text : List Char} (h : At s cur st ty nm a e text)
    (Q : Nat × State → Prop) (h1 : g.word (cur + 1) = "of") (h2 : g.word (cur + 1 + 1) = "type")
    (h3 : g.word (cur + 1 + 1 + 1) ≠ "the") (hend : cur + 3 ≤ g.phrase_end 0) (ha : 1 ≤ a)
    (k : ∀ s', At s' (cur + 1 + 1 + 1) st BASIC nm (a - 1) e (' ' :: text) → Q (CONTINUE, s')) :
    Returns (data_continuation g s) Q := by
  unfold data_continuation
  refine returns_advance_at g (h.kind BASIC) _ _ _ (by omega) ?_
  intro s1 g1
  simp only [g1.cur, h1, ne_eq, not_true_eq_false, if_false]
  refine returns_advance_at g g1 _ _ _ (by omega) ?_
  intro s2 g2
  simp only [g2.cur, h2, ne_eq, not_true_eq_false, if_false]
  refine returns_advance_at g g2 _ _ _ (by omega) ?_
  intro s3 g3
  simp only [g3.cur, h3, if_false]
  rw [returns_map]
  refine returns_front g3 " " _ ha ?_
  intro s4 g4
  exact k s4 g4

theorem step_array (g : Phrases) (prog v N : String) (n : Int)
    (hg : g.argv = prog :: pointer_array_words v N ++ ["int"]) (hend : g.phrase_end 0 = 12)
    (hN : atoi N = .ok n) (hn : 2 ≤ n) (hd : N.data.all Char.isDigit = true)
    (s : State) (nm : Option String) (a e : Nat) (text : List Char)
    (h : At s 6 CONTINUE ARRAY nm a e text) (ha : 1 ≤ a)
    (he : e + N.data.length + 2 ≤ MAX_OUTPUT) :
    Returns (step g s) fun s' =>
      At s' 12 CONTINUE BASIC nm (a - 1) (e + 1 + N.data.length + 1)
        (' ' :: text ++ ['['] ++ N.data ++ [']']) := by
  have hw := word_of_argv g _ hg
  have w7 : g.word 7 = "of" := by rw [hw]; rfl
  have w8 : g.word 8 = N := by rw [hw]; rfl
  have w9 : g.word 9 = "data" := by rw [hw]; rfl
  have w10 : g.word 10 = "of" := by rw [hw]; rfl
  have w11 : g.word 11 = "type" := by rw [hw]; rfl
  have w12 : g.word 12 = "int" := by rw [hw]; rfl
  have t1 : s.type s.phrase_nb = ARRAY := by rw [h.nb, h.type]
  rw [step_eq_array g s t1, returns_map]
  unfold process_array
  rw [returns_bind]
  refine complex_variable_plain g s 6 ARRAY a e nm text _ h (by omega) ?_
  intro s1 g1
  simp only [Bool.not_true, Bool.false_eq_true, if_false, g1.cur, w7, ne_eq, not_true_eq_false]
  refine returns_advance_at g g1 _ _ _ (by rw [hend]; decide) ?_
  intro s2 g2
  have n0 : ¬ (n = 0) := by omega
  simp only [g2.cur, w8, hN, bind_ok, n0, if_false, hd, Bool.not_true, Bool.false_eq_true,
    returns_bind]
  refine returns_back g2 "[" _ (by simp only [String.data, List.length]; omega) ?_
  intro s3 g3
  rw [g3.cur, w8]
  refine returns_back g3 N _ (by simp only [String.data, List.length]; omega) ?_
  intro s4 g4
  refine returns_back g4 "]" _ (by simp only [String.data, List.length]; omega) ?_
  intro s5 g5
  refine returns_advance_at g g5 _ _ _ (by rw [hend]; decide) ?_
  intro s6 g6
  have c1 : n > 1 := by omega
  simp only [g6.cur, w9, c1, and_self, or_true, if_true]
  refine returns_data_continuation g g6 _ w10 w11 (by rw [w12]; decide) (by omega) ha ?_
  intro s7 g7
  exact ⟨g7.cur, g7.nb, g7.orig, by simp [g7.orig, upd], g7.type, g7.name, g7.win, g7.line⟩

theorem step_basic (g : Phrases) (prog v N : String)
    (hg : g.argv = prog :: pointer_array_words v N ++ ["int"]) (hend : g.phrase_end 0 = 12)
    (s : State) (nm : Option String) (a e : Nat) (text : List Char)
    (h : At s 12 CONTINUE BASIC nm a e text) (ha : 3 ≤ a) :
    Returns (step g s) fun s' =>
      At s' 12 FINISHED BASIC nm (a - 3) e ('i' :: 'n' :: 't' :: text) := by
  have t1 : s.type s.phrase_nb = BASIC := by rw [h.nb, h.type]
  rw [step_eq_basic g s t1, returns_map]
  have hb : read_basic_phrase 12 ((12 : Nat) : Int) g.argv = INT + SIGNED := by
    have hs : standardise_basic_phrase INT = INT + SIGNED := by decide
    have hwords : read_basic_words (prog :: pointer_array_words v N ++ ["int"])
        ((12 : Nat) : Int) 1 12 0 = some INT := by
      simp [read_basic_words, pointer_array_words, basic_word_type]
    have hk : (((12 : Nat) : Int) + 1 - ((12 : Nat) : Int)).toNat = 1 := by decide
    unfold read_basic_phrase
    rw [hg, hk, hwords]
    exact hs
  have ho : make_basic_output (INT + SIGNED) = .ok "int" := by rfl
  have e1 : process_basic g s = finish_basic s (INT + SIGNED) := by
    unfold process_basic
    have st : s.stage s.original_phrase_nb = CONTINUE := by rw [h.orig, h.stage]
    have n1 : ¬ (CONTINUE = START) := by decide
    have n2 : ¬ (CONTINUE = REFER) := by decide
    simp only [st, n1, n2, if_false, if_true, h.cur, h.nb, hend, hb]
  rw [e1]
  unfold finish_basic
  have n3 : ¬ (INT + SIGNED = 0) := by decide
  rw [if_neg n3, ho, bind_ok, returns_map]
  refine returns_front h "int" _ ha ?_
  intro s1 g1
  exact ⟨g1.cur, g1.nb, g1.orig, by simp [g1.orig, upd], g1.type, g1.name, g1.win, g1.line⟩

theorem returns_resolve_step (g : Phrases) (k : Nat) (s : State) (Q : State → Prop)
    (h : ¬ (s.stage s.original_phrase_nb = FINISHED ∨ s.stage s.original_phrase_nb = ERROR))
    (hs : Returns (step g s) fun s1 => Returns (resolve g k s1) Q) :
    Returns (resolve g (k + 1) s) Q := by
  rw [resolve_step g k s h, returns_bind]
  exact hs

theorem returns_resolve_done (g : Phrases) (k : Nat) (s : State) (Q : State → Prop)
    (h : s.stage s.original_phrase_nb = FINISHED ∨ s.stage s.original_phrase_nb = ERROR)
    (hs : Q s) : Returns (resolve g k s) Q := by
  rw [resolve_done g k s h, returns_ok]
  exact hs

theorem at_start (s : State) (nm : Option String) (st ty : Nat) (hc : s.current = 2)
    (hnb : s.phrase_nb = 0) (ho : s.original_phrase_nb = 0) (hst : s.stage 0 = st)
    (hty : s.type 0 = ty) (hnm : s.var_name 0 = nm) (hos : s.output_start 0 = 99)
    (hoe : s.output_end 0 = 100) : At s 2 st ty nm 100 100 [] := by
  have hM := max_output_eq
  have hw : Window s 0 100 100 := ⟨by rw [hos]; rfl, by rw [hoe]; rfl, le_refl _, by omega⟩
  refine ⟨hc, hnb, ho, hst, hty, hnm, hw, ?_⟩
  rw [line_of_window _ _ _ _ hw]
  rfl

theorem resolve_pointer_array (g : Phrases) (prog v N : String) (n : Int)
    (hg : g.argv = prog :: pointer_array_words v N ++ ["int"]) (hend : g.phrase_end 0 = 12)
    (hmax : g.max_phrase_index = 0)
    (hd : N.data.all Char.isDigit = true)
    (hN : atoi N = .ok n) (hn : 2 ≤ n) (hvl : v.data.length ≤ 94)
    (hNl : N.data.length ≤ 97) (s : State)
    (h0 : At s 2 START POINTER (some v) 100 100 []) :
    Returns (resolve g g.fuel s) fun s' =>
      At s' 12 FINISHED BASIC (some v) (100 - v.data.length - 1 - 1 - 1 - 3)
        (100 + 1 + 1 + N.data.length + 1)
        ('i' :: 'n' :: 't' :: ' ' :: ('(' :: '*' :: (v.data ++ []) ++ [')']) ++ ['['] ++ N.data
          ++ [']']) := by
  have hnb : g.nb_phrases = 1 := by simp [Phrases.nb_phrases, hmax]
  have hfuel : g.fuel = 53 + 1 + 1 + 1 := by
    simp [Phrases.fuel, hnb, hg, pointer_array_words]
  have hM := max_output_eq
  rw [hfuel]
  refine returns_resolve_step g _ _ _ (by rw [h0.orig, h0.stage]; decide) ?_
  refine returns_mono (step_pointer g prog v N hg hend _ 100 100 [] h0 (by omega) (by omega)) ?_
  intro s1 h1
  refine returns_resolve_step g _ _ _ (by rw [h1.orig, h1.stage]; decide) ?_
  refine returns_mono (step_array g prog v N n hg hend hN hn hd _ _ _ _ _ h1 (by omega)
    (by omega)) ?_
  intro s2 h2
  refine returns_resolve_step g _ _ _ (by rw [h2.orig, h2.stage]; decide) ?_
  refine returns_mono (step_basic g prog v N hg hend _ _ _ _ _ h2 (by omega)) ?_
  intro s3 h3
  exact returns_resolve_done g _ _ _ (by rw [h3.orig, h3.stage]; exact Or.inl rfl) h3

/-- The family `A pointer v to an array of N data of type int.`: the line
printed is `int (*v)[N]`. -/
theorem pointer_array_main (prog v N : String) (n : Int)
    (hv : permitted_variable_name v = true) (hd : N.data.all Char.isDigit = true)
    (hN : atoi N = .ok n) (hn : 2 ≤ n) (hvl : v.data.length ≤ 94)
    (hNl : N.data.length ≤ 97) :
    main (prog :: pointer_array_words v N ++ ["int."]) =
      .ok [⟨"int (*".data ++ v.data ++ ")[".data ++ N.data ++ "]".data⟩] := by
  have hne : N.data ≠ [] := by
    intro e
    have e0 : N = "" := String.ext e
    have e1 : atoi "" = .ok 0 := by decide
    rw [e0, e1] at hN
    cases hN
    omega
  obtain ⟨g, s, hp, hg, hmax, hend, hstart, _, _, hname, hstage, htype, hos, hoe⟩ :=
    prepare_pointer_array prog v N hv hne hd
  have hnb : g.nb_phrases = 1 := by simp [Phrases.nb_phrases, hmax]
  have key : Returns (main (prog :: pointer_array_words v N ++ ["int."])) fun r =>
      r = [⟨"int (*".data ++ v.data ++ ")[".data ++ N.data ++ "]".data⟩] := by
    unfold main main_state
    rw [returns_map, returns_bind, hp, returns_ok]
    dsimp only
    rw [returns_map, hnb]
    simp only [second_pass]
    rw [returns_bind]
    refine returns_mono (resolve_pointer_array g prog v N n hg hend hmax hd hN hn hvl hNl _
      (at_start _ _ _ _ (by simp [hstart]) rfl rfl hstage htype hname hos hoe)) ?_
    intro s' hA
    have hst : ¬ (s'.stage s'.original_phrase_nb = ERROR) := by
      rw [hA.orig, hA.stage]; decide
    simp only [after_phrase, hst, if_false, pure_eq_ok, returns_ok, hnb]
    simp only [List.range_succ, List.range_zero, List.nil_append, List.map_cons, List.map_nil]
    congr 1
    apply String.ext
    refine Eq.trans (b := (s'.line 0).data) rfl ?_
    rw [hA.line]
    simp
  obtain ⟨r, e, q⟩ := key
  rw [e, q]

/-- Wrapping: `(` at the front and `)` at the back of the buffer of the
originating phrase. -/
theorem wrap_text (s0 : State) (a e : Nat) (hw : Window s0 s0.original_phrase_nb a e)
    (ha : 1 ≤ a) (he : e + 1 ≤ MAX_OUTPUT) :
    ∃ s', ((output_at_front s0 s0.original_phrase_nb "(").bind fun s5 =>
        (output_at_back s5 s5.original_phrase_nb ")").map fun s6 => (CONTINUE, s6))
        = .ok (CONTINUE, s') ∧
      s'.control = s0.control ∧ Window s' s0.original_phrase_nb (a - 1) (e + 1) ∧
      (s'.line s0.original_phrase_nb).data
        = '(' :: (s0.line s0.original_phrase_nb).data ++ [')'] := by
  obtain ⟨f1, f2, f3⟩ := output_at_front_window s0 s0.original_phrase_nb a e "(" hw ha
  obtain ⟨b1, b2, b3⟩ := output_at_back_window _ s0.original_phrase_nb _ e ")" f2
    (Nat.le_succ_of_le he)
  rw [f1, bind_ok]
  have e1 : (front_state s0 s0.original_phrase_nb "(").original_phrase_nb
      = s0.original_phrase_nb := rfl
  rw [e1, b1, map_ok]
  refine ⟨_, rfl, rfl, b2, ?_⟩
  rw [b3, f3]
  rfl

/-- The kind that a target word of the pointer rule selects. -/
def target_kind (w : String) : Nat := if w = "array" ∨ w = "arrays" then ARRAY else FUNCTION

theorem pointer_kind_target (g : Phrases) (singular : Bool) (s : State)
    (hword : (singular = true ∧ (g.word s.current = "array" ∨ g.word s.current = "function")) ∨
      (singular = false ∧ (g.word s.current = "arrays" ∨ g.word s.current = "functions"))) :
    pointer_kind g singular s =
      (output_at_front { s with type := upd s.type s.phrase_nb (target_kind (g.word s.current)) }
          s.original_phrase_nb "(").bind fun s5 =>
        (output_at_back s5 s5.original_phrase_nb ")").map fun s6 => (CONTINUE, s6) := by
  unfold pointer_kind
  rcases hword with ⟨h1, h | h⟩ | ⟨h1, h | h⟩ <;> simp [h1, h, target_kind]

/-- The pointer rule at the target words array(s) and function(s): the buffer
`c` of the originating phrase becomes `(c)`. -/
theorem pointer_kind_wraps (g : Phrases) (singular : Bool) (s : State) (a e : Nat)
    (hw : Window s s.original_phrase_nb a e) (ha : 1 ≤ a) (he : e + 1 ≤ MAX_OUTPUT)
    (hword : (singular = true ∧ (g.word s.current = "array" ∨ g.word s.current = "function")) ∨
      (singular = false ∧ (g.word s.current = "arrays" ∨ g.word s.current = "functions"))) :
    ∃ s', pointer_kind g singular s = .ok (CONTINUE, s') ∧
      s'.original_phrase_nb = s.original_phrase_nb ∧ s'.phrase_nb = s.phrase_nb ∧
      s'.current = s.current ∧
      s'.type s'.phrase_nb = target_kind (g.word s.current) ∧
      Window s' s.original_phrase_nb (a - 1) (e + 1) ∧
      (s'.line s.original_phrase_nb).data = '(' :: (s.line s.original_phrase_nb).data ++ [')'] := by
  rw [pointer_kind_target g singular s hword]
  obtain ⟨s', r1, r2, r3, r4⟩ := wrap_text
    { s with type := upd s.type s.phrase_nb (target_kind (g.word s.current)) } a e hw ha he
  refine ⟨s', r1, congrArg Control.original_phrase_nb r2, congrArg Control.phrase_nb r2,
    congrArg Control.current r2, ?_, r3, r4⟩
  have e1 : s'.type = upd s.type s.phrase_nb (target_kind (g.word s.current)) :=
    congrArg Control.type r2
  have e2 : s'.phrase_nb = s.phrase_nb := congrArg Control.phrase_nb r2
  rw [e1, e2, upd_same]

/-- The pointer rule from the star on, for a target array(s) or function(s)
that agrees in number with the pointer word: the buffer `c` of the originating
phrase becomes `(*c)`, and what is written at the back afterwards comes after
the closing parenthesis. -/
theorem star_then_wrap (g : Phrases) (singular : Bool) (s1 : State) (a e : Nat)
    (hw : Window s1 s1.original_phrase_nb a e) (ha : 2 ≤ a) (he : e + 1 ≤ MAX_OUTPUT)
    (hvoid : g.word s1.current ≠ "void")
    (hsing : singular = true →
      s1.current ≠ g.phrase_end s1.phrase_nb ∧
      check_preposition (g.word s1.current) (g.word (s1.current + 1)) false = true ∧
      (g.word (s1.current + 1) = "array" ∨ g.word (s1.current + 1) = "function"))
    (hplur : singular = false →
      g.word s1.current = "arrays" ∨ g.word s1.current = "functions") :
    ∃ s', (output_at_front s1 s1.original_phrase_nb "*").bind (pointer_target g singular)
        = .ok (CONTINUE, s') ∧
      s'.original_phrase_nb = s1.original_phrase_nb ∧
      (s'.type s'.phrase_nb = ARRAY ∨ s'.type s'.phrase_nb = FUNCTION) ∧
      (s'.line s1.original_phrase_nb).data
        = '(' :: '*' :: (s1.line s1.original_phrase_nb).data ++ [')'] ∧
      ∀ str : String, e + 1 + str.data.length ≤ MAX_OUTPUT →
        ∃ s'', output_at_back s' s'.original_phrase_nb str = .ok s'' ∧
          (s''.line s1.original_phrase_nb).data
            = '(' :: '*' :: (s1.line s1.original_phrase_nb).data ++ [')'] ++ str.data := by
  obtain ⟨f1, f2, f3⟩ := output_at_front_window s1 s1.original_phrase_nb a e "*" hw
    (by simp only [String.data, List.length]; omega)
  rw [f1, bind_ok]
  generalize hs2 : front_state s1 s1.original_phrase_nb "*" = s2 at f2 f3
  have c2 : s2.control = s1.control := by rw [← hs2]; rfl
  have o2 : s2.original_phrase_nb = s1.original_phrase_nb := congrArg Control.original_phrase_nb c2
  have k2 : s2.current = s1.current := congrArg Control.current c2
  have p2 : s2.phrase_nb = s1.phrase_nb := congrArg Control.phrase_nb c2
  have hkind : ∀ w : String, target_kind w = ARRAY ∨ target_kind w = FUNCTION := by
    intro w
    unfold target_kind
    split
    · exact Or.inl rfl
    · exact Or.inr rfl
  have hlen : a - "*".data.length = a - 1 := rfl
  rw [hlen] at f2
  have finish : ∀ s3 : State, s3.original_phrase_nb = s1.original_phrase_nb →
      Window s3 s1.original_phrase_nb (a - 1) e →
      (s3.line s1.original_phrase_nb).data = (s2.line s1.original_phrase_nb).data →
      ((singular = true ∧ (g.word s3.current = "array" ∨ g.word s3.current = "function")) ∨
        (singular = false ∧ (g.word s3.current = "arrays" ∨ g.word s3.current = "functions"))) →
      ∃ s', pointer_kind g singular s3 = .ok (CONTINUE, s') ∧
        s'.original_phrase_nb = s1.original_phrase_nb ∧
        (s'.type s'.phrase_nb = ARRAY ∨ s'.type s'.phrase_nb = FUNCTION) ∧
        (s'.line s1.original_phrase_nb).data
          = '(' :: '*' :: (s1.line s1.original_phrase_nb).data ++ [')'] ∧
        ∀ str : String, e + 1 + str.data.length ≤ MAX_OUTPUT →
          ∃ s'', output_at_back s' s'.original_phrase_nb str = .ok s'' ∧
            (s''.line s1.original_phrase_nb).data
              = '(' :: '*' :: (s1.line s1.original_phrase_nb).data ++ [')'] ++ str.data := by
    intro s3 o3 w3 l3 hword
    obtain ⟨s', r1, r2, _, _, r5, r6, r7⟩ := pointer_kind_wraps g singular s3 (a - 1) e
      (by rw [o3]; exact w3) (by omega) he hword
    rw [o3] at r2 r6 r7
    have hline : (s'.line s1.original_phrase_nb).data
        = '(' :: '*' :: (s1.line s1.original_phrase_nb).data ++ [')'] := by
      rw [r7, l3, f3]
      rfl
    refine ⟨s', r1, r2, ?_, hline, ?_⟩
    · rw [r5]; exact hkind _
    · intro str hroom
      obtain ⟨b1, _, b3⟩ := output_at_back_window s' s1.original_phrase_nb _ (e + 1) str r6
        (Nat.le_succ_of_le hroom)
      refine ⟨_, by rw [r2]; exact b1, ?_⟩
      rw [b3, hline]
  unfold pointer_target
  rw [k2, if_neg hvoid]
  cases singular with
  | false =>
    simp only [Bool.false_eq_true, if_false]
    exact finish s2 o2 f2 rfl (Or.inr ⟨rfl, by rw [k2]; exact hplur rfl⟩)
  | true =>
    obtain ⟨h1, h2, h3⟩ := hsing rfl
    rw [if_pos rfl, advance_eq, if_neg (by rw [k2, p2]; exact h1)]
    generalize hs3 : ({ s2 with current := s2.current + 1 } : State) = s3
    have k3 : s3.current = s1.current + 1 := by rw [← hs3, ← k2]
    have o3 : s3.original_phrase_nb = s1.original_phrase_nb := by rw [← hs3]; exact o2
    have w3 : Window s3 s1.original_phrase_nb (a - 1) e := by rw [← hs3]; exact f2
    have l3 : (s3.line s1.original_phrase_nb).data = (s2.line s1.original_phrase_nb).data := by
      rw [← hs3]; rfl
    rw [k3, Nat.add_sub_cancel, h2]
    simp only [Bool.not_true, Bool.false_eq_true, if_false]
    exact finish s3 o3 w3 l3 (Or.inl ⟨rfl, by rw [k3]; exact h3⟩)

/-- C7, as stated, fails: `v` of 95 letters is a permitted identifier and `2` a
valid dimension, and on `A pointer v to an array of 2 data of type int.` the
run prints no line, it writes before the first row of `phrase_output`. -/
theorem pointer_parenthesised_refuted :
    permitted_variable_name
      "aaaaaaaaaaaaaaaaaaaaaaaaaaaaaaaaaaaaaaaaaaaaaaaaaaaaaaaaaaaaaaaaaaaaaaaaaaaaaaaaaaaaaaaaaaaaaaa"
      = true ∧
    main ["types", "A", "pointer",
      "aaaaaaaaaaaaaaaaaaaaaaaaaaaaaaaaaaaaaaaaaaaaaaaaaaaaaaaaaaaaaaaaaaaaaaaaaaaaaaaaaaaaaaaaaaaaaaa",
      "to", "an", "array", "of", "2", "data", "of", "type", "int."]
      = .error Halt.undefined := by
  decide

/-- C7, amended. (1) In the pointer rule, from the star on: when the word after
the star is not `void`, the target word is array(s) or function(s) and agrees
in number with the pointer word (a singular pointer has one more word, an
agreeing article, before its target), and the buffer of the originating phrase
has room for two characters in front and one at the back, the rule returns
`CONTINUE` with the kind `ARRAY` or `FUNCTION`, the content `c` of the buffer
has become `(*c)`, and whatever is written at the back afterwards (an array
bracket, the `()` of a function) follows the closing parenthesis.
(2) For every permitted identifier `v` of at most 94 characters and every
dimension `N` of at most 97 decimal digits with value at least 2, the run on
`A pointer v to an array of N data of type int.` prints the single line
`int (*v)[N]`. -/
theorem pointer_parenthesised :
    (∀ (g : Phrases) (singular : Bool) (s1 : State) (a e : Nat),
      Window s1 s1.original_phrase_nb a e → 2 ≤ a → e + 1 ≤ MAX_OUTPUT →
      g.word s1.current ≠ "void" →
      (singular = true →
        s1.current ≠ g.phrase_end s1.phrase_nb ∧
        check_preposition (g.word s1.current) (g.word (s1.current + 1)) false = true ∧
        (g.word (s1.current + 1) = "array" ∨ g.word (s1.current + 1) = "function")) →
      (singular = false →
        g.word s1.current = "arrays" ∨ g.word s1.current = "functions") →
      ∃ s', (output_at_front s1 s1.original_phrase_nb "*").bind (pointer_target g singular)
          = .ok (CONTINUE, s') ∧
        s'.original_phrase_nb = s1.original_phrase_nb ∧
        (s'.type s'.phrase_nb = ARRAY ∨ s'.type s'.phrase_nb = FUNCTION) ∧
        (s'.line s1.original_phrase_nb).data
          = '(' :: '*' :: (s1.line s1.original_phrase_nb).data ++ [')'] ∧
        ∀ str : String, e + 1 + str.data.length ≤ MAX_OUTPUT →
          ∃ s'', output_at_back s' s'.original_phrase_nb str = .ok s'' ∧
            (s''.line s1.original_phrase_nb).data
              = '(' :: '*' :: (s1.line s1.original_phrase_nb).data ++ [')'] ++ str.data) ∧
    (∀ (prog v N : String) (n : Int),
      permitted_variable_name v = true → N.data.all Char.isDigit = true →
      atoi N = .ok n → 2 ≤ n → v.data.length ≤ 94 → N.data.length ≤ 97 →
      main (prog :: pointer_array_words v N ++ ["int."]) =
        .ok [⟨"int (*".data ++ v.data ++ ")[".data ++ N.data ++ "]".data⟩]) :=
  ⟨star_then_wrap, pointer_array_main⟩

/-- Witness of C7: the run on `A pointer p to an array of 3 data of type int.`
prints `int (*p)[3]`. -/
theorem pointer_parenthesised_witness :
    main ["types", "A", "pointer", "p", "to", "an", "array", "of", "3", "data", "of", "type",
      "int."] = .ok ["int (*p)[3]"] :=
  pointer_parenthesised.2 "types" "p" "3" 3 (by decide) (by decide) (by decide) (by decide)
    (by decide) (by decide)

/-! ## Termination of the second pass -/

theorem quiet_resolve (g : Phrases) : ∀ (fuel : Nat) (s : State), Quiet (resolve g fuel s) := by
  intro fuel
  induction fuel with
  | zero =>
    intro s
    unfold resolve
    rw [quiet_ite, quiet_pure, quiet_throw]
    exact ⟨fun _ => trivial, fun _ => by decide⟩
  | succ k ih =>
    intro s
    unfold resolve
    rw [quiet_ite, quiet_pure, quiet_bind]
    exact ⟨fun _ => trivial, fun _ => ⟨quiet_step g s, post_intro fun s1 => ih s1⟩⟩

/-- After the loop check, the `while` loop started at the second word of a
phrase ends before the fuel `g.fuel` does. -/
theorem resolve_ready (argv : List String) (g : Phrases) (h : Ready argv g) (s1 : State)
    (hp : s1.phrase_nb < g.nb_phrases) (hc : s1.current = g.phrase_start s1.phrase_nb + 1) :
    Safe (resolve g g.fuel s1) ∧ Post (resolve g g.fuel s1) (Resolved s1) := by
  obtain ⟨⟨hlenA, hA, hlen, _⟩, hends⟩ := h
  obtain ⟨d, hd, he⟩ := hends s1.phrase_nb hp
  have he' : Ends g ((s1.phrase_nb : Nat) : Int) (d + 1) := by
    unfold Ends at he ⊢
    rw [walk, next_phrase, if_neg (by simp only [NO_DATA]; omega)]
    simpa using he
  have hl := hlen s1.phrase_nb hp
  have hA' : ∀ p, g.phrase_end p ≤ g.argv.length := fun p => by rw [hlenA]; exact hA p
  have hfuel : (d + 1) * (g.argv.length + 1) + (g.phrase_end s1.phrase_nb - s1.current)
      < g.fuel := by
    unfold Phrases.fuel
    have h1 : (d + 1) * (g.argv.length + 1) ≤ (g.nb_phrases + 2) * (g.argv.length + 1) :=
      Nat.mul_le_mul_right _ (by omega)
    have h2 : (g.nb_phrases + 3) * (g.argv.length + 1)
        = (g.nb_phrases + 2) * (g.argv.length + 1) + (g.argv.length + 1) := Nat.succ_mul _ _
    have h3 := hA' s1.phrase_nb
    omega
  exact resolve_total g g.argv.length hA' hlen g.fuel s1 (d + 1) he' (by rw [hc]; exact hl) hfuel

/-- The result `Returns`-style: a computation that neither lacks fuel nor
prints the diagnostic returns a value or leaves the bounds of an array. -/
theorem ok_or_undefined {α : Type} (x : M α) (h1 : Safe x) (h2 : Quiet x) :
    x = .error Halt.undefined ∨ ∃ a, x = .ok a := by
  cases x with
  | ok a => exact Or.inr ⟨a, rfl⟩
  | error e =>
    rw [safe_error] at h1
    rw [quiet_error] at h2
    cases e
    · exact absurd rfl h2
    · exact Or.inl rfl
    · exact absurd rfl h1

/-- C11, as stated, fails: `A pointer NAME to a datum of type int.` with a
name of 100 letters passes the first pass, the reference pass and the loop
check, and the `while` loop of its phrase reaches neither `FINISHED` nor
`ERROR`: after the name its first iteration writes the star before the first
row of `phrase_output`. -/
theorem pass_two_terminates_refuted :
    (prepare ["types", "A", "pointer",
      "aaaaaaaaaaaaaaaaaaaaaaaaaaaaaaaaaaaaaaaaaaaaaaaaaaaaaaaaaaaaaaaaaaaaaaaaaaaaaaaaaaaaaaaaaaaaaaaaaaaa",
      "to", "a", "datum", "of", "type", "int."]).isOk = true ∧
    main ["types", "A", "pointer",
      "aaaaaaaaaaaaaaaaaaaaaaaaaaaaaaaaaaaaaaaaaaaaaaaaaaaaaaaaaaaaaaaaaaaaaaaaaaaaaaaaaaaaaaaaaaaaaaaaaaaa",
      "to", "a", "datum", "of", "type", "int."] = .error Halt.undefined := by
  decide

/-- C11, amended. Let the input pass the first pass, the reference pass and
the loop check, with globals `g`. Then (1) from every phrase the continuation
edges reach `NO_DATA` within `nb_phrases + 1` edges; (2) an iteration of the
`while` loop of the second pass that returns leaves the stage of the
originating phrase at `FINISHED` or `ERROR`, or stays in the phrase and moves
the cursor strictly forward, or jumps to the second word of the continuation
of the phrase; (3) for every originating phrase, the `while` loop started at
its second word ends within `(nb_phrases + 3) * (argc + 1)` iterations: it
leaves the bounds of an array (undefined behaviour), or it ends with the stage
of the originating phrase at `FINISHED` or `ERROR`. -/
theorem pass_two_terminates (argv : List String) (g : Phrases) (s : State)
    (h : prepare argv = .ok (g, s)) :
    (∀ p, p < g.nb_phrases →
      ∃ d, d ≤ g.nb_phrases + 1 ∧ walk g d (g.continuation p) = NO_DATA) ∧
    (∀ s0 s1, step g s0 = .ok s1 → Stepped g s0 s1) ∧
    ∀ s0 : State, s0.original_phrase_nb < g.nb_phrases →
      resolve g g.fuel
          { s0 with
            phrase_nb := s0.original_phrase_nb,
            current := g.phrase_start s0.original_phrase_nb + 1 }
        = .error Halt.undefined ∨
      ∃ s', resolve g g.fuel
          { s0 with
            phrase_nb := s0.original_phrase_nb,
            current := g.phrase_start s0.original_phrase_nb + 1 }
        = .ok s' ∧
        s'.original_phrase_nb = s0.original_phrase_nb ∧
        (s'.stage s'.original_phrase_nb = FINISHED ∨ s'.stage s'.original_phrase_nb = ERROR) := by
  have hready : Ready argv g := post_elim (Q := fun r => Ready argv r.1) (prepare_spec argv) h
  refine ⟨hready.2, fun s0 s1 e => post_elim (step_spec g s0) e, ?_⟩
  intro s0 hp
  obtain ⟨h1, h2⟩ := resolve_ready argv g hready
    { s0 with
      phrase_nb := s0.original_phrase_nb,
      current := g.phrase_start s0.original_phrase_nb + 1 } hp rfl
  rcases ok_or_undefined _ h1 (quiet_resolve g _ _) with e | ⟨s', e⟩
  · exact Or.inl e
  · refine Or.inr ⟨s', e, ?_⟩
    have := post_elim h2 e
    exact ⟨this.1, this.2.1⟩

/-- Witness of C11: `A pointer to a datum of type the type of X. An array X of
2 data of type int.` passes the three checks, and the loop of each of its two
phrases ends, within the bounds of the arrays, at `FINISHED` or `ERROR`. -/
theorem pass_two_terminates_witness :
    ∃ g s, prepare ["types", "A", "pointer", "to", "a", "datum", "of", "type", "the", "type",
        "of", "X.", "An", "array", "X", "of", "2", "data", "of", "type", "int."] = .ok (g, s) ∧
      g.nb_phrases = 2 ∧
      ∀ s0 : State, s0.original_phrase_nb < g.nb_phrases →
        resolve g g.fuel
            { s0 with
              phrase_nb := s0.original_phrase_nb,
              current := g.phrase_start s0.original_phrase_nb + 1 }
          = .error Halt.undefined ∨
        ∃ s', resolve g g.fuel
            { s0 with
              phrase_nb := s0.original_phrase_nb,
              current := g.phrase_start s0.original_phrase_nb + 1 }
          = .ok s' ∧
          s'.original_phrase_nb = s0.original_phrase_nb ∧
          (s'.stage s'.original_phrase_nb = FINISHED ∨
            s'.stage s'.original_phrase_nb = ERROR) :=
  ⟨_, _, rfl, by decide,
    (pass_two_terminates ["types", "A", "pointer", "to", "a", "datum", "of", "type", "the",
      "type", "of", "X.", "An", "array", "X", "of", "2", "data", "of", "type", "int."] _ _
      rfl).2.2⟩

/-! ## The table of basic types -/

/-- C12. Whenever `read_basic_phrase` resolves a range of words to a value `b`
other than `false`, `make_basic_output b` returns a text, and
`read_basic_phrase` on the space-separated words of that text returns `b`
again. -/
theorem resolver_idempotent (basic_start : Nat) (basic_end : Int) (argv : List String)
    (h : read_basic_phrase basic_start basic_end argv ≠ 0) :
    ∃ text, make_basic_output (read_basic_phrase basic_start basic_end argv) = .ok text ∧
      read_basic_phrase 0 (((words_of text).length : Int) - 1) (words_of text)
        = read_basic_phrase basic_start basic_end argv := by
  obtain ⟨text, ht⟩ := read_basic_phrase_table basic_start basic_end argv h
  obtain ⟨_, h2, h3⟩ := table_round_trip _ ht
  exact ⟨text, h3, h2⟩

/-- Witness of C12: the words `long unsigned int long` resolve to
`INT + LONGLONG + UNSIGNED`, rendered `unsigned long long`, whose three words
resolve to the same value. -/
theorem resolver_idempotent_witness :
    read_basic_phrase 1 4 ["types", "long", "unsigned", "int", "long"]
      = INT + LONGLONG + UNSIGNED ∧
    ∃ text, make_basic_output (read_basic_phrase 1 4 ["types", "long", "unsigned", "int", "long"])
        = .ok text ∧
      read_basic_phrase 0 (((words_of text).length : Int) - 1) (words_of text)
        = read_basic_phrase 1 4 ["types", "long", "unsigned", "int", "long"] :=
  ⟨by decide, resolver_idempotent 1 4 ["types", "long", "unsigned", "int", "long"] (by decide)⟩

/-- C13. For each of the 14 entries of the table of `make_basic_output`, the
run of words that spells its string is accepted by `read_basic_phrase`, with
the value of the entry, and that value is rendered as exactly that string; the
strings of the table are the 14 of the specification; and two values that
`make_basic_output` renders as the same string are equal. -/
theorem table_round_trip_injective :
    (∀ p ∈ basic_table,
      read_basic_phrase 0 (((words_of p.2).length : Int) - 1) (words_of p.2) = p.1 ∧
      p.1 ≠ 0 ∧ make_basic_output p.1 = .ok p.2) ∧
    basic_table.map Prod.snd =
      ["signed char", "unsigned char", "char", "double", "long double", "float", "long long",
       "unsigned long long", "long", "unsigned long", "short", "unsigned short", "int",
       "unsigned"] ∧
    make_basic_output (INT + LONG + SIGNED) = .ok "long" ∧
    make_basic_output (INT + LONGLONG + UNSIGNED) = .ok "unsigned long long" ∧
    make_basic_output CHAR = .ok "char" ∧
    make_basic_output (DOUBLE + LONG) = .ok "long double" ∧
    (∀ b1 b2 text, make_basic_output b1 = .ok text → make_basic_output b2 = .ok text →
      b1 = b2) := by
  refine ⟨fun p hp => ?_, by decide, by decide, by decide, by decide, by decide, ?_⟩
  · obtain ⟨h1, h2, h3⟩ := table_round_trip p hp
    exact ⟨h2, h1, h3⟩
  · intro b1 b2 text h1 h2
    exact table_injective _ (make_basic_output_table b1 text h1) _
      (make_basic_output_table b2 text h2) rfl

/-- C14. Whenever `read_basic_phrase` returns a value other than `false`, the
value is one of the 14 entries of the table of `make_basic_output`, which
returns the string of that entry: the fall-through `ERROR - UNKNOWN BASIC
TYPE` is not reached. -/
theorem resolver_exhaustive (basic_start : Nat) (basic_end : Int) (argv : List String)
    (h : read_basic_phrase basic_start basic_end argv ≠ 0) :
    read_basic_phrase basic_start basic_end argv ∈ basic_codes ∧
    ∃ text, (read_basic_phrase basic_start basic_end argv, text) ∈ basic_table ∧
      make_basic_output (read_basic_phrase basic_start basic_end argv) = .ok text := by
  obtain ⟨text, ht⟩ := read_basic_phrase_table basic_start basic_end argv h
  refine ⟨?_, text, ht, (table_round_trip _ ht).2.2⟩
  rcases read_basic_phrase_cases basic_start basic_end argv with ⟨_, h0⟩ | ⟨acc, hlt, _, he⟩
  · exact absurd h0 h
  · rw [he] at h ⊢
    exact (accept_facts acc hlt h).1

/-- Witness of C14: the words `short unsigned`, followed by a name, resolve to
`INT + SHORT + UNSIGNED`, an entry of the table. -/
theorem resolver_exhaustive_witness :
    read_basic_phrase 2 4 ["types", "A", "short", "unsigned", "x"] = INT + SHORT + UNSIGNED ∧
    read_basic_phrase 2 4 ["types", "A", "short", "unsigned", "x"] ∈ basic_codes ∧
    ∃ text, (read_basic_phrase 2 4 ["types", "A", "short", "unsigned", "x"], text)
        ∈ basic_table ∧
      make_basic_output (read_basic_phrase 2 4 ["types", "A", "short", "unsigned", "x"])
        = .ok text :=
  ⟨by decide, resolver_exhaustive 2 4 ["types", "A", "short", "unsigned", "x"] (by decide)⟩

/-! ## Repeated basic-type words -/

/-- C15. For every range of words that `read_basic_phrase` goes through:
when `long` occurs exactly twice (adjacent or not) and the loop completes, the
bit `LONGLONG` is set and the bit `LONG` is clear; when `long` occurs three
times or more the result is `false`; when one of the seven other basic-type
words occurs twice or more the result is `false`; and the loop completes
whenever every word but perhaps the last is a basic-type word, `long` occurs
at most twice and no other basic-type word occurs twice. -/
theorem keyword_repetition (basic_start : Nat) (basic_end : Int) (argv : List String) :
    (∀ acc, (basic_words basic_start basic_end argv).count "long" = 2 →
      read_basic_words argv basic_end (basic_end + 1 - basic_start).toNat basic_start 0
        = some acc →
      acc &&& LONGLONG ≠ 0 ∧ acc &&& LONG = 0) ∧
    (3 ≤ (basic_words basic_start basic_end argv).count "long" →
      read_basic_phrase basic_start basic_end argv = 0) ∧
    (∀ k ∈ ["int", "char", "double", "float", "signed", "unsigned", "short"],
      2 ≤ (basic_words basic_start basic_end argv).count k →
      read_basic_phrase basic_start basic_end argv = 0) ∧
    ((∀ w ∈ (basic_words basic_start basic_end argv).dropLast, w ∈ keywords) →
      (basic_words basic_start basic_end argv).count "long" ≤ 2 →
      (∀ k ∈ ["int", "char", "double", "float", "signed", "unsigned", "short"],
        (basic_words basic_start basic_end argv).count k ≤ 1) →
      ∃ acc, read_basic_words argv basic_end (basic_end + 1 - basic_start).toNat
        basic_start 0 = some acc) := by
  have hlongk : "long" ∈ keywords := by decide
  have hlongt : basic_word_type "long" = LONG := by decide
  have hcl : ((basic_words basic_start basic_end argv).map basic_word_type).count LONG
      = (basic_words basic_start basic_end argv).count "long" := by
    rw [← hlongt]; exact type_count _ _ hlongk
  have hnb : ¬ (bit LONG 0 ∧ bit LONGLONG 0) := fun h => bit_zero _ h.1
  refine ⟨?_, ?_, ?_, ?_⟩
  · intro acc hc hr
    rw [read_basic_words_range] at hr
    obtain ⟨l1, l2⟩ := read_run_longs _ 0 acc (by omega) hnb hr
    rw [longs_zero, hcl, hc] at l2
    have hll : bit LONGLONG acc := by
      by_contra hn
      unfold longs at l2
      rw [if_neg hn] at l2
      split at l2 <;> omega
    refine ⟨hll, ?_⟩
    by_contra hn
    exact l1 ⟨hn, hll⟩
  · intro hc
    rcases read_basic_phrase_cases basic_start basic_end argv with ⟨_, h0⟩ | ⟨acc, _, hr, _⟩
    · exact h0
    · exfalso
      obtain ⟨_, l2⟩ := read_run_longs _ 0 acc (by omega) hnb hr
      have := longs_le acc
      rw [longs_zero, hcl] at l2
      omega
  · intro k hk hc
    rcases read_basic_phrase_cases basic_start basic_end argv with ⟨_, h0⟩ | ⟨acc, _, hr, _⟩
    · exact h0
    · exfalso
      obtain ⟨hk1, hk2⟩ := plain_keywords k hk
      have := read_run_twice (basic_words basic_start basic_end argv) 0 _ (by omega) hk2
        (by rw [type_count _ _ hk1]; exact hc)
      rw [this] at hr
      cases hr
  · intro hkey hlong hplain
    rw [read_basic_words_range]
    refine read_run_total _ 0 (by omega) hnb (fun m _ h => absurd h (bit_zero m)) ?_ ?_ ?_
    · intro m hm
      obtain ⟨k, hk, he⟩ := plain_types_keywords m hm
      rw [← he, type_count _ _ (plain_keywords k hk).1]
      exact hplain k hk
    · rw [longs_zero, hcl]; omega
    · intro w hw
      rcases basic_word_type_spec w with ⟨_, h⟩ | ⟨h, _⟩
      · exact h
      · exact absurd (hkey w hw) h

/-- Witness of C15: three `long` are refused, two `long` around `int` give
`long long`, and `int int` is refused. -/
theorem keyword_repetition_witness :
    read_basic_phrase 1 3 ["types", "long", "long", "long"] = 0 ∧
    read_basic_phrase 1 3 ["types", "long", "int", "long"] = INT + LONGLONG + SIGNED ∧
    read_basic_phrase 1 2 ["types", "int", "int"] = 0 :=
  ⟨(keyword_repetition 1 3 ["types", "long", "long", "long"]).2.1 (by decide), by decide,
    (keyword_repetition 1 2 ["types", "int", "int"]).2.2.1 "int" (by decide) (by decide)⟩

/-! ## Combinations of basic-type words that are refused -/

theorem reject_facts (t : Nat) (ht : t < 512) :
    (bit SIGNED t → bit UNSIGNED t → standardise_basic_phrase t = 0) ∧
    (bit SHORT t → 1 ≤ longs t → standardise_basic_phrase t = 0) ∧
    (bit CHAR t → (∃ m ∈ [INT, DOUBLE, FLOAT, SHORT], bit m t) →
      standardise_basic_phrase t = 0) ∧
    (bit CHAR t → 1 ≤ longs t → standardise_basic_phrase t = 0) ∧
    (bit FLOAT t → (∃ m ∈ [INT, CHAR, DOUBLE, SIGNED, UNSIGNED, SHORT], bit m t) →
      standardise_basic_phrase t = 0) ∧
    (bit FLOAT t → 1 ≤ longs t → standardise_basic_phrase t = 0) ∧
    (bit DOUBLE t → (∃ m ∈ [INT, CHAR, FLOAT, SIGNED, UNSIGNED, SHORT], bit m t) →
      standardise_basic_phrase t = 0) ∧
    (bit DOUBLE t → 2 ≤ longs t → standardise_basic_phrase t = 0) ∧
    (bit INT t → (∃ m ∈ [CHAR, DOUBLE, FLOAT], bit m t) → standardise_basic_phrase t = 0) := by
  have hc := reject_check_all t ht
  unfold reject_check at hc
  simp only [Bool.and_eq_true, decide_eq_true_eq] at hc
  obtain ⟨⟨⟨⟨⟨⟨⟨⟨h1, h2⟩, h3⟩, h4⟩, h5⟩, h6⟩, h7⟩, h8⟩, h9⟩ := hc
  exact ⟨h1, h2, h3, h4, h5, h6, h7, h8, h9⟩

/-- After the loop, the bit of each basic-type word of the run other than
`long` is set. -/
theorem bit_of_word (ws : List String) (acc : Nat) (h : read_run ws 0 = some acc) (k : String)
    (hk : k ∈ ["int", "char", "double", "float", "signed", "unsigned", "short"])
    (hin : k ∈ ws) : bit (basic_word_type k) acc := by
  obtain ⟨hk1, hk2⟩ := plain_keywords k hk
  exact ((read_run_bits ws 0 acc (by omega) h _ hk2).1).mpr
    (Or.inr ((type_mem ws k hk1).mpr hin))

/-- After the loop, the bits `LONG` and `LONGLONG` count the words `long` of
the run. -/
theorem longs_of_run (ws : List String) (acc : Nat) (h : read_run ws 0 = some acc) :
    longs acc = ws.count "long" := by
  obtain ⟨_, l2⟩ := read_run_longs ws 0 acc (by omega) (fun h => bit_zero _ h.1) h
  have hlongt : basic_word_type "long" = LONG := by decide
  rw [longs_zero, ← hlongt, type_count ws "long" (by decide)] at l2
  omega

/-- C17. For every range of words that `read_basic_phrase` goes through, the
result is `false` whenever the range contains `signed` and `unsigned`; `short`
and `long` (once or twice); `char` and one of `int`, `double`, `float`,
`short`, `long`; `float` and any other basic-type word; `double` and any
basic-type word other than `double` and `long`, or `double` and two `long`;
`int` and one of `char`, `double`, `float`. -/
theorem mutual_exclusion (basic_start : Nat) (basic_end : Int) (argv : List String) :
    ("signed" ∈ basic_words basic_start basic_end argv →
      "unsigned" ∈ basic_words basic_start basic_end argv →
      read_basic_phrase basic_start basic_end argv = 0) ∧
    ("short" ∈ basic_words basic_start basic_end argv →
      "long" ∈ basic_words basic_start basic_end argv →
      read_basic_phrase basic_start basic_end argv = 0) ∧
    ("char" ∈ basic_words basic_start basic_end argv →
      (∃ k ∈ ["int", "double", "float", "short", "long"],
        k ∈ basic_words basic_start basic_end argv) →
      read_basic_phrase basic_start basic_end argv = 0) ∧
    ("float" ∈ basic_words basic_start basic_end argv →
      (∃ k ∈ ["int", "char", "double", "signed", "unsigned", "short", "long"],
        k ∈ basic_words basic_start basic_end argv) →
      read_basic_phrase basic_start basic_end argv = 0) ∧
    ("double" ∈ basic_words basic_start basic_end argv →
      (∃ k ∈ ["int", "char", "float", "signed", "unsigned", "short"],
        k ∈ basic_words basic_start basic_end argv) →
      read_basic_phrase basic_start basic_end argv = 0) ∧
    ("double" ∈ basic_words basic_start basic_end argv →
      2 ≤ (basic_words basic_start basic_end argv).count "long" →
      read_basic_phrase basic_start basic_end argv = 0) ∧
    ("int" ∈ basic_words basic_start basic_end argv →
      (∃ k ∈ ["char", "double", "float"], k ∈ basic_words basic_start basic_end argv) →
      read_basic_phrase basic_start basic_end argv = 0) := by
  rcases read_basic_phrase_cases basic_start basic_end argv with ⟨_, h0⟩ | ⟨acc, hlt, hr, he⟩
  · exact ⟨fun _ _ => h0, fun _ _ => h0, fun _ _ => h0, fun _ _ => h0, fun _ _ => h0,
      fun _ _ => h0, fun _ _ => h0⟩
  · rw [he]
    obtain ⟨r1, r2, r3, r4, r5, r6, r7, r8, r9⟩ := reject_facts acc hlt
    have hb := bit_of_word _ acc hr
    have hl := longs_of_run _ acc hr
    have bI : "int" ∈ basic_words basic_start basic_end argv → bit INT acc :=
      fun h => hb "int" (by decide) h
    have bC : "char" ∈ basic_words basic_start basic_end argv → bit CHAR acc :=
      fun h => hb "char" (by decide) h
    have bD : "double" ∈ basic_words basic_start basic_end argv → bit DOUBLE acc :=
      fun h => hb "double" (by decide) h
    have bF : "float" ∈ basic_words basic_start basic_end argv → bit FLOAT acc :=
      fun h => hb "float" (by decide) h
    have bS : "signed" ∈ basic_words basic_start basic_end argv → bit SIGNED acc :=
      fun h => hb "signed" (by decide) h
    have bU : "unsigned" ∈ basic_words basic_start basic_end argv → bit UNSIGNED acc :=
      fun h => hb "unsigned" (by decide) h
    have bH : "short" ∈ basic_words basic_start basic_end argv → bit SHORT acc :=
      fun h => hb "short" (by decide) h
    have bL : "long" ∈ basic_words basic_start basic_end argv → 1 ≤ longs acc := by
      intro h
      rw [hl]
      exact List.count_pos_iff.mpr h
    refine ⟨fun h1 h2 => r1 (bS h1) (bU h2), fun h1 h2 => r2 (bH h1) (bL h2), ?_, ?_, ?_,
      fun h1 h2 => r8 (bD h1) (by rw [hl]; exact h2), ?_⟩
    · rintro hc ⟨k, hk, hin⟩
      simp only [List.mem_cons, List.mem_singleton, List.not_mem_nil, or_false] at hk
      rcases hk with rfl | rfl | rfl | rfl | rfl
      · exact r3 (bC hc) ⟨INT, by decide, bI hin⟩
      · exact r3 (bC hc) ⟨DOUBLE, by decide, bD hin⟩
      · exact r3 (bC hc) ⟨FLOAT, by decide, bF hin⟩
      · exact r3 (bC hc) ⟨SHORT, by decide, bH hin⟩
      · exact r4 (bC hc) (bL hin)
    · rintro hc ⟨k, hk, hin⟩
      simp only [List.mem_cons, List.mem_singleton, List.not_mem_nil, or_false] at hk
      rcases hk with rfl | rfl | rfl | rfl | rfl | rfl | rfl
      · exact r5 (bF hc) ⟨INT, by decide, bI hin⟩
      · exact r5 (bF hc) ⟨CHAR, by decide, bC hin⟩
      · exact r5 (bF hc) ⟨DOUBLE, by decide, bD hin⟩
      · exact r5 (bF hc) ⟨SIGNED, by decide, bS hin⟩
      · exact r5 (bF hc) ⟨UNSIGNED, by decide, bU hin⟩
      · exact r5 (bF hc) ⟨SHORT, by decide, bH hin⟩
      · exact r6 (bF hc) (bL hin)
    · rintro hc ⟨k, hk, hin⟩
      simp only [List.mem_cons, List.mem_singleton, List.not_mem_nil, or_false] at hk
      rcases hk with rfl | rfl | rfl | rfl | rfl | rfl
      · exact r7 (bD hc) ⟨INT, by decide, bI hin⟩
      · exact r7 (bD hc) ⟨CHAR, by decide, bC hin⟩
      · exact r7 (bD hc) ⟨FLOAT, by decide, bF hin⟩
      · exact r7 (bD hc) ⟨SIGNED, by decide, bS hin⟩
      · exact r7 (bD hc) ⟨UNSIGNED, by decide, bU hin⟩
      · exact r7 (bD hc) ⟨SHORT, by decide, bH hin⟩
    · rintro hc ⟨k, hk, hin⟩
      simp only [List.mem_cons, List.mem_singleton, List.not_mem_nil, or_false] at hk
      rcases hk with rfl | rfl | rfl
      · exact r9 (bI hc) ⟨CHAR, by decide, bC hin⟩
      · exact r9 (bI hc) ⟨DOUBLE, by decide, bD hin⟩
      · exact r9 (bI hc) ⟨FLOAT, by decide, bF hin⟩

/-- Witness of C17: `unsigned signed`, `long short`, `char int`, `float long`,
`double int`, `long double long` and `int double` are refused, `long double`
is not. -/
theorem mutual_exclusion_witness :
    read_basic_phrase 1 2 ["types", "unsigned", "signed"] = 0 ∧
    read_basic_phrase 1 2 ["types", "long", "short"] = 0 ∧
    read_basic_phrase 1 2 ["types", "char", "int"] = 0 ∧
    read_basic_phrase 1 2 ["types", "float", "long"] = 0 ∧
    read_basic_phrase 1 2 ["types", "double", "int"] = 0 ∧
    read_basic_phrase 1 3 ["types", "long", "double", "long"] = 0 ∧
    read_basic_phrase 1 2 ["types", "int", "double"] = 0 ∧
    read_basic_phrase 1 2 ["types", "long", "double"] = DOUBLE + LONG :=
  ⟨(mutual_exclusion 1 2 ["types", "unsigned", "signed"]).1 (by decide) (by decide),
    (mutual_exclusion 1 2 ["types", "long", "short"]).2.1 (by decide) (by decide),
    (mutual_exclusion 1 2 ["types", "char", "int"]).2.2.1 (by decide)
      ⟨"int", by decide, by decide⟩,
    (mutual_exclusion 1 2 ["types", "float", "long"]).2.2.2.1 (by decide)
      ⟨"long", by decide, by decide⟩,
    (mutual_exclusion 1 2 ["types", "double", "int"]).2.2.2.2.1 (by decide)
      ⟨"int", by decide, by decide⟩,
    (mutual_exclusion 1 3 ["types", "long", "double", "long"]).2.2.2.2.2.1 (by decide)
      (by decide),
    (mutual_exclusion 1 2 ["types", "int", "double"]).2.2.2.2.2.2 (by decide)
      ⟨"double", by decide, by decide⟩,
    by decide⟩

/-! ## The implicit `int` and `signed` -/

theorem read_run_append : ∀ (ws1 ws2 : List String) (a : Nat),
    (∀ w ∈ ws1, basic_word_type w ≠ 0) →
    read_run (ws1 ++ ws2) a = (read_run ws1 a).bind (read_run ws2) := by
  intro ws1
  induction ws1 with
  | nil => intro ws2 a _; rfl
  | cons w ws1 ih =>
    intro ws2 a h
    have hw : basic_word_type w ≠ 0 := h w (List.mem_cons_self _ _)
    have c1 : ¬ (basic_word_type w = 0 ∧ ws1 ++ ws2 ≠ []) := fun c => hw c.1
    have c2 : ¬ (basic_word_type w = 0 ∧ ws1 ≠ []) := fun c => hw c.1
    rw [List.cons_append, read_run, read_run, if_neg c1, if_neg c2]
    cases add_word a (basic_word_type w) with
    | none => rfl
    | some a1 => exact ih ws2 a1 (fun x hx => h x (List.mem_cons_of_mem _ hx))

/-- Setting the bit `INT` or `SIGNED` before a run in which that type does not
occur sets it in the result and changes nothing else. -/
theorem read_run_or (m : Nat) (hm : m ∈ [INT, SIGNED]) : ∀ (ws : List String) (a acc : Nat),
    a < 512 → ¬ bit m a → m ∉ ws.map basic_word_type → read_run ws a = some acc →
    read_run ws (a ||| m) = some (acc ||| m) := by
  have hp : m ∈ plain_types := by
    simp only [List.mem_cons, List.mem_singleton, List.not_mem_nil, or_false] at hm
    rcases hm with rfl | rfl <;> decide
  intro ws
  induction ws with
  | nil =>
    intro a acc _ _ _ h
    simp only [read_run, Option.some.injEq] at h ⊢
    rw [h]
  | cons w ws ih =>
    intro a acc ha hb hin h
    obtain ⟨a1, h1, h2, _⟩ := read_run_cons_some w ws a acc h
    have hs := add_word_some a _ a1 ha (basic_word_type_mem w) h1
    have hne : m ≠ basic_word_type w := by
      intro e
      exact hin (by rw [List.map_cons, e]; exact List.mem_cons_self _ _)
    have hfirst : ¬ (basic_word_type w = 0 ∧ ws ≠ []) := by
      intro c
      unfold read_run at h
      rw [if_pos c] at h
      cases h
    rw [read_run, if_neg hfirst, hs.comm m hm hne hb]
    exact ih a1 acc hs.lt (fun hb1 => hb ((hs.frame m hp hne).mp hb1))
      (fun hin1 => hin (by rw [List.map_cons]; exact List.mem_cons_of_mem _ hin1)) h2

theorem resolve_words_eq (ws : List String) : resolve_words ws = resolve_run ws := by
  unfold resolve_words
  rw [read_basic_phrase_run, basic_words_self]

/-- Inserting the word `k` of type `INT` or `SIGNED` into an accepted run of
basic-type words in which it does not occur, when `standardise_basic_phrase`
would set its bit anyway, does not change the result. -/
theorem insert_word (k : String) (hk : k ∈ ["int", "signed"]) (K1 K2 : List String)
    (hkey : ∀ w ∈ K1 ++ K2, w ∈ keywords) (hacc : resolve_words (K1 ++ K2) ≠ 0)
    (hin : k ∉ K1 ++ K2)
    (hstd : ∀ acc, acc < 512 → read_run (K1 ++ K2) 0 = some acc →
      standardise_basic_phrase (acc ||| basic_word_type k) = standardise_basic_phrase acc) :
    resolve_words (K1 ++ k :: K2) = resolve_words (K1 ++ K2) := by
  have hkw : k ∈ keywords := by
    simp only [List.mem_cons, List.mem_singleton, List.not_mem_nil, or_false] at hk
    rcases hk with rfl | rfl <;> decide
  have hm : basic_word_type k ∈ [INT, SIGNED] := by
    simp only [List.mem_cons, List.mem_singleton, List.not_mem_nil, or_false] at hk
    rcases hk with rfl | rfl <;> decide
  have hp : basic_word_type k ∈ plain_types := by
    simp only [List.mem_cons, List.mem_singleton, List.not_mem_nil, or_false] at hk
    rcases hk with rfl | rfl <;> decide
  have hnl : basic_word_type k ≠ LONG := by
    simp only [List.mem_cons, List.mem_singleton, List.not_mem_nil, or_false] at hk
    rcases hk with rfl | rfl <;> decide
  have hn0 : basic_word_type k ≠ 0 := by
    simp only [List.mem_cons, List.mem_singleton, List.not_mem_nil, or_false] at hk
    rcases hk with rfl | rfl <;> decide
  have hk1 : ∀ w ∈ K1, basic_word_type w ≠ 0 := by
    intro w hw
    rcases basic_word_type_spec w with ⟨_, h⟩ | ⟨h, _⟩
    · exact h
    · exact absurd (hkey w (List.mem_append_left _ hw)) h
  rw [resolve_words_eq, resolve_words_eq] at *
  unfold resolve_run at hacc ⊢
  cases hr : read_run (K1 ++ K2) 0 with
  | none => rw [hr] at hacc; exact absurd rfl hacc
  | some acc =>
    have hlt := read_run_lt _ 0 acc (by omega) hr
    rw [read_run_append K1 K2 0 hk1] at hr
    cases hr1 : read_run K1 0 with
    | none => rw [hr1] at hr; cases hr
    | some a1 =>
      rw [hr1] at hr
      have hr2 : read_run K2 a1 = some acc := hr
      have hlt1 := read_run_lt _ 0 a1 (by omega) hr1
      have hb1 : ¬ bit (basic_word_type k) a1 := by
        intro hb
        rcases ((read_run_bits K1 0 a1 (by omega) hr1 _ hp).1).mp hb with h | h
        · exact bit_zero _ h
        · exact hin (List.mem_append_left _ ((type_mem K1 k hkw).mp h))
      have hadd : add_word a1 (basic_word_type k) = some (a1 ||| basic_word_type k) := by
        unfold add_word
        unfold bit at hb1
        rw [if_neg hnl, if_neg hb1]
      have hin2 : basic_word_type k ∉ K2.map basic_word_type := fun h =>
        hin (List.mem_append_right _ ((type_mem K2 k hkw).mp h))
      have hrun : read_run (K1 ++ k :: K2) 0 = some (acc ||| basic_word_type k) := by
        rw [read_run_append K1 (k :: K2) 0 hk1, hr1]
        have c : ¬ (basic_word_type k = 0 ∧ K2 ≠ []) := fun c => hn0 c.1
        show read_run (k :: K2) a1 = _
        rw [read_run, if_neg c, hadd]
        exact read_run_or _ hm K2 a1 acc hlt1 hb1 hin2 hr2
      rw [hrun]
      have hr' : read_run (K1 ++ K2) 0 = some acc := by
        rw [read_run_append K1 K2 0 hk1, hr1]; exact hr2
      exact hstd acc hlt hr'

/-- C16. (1) Every value other than `false` that `read_basic_phrase` returns
has the bit `INT` when it has none of `CHAR`, `DOUBLE`, `FLOAT`, and has
exactly one of `SIGNED`, `UNSIGNED` when it has `INT`. (2) For every accepted
run of basic-type words without `char`, `double`, `float`: inserting `int`
anywhere, when the run has no `int`, gives the same value, and inserting
`signed` anywhere, when the run has neither `signed` nor `unsigned`, gives the
same value. (3) `signed`, `int` and `signed int` are rendered `int`, and
`long int` is rendered `long`. -/
theorem implicit_int_signed :
    (∀ (basic_start : Nat) (basic_end : Int) (argv : List String),
      read_basic_phrase basic_start basic_end argv ≠ 0 →
      (read_basic_phrase basic_start basic_end argv &&& (CHAR + DOUBLE + FLOAT) = 0 →
        read_basic_phrase basic_start basic_end argv &&& INT ≠ 0) ∧
      (read_basic_phrase basic_start basic_end argv &&& INT ≠ 0 →
        (read_basic_phrase basic_start basic_end argv &&& SIGNED ≠ 0 ↔
          read_basic_phrase basic_start basic_end argv &&& UNSIGNED = 0))) ∧
    (∀ K1 K2 : List String, (∀ w ∈ K1 ++ K2, w ∈ keywords) →
      resolve_words (K1 ++ K2) ≠ 0 →
      "char" ∉ K1 ++ K2 → "double" ∉ K1 ++ K2 → "float" ∉ K1 ++ K2 →
      ("int" ∉ K1 ++ K2 → resolve_words (K1 ++ "int" :: K2) = resolve_words (K1 ++ K2)) ∧
      ("signed" ∉ K1 ++ K2 → "unsigned" ∉ K1 ++ K2 →
        resolve_words (K1 ++ "signed" :: K2) = resolve_words (K1 ++ K2))) ∧
    make_basic_output (resolve_words ["signed"]) = .ok "int" ∧
    make_basic_output (resolve_words ["int"]) = .ok "int" ∧
    make_basic_output (resolve_words ["signed", "int"]) = .ok "int" ∧
    make_basic_output (resolve_words ["long", "int"]) = .ok "long" := by
  refine ⟨?_, ?_, by decide, by decide, by decide, by decide⟩
  · intro basic_start basic_end argv h
    rcases read_basic_phrase_cases basic_start basic_end argv with ⟨_, h0⟩ | ⟨acc, hlt, _, he⟩
    · exact absurd h0 h
    · rw [he] at h ⊢
      obtain ⟨_, a2, a3, _, _⟩ := accept_facts acc hlt h
      exact ⟨a2, a3⟩
  · intro K1 K2 hkey hacc hc hd hf
    have hstd : ∀ acc, acc < 512 → read_run (K1 ++ K2) 0 = some acc →
        standardise_basic_phrase acc ≠ 0 ∧ ¬ bit CHAR acc ∧ ¬ bit DOUBLE acc ∧
        ¬ bit FLOAT acc ∧ ("unsigned" ∉ K1 ++ K2 → ¬ bit UNSIGNED acc) := by
      intro acc hlt hr
      have hne : standardise_basic_phrase acc ≠ 0 := by
        rw [resolve_words_eq] at hacc
        unfold resolve_run at hacc
        rw [hr] at hacc
        exact hacc
      have hno : ∀ k ∈ ["int", "char", "double", "float", "signed", "unsigned", "short"],
          k ∉ K1 ++ K2 → ¬ bit (basic_word_type k) acc := by
        intro k hk hin hb
        obtain ⟨hk1, hk2⟩ := plain_keywords k hk
        rcases ((read_run_bits _ 0 acc (by omega) hr _ hk2).1).mp hb with h | h
        · exact bit_zero _ h
        · exact hin ((type_mem _ k hk1).mp h)
      exact ⟨hne, hno "char" (by decide) hc, hno "double" (by decide) hd,
        hno "float" (by decide) hf, fun hu => hno "unsigned" (by decide) hu⟩
    refine ⟨fun hi => ?_, fun hs hu => ?_⟩
    · refine insert_word "int" (by decide) K1 K2 hkey hacc hi ?_
      intro acc hlt hr
      obtain ⟨s1, s2, s3, s4, _⟩ := hstd acc hlt hr
      exact (accept_facts acc hlt s1).2.2.2.1 s2 s3 s4
    · refine insert_word "signed" (by decide) K1 K2 hkey hacc hs ?_
      intro acc hlt hr
      obtain ⟨s1, s2, s3, s4, s5⟩ := hstd acc hlt hr
      exact (accept_facts acc hlt s1).2.2.2.2 s2 s3 s4 (s5 hu)

/-- Witness of C16: `long unsigned` is accepted and has no `int`; with `int`
inserted in the middle it resolves to the same value. -/
theorem implicit_int_signed_witness :
    resolve_words (["long"] ++ ["unsigned"]) = INT + LONG + UNSIGNED ∧
    resolve_words (["long"] ++ "int" :: ["unsigned"]) = resolve_words (["long"] ++ ["unsigned"]) :=
  ⟨by decide, (implicit_int_signed.2.1 ["long"] ["unsigned"] (by decide) (by decide) (by decide)
    (by decide) (by decide)).1 (by decide)⟩

/-! ## The article of a phrase -/

theorem check_vowel_iff (c : Char) :
    check_vowel c = true ↔ c = 'a' ∨ c = 'e' ∨ c = 'i' ∨ c = 'o' ∨ c = 'u' := by
  unfold check_vowel
  simp only [Bool.or_eq_true, decide_eq_true_eq, or_assoc]

theorem check_preposition_iff (word_1 word_2 : String) (start : Bool) :
    check_preposition word_1 word_2 start = true ↔
      (check_vowel (first_char word_2) = true ∧ word_1 = (if start then "An" else "an")) ∨
      (check_vowel (first_char word_2) = false ∧ word_1 = (if start then "A" else "a")) := by
  have n1 : ¬ ("An" = "A") := by decide
  have n2 : ¬ ("an" = "a") := by decide
  unfold check_preposition
  cases start <;> cases hv : check_vowel (first_char word_2) <;>
    by_cases h1 : word_1 = "A" <;> by_cases h2 : word_1 = "An" <;>
    by_cases h3 : word_1 = "a" <;> by_cases h4 : word_1 = "an" <;>
    simp_all

/-- The body of the first pass stops the run with the diagnostic at a phrase
whose first word is not the article that its second word asks for. -/
theorem first_pass_phrase_article (g : Phrases) (s : State)
    (h : check_preposition (g.word (g.phrase_start s.phrase_nb))
      (g.word (g.phrase_start s.phrase_nb + 1)) true = false) :
    first_pass_phrase g s = .error Halt.incorrect_input := by
  unfold first_pass_phrase
  have hw : ∀ i, ({ g with continuation := upd g.continuation s.phrase_nb NO_DATA } :
      Phrases).word i = g.word i := fun _ => rfl
  simp only [hw, Nat.add_sub_cancel, h, Bool.not_false, if_true, throw_eq_error]
  split <;> rfl

theorem main_of_pass_one_error (argv : List String) (e : Halt)
    (h : pass_one argv = .error e) : main argv = .error e := by
  simp [main, main_state, prepare, pass_refs, h]

/-- C20. (1) `check_preposition(w1, w2, start)` is true exactly when `w2`
starts with one of `a e i o u` and `w1` is `An` (at the start of a phrase) or
`an` (elsewhere), or `w2` does not start with one of them and `w1` is `A` or
`a`; so a first word `a` or `an` is refused. (2) The body of the first pass
stops the run with the diagnostic at a phrase whose first word is not the
article that its second word asks for. (3) When the input has such a phrase,
the first pass does not complete and no line is printed: the run stops in the
first pass, with the diagnostic at that phrase unless an earlier phrase
stopped it; for the first phrase of the input it stops with the diagnostic. -/
theorem article_agreement :
    (∀ (word_1 word_2 : String) (start : Bool),
      (check_preposition word_1 word_2 start = true ↔
        ((first_char word_2 = 'a' ∨ first_char word_2 = 'e' ∨ first_char word_2 = 'i' ∨
            first_char word_2 = 'o' ∨ first_char word_2 = 'u') ∧
          word_1 = (if start then "An" else "an")) ∨
        (¬ (first_char word_2 = 'a' ∨ first_char word_2 = 'e' ∨ first_char word_2 = 'i' ∨
            first_char word_2 = 'o' ∨ first_char word_2 = 'u') ∧
          word_1 = (if start then "A" else "a")))) ∧
    (∀ word_2 : String, check_preposition "a" word_2 true = false ∧
      check_preposition "an" word_2 true = false) ∧
    (∀ (g : Phrases) (s : State),
      check_preposition (g.word (g.phrase_start s.phrase_nb))
        (g.word (g.phrase_start s.phrase_nb + 1)) true = false →
      first_pass_phrase g s = .error Halt.incorrect_input) ∧
    (∀ (argv : List String) (g : Phrases) (s : State) (p : Nat),
      segment argv = .ok (g, s) → p < g.nb_phrases →
      check_preposition (g.word (g.phrase_start p)) (g.word (g.phrase_start p + 1)) true
        = false →
      (∃ e, pass_one argv = .error e ∧ main argv = .error e ∧
        (e = Halt.incorrect_input ∨ e = Halt.undefined)) ∧
      (p = 0 → main argv = .error Halt.incorrect_input)) := by
  refine ⟨?_, ?_, first_pass_phrase_article, ?_⟩
  · intro word_1 word_2 start
    rw [check_preposition_iff, check_vowel_iff]
    have hf : check_vowel (first_char word_2) = false ↔
        ¬ (first_char word_2 = 'a' ∨ first_char word_2 = 'e' ∨ first_char word_2 = 'i' ∨
            first_char word_2 = 'o' ∨ first_char word_2 = 'u') := by
      rw [← check_vowel_iff]
      simp
    rw [hf]
  · intro word_2
    have n1 : ¬ ("a" = "A") := by decide
    have n2 : ¬ ("a" = "An") := by decide
    have n3 : ¬ ("an" = "A") := by decide
    have n4 : ¬ ("an" = "An") := by decide
    unfold check_preposition
    simp [n1, n2, n3, n4]
  · intro argv g s p hseg hp hart
    have hpass : pass_one argv
        = first_pass g.nb_phrases (g, { s with phrase_nb := 0 }) := by
      unfold pass_one
      rw [hseg, bind_ok]
    have hfail : ∃ e, pass_one argv = .error e := by
      cases hm : pass_one argv with
      | error e => exact ⟨e, rfl⟩
      | ok r =>
        exfalso
        rw [hpass] at hm
        obtain ⟨rp, ⟨gp, sp, c1, c2, c3, _, c5⟩, _⟩ :=
          post_elim (first_pass_trace _ _ _) hm p (Nat.zero_le _)
            (by simp only [Nat.zero_add]; exact hp)
        have hw : ∀ i, gp.word i = g.word i := by
          intro i; unfold Phrases.word; rw [c2]
        have := first_pass_phrase_article gp sp (by rw [hw, hw, c3, c5]; exact hart)
        rw [this] at c1
        cases c1
    obtain ⟨e, he⟩ := hfail
    refine ⟨⟨e, he, main_of_pass_one_error argv e he, ?_⟩, ?_⟩
    · have hs := safe_pass_one argv
      rw [he, safe_error] at hs
      cases e
      · exact Or.inl rfl
      · exact Or.inr rfl
      · exact absurd rfl hs
    · intro h0
      apply main_of_pass_one_error
      rw [hpass]
      obtain ⟨k, hk⟩ : ∃ k, g.nb_phrases = k + 1 := ⟨g.nb_phrases - 1, by omega⟩
      rw [hk, first_pass_step,
        first_pass_phrase_article g { s with phrase_nb := 0 } (by rw [← h0]; exact hart)]
      rfl

/-- Witness of C20: `a pointer to void.` starts with a lower-case article, and
`An pointer to void.` with an article that disagrees with `pointer`; both runs
stop with the diagnostic. -/
theorem article_agreement_witness :
    main ["types", "a", "pointer", "to", "void."] = .error Halt.incorrect_input ∧
    main ["types", "An", "pointer", "to", "void."] = .error Halt.incorrect_input :=
  ⟨(article_agreement.2.2.2 ["types", "a", "pointer", "to", "void."] _ _ 0 rfl (by decide)
      (by decide)).2 rfl,
    (article_agreement.2.2.2 ["types", "An", "pointer", "to", "void."] _ _ 0 rfl (by decide)
      (by decide)).2 rfl⟩

/-! ## Words that are not basic types -/

theorem read_basic_words_stray (argv : List String) (basic_end : Int) (i : Nat)
    (hi : (i : Int) ≠ basic_end) (h0 : basic_word_type (argv.getD i "") = 0) :
    ∀ (k w a : Nat), w ≤ i → i < w + k → read_basic_words argv basic_end k w a = none := by
  intro k
  induction k with
  | zero => intro w a h1 h2; omega
  | succ k ih =>
    intro w a h1 h2
    rw [add_word_bind]
    by_cases hw : w = i
    · rw [hw, if_pos ⟨h0, hi⟩]
    · split
      · rfl
      · cases add_word a (basic_word_type (argv.getD w "")) with
        | none => rfl
        | some a1 => exact ih (w + 1) a1 (by omega) (by omega)

/-- A word of the range, other than its last word, that is not a basic type
makes `read_basic_phrase` return `false`. -/
theorem read_basic_phrase_stray (basic_start : Nat) (basic_end : Int) (argv : List String)
    (i : Nat) (h1 : basic_start ≤ i) (h2 : (i : Int) < basic_end)
    (h0 : basic_word_type (argv.getD i "") = 0) :
    read_basic_phrase basic_start basic_end argv = 0 := by
  unfold read_basic_phrase
  rw [read_basic_words_stray argv basic_end i (by omega) h0 _ basic_start 0 h1 (by omega)]

theorem finish_basic_zero (s : State) : finish_basic s 0 = .ok (ERROR, s) := by
  unfold finish_basic
  rw [if_pos rfl]
  rfl

/-- `process_basic` returns `ERROR` when the range it hands to
`read_basic_phrase` has a word, other than its last, that is not a basic
type. -/
theorem process_basic_stray (g : Phrases) (s : State) (i : Nat)
    (h0 : basic_word_type (g.word i) = 0)
    (hstart : s.stage s.original_phrase_nb = START →
      g.phrase_start s.phrase_nb + 1 ≤ i ∧
      (i + 1 < g.phrase_end s.phrase_nb ∨
        (i < g.phrase_end s.phrase_nb ∧
          basic_word_type (g.word (g.phrase_end s.phrase_nb)) ≠ 0)))
    (hcont : s.stage s.original_phrase_nb = CONTINUE →
      s.current ≤ i ∧ i < g.phrase_end s.phrase_nb)
    (hrefer : s.stage s.original_phrase_nb = REFER →
      s.current ≤ i ∧ i + 1 < g.phrase_end s.phrase_nb) :
    Post (process_basic g s) fun r => r.1 = ERROR := by
  have h0' : basic_word_type (g.argv.getD i "") = 0 := h0
  unfold process_basic
  by_cases hs : s.stage s.original_phrase_nb = START
  · obtain ⟨a1, a2⟩ := hstart hs
    simp only [hs, if_true]
    by_cases hl : basic_word_type (g.word (g.phrase_end s.phrase_nb)) = 0
    · have a3 : i + 1 < g.phrase_end s.phrase_nb := by
        rcases a2 with h | ⟨_, h⟩
        · exact h
        · exact absurd hl h
      simp only [hl, if_true]
      rw [post_ite, post_pure, post_bind, post_output_at_back_iff]
      refine ⟨fun _ => rfl, fun _ => ?_⟩
      intro out _
      rw [post_bind, post_output_at_front_iff]
      intro out' _
      simp only []
      rw [read_basic_phrase_stray _ _ g.argv i a1 (by omega) h0', finish_basic_zero, post_ok]
    · have a3 : i < g.phrase_end s.phrase_nb := by
        rcases a2 with h | ⟨h, _⟩
        · omega
        · exact h
      simp only [hl, if_false]
      rw [read_basic_phrase_stray _ _ g.argv i a1 (by omega) h0', finish_basic_zero, post_ok]
  · simp only [hs, if_false]
    by_cases hr : s.stage s.original_phrase_nb = REFER
    · obtain ⟨a1, a2⟩ := hrefer hr
      simp only [hr, if_true]
      rw [read_basic_phrase_stray _ _ g.argv i a1 (by omega) h0', finish_basic_zero, post_ok]
    · simp only [hr, if_false]
      by_cases hc : s.stage s.original_phrase_nb = CONTINUE
      · obtain ⟨a1, a2⟩ := hcont hc
        simp only [hc, if_true]
        rw [read_basic_phrase_stray _ _ g.argv i a1 (by omega) h0', finish_basic_zero,
          post_ok]
      · simp only [hc, if_false]
        rw [finish_basic_zero, post_ok]

/-- On a basic phrase with such a word the body of the first pass, when it
returns, leaves the stage of the phrase at `ERROR`. -/
theorem first_pass_phrase_stray (g : Phrases) (s : State) (i : Nat)
    (hbasic : first_phrase_type (g.word (g.phrase_start s.phrase_nb + 1)) = BASIC)
    (h0 : basic_word_type (g.word i) = 0)
    (h1 : g.phrase_start s.phrase_nb + 1 ≤ i)
    (h2 : i + 1 < g.phrase_end s.phrase_nb ∨
      (i < g.phrase_end s.phrase_nb ∧
        basic_word_type (g.word (g.phrase_end s.phrase_nb)) ≠ 0)) :
    Post (first_pass_phrase g s) fun r => r.2.stage s.phrase_nb = ERROR := by
  unfold first_pass_phrase
  have hw : ∀ j, ({ g with continuation := upd g.continuation s.phrase_nb NO_DATA } :
      Phrases).word j = g.word j := fun _ => rfl
  simp only [hw, hbasic, upd_same, if_true]
  rw [post_ite, post_throw, post_ite, post_throw, post_map]
  refine ⟨fun _ => trivial, fun _ => ⟨fun _ => trivial, fun _ => ?_⟩⟩
  refine post_mono (post_and (process_basic_stray _ _ i h0 (fun _ => ⟨h1, h2⟩)
    (fun hc => ?_) (fun hc => ?_)) (process_basic_phrase_nb _ _)) ?_
  · simp only [upd_same] at hc
    exact absurd hc (by decide)
  · simp only [upd_same] at hc
    exact absurd hc (by decide)
  · intro r hr
    obtain ⟨e1, e2, _⟩ := hr
    simp only at e2
    simp only [e1, e2, upd_same]

theorem prepare_of_segment (argv : List String) (g g0 : Phrases) (s s0 : State)
    (h : prepare argv = .ok (g, s)) (h0 : segment argv = .ok (g0, s0)) :
    g.argv = g0.argv ∧ g.max_phrase_index = g0.max_phrase_index ∧
    g.phrase_start = g0.phrase_start ∧ g.phrase_end = g0.phrase_end := by
  obtain ⟨g1, s1, h1, a1, a2, a3, a4, _⟩ := prepare_of_pass_one argv g s h
  unfold pass_one at h1
  rw [h0, bind_ok] at h1
  obtain ⟨b1, b2, b3, b4, _⟩ := post_elim (first_pass_spec _ _ _) h1
  exact ⟨a1.trans b1, a2.trans b2, a3.trans b3, a4.trans b4⟩

theorem main_error_of_prepare (argv : List String) (e : Halt) (h : prepare argv = .error e) :
    main argv = .error Halt.incorrect_input ∨ main argv = .error Halt.undefined := by
  apply quiet_or_undefined
  intro r hr
  simp [main, main_state, h] at hr

/-- C18, as stated, fails: `foo` is not a basic-type word, and
`read_basic_phrase` on the range `int foo` does not fail, it returns the value
of `int`: a last word that is not a basic type is skipped. -/
theorem stray_word_refuted :
    basic_word_type "foo" = 0 ∧
    read_basic_phrase 1 2 ["types", "int", "foo"] = INT + SIGNED ∧
    make_basic_output (read_basic_phrase 1 2 ["types", "int", "foo"]) = .ok "int" := by
  decide

/-- C18, amended. (1) For every range of words handed to `read_basic_phrase`,
a word of the range other than its last word that is not one of the eight
basic-type words makes the result `false`. (2) `process_basic` then returns
`ERROR` (or, at stage `START` with a declared name, leaves the bounds of the
output buffer while it writes the name): at stage `START` for a word `i` after
the article that is before the last two words of the phrase, or is the word
before a last word that is a basic type; at stage `CONTINUE` for a word `i`
from `current` on before the last word; at stage `REFER` for a word `i` from
`current` on before the last two words. (3) An input with a basic phrase that
has such a word, after the article and before the last two words, or before a
last word that is a basic type, prints no line: the run stops with the
diagnostic, or leaves the bounds of an array. -/
theorem stray_word_rejected :
    (∀ (basic_start : Nat) (basic_end : Int) (argv : List String) (i : Nat),
      basic_start ≤ i → (i : Int) < basic_end → basic_word_type (argv.getD i "") = 0 →
      read_basic_phrase basic_start basic_end argv = 0) ∧
    (∀ (g : Phrases) (s : State) (i : Nat), basic_word_type (g.word i) = 0 →
      (s.stage s.original_phrase_nb = START →
        g.phrase_start s.phrase_nb + 1 ≤ i ∧
        (i + 1 < g.phrase_end s.phrase_nb ∨
          (i < g.phrase_end s.phrase_nb ∧
            basic_word_type (g.word (g.phrase_end s.phrase_nb)) ≠ 0))) →
      (s.stage s.original_phrase_nb = CONTINUE →
        s.current ≤ i ∧ i < g.phrase_end s.phrase_nb) →
      (s.stage s.original_phrase_nb = REFER →
        s.current ≤ i ∧ i + 1 < g.phrase_end s.phrase_nb) →
      process_basic g s = .error Halt.undefined ∨
      ∃ s', process_basic g s = .ok (ERROR, s')) ∧
    (∀ (argv : List String) (g : Phrases) (s : State) (p i : Nat),
      segment argv = .ok (g, s) → p < g.nb_phrases →
      first_phrase_type (g.word (g.phrase_start p + 1)) = BASIC →
      basic_word_type (g.word i) = 0 → g.phrase_start p + 1 ≤ i →
      (i + 1 < g.phrase_end p ∨
        (i < g.phrase_end p ∧ basic_word_type (g.word (g.phrase_end p)) ≠ 0)) →
      main argv = .error Halt.incorrect_input ∨ main argv = .error Halt.undefined) := by
  refine ⟨read_basic_phrase_stray, ?_, ?_⟩
  · intro g s i h0 hs hc hr
    rcases ok_or_undefined _ (safe_process_basic g s) (quiet_process_basic g s)
      with e | ⟨r, e⟩
    · exact Or.inl e
    · have := post_elim (process_basic_stray g s i h0 hs hc hr) e
      simp only at this
      refine Or.inr ⟨r.2, ?_⟩
      rw [e, ← this]
  · intro argv g s p i hseg hp hbasic h0 h1 h2
    cases hprep : prepare argv with
    | error e => exact main_error_of_prepare argv e hprep
    | ok r =>
      obtain ⟨a1, a2, a3, a4⟩ := prepare_of_segment argv r.1 g r.2 s hprep hseg
      have hp' : p < r.1.nb_phrases := by
        unfold Phrases.nb_phrases at hp ⊢
        rw [a2]; exact hp
      obtain ⟨rp, ⟨gp, sp, c1, c2, c3, c4, c5⟩, hst⟩ := prepare_trace argv r.1 r.2 hprep p hp'
      have hw : ∀ j, gp.word j = g.word j := by
        intro j; unfold Phrases.word; rw [c2, a1]
      have herr := post_elim (first_pass_phrase_stray gp sp i
        (by rw [hw, c3, a3, c5]; exact hbasic) (by rw [hw]; exact h0)
        (by rw [c3, a3, c5]; exact h1)
        (by rw [hw, c4, a4, c5]; exact h2)) c1
      simp only [c5] at herr
      exact main_fails_of_stage argv r.1 r.2 hprep p hp' (by rw [hst]; exact herr)

/-- Witness of C18: in `An int foo long x.` the word `foo` is not a basic type
and stands before the last two words: the run stops with the diagnostic. -/
theorem stray_word_rejected_witness :
    read_basic_phrase 2 4 ["types", "An", "int", "foo", "long", "x"] = 0 ∧
    main ["types", "An", "int", "foo", "long", "x."] = .error Halt.incorrect_input :=
  ⟨stray_word_rejected.1 2 4 ["types", "An", "int", "foo", "long", "x"] 3 (by decide)
    (by decide) (by decide), by decide⟩

/-! ## What the first pass leaves for each phrase -/

/-- The phrase `q` has the same data in `a` and in `b`: stage, kind, declared
name and buffer. -/
def Same (q : Nat) (a b : State) : Prop :=
  a.stage q = b.stage q ∧ a.type q = b.type q ∧ a.var_name q = b.var_name q ∧
  (∀ i, a.phrase_output i q = b.phrase_output i q) ∧
  a.output_start q = b.output_start q ∧ a.output_end q = b.output_end q

theorem same_refl (q : Nat) (a : State) : Same q a a := ⟨rfl, rfl, rfl, fun _ => rfl, rfl, rfl⟩

theorem same_trans {q : Nat} {a b c : State} (h1 : Same q a b) (h2 : Same q b c) :
    Same q a c :=
  ⟨h1.1.trans h2.1, h1.2.1.trans h2.2.1, h1.2.2.1.trans h2.2.2.1,
    fun i => (h1.2.2.2.1 i).trans (h2.2.2.2.1 i), h1.2.2.2.2.1.trans h2.2.2.2.2.1,
    h1.2.2.2.2.2.trans h2.2.2.2.2.2⟩

theorem same_line {q : Nat} {a b : State} (h : Same q a b) : a.line q = b.line q := by
  obtain ⟨_, _, _, h1, h2, h3⟩ := h
  unfold State.line
  simp only [h1, h2, h3]

/-- The function `process_basic` writes no kind and no stage, and no name but
that of `phrase_nb`. -/
theorem process_basic_fields (g : Phrases) (s : State) :
    Post (process_basic g s) fun r =>
      r.2.type = s.type ∧ r.2.stage = s.stage ∧ r.2.phrase_nb = s.phrase_nb ∧
      ∀ q, q ≠ s.phrase_nb → r.2.var_name q = s.var_name q := by
  unfold process_basic finish_basic
  simp only [post_ite, post_pure, post_ok, post_bind, post_map, post_throw,
    post_output_at_front_iff, post_output_at_back_iff]
  repeat' first | apply And.intro | intro _ | apply post_intro
  all_goals first | trivial | (simp_all [upd]; done)

/-- The body of the first pass for a phrase leaves the data of every other
phrase as it is. -/
theorem first_pass_phrase_others (g : Phrases) (s : State) :
    Post (first_pass_phrase g s) fun r => ∀ q, q ≠ s.phrase_nb → Same q r.2 s := by
  unfold first_pass_phrase
  simp only [post_ite, post_pure, post_ok, post_bind, post_map, post_throw]
  repeat' first
    | apply And.intro
    | intro _
    | refine post_mono (post_and (process_basic_own _ _ (by intro _; rfl))
        (process_basic_fields _ _)) ?_
  all_goals first
    | trivial
    | (simp_all [Same, Own, Kept, upd]; done)
    | (split_ifs <;> simp_all [Same, upd])

theorem first_pass_keeps : ∀ (k : Nat) (g : Phrases) (s : State),
    Post (first_pass k (g, s)) fun r => ∀ q, q < s.phrase_nb → Same q r.2 s := by
  intro k
  induction k with
  | zero =>
    intro g s
    rw [first_pass, post_pure]
    exact fun q _ => same_refl q s
  | succ k ih =>
    intro g s
    rw [first_pass_step, post_bind]
    refine post_of_forall ?_
    intro r hr
    have hspec := post_elim (first_pass_phrase_spec g s) hr
    have hothers := post_elim (first_pass_phrase_others g s) hr
    refine post_mono (ih r.1 { r.2 with phrase_nb := r.2.phrase_nb + 1 }) ?_
    intro r' hr' q hq
    have h1 := hr' q (by simp only [hspec.2.2.2.2.2.1]; omega)
    have h2 := hothers q (by omega)
    exact same_trans h1 (same_trans ⟨rfl, rfl, rfl, fun _ => rfl, rfl, rfl⟩ h2)

/-- Every phrase the first pass went through was met by its body, and keeps
the data the body gave it. -/
theorem first_pass_same : ∀ (k : Nat) (g : Phrases) (s : State),
    Post (first_pass k (g, s)) fun r =>
      ∀ p, s.phrase_nb ≤ p → p < s.phrase_nb + k →
        ∃ rp, Met g p rp ∧ Same p r.2 rp.2 := by
  intro k
  induction k with
  | zero =>
    intro g s
    rw [first_pass, post_pure]
    intro p h1 h2; omega
  | succ k ih =>
    intro g s
    rw [first_pass_step, post_bind]
    refine post_of_forall ?_
    intro r hr
    have hspec := post_elim (first_pass_phrase_spec g s) hr
    obtain ⟨a1, _, a3, a4, _, a6, _⟩ := hspec
    refine post_mono (post_and (ih r.1 { r.2 with phrase_nb := r.2.phrase_nb + 1 })
      (first_pass_keeps k r.1 { r.2 with phrase_nb := r.2.phrase_nb + 1 })) ?_
    intro r' hr' p h1 h2
    obtain ⟨b1, b2⟩ := hr'
    by_cases hp : p = s.phrase_nb
    · refine ⟨r, ⟨g, s, hr, rfl, rfl, rfl, hp.symm⟩, ?_⟩
      exact same_trans (b2 p (by simp only [a6]; omega)) ⟨rfl, rfl, rfl, fun _ => rfl, rfl, rfl⟩
    · obtain ⟨rp, ⟨gp, sp, c1, c2, c3, c4, c5⟩, hst⟩ :=
        b1 p (by simp only [a6]; omega) (by simp only [a6]; omega)
      exact ⟨rp, ⟨gp, sp, c1, c2.trans a1, c3.trans a3, c4.trans a4, c5⟩, hst⟩

/-- After the loop check, every phrase was met by the body of the first pass
with the words and endpoints of the final globals, and has the data that the
body gave it. -/
theorem prepare_same (argv : List String) (g : Phrases) (s : State)
    (h : prepare argv = .ok (g, s)) :
    ∀ p, p < g.nb_phrases → ∃ rp, Met g p rp ∧ Same p s rp.2 := by
  obtain ⟨g1, s1, h1, a1, a2, a3, a4, _, a6, a7, a8, a9, a10, a11⟩ :=
    prepare_of_pass_one argv g s h
  unfold pass_one at h1
  obtain ⟨r0, h0, h1'⟩ := bind_eq_ok h1
  have hspec := post_elim (first_pass_spec _ _ _) h1'
  have htrace := post_elim (first_pass_same _ _ _) h1'
  obtain ⟨b1, b2, b3, b4, _⟩ := hspec
  simp only at b1 b2 b3 b4
  intro p hp
  have hnb : g.nb_phrases = r0.1.nb_phrases := by
    unfold Phrases.nb_phrases
    rw [a2, b2]
  obtain ⟨rp, ⟨gp, sp, c1, c2, c3, c4, c5⟩, hst⟩ :=
    htrace p (Nat.zero_le _) (by simp only [Nat.zero_add]; omega)
  refine ⟨rp, ⟨gp, sp, c1, ?_, ?_, ?_, c5⟩, ?_⟩
  · rw [c2, a1, b1]
  · rw [c3, a3, b3]
  · rw [c4, a4, b4]
  · refine same_trans ?_ hst
    unfold Same
    rw [a6, a7, a8, a9, a10, a11]
    exact ⟨rfl, rfl, rfl, fun _ => rfl, rfl, rfl⟩

/-- The body of the first pass gives the phrase the kind of its second word. -/
theorem first_pass_phrase_type (g : Phrases) (s : State) :
    Post (first_pass_phrase g s) fun r =>
      r.2.type s.phrase_nb = intrinsic_type g s.phrase_nb := by
  unfold first_pass_phrase
  simp only [post_ite, post_pure, post_ok, post_bind, post_map, post_throw]
  repeat' first
    | apply And.intro
    | intro _
    | refine post_mono (process_basic_fields _ _) ?_
  all_goals first
    | trivial
    | (simp_all [intrinsic_type, Phrases.word, upd]; done)
    | (split_ifs <;> simp_all [intrinsic_type, Phrases.word, upd])

/-- After the loop check every phrase has the kind of its second word. -/
theorem prepare_type (argv : List String) (g : Phrases) (s : State)
    (h : prepare argv = .ok (g, s)) :
    ∀ p, p < g.nb_phrases → s.type p = intrinsic_type g p := by
  intro p hp
  obtain ⟨rp, ⟨gp, sp, c1, c2, c3, c4, c5⟩, hs⟩ := prepare_same argv g s h p hp
  have ht := post_elim (first_pass_phrase_type gp sp) c1
  rw [hs.2.1, c5] at *
  rw [ht]
  unfold intrinsic_type Phrases.word
  rw [c2, c3]

/-! ## Basic phrases in the first pass -/

theorem table_text_length : ∀ p ∈ basic_table, p.2.data.length ≤ 18 := by
  decide

theorem text_length (b : Nat) (text : String) (h : make_basic_output b = .ok text) :
    text.data.length ≤ 18 :=
  table_text_length (b, text) (make_basic_output_table b text h)

theorem permitted_not_basic (w : String) (h : permitted_variable_name w = true) :
    basic_word_type w = 0 := by
  unfold permitted_variable_name at h
  by_cases hm : w ∈ illegal_variables
  · rw [if_pos hm] at h; cases h
  · unfold basic_word_type
    have h1 : w ≠ "int" := fun e => hm (by rw [e]; decide)
    have h2 : w ≠ "char" := fun e => hm (by rw [e]; decide)
    have h3 : w ≠ "double" := fun e => hm (by rw [e]; decide)
    have h4 : w ≠ "float" := fun e => hm (by rw [e]; decide)
    have h5 : w ≠ "signed" := fun e => hm (by rw [e]; decide)
    have h6 : w ≠ "unsigned" := fun e => hm (by rw [e]; decide)
    have h7 : w ≠ "short" := fun e => hm (by rw [e]; decide)
    have h8 : w ≠ "long" := fun e => hm (by rw [e]; decide)
    simp only [h1, h2, h3, h4, h5, h6, h7, h8, if_false]

/-- A range that `read_basic_phrase` accepts starts with a basic type. -/
theorem read_basic_phrase_first (basic_start : Nat) (basic_end : Int) (argv : List String)
    (h : read_basic_phrase basic_start basic_end argv ≠ 0) :
    basic_word_type (argv.getD basic_start "") ≠ 0 := by
  intro h0
  apply h
  by_cases h1 : (basic_start : Int) < basic_end
  · exact read_basic_phrase_stray basic_start basic_end argv basic_start (le_refl _) h1 h0
  · by_cases h2 : (basic_start : Int) = basic_end
    · unfold read_basic_phrase
      have hk : (basic_end + 1 - (basic_start : Int)).toNat = 1 := by omega
      rw [hk]
      simp only [read_basic_words, h0, h2, ne_eq, not_true_eq_false, and_false, if_false]
      decide
    · unfold read_basic_phrase
      have hk : (basic_end + 1 - (basic_start : Int)).toNat = 0 := by omega
      rw [hk]
      simp only [read_basic_words]
      decide

theorem basic_not_complex (w : String) (h : basic_word_type w ≠ 0) :
    first_phrase_type w = BASIC := by
  unfold first_phrase_type
  have h1 : w ≠ "array" := by
    intro e; apply h; rw [e]; decide
  have h2 : w ≠ "pointer" := by
    intro e; apply h; rw [e]; decide
  have h3 : w ≠ "function" := by
    intro e; apply h; rw [e]; decide
  simp only [h1, h2, h3, if_false]

theorem finish_basic_text (s : State) (b : Nat) (text : String) (a e : Nat) (hb : b ≠ 0)
    (ht : make_basic_output b = .ok text) (hw : Window s s.original_phrase_nb a e)
    (room : text.data.length ≤ a) :
    finish_basic s b = .ok (FINISHED, front_state s s.original_phrase_nb text) := by
  unfold finish_basic
  rw [if_neg hb, ht]
  simp only [Except.bind]
  rw [(output_at_front_window s s.original_phrase_nb a e text hw room).1]
  rfl

/-- The state in which the body of the first pass calls `process_basic`. -/
def first_state (g : Phrases) (s : State) : State :=
  { s with original_phrase_nb := s.phrase_nb, stage := upd s.stage s.phrase_nb START,
           type := upd (upd s.type s.phrase_nb BASIC) s.phrase_nb
             (first_phrase_type (g.word (g.phrase_start s.phrase_nb + 1))),
           current := g.phrase_start s.phrase_nb + 1,
           output_start := upd s.output_start s.phrase_nb EMPTY_CHAR_BEFORE,
           output_end := upd s.output_end s.phrase_nb EMPTY_CHAR_AFTER }

theorem first_state_window (g : Phrases) (s : State) :
    Window (first_state g s) s.phrase_nb 100 100 := by
  refine ⟨?_, ?_, le_refl _, by decide⟩
  · simp only [first_state, upd_same]; rfl
  · simp only [first_state, upd_same]; rfl

theorem first_state_line (g : Phrases) (s : State) :
    ((first_state g s).line s.phrase_nb).data = [] := by
  rw [line_of_window _ _ _ _ (first_state_window g s)]
  rfl

theorem first_pass_phrase_basic (g : Phrases) (s : State)
    (hlen : g.phrase_start s.phrase_nb + 1 ≤ g.phrase_end s.phrase_nb)
    (hart : check_preposition (g.word (g.phrase_start s.phrase_nb))
      (g.word (g.phrase_start s.phrase_nb + 1)) true = true)
    (hkind : first_phrase_type (g.word (g.phrase_start s.phrase_nb + 1)) = BASIC) :
    first_pass_phrase g s =
      (process_basic { g with continuation := upd g.continuation s.phrase_nb NO_DATA }
        (first_state g s)).map fun r =>
          ({ g with continuation := upd g.continuation s.phrase_nb NO_DATA },
            { r.2 with stage := upd r.2.stage r.2.phrase_nb r.1 }) := by
  unfold first_pass_phrase
  have hw : ∀ i, ({ g with continuation := upd g.continuation s.phrase_nb NO_DATA } :
      Phrases).word i = g.word i := fun _ => rfl
  have h1 : ¬ ((g.phrase_end s.phrase_nb : Int) - g.phrase_start s.phrase_nb
      < (MIN_BASIC : Int) - 1) := by
    simp only [MIN_BASIC]; omega
  simp only [hw, Nat.add_sub_cancel, hart, hkind, upd_same, h1, if_false, if_true,
    Bool.not_true, Bool.false_eq_true, first_state]

theorem accepted_text (b : Nat) (h : b ≠ 0)
    (hb : ∃ bs be argv, b = read_basic_phrase bs be argv) :
    ∃ text, make_basic_output b = .ok text := by
  obtain ⟨bs, be, argv, e⟩ := hb
  rw [e] at h ⊢
  obtain ⟨text, ht⟩ := read_basic_phrase_table bs be argv h
  exact ⟨text, (table_round_trip _ ht).2.2⟩

theorem process_basic_plain (g : Phrases) (s : State)
    (hst : s.stage s.original_phrase_nb = START)
    (hlast : basic_word_type (g.word (g.phrase_end s.phrase_nb)) ≠ 0) :
    process_basic g s =
      finish_basic s (read_basic_phrase (g.phrase_start s.phrase_nb + 1)
        (g.phrase_end s.phrase_nb : Int) g.argv) := by
  unfold process_basic
  simp only [hst, if_true, if_neg hlast]

theorem process_basic_named (g : Phrases) (s : State)
    (hst : s.stage s.original_phrase_nb = START)
    (hperm : permitted_variable_name (g.word (g.phrase_end s.phrase_nb)) = true) :
    process_basic g s =
      (output_at_back s s.phrase_nb (g.word (g.phrase_end s.phrase_nb))).bind fun s1 =>
        (output_at_front s1 s1.phrase_nb " ").bind fun s2 =>
          finish_basic
            { s2 with
              var_name := upd s2.var_name s2.phrase_nb (some (g.word (g.phrase_end s.phrase_nb))) }
            (read_basic_phrase (g.phrase_start s2.phrase_nb + 1)
              ((g.phrase_end s2.phrase_nb : Int) - 1) g.argv) := by
  unfold process_basic
  simp only [hst, if_true, permitted_not_basic _ hperm, hperm, Bool.not_true,
    Bool.false_eq_true, if_false]

/-- The body of the first pass on a phrase `A K1 ... Kn`. -/
theorem first_pass_phrase_plain (g : Phrases) (s : State) (text : String)
    (hlen : g.phrase_start s.phrase_nb + 1 ≤ g.phrase_end s.phrase_nb)
    (hart : check_preposition (g.word (g.phrase_start s.phrase_nb))
      (g.word (g.phrase_start s.phrase_nb + 1)) true = true)
    (hlast : basic_word_type (g.word (g.phrase_end s.phrase_nb)) ≠ 0)
    (hacc : read_basic_phrase (g.phrase_start s.phrase_nb + 1) (g.phrase_end s.phrase_nb)
      g.argv ≠ 0)
    (ht : make_basic_output (read_basic_phrase (g.phrase_start s.phrase_nb + 1)
      (g.phrase_end s.phrase_nb) g.argv) = .ok text) :
    ∃ r, first_pass_phrase g s = .ok r ∧ r.2.stage s.phrase_nb = FINISHED ∧
      (r.2.line s.phrase_nb).data = text.data ∧ r.2.var_name = s.var_name := by
  have hkind := basic_not_complex _ (read_basic_phrase_first _ _ _ hacc)
  have hroom := text_length _ _ ht
  rw [first_pass_phrase_basic g s hlen hart hkind,
    process_basic_plain { g with continuation := upd g.continuation s.phrase_nb NO_DATA }
      (first_state g s) (by simp only [first_state, upd_same]) hlast]
  have hf := finish_basic_text (first_state g s) _ text 100 100 hacc ht
    (first_state_window g s) (by omega)
  have e1 : (first_state g s).phrase_nb = s.phrase_nb := rfl
  have e2 : ({ g with continuation := upd g.continuation s.phrase_nb NO_DATA } :
      Phrases).argv = g.argv := rfl
  simp only [e1, e2] at hf ⊢
  rw [hf]
  refine ⟨_, rfl, ?_, ?_, rfl⟩
  · exact upd_same _ _ _
  · have hl := (output_at_front_window (first_state g s) s.phrase_nb 100 100 text
      (first_state_window g s) (by omega)).2.2
    rw [first_state_line, List.append_nil] at hl
    exact hl

/-- The body of the first pass on a phrase `A K1 ... Kn v` whose name has at
most 101 characters. -/
theorem first_pass_phrase_named (g : Phrases) (s : State) (text : String)
    (hlen : g.phrase_start s.phrase_nb + 1 ≤ g.phrase_end s.phrase_nb)
    (hart : check_preposition (g.word (g.phrase_start s.phrase_nb))
      (g.word (g.phrase_start s.phrase_nb + 1)) true = true)
    (hperm : permitted_variable_name (g.word (g.phrase_end s.phrase_nb)) = true)
    (hacc : read_basic_phrase (g.phrase_start s.phrase_nb + 1)
      ((g.phrase_end s.phrase_nb : Int) - 1) g.argv ≠ 0)
    (ht : make_basic_output (read_basic_phrase (g.phrase_start s.phrase_nb + 1)
      ((g.phrase_end s.phrase_nb : Int) - 1) g.argv) = .ok text)
    (hroom : (g.word (g.phrase_end s.phrase_nb)).data.length ≤ 101) :
    ∃ r, first_pass_phrase g s = .ok r ∧ r.2.stage s.phrase_nb = FINISHED ∧
      (r.2.line s.phrase_nb).data =
        text.data ++ ' ' :: (g.word (g.phrase_end s.phrase_nb)).data ∧
      r.2.var_name s.phrase_nb = some (g.word (g.phrase_end s.phrase_nb)) := by
  have hkind := basic_not_complex _ (read_basic_phrase_first _ _ _ hacc)
  have htext := text_length _ _ ht
  have hM := max_output_eq
  rw [first_pass_phrase_basic g s hlen hart hkind,
    process_basic_named { g with continuation := upd g.continuation s.phrase_nb NO_DATA }
      (first_state g s) (by simp only [first_state, upd_same]) hperm]
  have e1 : (first_state g s).phrase_nb = s.phrase_nb := rfl
  have e2 : ({ g with continuation := upd g.continuation s.phrase_nb NO_DATA } :
      Phrases).argv = g.argv := rfl
  have e3 : ∀ i, ({ g with continuation := upd g.continuation s.phrase_nb NO_DATA } :
      Phrases).word i = g.word i := fun _ => rfl
  simp only [e1, e2, e3]
  obtain ⟨f1, w1, l1⟩ := output_at_back_window (first_state g s) s.phrase_nb 100 100
    (g.word (g.phrase_end s.phrase_nb)) (first_state_window g s) (by omega)
  rw [f1]
  simp only [bind_ok]
  have e4 : (back_state (first_state g s) s.phrase_nb
      (g.word (g.phrase_end s.phrase_nb))).phrase_nb = s.phrase_nb := rfl
  simp only [e4]
  obtain ⟨f2, w2, l2⟩ := output_at_front_window _ s.phrase_nb 100 _ " " w1 (by decide)
  rw [f2]
  simp only [bind_ok]
  have e5 : (front_state (back_state (first_state g s) s.phrase_nb
      (g.word (g.phrase_end s.phrase_nb))) s.phrase_nb " ").phrase_nb = s.phrase_nb := rfl
  simp only [e5]
  have hf := finish_basic_text
    { front_state (back_state (first_state g s) s.phrase_nb
        (g.word (g.phrase_end s.phrase_nb))) s.phrase_nb " " with
      var_name := upd (front_state (back_state (first_state g s) s.phrase_nb
        (g.word (g.phrase_end s.phrase_nb))) s.phrase_nb " ").var_name s.phrase_nb
          (some (g.word (g.phrase_end s.phrase_nb))) }
    _ text (100 - " ".data.length) _ hacc ht w2
    (by have : " ".data.length = 1 := rfl
        omega)
  show ∃ r, Except.map _ (finish_basic
    { front_state (back_state (first_state g s) s.phrase_nb
        (g.word (g.phrase_end s.phrase_nb))) s.phrase_nb " " with
      var_name := upd (front_state (back_state (first_state g s) s.phrase_nb
        (g.word (g.phrase_end s.phrase_nb))) s.phrase_nb " ").var_name s.phrase_nb
          (some (g.word (g.phrase_end s.phrase_nb))) } _) = Except.ok r ∧ _
  rw [hf]
  refine ⟨_, rfl, ?_, ?_, ?_⟩
  · exact upd_same _ _ _
  · have hl := (output_at_front_window
      { front_state (back_state (first_state g s) s.phrase_nb
          (g.word (g.phrase_end s.phrase_nb))) s.phrase_nb " " with
        var_name := upd (front_state (back_state (first_state g s) s.phrase_nb
          (g.word (g.phrase_end s.phrase_nb))) s.phrase_nb " ").var_name s.phrase_nb
            (some (g.word (g.phrase_end s.phrase_nb))) }
      s.phrase_nb (100 - " ".data.length) _ text w2
      (by have : " ".data.length = 1 := rfl
          omega)).2.2
    have hx : ((front_state (back_state (first_state g s) s.phrase_nb
        (g.word (g.phrase_end s.phrase_nb))) s.phrase_nb " ").line s.phrase_nb).data =
        ' ' :: (g.word (g.phrase_end s.phrase_nb)).data := by
      rw [l2, l1, first_state_line]
      rfl
    exact hl.trans (congrArg (fun l => text.data ++ l) hx)
  · exact upd_same _ _ _

/-- The second pass leaves the buffer and the stage of a phrase that is
`FINISHED` as they are. -/
theorem second_pass_finished (g : Phrases) : ∀ (k : Nat) (s : State) (p : Nat),
    s.stage p = FINISHED →
    Post (second_pass g k s) fun s' =>
      (∀ i, s'.phrase_output i p = s.phrase_output i p) ∧
      s'.output_start p = s.output_start p ∧ s'.output_end p = s.output_end p ∧
      s'.stage p = FINISHED := by
  intro k
  induction k with
  | zero =>
    intro s p h
    rw [second_pass, post_pure]
    exact ⟨fun _ => rfl, rfl, rfl, h⟩
  | succ k ih =>
    intro s p h
    rw [second_pass_step, post_bind]
    refine post_of_forall ?_
    intro s2 h2
    have key : (∀ i, s2.phrase_output i p = s.phrase_output i p) ∧
        s2.output_start p = s.output_start p ∧ s2.output_end p = s.output_end p ∧
        s2.stage p = FINISHED := by
      by_cases hp : p = s.original_phrase_nb
      · rw [resolve_done g _ _ (Or.inl (by rw [← hp]; exact h))] at h2
        injection h2 with h2
        rw [← h2]
        exact ⟨fun _ => rfl, rfl, rfl, h⟩
      · have hown := post_elim (resolve_own g _ _ (fun _ => rfl)) h2
        have hfr := post_elim (resolve_frame g _ _) h2
        obtain ⟨a1, a2, a3⟩ := hown.2 p hp
        exact ⟨a1, a2, a3, (hfr.2 p hp).trans h⟩
    unfold after_phrase
    rw [post_ite, post_throw]
    refine ⟨fun _ => trivial, fun _ => ?_⟩
    refine post_mono (ih _ p key.2.2.2) ?_
    intro s' hs'
    exact ⟨fun i => (hs'.1 i).trans (key.1 i), hs'.2.1.trans key.2.1,
      hs'.2.2.1.trans key.2.2.1, hs'.2.2.2⟩

/-- The lines that a run prints are the lines of the state after the second
pass. -/
theorem main_lines (argv : List String) (g : Phrases) (s : State) (lines : List String)
    (hprep : prepare argv = .ok (g, s)) (hmain : main argv = .ok lines) :
    ∃ s', second_pass g g.nb_phrases { s with original_phrase_nb := 0 } = .ok s' ∧
      lines = (List.range g.nb_phrases).map s'.line := by
  unfold main main_state at hmain
  rw [hprep] at hmain
  simp only [bind_ok] at hmain
  cases h2 : second_pass g g.nb_phrases { s with original_phrase_nb := 0 } with
  | error e => rw [h2] at hmain; cases hmain
  | ok s' =>
    rw [h2] at hmain
    injection hmain with hmain
    exact ⟨s', rfl, hmain.symm⟩

theorem line_of_buffer (p : Nat) (s t : State)
    (h1 : ∀ i, t.phrase_output i p = s.phrase_output i p)
    (h2 : t.output_start p = s.output_start p) (h3 : t.output_end p = s.output_end p) :
    t.line p = s.line p := by
  unfold State.line
  simp only [h1, h2, h3]

/-! ## What the second pass leaves of the names and of the kinds -/

/-- From `s` to `r` no name has changed, and no kind but that of the phrase
`s.phrase_nb`. -/
def Named (s r : State) : Prop :=
  r.var_name = s.var_name ∧ ∀ q, q ≠ s.phrase_nb → r.type q = s.type q

theorem refer_names (g : Phrases) (previous_type : Nat) (s : State) :
    Post (refer g previous_type s) fun r => r.2.var_name = s.var_name ∧ r.2.type = s.type := by
  unfold refer
  simp only [post_ite, post_pure, post_ok, post_bind, post_map, post_throw, post_advance,
    post_output_at_front_iff, post_output_at_back_iff]
  repeat' first | apply And.intro | intro _
  all_goals first | trivial | (simp_all; done)

theorem data_continuation_names (g : Phrases) (s : State) :
    Post (data_continuation g s) fun r => Named s r.2 := by
  unfold data_continuation
  simp only [post_ite, post_pure, post_ok, post_bind, post_map, post_throw, post_advance,
    post_output_at_front_iff, post_output_at_back_iff]
  repeat' first
    | apply And.intro
    | intro _
    | refine post_mono (refer_names _ _ _) (fun r hr => ?_)
  all_goals first | trivial | (simp_all [Named, upd]; done)

theorem complex_variable_names (g : Phrases) (s : State) :
    Post (complex_variable g s) fun r =>
      r.2.var_name = s.var_name ∧ r.2.type = s.type ∧ r.2.phrase_nb = s.phrase_nb := by
  unfold complex_variable
  simp only [post_ite, post_pure, post_ok, post_bind, post_map, post_throw, post_advance,
    post_output_at_front_iff, post_output_at_back_iff]
  repeat' first | apply And.intro | intro _
  all_goals first | trivial | (simp_all; done)

theorem finish_basic_names (s : State) (t : Nat) :
    Post (finish_basic s t) fun r => r.2.var_name = s.var_name ∧ r.2.type = s.type := by
  unfold finish_basic
  simp only [post_ite, post_pure, post_ok, post_bind, post_map, post_throw, post_advance,
    post_output_at_front_iff, post_output_at_back_iff]
  repeat' first | apply And.intro | intro _ | apply post_intro
  all_goals first | trivial | (simp_all; done)

/-- After the stage `START` the function `process_basic` writes no name. -/
theorem process_basic_names (g : Phrases) (s : State)
    (hst : s.stage s.original_phrase_nb ≠ START) :
    Post (process_basic g s) fun r => Named s r.2 := by
  unfold process_basic
  simp only [if_neg hst]
  refine post_mono (finish_basic_names _ _) ?_
  intro r hr
  exact ⟨hr.1, fun q _ => by rw [hr.2]⟩

theorem array_kind_names (g : Phrases) (n : Int) (s : State) :
    Post (array_kind g n s) fun r => Named s r.2 := by
  unfold array_kind
  simp only [post_ite, post_pure, post_ok, post_bind, post_map, post_throw, post_advance]
  repeat' first
    | apply And.intro
    | intro _
    | exact data_continuation_names _ _
  all_goals first | trivial | (simp_all [Named, upd]; done)

theorem array_dimension_names (g : Phrases) (s : State) :
    Post (array_dimension g s) fun r => Named s r.2 := by
  unfold array_dimension
  simp only [post_ite, post_pure, post_ok, post_bind, post_map, post_throw, post_advance,
    post_output_at_front_iff, post_output_at_back_iff]
  refine post_intro fun n => ?_
  repeat' first
    | apply And.intro
    | intro _
    | refine post_mono (array_kind_names _ _ _) (fun r hr => ?_)
  all_goals first | trivial | (simp_all [Named, upd]; done)

theorem process_array_names (g : Phrases) (s : State) :
    Post (process_array g s) fun r => Named s r.2 := by
  rw [process_array_eq, post_bind]
  refine post_mono (complex_variable_names g s) ?_
  intro r hr
  simp only [post_ite, post_pure, post_ok, post_bind, post_map, post_throw, post_advance]
  repeat' first
    | apply And.intro
    | intro _
    | refine post_mono (array_dimension_names _ _) (fun r hr => ?_)
  all_goals first | trivial | (simp_all [Named, upd]; done)

theorem pointer_kind_names (g : Phrases) (singular : Bool) (s : State) :
    Post (pointer_kind g singular s) fun r => Named s r.2 := by
  unfold pointer_kind
  simp only [post_ite, post_pure, post_ok, post_bind, post_map, post_throw, post_advance,
    post_output_at_front_iff, post_output_at_back_iff]
  repeat' first
    | apply And.intro
    | intro _
    | exact data_continuation_names _ _
  all_goals first | trivial | (simp_all [Named, upd]; done)

theorem pointer_target_names (g : Phrases) (singular : Bool) (s : State) :
    Post (pointer_target g singular s) fun r => Named s r.2 := by
  unfold pointer_target
  simp only [post_ite, post_pure, post_ok, post_bind, post_map, post_throw, post_advance,
    post_output_at_front_iff, post_output_at_back_iff]
  repeat' first
    | apply And.intro
    | intro _
    | refine post_mono (pointer_kind_names _ _ _) (fun r hr => ?_)
  all_goals first | trivial | (simp_all [Named, upd]; done)

theorem process_pointer_names (g : Phrases) (s : State) :
    Post (process_pointer g s) fun r => Named s r.2 := by
  unfold process_pointer
  rw [post_bind]
  refine post_intro fun c => ?_
  rw [post_bind]
  refine post_mono (complex_variable_names g s) ?_
  intro r hr
  simp only [post_ite, post_pure, post_ok, post_bind, post_map, post_throw, post_advance,
    post_output_at_front_iff, post_output_at_back_iff]
  repeat' first
    | apply And.intro
    | intro _
    | refine post_mono (pointer_target_names _ _ _) (fun r hr => ?_)
  all_goals first | trivial | (simp_all [Named, upd]; done)

theorem function_result_names (g : Phrases) (s : State) :
    Post (function_result g s) fun r => Named s r.2 := by
  unfold function_result
  simp only [post_ite, post_pure, post_ok, post_bind, post_map, post_throw, post_advance,
    post_output_at_front_iff, post_output_at_back_iff]
  repeat' first
    | apply And.intro
    | intro _
    | refine post_mono (data_continuation_names _ _) (fun r hr => ?_)
  all_goals first | trivial | (simp_all [Named, upd]; done)

theorem process_function_names (g : Phrases) (s : State) :
    Post (process_function g s) fun r => Named s r.2 := by
  rw [process_function_eq, post_bind]
  refine post_mono (complex_variable_names g s) ?_
  intro r hr
  simp only [post_ite, post_pure, post_ok, post_bind, post_map, post_throw, post_advance,
    post_output_at_front_iff, post_output_at_back_iff]
  repeat' first
    | apply And.intro
    | intro _
    | refine post_mono (function_result_names _ _) (fun r hr => ?_)
  all_goals first | trivial | (simp_all [Named, upd]; done)

/-- One iteration of the loop of the second pass writes no name when the
phrase it reads at stage `START` is not a basic one. -/
theorem step_names (g : Phrases) (s : State)
    (hst : s.stage s.original_phrase_nb = START →
      s.type s.phrase_nb = ARRAY ∨ s.type s.phrase_nb = FUNCTION ∨
        s.type s.phrase_nb = POINTER) :
    Post (step g s) (Named s) := by
  have key : ∀ r : Nat × State, Named s r.2 →
      Named s { r.2 with stage := upd r.2.stage r.2.original_phrase_nb r.1 } :=
    fun r hr => ⟨hr.1, hr.2⟩
  unfold step
  rw [post_map]
  split
  · exact post_mono (process_array_names g s) key
  · split
    · exact post_mono (process_function_names g s) key
    · split
      · exact post_mono (process_pointer_names g s) key
      · refine post_mono (process_basic_names g s ?_) key
        intro h
        rcases hst h with h1 | h1 | h1 <;> contradiction

theorem loop_ended (g : Phrases) (s t : State) (h : Loop g s t)
    (hd : s.stage s.original_phrase_nb = FINISHED ∨ s.stage s.original_phrase_nb = ERROR) :
    t = s := by
  cases h with
  | start => rfl
  | next _ _ _ hnot _ _ => exact absurd hd hnot

theorem phrase_index (g : Phrases) (c : Int) (h0 : 0 ≤ c) (h1 : c ≤ g.max_phrase_index) :
    c.toNat < g.nb_phrases := by
  unfold Phrases.nb_phrases
  omega

/-- The loop of the second pass for one originating phrase writes no name, and
no kind but those of the phrases of the input. -/
theorem loop_names (g : Phrases) (s t : State) (h : Loop g s t)
    (hst : s.stage s.original_phrase_nb = START →
      s.type s.phrase_nb = ARRAY ∨ s.type s.phrase_nb = FUNCTION ∨
        s.type s.phrase_nb = POINTER)
    (hnb : s.phrase_nb < g.nb_phrases) :
    t.var_name = s.var_name ∧ ∀ q, g.nb_phrases ≤ q → t.type q = s.type q := by
  induction h with
  | start s => exact ⟨rfl, fun _ _ => rfl⟩
  | next s s1 t _ hs hloop ih =>
    have h1 := post_elim (step_names g s hst) hs
    have h2 := post_elim (step_started g s) hs
    have h3 := post_elim (step_spec g s) hs
    have hkeep : s1.var_name = s.var_name ∧ ∀ q, g.nb_phrases ≤ q → s1.type q = s.type q :=
      ⟨h1.1, fun q hq => h1.2 q (by omega)⟩
    by_cases hd : s1.stage s1.original_phrase_nb = FINISHED ∨
        s1.stage s1.original_phrase_nb = ERROR
    · rw [loop_ended g s1 t hloop hd]
      exact hkeep
    · have hnb1 : s1.phrase_nb < g.nb_phrases := by
        rcases h3.2.2 with h | h | ⟨h, _⟩ | ⟨c1, c2, c3, _⟩
        · exact absurd (Or.inl h) hd
        · exact absurd (Or.inr h) hd
        · rw [h]; exact hnb
        · rw [c3]; exact phrase_index g _ c1 c2
      obtain ⟨a1, a2⟩ := ih (fun h => absurd h h2) hnb1
      exact ⟨a1.trans hkeep.1, fun q hq => (a2 q hq).trans (hkeep.2 q hq)⟩

theorem first_phrase_type_cases (w : String) :
    first_phrase_type w = BASIC ∨ first_phrase_type w = ARRAY ∨
      first_phrase_type w = FUNCTION ∨ first_phrase_type w = POINTER := by
  unfold first_phrase_type
  split
  · exact Or.inr (Or.inl rfl)
  · split
    · exact Or.inr (Or.inr (Or.inr rfl))
    · split
      · exact Or.inr (Or.inr (Or.inl rfl))
      · exact Or.inl rfl

theorem process_basic_result (g : Phrases) (s : State) :
    Post (process_basic g s) fun r => r.1 = FINISHED ∨ r.1 = ERROR := by
  unfold process_basic finish_basic
  simp only [post_ite, post_pure, post_ok, post_bind, post_map, post_throw,
    post_output_at_front_iff, post_output_at_back_iff]
  repeat' first | apply And.intro | intro _ | apply post_intro
  all_goals first | trivial | (simp_all; done)

/-- The body of the first pass leaves the stage `START` to phrases that are
not basic only. -/
theorem first_pass_phrase_started (g : Phrases) (s : State) :
    Post (first_pass_phrase g s) fun r =>
      r.2.stage s.phrase_nb = START → intrinsic_type g s.phrase_nb ≠ BASIC := by
  unfold first_pass_phrase
  simp only [post_ite, post_pure, post_ok, post_bind, post_map, post_throw]
  repeat' first
    | apply And.intro
    | intro _
    | refine post_mono (post_and (process_basic_result _ _) (process_basic_phrase_nb _ _)) ?_
  all_goals first
    | trivial
    | (simp_all [intrinsic_type, Phrases.word, upd]; done)
    | (split_ifs <;> simp_all [intrinsic_type, Phrases.word, upd])

/-- After the loop check a phrase at stage `START` is an array, a function or
a pointer. -/
theorem prepare_started (argv : List String) (g : Phrases) (s : State)
    (h : prepare argv = .ok (g, s)) :
    ∀ p, p < g.nb_phrases → s.stage p = START →
      intrinsic_type g p = ARRAY ∨ intrinsic_type g p = FUNCTION ∨
        intrinsic_type g p = POINTER := by
  intro p hp hst
  obtain ⟨rp, ⟨gp, sp, c1, c2, c3, c4, c5⟩, hs⟩ := prepare_same argv g s h p hp
  have ht := post_elim (first_pass_phrase_started gp sp) c1
  rw [c5, ← hs.1] at ht
  have hne := ht hst
  have e : intrinsic_type gp p = intrinsic_type g p := by
    unfold intrinsic_type Phrases.word
    rw [c2, c3]
  rw [e] at hne
  rcases first_phrase_type_cases (g.word (g.phrase_start p + 1)) with h | h | h | h
  · exact absurd h hne
  · exact Or.inl h
  · exact Or.inr (Or.inl h)
  · exact Or.inr (Or.inr h)

/-! ## The second pass reads the originating phrase only -/

/-- The state `a` with the stages and the buffers of the phrases other than
its originating phrase taken from `b`. -/
def merge (a b : State) : State :=
  { current := a.current, phrase_nb := a.phrase_nb,
    original_phrase_nb := a.original_phrase_nb,
    var_name := a.var_name, type := a.type,
    stage := fun q => if q = a.original_phrase_nb then a.stage q else b.stage q,
    phrase_output := fun j q =>
      if q = a.original_phrase_nb then a.phrase_output j q else b.phrase_output j q,
    output_start := fun q =>
      if q = a.original_phrase_nb then a.output_start q else b.output_start q,
    output_end := fun q =>
      if q = a.original_phrase_nb then a.output_end q else b.output_end q }

/-- The result of a type-description function, with the other phrases taken
from `b`. -/
def lift {α : Type} (b : State) (r : α × State) : α × State := (r.1, merge r.2 b)

@[simp] theorem merge_current (a b : State) : (merge a b).current = a.current := rfl

@[simp] theorem merge_phrase_nb (a b : State) : (merge a b).phrase_nb = a.phrase_nb := rfl

@[simp] theorem merge_original (a b : State) :
    (merge a b).original_phrase_nb = a.original_phrase_nb := rfl

@[simp] theorem merge_var_name (a b : State) : (merge a b).var_name = a.var_name := rfl

@[simp] theorem merge_type (a b : State) : (merge a b).type = a.type := rfl

@[simp] theorem merge_stage (a b : State) :
    (merge a b).stage a.original_phrase_nb = a.stage a.original_phrase_nb := by
  simp [merge]

@[simp] theorem merge_output_start (a b : State) :
    (merge a b).output_start a.original_phrase_nb = a.output_start a.original_phrase_nb := by
  simp [merge]

@[simp] theorem merge_output_end (a b : State) :
    (merge a b).output_end a.original_phrase_nb = a.output_end a.original_phrase_nb := by
  simp [merge]

theorem put_chars_merge (p : Nat) (B : Nat → Nat → Char) :
    ∀ (cs : List Char) (A : Nat → Nat → Char) (i : Int),
      put_chars (fun j q => if q = p then A j q else B j q) p i cs =
        (put_chars A p i cs).map fun out j q => if q = p then out j q else B j q := by
  intro cs
  induction cs with
  | nil => intro A i; rfl
  | cons c cs ih =>
    intro A i
    by_cases hi : 0 ≤ i ∧ i ≤ MAX_OUTPUT
    · simp only [put_chars, hi, and_self, if_true]
      rw [← ih]
      congr 1
      funext j q
      by_cases hq : q = p
      · by_cases hj : j = i.toNat
        · subst hj; subst hq; simp [upd]
        · simp [upd, hj, hq]
      · by_cases hj : j = i.toNat
        · subst hj; simp [upd, hq]
        · simp [upd, hj, hq]
    · simp only [put_chars, hi, if_false]
      rfl

theorem output_at_front_merge (a b : State) (str : String) :
    output_at_front (merge a b) a.original_phrase_nb str =
      (output_at_front a a.original_phrase_nb str).map fun a' => merge a' b := by
  unfold output_at_front
  simp only [merge_output_start]
  have h := put_chars_merge a.original_phrase_nb b.phrase_output str.data a.phrase_output
    (a.output_start a.original_phrase_nb - str.data.length + 1)
  show (put_chars (fun j q => if q = a.original_phrase_nb then a.phrase_output j q
    else b.phrase_output j q) _ _ _).map _ = _
  rw [h]
  cases put_chars a.phrase_output a.original_phrase_nb
    (a.output_start a.original_phrase_nb - str.data.length + 1) str.data with
  | error e => rfl
  | ok out =>
    simp only [Except.map, merge]
    congr 2
    funext q
    by_cases hq : q = a.original_phrase_nb
    · subst hq; simp [upd]
    · simp [upd, hq]

theorem output_at_back_merge (a b : State) (str : String) :
    output_at_back (merge a b) a.original_phrase_nb str =
      (output_at_back a a.original_phrase_nb str).map fun a' => merge a' b := by
  unfold output_at_back
  simp only [merge_output_end]
  have h := put_chars_merge a.original_phrase_nb b.phrase_output str.data a.phrase_output
    (a.output_end a.original_phrase_nb)
  show (put_chars (fun j q => if q = a.original_phrase_nb then a.phrase_output j q
    else b.phrase_output j q) _ _ _).map _ = _
  rw [h]
  cases put_chars a.phrase_output a.original_phrase_nb
    (a.output_end a.original_phrase_nb) str.data with
  | error e => rfl
  | ok out =>
    simp only [Except.map, merge]
    congr 2
    funext q
    by_cases hq : q = a.original_phrase_nb
    · subst hq; simp [upd]
    · simp [upd, hq]

theorem merge_fold (a b : State) (c pn o : Nat) (vn : Nat → Option String) (ty : Nat → Nat)
    (h : o = a.original_phrase_nb) :
    ({ current := c, phrase_nb := pn, original_phrase_nb := o,
       var_name := vn, stage := (merge a b).stage, type := ty,
       phrase_output := (merge a b).phrase_output,
       output_start := (merge a b).output_start,
       output_end := (merge a b).output_end } : State) =
      merge { current := c, phrase_nb := pn, original_phrase_nb := o,
              var_name := vn, stage := a.stage, type := ty,
              phrase_output := a.phrase_output, output_start := a.output_start,
              output_end := a.output_end } b := by
  subst h
  rfl

theorem merge_fold_stage (a b : State) (c pn o v : Nat) (vn : Nat → Option String)
    (ty : Nat → Nat) (h : o = a.original_phrase_nb) :
    ({ current := c, phrase_nb := pn, original_phrase_nb := o,
       var_name := vn, stage := upd (merge a b).stage a.original_phrase_nb v, type := ty,
       phrase_output := (merge a b).phrase_output,
       output_start := (merge a b).output_start,
       output_end := (merge a b).output_end } : State) =
      merge { current := c, phrase_nb := pn, original_phrase_nb := o,
              var_name := vn, stage := upd a.stage a.original_phrase_nb v, type := ty,
              phrase_output := a.phrase_output, output_start := a.output_start,
              output_end := a.output_end } b := by
  subst h
  simp only [merge]
  congr 1
  funext q
  by_cases hq : q = a.original_phrase_nb
  · subst hq; simp [upd]
  · simp [upd, hq]

theorem map_map_eq {α β γ : Type} (x : M α) (f : α → β) (h : β → γ) :
    (x.map f).map h = x.map (fun a => h (f a)) := by
  cases x <;> rfl

theorem map_bind_eq {α β γ : Type} (x : M α) (f : α → β) (k : β → M γ) :
    (x.map f).bind k = x.bind (fun a => k (f a)) := by
  cases x <;> rfl

theorem bind_map_eq {α β γ : Type} (x : M α) (k : α → M β) (h : β → γ) :
    (x.bind k).map h = x.bind (fun a => (k a).map h) := by
  cases x <;> rfl

theorem map_ite_eq {α β : Type} (c : Prop) [Decidable c] (x y : M α) (h : α → β) :
    (if c then x else y).map h = if c then x.map h else y.map h := by
  split <;> rfl

theorem map_pure_eq {α β : Type} (a : α) (h : α → β) : (pure a : M α).map h = pure (h a) := rfl

theorem map_throw_eq {α β : Type} (e : Halt) (h : α → β) :
    (throw e : M α).map h = throw e := rfl

theorem bind_ite_eq {α β : Type} (c : Prop) [Decidable c] (x y : M α) (k : α → M β) :
    (if c then x else y).bind k = if c then x.bind k else y.bind k := by
  split <;> rfl

theorem bind_pure_eq {α β : Type} (a : α) (k : α → M β) : (pure a : M α).bind k = k a := rfl

theorem bind_throw_eq {α β : Type} (e : Halt) (k : α → M β) :
    (throw e : M α).bind k = throw e := rfl

theorem refer_merge (g : Phrases) (previous_type : Nat) (a b : State) :
    refer g previous_type (merge a b) = (refer g previous_type a).map (lift b) := by
  unfold refer
  simp only [merge_current, merge_phrase_nb, merge_original, merge_var_name, merge_type,
    merge_stage, merge_fold, merge_fold_stage, output_at_front_merge, output_at_back_merge,
    map_bind_eq, bind_map_eq, map_ite_eq, map_pure_eq, map_throw_eq, map_map_eq, lift,
    bind_ite_eq, bind_pure_eq, bind_throw_eq, advance_eq]

theorem data_continuation_merge (g : Phrases) (a b : State) :
    data_continuation g (merge a b) = (data_continuation g a).map (lift b) := by
  unfold data_continuation
  simp only [merge_current, merge_phrase_nb, merge_original, merge_var_name, merge_type,
    merge_stage, merge_fold, merge_fold_stage, output_at_front_merge, output_at_back_merge,
    map_bind_eq, bind_map_eq, map_ite_eq, map_pure_eq, map_throw_eq, map_map_eq, lift,
    bind_ite_eq, bind_pure_eq, bind_throw_eq, advance_eq, refer_merge]

theorem complex_variable_merge (g : Phrases) (a b : State) :
    complex_variable g (merge a b) = (complex_variable g a).map (lift b) := by
  unfold complex_variable
  simp only [merge_current, merge_phrase_nb, merge_original, merge_var_name, merge_type,
    merge_stage, merge_fold, merge_fold_stage, output_at_front_merge, output_at_back_merge,
    map_bind_eq, bind_map_eq, map_ite_eq, map_pure_eq, map_throw_eq, map_map_eq, lift,
    bind_ite_eq, bind_pure_eq, bind_throw_eq, advance_eq]

theorem finish_basic_merge (a b : State) (t : Nat) :
    finish_basic (merge a b) t = (finish_basic a t).map (lift b) := by
  unfold finish_basic
  simp only [merge_current, merge_phrase_nb, merge_original, merge_var_name, merge_type,
    merge_stage, merge_fold, merge_fold_stage, output_at_front_merge, output_at_back_merge,
    map_bind_eq, bind_map_eq, map_ite_eq, map_pure_eq, map_throw_eq, map_map_eq, lift,
    bind_ite_eq, bind_pure_eq, bind_throw_eq, advance_eq]

theorem array_kind_merge (g : Phrases) (n : Int) (a b : State) :
    array_kind g n (merge a b) = (array_kind g n a).map (lift b) := by
  unfold array_kind
  simp only [merge_current, merge_phrase_nb, merge_original, merge_var_name, merge_type,
    merge_stage, merge_fold, merge_fold_stage, output_at_front_merge, output_at_back_merge,
    map_bind_eq, bind_map_eq, map_ite_eq, map_pure_eq, map_throw_eq, map_map_eq, lift,
    bind_ite_eq, bind_pure_eq, bind_throw_eq, advance_eq, data_continuation_merge]

theorem array_dimension_merge (g : Phrases) (a b : State) :
    array_dimension g (merge a b) = (array_dimension g a).map (lift b) := by
  unfold array_dimension
  simp only [merge_current, merge_phrase_nb, merge_original, merge_var_name, merge_type,
    merge_stage, merge_fold, merge_fold_stage, output_at_front_merge, output_at_back_merge,
    map_bind_eq, bind_map_eq, map_ite_eq, map_pure_eq, map_throw_eq, map_map_eq, lift,
    bind_ite_eq, bind_pure_eq, bind_throw_eq, advance_eq, array_kind_merge]

theorem process_array_merge (g : Phrases) (a b : State) :
    process_array g (merge a b) = (process_array g a).map (lift b) := by
  rw [process_array_eq, process_array_eq, complex_variable_merge]
  simp only [merge_current, merge_phrase_nb, merge_original, merge_var_name, merge_type,
    merge_stage, merge_fold, merge_fold_stage, output_at_front_merge, output_at_back_merge,
    map_bind_eq, bind_map_eq, map_ite_eq, map_pure_eq, map_throw_eq, map_map_eq, lift,
    bind_ite_eq, bind_pure_eq, bind_throw_eq, advance_eq, array_dimension_merge]

theorem pointer_kind_merge (g : Phrases) (singular : Bool) (a b : State) :
    pointer_kind g singular (merge a b) = (pointer_kind g singular a).map (lift b) := by
  unfold pointer_kind
  simp only [merge_current, merge_phrase_nb, merge_original, merge_var_name, merge_type,
    merge_stage, merge_fold, merge_fold_stage, output_at_front_merge, output_at_back_merge,
    map_bind_eq, bind_map_eq, map_ite_eq, map_pure_eq, map_throw_eq, map_map_eq, lift,
    bind_ite_eq, bind_pure_eq, bind_throw_eq, advance_eq, data_continuation_merge]

theorem pointer_target_merge (g : Phrases) (singular : Bool) (a b : State) :
    pointer_target g singular (merge a b) = (pointer_target g singular a).map (lift b) := by
  unfold pointer_target
  simp only [merge_current, merge_phrase_nb, merge_original, merge_var_name, merge_type,
    merge_stage, merge_fold, merge_fold_stage, output_at_front_merge, output_at_back_merge,
    map_bind_eq, bind_map_eq, map_ite_eq, map_pure_eq, map_throw_eq, map_map_eq, lift,
    bind_ite_eq, bind_pure_eq, bind_throw_eq, advance_eq, pointer_kind_merge]

theorem process_pointer_merge (g : Phrases) (a b : State) :
    process_pointer g (merge a b) = (process_pointer g a).map (lift b) := by
  unfold process_pointer
  simp only [merge_current, merge_phrase_nb, merge_original, merge_var_name, merge_type,
    merge_stage, merge_fold, merge_fold_stage, output_at_front_merge, output_at_back_merge,
    map_bind_eq, bind_map_eq, map_ite_eq, map_pure_eq, map_throw_eq, map_map_eq, lift,
    bind_ite_eq, bind_pure_eq, bind_throw_eq, advance_eq, complex_variable_merge, pointer_target_merge]

theorem function_result_merge (g : Phrases) (a b : State) :
    function_result g (merge a b) = (function_result g a).map (lift b) := by
  unfold function_result
  simp only [merge_current, merge_phrase_nb, merge_original, merge_var_name, merge_type,
    merge_stage, merge_fold, merge_fold_stage, output_at_front_merge, output_at_back_merge,
    map_bind_eq, bind_map_eq, map_ite_eq, map_pure_eq, map_throw_eq, map_map_eq, lift,
    bind_ite_eq, bind_pure_eq, bind_throw_eq, advance_eq, data_continuation_merge]

theorem process_function_merge (g : Phrases) (a b : State) :
    process_function g (merge a b) = (process_function g a).map (lift b) := by
  rw [process_function_eq, process_function_eq, complex_variable_merge]
  simp only [merge_current, merge_phrase_nb, merge_original, merge_var_name, merge_type,
    merge_stage, merge_fold, merge_fold_stage, output_at_front_merge, output_at_back_merge,
    map_bind_eq, bind_map_eq, map_ite_eq, map_pure_eq, map_throw_eq, map_map_eq, lift,
    bind_ite_eq, bind_pure_eq, bind_throw_eq, advance_eq, function_result_merge]

/-- At stage `START` the function `process_basic` writes into the buffer of
`phrase_nb`, which has to be the originating phrase. -/
theorem process_basic_merge (g : Phrases) (a b : State)
    (hst : a.stage a.original_phrase_nb = START → a.phrase_nb = a.original_phrase_nb) :
    process_basic g (merge a b) = (process_basic g a).map (lift b) := by
  unfold process_basic
  by_cases h : a.stage a.original_phrase_nb = START
  · have hp := hst h
    simp only [merge_stage, merge_original, merge_phrase_nb, merge_current, h, hp, if_true]
    split
    · split
      · rfl
      · rw [output_at_back_merge]
        cases hb : output_at_back a a.original_phrase_nb
            (g.word (g.phrase_end a.original_phrase_nb)) with
        | error e => rfl
        | ok a1 =>
          have hc := post_elim (output_at_back_control a _ _) hb
          have hp1 : a1.phrase_nb = a1.original_phrase_nb := by
            have e1 : a1.phrase_nb = a.phrase_nb := congrArg Control.phrase_nb hc
            have e2 : a1.original_phrase_nb = a.original_phrase_nb :=
              congrArg Control.original_phrase_nb hc
            rw [e1, e2, hp]
          simp only [Except.map, bind_ok, merge_phrase_nb, hp1]
          rw [output_at_front_merge]
          cases hf : output_at_front a1 a1.original_phrase_nb " " with
          | error e => rfl
          | ok a2 =>
            simp only [Except.map, bind_ok, merge_phrase_nb, merge_var_name, merge_current,
              merge_original, merge_type, merge_fold, finish_basic_merge]
    · exact finish_basic_merge a b _
  · simp only [merge_stage, merge_original, h, if_false, merge_current, merge_phrase_nb,
      finish_basic_merge]

theorem step_merge (g : Phrases) (a b : State)
    (hst : a.stage a.original_phrase_nb = START → a.phrase_nb = a.original_phrase_nb) :
    step g (merge a b) = (step g a).map fun a' => merge a' b := by
  unfold step
  simp only [merge_current, merge_phrase_nb, merge_original, merge_var_name, merge_type,
    merge_stage, merge_fold, merge_fold_stage, output_at_front_merge, output_at_back_merge,
    map_bind_eq, bind_map_eq, map_ite_eq, map_pure_eq, map_throw_eq, map_map_eq, lift,
    bind_ite_eq, bind_pure_eq, bind_throw_eq, advance_eq, process_array_merge,
    process_function_merge, process_pointer_merge, process_basic_merge g a b hst]

/-- The loop of the second pass for one originating phrase does the same with
whatever stages and buffers the other phrases have. -/
theorem resolve_merge (g : Phrases) : ∀ (fuel : Nat) (a b : State),
    (a.stage a.original_phrase_nb = START → a.phrase_nb = a.original_phrase_nb) →
    resolve g fuel (merge a b) = (resolve g fuel a).map fun a' => merge a' b := by
  intro fuel
  induction fuel with
  | zero =>
    intro a b _
    unfold resolve
    simp only [merge_stage, merge_original]
    split <;> rfl
  | succ k ih =>
    intro a b hst
    by_cases hd : a.stage a.original_phrase_nb = FINISHED ∨ a.stage a.original_phrase_nb = ERROR
    · rw [resolve_done g _ a hd, resolve_done g _ (merge a b)
        (by simp only [merge_stage, merge_original]; exact hd)]
      rfl
    · rw [resolve_step g k a hd, resolve_step g k (merge a b)
        (by simp only [merge_stage, merge_original]; exact hd), step_merge g a b hst]
      cases hs : step g a with
      | error e => rfl
      | ok a1 =>
        have h2 := post_elim (step_started g a) hs
        simp only [Except.map, bind_ok]
        exact ih a1 b (fun h => absurd h h2)

theorem merge_eq_right (a b : State) (h1 : a.current = b.current)
    (h2 : a.phrase_nb = b.phrase_nb) (h3 : a.original_phrase_nb = b.original_phrase_nb)
    (h4 : a.var_name = b.var_name) (h5 : a.type = b.type)
    (h6 : a.stage a.original_phrase_nb = b.stage a.original_phrase_nb)
    (h7 : ∀ j, a.phrase_output j a.original_phrase_nb = b.phrase_output j a.original_phrase_nb)
    (h8 : a.output_start a.original_phrase_nb = b.output_start a.original_phrase_nb)
    (h9 : a.output_end a.original_phrase_nb = b.output_end a.original_phrase_nb) :
    merge a b = b := by
  cases a
  cases b
  simp only [merge] at *
  subst h1 h2 h3 h4 h5
  congr 1
  · funext q
    split
    · rename_i hq
      rw [hq]
      exact h6
    · rfl
  · funext j q
    split
    · rename_i hq
      rw [hq]
      exact h7 j
    · rfl
  · funext q
    split
    · rename_i hq
      rw [hq]
      exact h8
    · rfl
  · funext q
    split
    · rename_i hq
      rw [hq]
      exact h9
    · rfl

theorem merge_line (a b : State) :
    (merge a b).line a.original_phrase_nb = a.line a.original_phrase_nb := by
  unfold State.line
  simp [merge]

/-! ## Permitted identifiers -/

theorem permitted_variable_name_iff (w : String) :
    permitted_variable_name w = true ↔
      w.data ≠ [] ∧ w ∉ illegal_variables ∧ (first_char w).isDigit = false ∧
      ∀ c ∈ w.data, c.isAlphanum = true ∨ c = '_' := by
  unfold permitted_variable_name
  by_cases h1 : w ∈ illegal_variables
  · simp [h1]
  · by_cases h2 : (first_char w).isDigit = true ∨ w.data = []
    · rw [if_neg h1, if_pos h2]
      constructor
      · intro h; cases h
      · rintro ⟨a, _, b, _⟩
        rcases h2 with h | h
        · rw [h] at b; cases b
        · exact absurd h a
    · rw [if_neg h1, if_neg h2, List.all_eq_true]
      have h3 : (first_char w).isDigit = false := by
        cases h : (first_char w).isDigit
        · rfl
        · exact absurd (Or.inl h) h2
      have h4 : w.data ≠ [] := fun h => h2 (Or.inr h)
      constructor
      · intro h
        refine ⟨h4, h1, h3, fun c hc => ?_⟩
        have := h c hc
        simpa using this
      · rintro ⟨_, _, _, h⟩ c hc
        have := h c hc
        simpa using this

/-- In the first pass, a complex phrase whose third word is neither the word
of its grammar (`of`, `to`, `returning`) nor a permitted identifier gets the
stage `ERROR`. -/
theorem first_pass_phrase_name (g : Phrases) (s : State)
    (hkind : first_phrase_type (g.word (g.phrase_start s.phrase_nb + 1)) ≠ BASIC)
    (hword : ¬ (first_phrase_type (g.word (g.phrase_start s.phrase_nb + 1)) = ARRAY ∧
        g.word (g.phrase_start s.phrase_nb + 2) = "of") ∧
      ¬ (first_phrase_type (g.word (g.phrase_start s.phrase_nb + 1)) = POINTER ∧
        g.word (g.phrase_start s.phrase_nb + 2) = "to") ∧
      ¬ (first_phrase_type (g.word (g.phrase_start s.phrase_nb + 1)) = FUNCTION ∧
        g.word (g.phrase_start s.phrase_nb + 2) = "returning"))
    (hname : permitted_variable_name (g.word (g.phrase_start s.phrase_nb + 2)) = false) :
    Post (first_pass_phrase g s) fun r => r.2.stage s.phrase_nb = ERROR := by
  have hcases : first_phrase_type (g.word (g.phrase_start s.phrase_nb + 1)) = ARRAY ∨
      first_phrase_type (g.word (g.phrase_start s.phrase_nb + 1)) = POINTER ∨
      first_phrase_type (g.word (g.phrase_start s.phrase_nb + 1)) = FUNCTION := by
    unfold first_phrase_type at hkind ⊢
    split_ifs at hkind ⊢ <;> simp_all
  unfold first_pass_phrase
  have hw : ∀ j, ({ g with continuation := upd g.continuation s.phrase_nb NO_DATA } :
      Phrases).word j = g.word j := fun _ => rfl
  simp only [hw, upd_same, hkind, if_false]
  rw [post_ite, post_throw, post_ite, post_throw, post_ite, post_throw, post_pure]
  refine ⟨fun _ => trivial, fun _ => ⟨fun _ => trivial, fun _ => ⟨fun _ => trivial,
    fun _ => ?_⟩⟩⟩
  have hcond : (first_phrase_type (g.word (g.phrase_start s.phrase_nb + 1)) = ARRAY ∧
        g.word (g.phrase_start s.phrase_nb + 1 + 1) ≠ "of") ∨
      (first_phrase_type (g.word (g.phrase_start s.phrase_nb + 1)) = POINTER ∧
        g.word (g.phrase_start s.phrase_nb + 1 + 1) ≠ "to") ∨
      (first_phrase_type (g.word (g.phrase_start s.phrase_nb + 1)) = FUNCTION ∧
        g.word (g.phrase_start s.phrase_nb + 1 + 1) ≠ "returning") := by
    obtain ⟨n1, n2, n3⟩ := hword
    rcases hcases with h | h | h
    · exact Or.inl ⟨h, fun e => n1 ⟨h, e⟩⟩
    · exact Or.inr (Or.inl ⟨h, fun e => n2 ⟨h, e⟩⟩)
    · exact Or.inr (Or.inr ⟨h, fun e => n3 ⟨h, e⟩⟩)
  have hname' : permitted_variable_name (g.word (g.phrase_start s.phrase_nb + 1 + 1)) = false :=
    hname
  simp only [hcond, if_true, hname', Bool.not_false, upd_same]

/-- C21. (1) `permitted_variable_name(w)` is true exactly when `w` is not
empty, is none of the 25 words of `illegal_variables`, does not start with a
decimal digit and has only alphanumeric characters and underscores. (2) An
input with a complex phrase whose third word is neither the word of its
grammar (`of` for an array, `to` for a pointer, `returning` for a function)
nor a permitted identifier prints no line: the first pass gives the phrase
the stage `ERROR`, and the run stops with the diagnostic (or leaves the bounds
of an array before). -/
theorem permitted_identifier_rule :
    (∀ w : String, permitted_variable_name w = true ↔
      w.data ≠ [] ∧ w ∉ illegal_variables ∧ (first_char w).isDigit = false ∧
      ∀ c ∈ w.data, c.isAlphanum = true ∨ c = '_') ∧
    illegal_variables.length = 25 ∧
    (∀ (argv : List String) (g : Phrases) (s : State) (p : Nat),
      segment argv = .ok (g, s) → p < g.nb_phrases →
      first_phrase_type (g.word (g.phrase_start p + 1)) ≠ BASIC →
      ¬ (first_phrase_type (g.word (g.phrase_start p + 1)) = ARRAY ∧
        g.word (g.phrase_start p + 2) = "of") →
      ¬ (first_phrase_type (g.word (g.phrase_start p + 1)) = POINTER ∧
        g.word (g.phrase_start p + 2) = "to") →
      ¬ (first_phrase_type (g.word (g.phrase_start p + 1)) = FUNCTION ∧
        g.word (g.phrase_start p + 2) = "returning") →
      permitted_variable_name (g.word (g.phrase_start p + 2)) = false →
      (∀ g' s', prepare argv = .ok (g', s') → s'.stage p = ERROR) ∧
      (main argv = .error Halt.incorrect_input ∨ main argv = .error Halt.undefined)) := by
  refine ⟨permitted_variable_name_iff, rfl, ?_⟩
  intro argv g s p hseg hp hkind n1 n2 n3 hname
  have key : ∀ g' s', prepare argv = .ok (g', s') →
      p < g'.nb_phrases ∧ s'.stage p = ERROR := by
    intro g' s' hprep
    obtain ⟨a1, a2, a3, a4⟩ := prepare_of_segment argv g' g s' s hprep hseg
    have hp' : p < g'.nb_phrases := by
      unfold Phrases.nb_phrases at hp ⊢
      rw [a2]; exact hp
    obtain ⟨rp, ⟨gp, sp, c1, c2, c3, c4, c5⟩, hst⟩ := prepare_trace argv g' s' hprep p hp'
    have hw : ∀ j, gp.word j = g.word j := by
      intro j; unfold Phrases.word; rw [c2, a1]
    have herr := post_elim (first_pass_phrase_name gp sp
      (by rw [hw, c3, a3, c5]; exact hkind)
      (by rw [hw, hw, c3, a3, c5]; exact ⟨n1, n2, n3⟩)
      (by rw [hw, c3, a3, c5]; exact hname)) c1
    simp only [c5] at herr
    exact ⟨hp', by rw [hst]; exact herr⟩
  refine ⟨fun g' s' h => (key g' s' h).2, ?_⟩
  cases hprep : prepare argv with
  | error e => exact main_error_of_prepare argv e hprep
  | ok r =>
    have hk := key r.1 r.2 hprep
    exact main_fails_of_stage argv r.1 r.2 hprep p hk.1 hk.2

/-- Witness of C21: in `A pointer 2p to void.` the third word starts with a
digit; the run stops with the diagnostic. -/
theorem permitted_identifier_rule_witness :
    permitted_variable_name "2p" = false ∧
    main ["types", "A", "pointer", "2p", "to", "void."] = .error Halt.incorrect_input ∧
    (main ["types", "A", "pointer", "2p", "to", "void."] = .error Halt.incorrect_input ∨
      main ["types", "A", "pointer", "2p", "to", "void."] = .error Halt.undefined) :=
  ⟨by decide, by decide,
    (permitted_identifier_rule.2.2 ["types", "A", "pointer", "2p", "to", "void."] _ _ 0 rfl
      (by decide) (by decide) (by decide) (by decide) (by decide) (by decide)).2⟩

/-! ## Phrases that are too short -/

theorem first_pass_phrase_short (g : Phrases) (s : State)
    (h : g.phrase_end s.phrase_nb < g.phrase_start s.phrase_nb + 1) :
    first_pass_phrase g s = .error Halt.incorrect_input := by
  unfold first_pass_phrase
  have hlt : ((g.phrase_end s.phrase_nb : Nat) : Int) - (g.phrase_start s.phrase_nb : Nat)
      < ((MIN_BASIC : Nat) : Int) - 1 := by
    have : ((MIN_BASIC : Nat) : Int) = 2 := rfl
    omega
  simp only [hlt, if_true, throw_eq_error]

theorem first_pass_phrase_short_complex (g : Phrases) (s : State)
    (hkind : first_phrase_type (g.word (g.phrase_start s.phrase_nb + 1)) ≠ BASIC)
    (h : g.phrase_end s.phrase_nb < g.phrase_start s.phrase_nb + 3) :
    first_pass_phrase g s = .error Halt.incorrect_input := by
  unfold first_pass_phrase
  have hw : ∀ j, ({ g with continuation := upd g.continuation s.phrase_nb NO_DATA } :
      Phrases).word j = g.word j := fun _ => rfl
  have hlt : ((g.phrase_end s.phrase_nb : Nat) : Int) - (g.phrase_start s.phrase_nb : Nat)
      < ((MIN_COMPLEX : Nat) : Int) - 1 := by
    have : ((MIN_COMPLEX : Nat) : Int) = 4 := rfl
    omega
  simp only [hw, upd_same, hkind, if_false, hlt, if_true, throw_eq_error]
  split
  · rfl
  · split <;> rfl

theorem first_pass_add : ∀ (a b : Nat) (g : Phrases) (s : State),
    first_pass (a + b) (g, s) = (first_pass a (g, s)).bind (first_pass b) := by
  intro a
  induction a with
  | zero => intro b g s; rw [Nat.zero_add]; rfl
  | succ a ih =>
    intro b g s
    have e : a + 1 + b = (a + b) + 1 := by omega
    rw [e, first_pass_step, first_pass_step]
    cases first_pass_phrase g s with
    | error e => rfl
    | ok r => exact ih b _ _

theorem first_pass_phrase_nb : ∀ (k : Nat) (g : Phrases) (s : State),
    Post (first_pass k (g, s)) fun r => r.2.phrase_nb = s.phrase_nb + k := by
  intro k
  induction k with
  | zero => intro g s; simp [first_pass, post_ok]
  | succ k ih =>
    intro g s
    rw [first_pass_step, post_bind]
    refine post_mono (first_pass_phrase_spec g s) ?_
    intro r hr
    refine post_mono (ih r.1 { r.2 with phrase_nb := r.2.phrase_nb + 1 }) ?_
    intro r' hr'
    rw [hr']
    simp only [hr.2.2.2.2.2.1]
    omega

/-- When the body of the first pass stops with the diagnostic at phrase `p`,
whatever the array contents it is run with, the first pass stops with the
diagnostic, unless it has left the bounds of an array in the phrases before
`p`. -/
theorem pass_one_stops (argv : List String) (g : Phrases) (s : State) (p : Nat)
    (hseg : segment argv = .ok (g, s)) (hp : p < g.nb_phrases)
    (hbody : ∀ gp sp, gp.argv = g.argv → gp.phrase_start = g.phrase_start →
      gp.phrase_end = g.phrase_end → sp.phrase_nb = p →
      first_pass_phrase gp sp = .error Halt.incorrect_input) :
    pass_one argv = .error Halt.incorrect_input ∨
    (pass_one argv = .error Halt.undefined ∧
      first_pass p (g, { s with phrase_nb := 0 }) = .error Halt.undefined) := by
  have hpass : pass_one argv = first_pass g.nb_phrases (g, { s with phrase_nb := 0 }) := by
    unfold pass_one
    rw [hseg, bind_ok]
  obtain ⟨k, hk⟩ : ∃ k, g.nb_phrases = p + (k + 1) := ⟨g.nb_phrases - p - 1, by omega⟩
  rw [hpass, hk, first_pass_add]
  cases h1 : first_pass p (g, { s with phrase_nb := 0 }) with
  | error e =>
    have hs := safe_first_pass p g { s with phrase_nb := 0 }
    rw [h1, safe_error] at hs
    cases e
    · exact Or.inl rfl
    · exact Or.inr ⟨rfl, rfl⟩
    · exact absurd rfl hs
  | ok r =>
    left
    obtain ⟨b1, _, b3, b4, _⟩ := post_elim (first_pass_spec _ _ _) h1
    have b5 := post_elim (first_pass_phrase_nb _ _ _) h1
    simp only [Nat.zero_add] at b5
    rw [bind_ok, first_pass_step, hbody r.1 r.2 b1 b3 b4 b5]
    rfl

/-- C22, as stated, fails: the second phrase of `An int NAME. A.` has one
word, and with a name of 120 letters the run prints no diagnostic: the first
pass writes the name of the first phrase after the last row of
`phrase_output`. -/
theorem minimum_length_refuted :
    main ["types", "An", "int",
      "aaaaaaaaaaaaaaaaaaaaaaaaaaaaaaaaaaaaaaaaaaaaaaaaaaaaaaaaaaaaaaaaaaaaaaaaaaaaaaaaaaaaaaaaaaaaaaaaaaaaaaaaaaaaaaaaaaaaaaaa.",
      "A."] = .error Halt.undefined := by
  decide

/-- C22, amended. Let the input be segmented into phrases (no word is empty)
and have a phrase `p` of fewer than 2 words, or a phrase `p` whose second word
is `array`, `pointer` or `function` and that has fewer than 4 words. Then the
body of the first pass stops with the diagnostic at `p`; the first pass does
not complete, so nothing of the second pass is run and no line is printed; and
the run stops with the diagnostic unless the first pass has left the bounds of
an array in a phrase before `p`. -/
theorem minimum_length (argv : List String) (g : Phrases) (s : State) (p : Nat)
    (hseg : segment argv = .ok (g, s)) (hp : p < g.nb_phrases)
    (hshort : g.phrase_end p < g.phrase_start p + 1 ∨
      (first_phrase_type (g.word (g.phrase_start p + 1)) ≠ BASIC ∧
        g.phrase_end p < g.phrase_start p + 3)) :
    (∀ s' : State, s'.phrase_nb = p →
      first_pass_phrase g s' = .error Halt.incorrect_input) ∧
    (∃ e, pass_one argv = .error e ∧ main argv = .error e) ∧
    (main argv = .error Halt.incorrect_input ∨
      (main argv = .error Halt.undefined ∧
        first_pass p (g, { s with phrase_nb := 0 }) = .error Halt.undefined)) := by
  have hbody : ∀ gp sp, gp.argv = g.argv → gp.phrase_start = g.phrase_start →
      gp.phrase_end = g.phrase_end → sp.phrase_nb = p →
      first_pass_phrase gp sp = .error Halt.incorrect_input := by
    intro gp sp c1 c2 c3 c4
    have hw : ∀ j, gp.word j = g.word j := by
      intro j; unfold Phrases.word; rw [c1]
    rcases hshort with h | ⟨h1, h2⟩
    · exact first_pass_phrase_short gp sp (by rw [c2, c3, c4]; exact h)
    · exact first_pass_phrase_short_complex gp sp (by rw [hw, c2, c4]; exact h1)
        (by rw [c2, c3, c4]; exact h2)
  refine ⟨fun s' hs' => hbody g s' rfl rfl rfl hs', ?_, ?_⟩
  · rcases pass_one_stops argv g s p hseg hp hbody with h | ⟨h, _⟩
    · exact ⟨_, h, main_of_pass_one_error argv _ h⟩
    · exact ⟨_, h, main_of_pass_one_error argv _ h⟩
  · rcases pass_one_stops argv g s p hseg hp hbody with h | ⟨h, h'⟩
    · exact Or.inl (main_of_pass_one_error argv _ h)
    · exact Or.inr ⟨main_of_pass_one_error argv _ h, h'⟩

/-- Witness of C22: the second phrase of `An int x. An array y.` is an array
phrase of three words; the run stops with the diagnostic. -/
theorem minimum_length_witness :
    ∃ g s, segment ["types", "An", "int", "x.", "An", "array", "y."] = .ok (g, s) ∧
      main ["types", "An", "int", "x.", "An", "array", "y."] = .error Halt.incorrect_input ∧
      (main ["types", "An", "int", "x.", "An", "array", "y."] = .error Halt.incorrect_input ∨
        (main ["types", "An", "int", "x.", "An", "array", "y."] = .error Halt.undefined ∧
          first_pass 1 (g, { s with phrase_nb := 0 }) = .error Halt.undefined)) :=
  ⟨_, _, rfl, by decide,
    (minimum_length ["types", "An", "int", "x.", "An", "array", "y."] _ _ 1 rfl (by decide)
      (Or.inr ⟨by decide, by decide⟩)).2.2⟩

/-! ## C23: number agreement in the array rule -/

theorem array_dimension_reject (g : Phrases) (s1 : State) (n : Int)
    (hat : atoi (g.word s1.current) = .ok n)
    (h : n = 0 ∨ (g.word s1.current).data.all Char.isDigit = false) :
    array_dimension g s1 = .ok (ERROR, s1) := by
  unfold array_dimension
  rw [hat]
  simp only [Except.bind]
  by_cases hn : n = 0
  · rw [if_pos hn]; rfl
  · rw [if_neg hn]
    rcases h with h | h
    · exact absurd h hn
    · simp only [h, Bool.not_false, if_true]
      rfl

/-- The state after the function rule has written `()`. -/
def call_state (s1 : State) : State := back_state s1 s1.original_phrase_nb "()"

/-- The state in which the function rule reads the word after the article. -/
def result_state (s1 : State) : State :=
  { call_state s1 with
    stage := upd s1.stage s1.original_phrase_nb CONTINUE
    current := s1.current + 1 }

theorem function_result_article (g : Phrases) (s2 : State)
    (hv : g.word s2.current ≠ "void") (hmore : s2.current ≠ g.phrase_end s2.phrase_nb) :
    function_result g s2 =
      (fun s4 : State =>
        if !check_preposition (g.word (s4.current - 1)) (g.word s4.current) false then
          (pure (ERROR, s4) : M (Nat × State))
        else if g.word s4.current = "pointer" then
          pure (CONTINUE, { s4 with type := upd s4.type s4.phrase_nb POINTER })
        else if g.word s4.current = "datum" then data_continuation g s4
        else pure (ERROR, s4))
      { s2 with stage := upd s2.stage s2.original_phrase_nb CONTINUE
                current := s2.current + 1 } := by
  unfold function_result advance inc_current
  simp only [if_neg hv, if_neg hmore, Bool.not_true, Bool.false_eq_true, if_false]

theorem function_call_written (g : Phrases) (s1 : State) (a e : Nat)
    (hw : Window s1 s1.original_phrase_nb a e) (room : e + 2 ≤ MAX_OUTPUT) :
    (output_at_back s1 s1.original_phrase_nb "()").bind (function_result g) =
        function_result g (call_state s1) ∧
      Window (call_state s1) s1.original_phrase_nb a (e + 2) ∧
      ((call_state s1).line s1.original_phrase_nb).data =
        (s1.line s1.original_phrase_nb).data ++ ['(', ')'] := by
  obtain ⟨f1, w1, l1⟩ := output_at_back_window s1 s1.original_phrase_nb a e "()" hw
    (Nat.le_succ_of_le room)
  refine ⟨?_, w1, l1⟩
  rw [f1]
  rfl

/-- Counterexample for C25: in `A function NAME returning void.` the word
after `returning` is `void`, but with a name of 96 letters the rule does not
return `FINISHED`: the name leaves four rows before the buffer, and the five
characters of `void ` fall before the first row. -/
theorem function_rule_refuted :
    main ["types", "A", "function",
      "aaaaaaaaaaaaaaaaaaaaaaaaaaaaaaaaaaaaaaaaaaaaaaaaaaaaaaaaaaaaaaaaaaaaaaaaaaaaaaaaaaaaaaaaaaaaaaaa",
      "returning", "void."] = .error Halt.undefined := by
  decide

/-- C25, amended. `process_function` reads the name, then the literal
`returning`, then writes `()` at the back of the originating buffer (first
part). With room for these two characters after the buffer, at the word `w`
after `returning`: `()` is appended; when `w` is `void` and there is room for
five characters before the buffer, `"void "` is prepended and the rule returns
`FINISHED`; otherwise, when `w` is the last word of the phrase the rule
returns `ERROR`, and when a word `x` follows, the stage is set to `CONTINUE`
and: `a pointer` returns `CONTINUE` with the kind `POINTER`, `a datum` leads to
the data continuation, an article that does not agree with `x` returns
`ERROR`, and every other pair returns `ERROR`. -/
theorem function_rule (g : Phrases) (s1 : State) (a e : Nat)
    (hw : Window s1 s1.original_phrase_nb a e) (room : e + 2 ≤ MAX_OUTPUT) :
    (∀ s, process_function g s =
      (complex_variable g s).bind fun r =>
        if !r.1 then pure (ERROR, r.2)
        else if g.word r.2.current ≠ "returning" then pure (ERROR, r.2)
        else advance g r.2 ERROR fun s1 =>
          (output_at_back s1 s1.original_phrase_nb "()").bind (function_result g)) ∧
    (Window (call_state s1) s1.original_phrase_nb a (e + 2) ∧
      ((call_state s1).line s1.original_phrase_nb).data =
        (s1.line s1.original_phrase_nb).data ++ ['(', ')']) ∧
    (g.word s1.current = "void" → 5 ≤ a →
      (output_at_back s1 s1.original_phrase_nb "()").bind (function_result g) =
          .ok (FINISHED, front_state (call_state s1) s1.original_phrase_nb "void ") ∧
        ((front_state (call_state s1) s1.original_phrase_nb "void ").line
            s1.original_phrase_nb).data =
          "void ".data ++ ((s1.line s1.original_phrase_nb).data ++ ['(', ')'])) ∧
    (g.word s1.current ≠ "void" → s1.current = g.phrase_end s1.phrase_nb →
      (output_at_back s1 s1.original_phrase_nb "()").bind (function_result g) =
        .ok (ERROR, { call_state s1 with
          stage := upd s1.stage s1.original_phrase_nb CONTINUE })) ∧
    (g.word s1.current ≠ "void" → s1.current ≠ g.phrase_end s1.phrase_nb →
      ((g.word s1.current = "a" ∧ g.word (s1.current + 1) = "pointer") →
        (output_at_back s1 s1.original_phrase_nb "()").bind (function_result g) =
          .ok (CONTINUE, { result_state s1 with
            type := upd s1.type s1.phrase_nb POINTER })) ∧
      ((g.word s1.current = "a" ∧ g.word (s1.current + 1) = "datum") →
        (output_at_back s1 s1.original_phrase_nb "()").bind (function_result g) =
          data_continuation g (result_state s1)) ∧
      (check_preposition (g.word s1.current) (g.word (s1.current + 1)) false = false →
        (output_at_back s1 s1.original_phrase_nb "()").bind (function_result g) =
          .ok (ERROR, result_state s1)) ∧
      (¬ (g.word s1.current = "a" ∧ g.word (s1.current + 1) ∈ ["pointer", "datum"]) →
        (output_at_back s1 s1.original_phrase_nb "()").bind (function_result g) =
          .ok (ERROR, result_state s1))) := by
  obtain ⟨f1, w1, l1⟩ := function_call_written g s1 a e hw room
  have hc : (call_state s1).current = s1.current := rfl
  have hp : (call_state s1).phrase_nb = s1.phrase_nb := rfl
  have ho : (call_state s1).original_phrase_nb = s1.original_phrase_nb := rfl
  refine ⟨fun s => rfl, ⟨w1, l1⟩, ?_, ?_, ?_⟩
  · intro hv ha
    obtain ⟨g1, _, g3⟩ := output_at_front_window (call_state s1) s1.original_phrase_nb a
      (e + 2) "void " w1 ha
    refine ⟨?_, by rw [g3, l1]⟩
    rw [f1]
    unfold function_result
    rw [hc, if_pos hv, ho, g1]
    rfl
  · intro hv hend
    rw [f1]
    unfold function_result advance inc_current
    have hv2 : g.word (g.phrase_end s1.phrase_nb) ≠ "void" := by rw [← hend]; exact hv
    simp only [hc, hp, hend, if_neg hv2, if_true, Bool.not_false]
    rfl
  · intro hv hmore
    rw [f1, function_result_article g (call_state s1) (by rw [hc]; exact hv)
      (by rw [hc, hp]; exact hmore)]
    have hs : ({ call_state s1 with
        stage := upd (call_state s1).stage (call_state s1).original_phrase_nb CONTINUE
        current := (call_state s1).current + 1 } : State) = result_state s1 := rfl
    rw [hs]
    have rc : (result_state s1).current = s1.current + 1 := rfl
    simp only [rc, Nat.add_sub_cancel]
    refine ⟨?_, ?_, ?_, ?_⟩
    · rintro ⟨h1, h2⟩
      rw [h1, h2]
      rfl
    · rintro ⟨h1, h2⟩
      rw [h1, h2]
      rfl
    · intro h
      rw [h]
      rfl
    · intro h
      cases hcp : check_preposition (g.word s1.current) (g.word (s1.current + 1)) false with
      | false => rfl
      | true =>
        simp only [Bool.not_true, Bool.false_eq_true, if_false]
        by_cases hx : g.word (s1.current + 1) = "pointer"
        · exfalso
          rw [hx] at hcp
          rcases (check_preposition_iff _ _ _).1 hcp with ⟨c, _⟩ | ⟨_, c⟩
          · revert c; decide
          · exact h ⟨c, by rw [hx]; decide⟩
        · rw [if_neg hx]
          by_cases hy : g.word (s1.current + 1) = "datum"
          · exfalso
            rw [hy] at hcp
            rcases (check_preposition_iff _ _ _).1 hcp with ⟨c, _⟩ | ⟨_, c⟩
            · revert c; decide
            · exact h ⟨c, by rw [hy]; decide⟩
          · rw [if_neg hy]
            rfl

theorem function_rule_witness :
    ∃ g s, prepare ["types", "A", "function", "returning", "void."] = .ok (g, s) ∧
      (output_at_back { s with original_phrase_nb := 0, phrase_nb := 0, current := 4 } 0
          "()").bind (function_result g) =
        .ok (FINISHED,
          front_state
            (call_state { s with original_phrase_nb := 0, phrase_nb := 0, current := 4 })
            0 "void ") :=
  ⟨_, _, rfl,
    ((function_rule _ _ 100 100 ⟨by decide, by decide, by decide, by decide⟩
      (by decide)).2.2.1 (by decide) (by decide)).1⟩

/-! ## C27: the output buffer as a double-ended sequence -/

/-- A call of `output_at_front` or of `output_at_back`. -/
inductive Op where
  | front (str : String)
  | back (str : String)

/-- A sequence of calls of `output_at_front` and `output_at_back` for the
buffer of phrase `p`. -/
def run_ops (p : Nat) : List Op → State → M State
  | [], s => pure s
  | Op.front str :: ops, s => (output_at_front s p str).bind (run_ops p ops)
  | Op.back str :: ops, s => (output_at_back s p str).bind (run_ops p ops)

/-- The buffer of phrase `p` as the first pass of `main` initialises it. -/
def empty_buffer (s : State) (p : Nat) : State :=
  { s with output_start := upd s.output_start p EMPTY_CHAR_BEFORE,
           output_end := upd s.output_end p EMPTY_CHAR_AFTER }

/-- The strings given to `output_at_front`, in order of insertion. -/
def fronts : List Op → List String
  | [] => []
  | Op.front str :: ops => str :: fronts ops
  | Op.back _ :: ops => fronts ops

/-- The strings given to `output_at_back`, in order of insertion. -/
def backs : List Op → List String
  | [] => []
  | Op.front _ :: ops => backs ops
  | Op.back str :: ops => str :: backs ops

/-- The characters of a list of strings, one string after the other. -/
def chars (l : List String) : List Char := l.foldr (fun str acc => str.data ++ acc) []

/-- The prepended strings in reverse order of insertion. -/
def prepended (ops : List Op) : List Char := chars (fronts ops).reverse

/-- The appended strings in order of insertion. -/
def appended (ops : List Op) : List Char := chars (backs ops)

theorem chars_append (l m : List String) : chars (l ++ m) = chars l ++ chars m := by
  induction l with
  | nil => rfl
  | cons a t ih =>
    simp only [chars, List.cons_append, List.foldr_cons, List.append_assoc] at ih ⊢
    rw [ih]

theorem prepended_front (str : String) (ops : List Op) :
    prepended (Op.front str :: ops) = prepended ops ++ str.data := by
  simp only [prepended, fronts, List.reverse_cons, chars_append]
  simp [chars]

theorem prepended_back (str : String) (ops : List Op) :
    prepended (Op.back str :: ops) = prepended ops := rfl

theorem appended_front (str : String) (ops : List Op) :
    appended (Op.front str :: ops) = appended ops := rfl

theorem appended_back (str : String) (ops : List Op) :
    appended (Op.back str :: ops) = str.data ++ appended ops := rfl

theorem put_chars_outside (p : Nat) : ∀ (cs : List Char) (out : Nat → Nat → Char) (i : Int),
    cs ≠ [] → (i < 0 ∨ (MAX_OUTPUT : Int) + 1 < i + cs.length) →
    put_chars out p i cs = .error Halt.undefined := by
  intro cs
  induction cs with
  | nil => intro out i h; exact absurd rfl h
  | cons c cs ih =>
    intro out i _ h
    have hM := max_output_eq
    by_cases hi : 0 ≤ i ∧ i ≤ MAX_OUTPUT
    · simp only [put_chars, hi, and_self, if_true]
      have hlen : cs ≠ [] := by
        intro h0
        rw [h0] at h
        simp only [List.length_cons, List.length_nil] at h
        omega
      apply ih _ _ hlen
      right
      simp only [List.length_cons] at h
      omega
    · simp only [put_chars, hi, if_false]
      rfl

theorem output_at_front_outside (s : State) (p a e : Nat) (str : String)
    (h : Window s p a e) (big : a < str.data.length) :
    output_at_front s p str = .error Halt.undefined := by
  obtain ⟨h1, _, _, _⟩ := h
  have hne : str.data ≠ [] := by
    intro h0
    rw [h0] at big
    simp only [List.length_nil] at big
    omega
  have hp := put_chars_outside p str.data s.phrase_output
    (s.output_start p - str.data.length + 1) hne (Or.inl (by omega))
  simp only [output_at_front, hp]
  rfl

theorem output_at_back_outside (s : State) (p a e : Nat) (str : String)
    (h : Window s p a e) (big : MAX_OUTPUT + 1 < e + str.data.length) :
    output_at_back s p str = .error Halt.undefined := by
  obtain ⟨_, h2, _, h4⟩ := h
  have hne : str.data ≠ [] := by
    intro h0
    rw [h0] at big
    simp only [List.length_nil] at big
    omega
  have hp := put_chars_outside p str.data s.phrase_output (s.output_end p) hne
    (Or.inr (by rw [h2]; omega))
  simp only [output_at_back, hp]
  rfl

theorem run_ops_window (p : Nat) : ∀ (ops : List Op) (s : State) (a e : Nat),
    Window s p a e → (prepended ops).length ≤ a →
    e + (appended ops).length ≤ MAX_OUTPUT + 1 →
    ∃ s', run_ops p ops s = .ok s' ∧
      Window s' p (a - (prepended ops).length) (e + (appended ops).length) ∧
      (s'.line p).data = prepended ops ++ (s.line p).data ++ appended ops := by
  intro ops
  induction ops with
  | nil =>
    intro s a e hw _ _
    exact ⟨s, rfl, hw, by simp [prepended, appended, fronts, backs, chars]⟩
  | cons op ops ih =>
    intro s a e hw hf hb
    cases op with
    | front str =>
      rw [prepended_front, List.length_append] at hf
      rw [appended_front] at hb
      obtain ⟨f1, w1, l1⟩ := output_at_front_window s p a e str hw (by omega)
      obtain ⟨s', r1, r2, r3⟩ := ih (front_state s p str) _ _ w1 (by omega) hb
      refine ⟨s', ?_, ?_, ?_⟩
      · simp only [run_ops, f1, Except.bind]
        exact r1
      · rw [prepended_front, List.length_append, appended_front]
        have : a - ((prepended ops).length + str.data.length)
            = a - str.data.length - (prepended ops).length := by omega
        rw [this]
        exact r2
      · rw [r3, l1, prepended_front, appended_front]
        simp only [List.append_assoc]
    | back str =>
      rw [prepended_back] at hf
      rw [appended_back, List.length_append] at hb
      obtain ⟨f1, w1, l1⟩ := output_at_back_window s p a e str hw (by omega)
      obtain ⟨s', r1, r2, r3⟩ := ih (back_state s p str) _ _ w1 hf (by omega)
      refine ⟨s', ?_, ?_, ?_⟩
      · simp only [run_ops, f1, Except.bind]
        exact r1
      · rw [prepended_back, appended_back, List.length_append]
        have : e + (str.data.length + (appended ops).length)
            = e + str.data.length + (appended ops).length := by omega
        rw [this]
        exact r2
      · rw [r3, l1, prepended_back, appended_back]
        simp only [List.append_assoc]

theorem run_ops_outside (p : Nat) : ∀ (ops : List Op) (s : State) (a e : Nat),
    Window s p a e →
    (a < (prepended ops).length ∨ MAX_OUTPUT + 1 < e + (appended ops).length) →
    run_ops p ops s = .error Halt.undefined := by
  intro ops
  induction ops with
  | nil =>
    intro s a e hw h
    have h4 := hw.2.2.2
    simp only [prepended, appended, fronts, backs, chars, List.reverse_nil, List.foldr_nil,
      List.length_nil] at h
    omega
  | cons op ops ih =>
    intro s a e hw h
    cases op with
    | front str =>
      rw [prepended_front, List.length_append, appended_front] at h
      by_cases hs : a < str.data.length
      · simp only [run_ops, output_at_front_outside s p a e str hw hs]
        rfl
      · obtain ⟨f1, w1, _⟩ := output_at_front_window s p a e str hw (by omega)
        simp only [run_ops, f1, Except.bind]
        exact ih _ _ _ w1 (by omega)
    | back str =>
      rw [prepended_back, appended_back, List.length_append] at h
      by_cases hs : MAX_OUTPUT + 1 < e + str.data.length
      · simp only [run_ops, output_at_back_outside s p a e str hw hs]
        rfl
      · obtain ⟨f1, w1, _⟩ := output_at_back_window s p a e str hw (by omega)
        simp only [run_ops, f1, Except.bind]
        exact ih _ _ _ w1 (by omega)

theorem empty_buffer_window (s : State) (p : Nat) : Window (empty_buffer s p) p 100 100 := by
  refine ⟨?_, ?_, le_refl _, by decide⟩
  · simp only [empty_buffer, upd_same]; rfl
  · simp only [empty_buffer, upd_same]; rfl

theorem empty_buffer_line (s : State) (p : Nat) : ((empty_buffer s p).line p).data = [] := by
  rw [line_of_window _ _ _ _ (empty_buffer_window s p)]
  rfl

/-- Counterexample for C27: one call of `output_at_front` with a string of 101
characters on the empty buffer writes before the first row of the buffer. -/
theorem buffer_sequence_refuted :
    run_ops 0 [Op.front ⟨List.replicate 101 'x'⟩] (empty_buffer (resize_arrays [] 0).2 0)
      = .error Halt.undefined := by
  rfl

/-- C27. Starting from the empty buffer of phrase `p`, a sequence of calls of
`output_at_front` and `output_at_back` that prepends at most 100 characters in
total and appends at most 101 characters in total succeeds, and the read-out is
the prepended strings in reverse order of insertion followed by the appended
strings in order of insertion; a sequence that prepends more than 100
characters or appends more than 101 characters leaves the rows `0 .. 200` of
the buffer. -/
theorem buffer_sequence (s : State) (p : Nat) (ops : List Op) :
    ((prepended ops).length ≤ 100 → (appended ops).length ≤ 101 →
      ∃ s', run_ops p ops (empty_buffer s p) = .ok s' ∧
        (s'.line p).data = prepended ops ++ appended ops ∧
        s'.output_start p = 99 - (prepended ops).length ∧
        s'.output_end p = 100 + (appended ops).length) ∧
    (100 < (prepended ops).length ∨ 101 < (appended ops).length →
      run_ops p ops (empty_buffer s p) = .error Halt.undefined) := by
  have hM := max_output_eq
  constructor
  · intro hf hb
    obtain ⟨s', r1, r2, r3⟩ := run_ops_window p ops (empty_buffer s p) 100 100
      (empty_buffer_window s p) hf (by omega)
    refine ⟨s', r1, ?_, ?_, ?_⟩
    · rw [r3, empty_buffer_line, List.append_nil]
    · rw [r2.1]; omega
    · rw [r2.2.1]; omega
  · intro h
    apply run_ops_outside p ops (empty_buffer s p) 100 100 (empty_buffer_window s p)
    omega

theorem buffer_sequence_witness :
    ∃ s', run_ops 0 [Op.front "char", Op.back "x", Op.front "*", Op.back "[3]", Op.front "("]
        (empty_buffer (resize_arrays [] 0).2 0) = .ok s' ∧
      (s'.line 0).data = "(*charx[3]".data ∧
      s'.output_start 0 = 99 - (6 : Nat) ∧ s'.output_end 0 = 100 + (4 : Nat) :=
  (buffer_sequence (resize_arrays [] 0).2 0
    [Op.front "char", Op.back "x", Op.front "*", Op.back "[3]", Op.front "("]).1
    (by decide) (by decide)

/-! ## C28: the buffer of the originating phrase -/

/-- C28. In the second pass, while the `while` loop runs for the originating
phrase `i` (it starts with `phrase_nb` set to `i` and `current` at the second
word of the phrase): in every state `t` that the loop reaches, in the phrase
itself or in a phrase reached through `continuation`, the originating phrase
is `i` and the buffer of every other phrase `q` (its rows, `output_start` and
`output_end`, hence its line) is as it was at the start; this holds for the
phrase `t.phrase_nb` that the loop is reading when it is not `i`, and for the
state in which the loop ends. -/
theorem buffer_ownership (g : Phrases) (s : State) (i : Nat) :
    (∀ t, Loop g { s with original_phrase_nb := i, phrase_nb := i,
                          current := g.phrase_start i + 1 } t →
      t.original_phrase_nb = i ∧
      (∀ q, q ≠ i →
        (∀ j, t.phrase_output j q = s.phrase_output j q) ∧
        t.output_start q = s.output_start q ∧ t.output_end q = s.output_end q ∧
        t.line q = s.line q) ∧
      (t.phrase_nb ≠ i → t.line t.phrase_nb = s.line t.phrase_nb)) ∧
    (∀ fuel t, resolve g fuel { s with original_phrase_nb := i, phrase_nb := i,
                                       current := g.phrase_start i + 1 } = .ok t →
      Loop g { s with original_phrase_nb := i, phrase_nb := i,
                      current := g.phrase_start i + 1 } t) := by
  refine ⟨fun t ht => ?_, fun fuel t h => resolve_loop g fuel _ t h⟩
  have hown := loop_own g _ t ht (fun _ => rfl)
  have hk : Kept i s t := hown.2
  refine ⟨hown.1, fun q hq => ?_, fun hq => line_of_kept _ _ s t hk hq⟩
  obtain ⟨h1, h2, h3⟩ := hk q hq
  exact ⟨h1, h2, h3, line_of_kept _ _ s t hk hq⟩

theorem buffer_ownership_witness :
    ∃ g s t,
      prepare ["types", "A", "pointer", "to", "a", "datum", "of", "type", "the", "type", "of",
        "x.", "An", "int", "x."] = .ok (g, s) ∧
      resolve g g.fuel { s with original_phrase_nb := 0, phrase_nb := 0, current := 2 }
        = .ok t ∧
      t.phrase_nb = 1 ∧ t.line 0 = "int *" ∧ s.line 1 = "int x" ∧
      Loop g { s with original_phrase_nb := 0, phrase_nb := 0, current := 2 } t ∧
      t.line 1 = s.line 1 :=
  have aux : ∀ (g : Phrases) (s t : State),
      resolve g g.fuel { s with original_phrase_nb := 0, phrase_nb := 0,
                                current := g.phrase_start 0 + 1 } = .ok t →
      Loop g { s with original_phrase_nb := 0, phrase_nb := 0,
                      current := g.phrase_start 0 + 1 } t ∧ t.line 1 = s.line 1 :=
    fun g s t h =>
      ⟨(buffer_ownership g s 0).2 _ t h,
        (((buffer_ownership g s 0).1 t ((buffer_ownership g s 0).2 _ t h)).2.1 1
          (by decide)).2.2.2⟩
  ⟨_, _, _, rfl, rfl, by decide, by decide, by decide, aux _ _ _ rfl⟩

/-! ## C26: basic phrases are resolved in the first pass -/

/-- The body of the first pass on a phrase `A K1 ... Kn v` whose name has more
than 101 characters writes after the last row of the buffer. -/
theorem first_pass_phrase_long (g : Phrases) (s : State)
    (hlen : g.phrase_start s.phrase_nb + 1 ≤ g.phrase_end s.phrase_nb)
    (hart : check_preposition (g.word (g.phrase_start s.phrase_nb))
      (g.word (g.phrase_start s.phrase_nb + 1)) true = true)
    (hperm : permitted_variable_name (g.word (g.phrase_end s.phrase_nb)) = true)
    (hacc : read_basic_phrase (g.phrase_start s.phrase_nb + 1)
      ((g.phrase_end s.phrase_nb : Int) - 1) g.argv ≠ 0)
    (hlong : 101 < (g.word (g.phrase_end s.phrase_nb)).data.length) :
    first_pass_phrase g s = .error Halt.undefined := by
  have hkind := basic_not_complex _ (read_basic_phrase_first _ _ _ hacc)
  have hM := max_output_eq
  rw [first_pass_phrase_basic g s hlen hart hkind,
    process_basic_named { g with continuation := upd g.continuation s.phrase_nb NO_DATA }
      (first_state g s) (by simp only [first_state, upd_same]) hperm]
  have e1 : (first_state g s).phrase_nb = s.phrase_nb := rfl
  have e3 : ∀ i, ({ g with continuation := upd g.continuation s.phrase_nb NO_DATA } :
      Phrases).word i = g.word i := fun _ => rfl
  simp only [e1, e3]
  rw [output_at_back_outside (first_state g s) s.phrase_nb 100 100
    (g.word (g.phrase_end s.phrase_nb)) (first_state_window g s) (by omega)]
  rfl

theorem word_same (g g' : Phrases) (h : g'.argv = g.argv) (i : Nat) :
    g'.word i = g.word i := by
  unfold Phrases.word
  rw [h]

/-- The phrase `p` as the body of the first pass met it, with the facts that
the body went through. -/
theorem prepare_met (argv : List String) (g : Phrases) (s : State) (p : Nat)
    (hprep : prepare argv = .ok (g, s)) (hp : p < g.nb_phrases) :
    ∃ gp sp rp, first_pass_phrase gp sp = .ok rp ∧ gp.argv = g.argv ∧
      gp.phrase_start = g.phrase_start ∧ gp.phrase_end = g.phrase_end ∧ sp.phrase_nb = p ∧
      Same p s rp.2 ∧
      g.phrase_start p + 1 ≤ g.phrase_end p ∧
      check_preposition (g.word (g.phrase_start p)) (g.word (g.phrase_start p + 1)) true
        = true := by
  obtain ⟨rp, ⟨gp, sp, c1, c2, c3, c4, c5⟩, hsame⟩ := prepare_same argv g s hprep p hp
  have hspec := post_elim (first_pass_phrase_spec gp sp) c1
  have hlen := hspec.2.2.2.2.2.2
  rw [c3, c4, c5] at hlen
  refine ⟨gp, sp, rp, c1, c2, c3, c4, c5, hsame, hlen, ?_⟩
  cases hc : check_preposition (g.word (g.phrase_start p)) (g.word (g.phrase_start p + 1)) true
    with
  | true => rfl
  | false =>
    have := first_pass_phrase_article gp sp (by
      rw [word_same g gp c2, word_same g gp c2, c3, c5]
      exact hc)
    rw [this] at c1
    cases c1

/-- The phrase `p` is printed as `line`: after the loop check its buffer holds
`line` and its stage is `FINISHED`; the second pass leaves its buffer as it
is; a run that completes prints `line` for it. -/
def Printed (argv : List String) (g : Phrases) (s : State) (p : Nat) (line : String) : Prop :=
  s.line p = line ∧ s.stage p = FINISHED ∧
  (∀ s', second_pass g g.nb_phrases { s with original_phrase_nb := 0 } = .ok s' →
    (∀ i, s'.phrase_output i p = s.phrase_output i p) ∧
    s'.output_start p = s.output_start p ∧ s'.output_end p = s.output_end p ∧
    s'.line p = line) ∧
  (∀ lines, main argv = .ok lines → lines[p]? = some line)

theorem printed_of_line (argv : List String) (g : Phrases) (s : State) (p : Nat)
    (line : String) (hprep : prepare argv = .ok (g, s)) (hp : p < g.nb_phrases)
    (hline : s.line p = line) (hst : s.stage p = FINISHED) : Printed argv g s p line := by
  have hpass : ∀ s', second_pass g g.nb_phrases { s with original_phrase_nb := 0 } = .ok s' →
      (∀ i, s'.phrase_output i p = s.phrase_output i p) ∧
      s'.output_start p = s.output_start p ∧ s'.output_end p = s.output_end p ∧
      s'.line p = line := by
    intro s' h
    obtain ⟨a1, a2, a3, _⟩ := post_elim (second_pass_finished g _ { s with original_phrase_nb := 0 } p hst) h
    exact ⟨a1, a2, a3, (line_of_buffer p _ s' a1 a2 a3).trans hline⟩
  refine ⟨hline, hst, hpass, ?_⟩
  intro lines hmain
  obtain ⟨s', h1, h2⟩ := main_lines argv g s lines hprep hmain
  rw [h2, List.getElem?_map, List.getElem?_range hp]
  exact congrArg some (hpass s' h1).2.2.2

/-- Counterexample for C26: a basic phrase that declares a name of 110 letters
has no output, the run leaves the rows of the buffer in the first pass. -/
theorem basic_phrase_resolved_refuted :
    main ["types", "A", "char", "bbbbbbbbbbbbbbbbbbbbbbbbbbbbbbbbbbbbbbbbbbbbbbbbbbbbbbbbbbbbbbbbbbbbbbbbbbbbbbbbbbbbbbbbbbbbbbbbbbbbbbbbbbbbbb."] = .error Halt.undefined := by
  decide

/-- C26. For an input that the run takes as far as the end of the loop check,
and a phrase `p` of it: when the last word of the phrase is a basic type and
`read_basic_phrase` accepts the words after the article, the buffer of the
phrase holds the text of the resolved type after the first pass, the stage is
`FINISHED`, the second pass leaves the buffer as it is and a run that completes
prints that text; when the last word `v` is a permitted name and
`read_basic_phrase` accepts the words between the article and `v`, the same
holds with the text followed by a space and `v`, and the declared name is `v`.
The body of the first pass returns on such a phrase when the article agrees
with the second word and, for a phrase with a name, the name has at most 101
characters (the rows `100 .. 200` of the buffer); with a longer name it writes
outside the buffer. -/
theorem basic_phrase_resolved (argv : List String) (g : Phrases) (s : State) (p : Nat)
    (hprep : prepare argv = .ok (g, s)) (hp : p < g.nb_phrases) :
    (basic_word_type (g.word (g.phrase_end p)) ≠ 0 →
      read_basic_phrase (g.phrase_start p + 1) (g.phrase_end p) g.argv ≠ 0 →
      ∃ text,
        make_basic_output (read_basic_phrase (g.phrase_start p + 1) (g.phrase_end p) g.argv)
          = .ok text ∧
        Printed argv g s p text) ∧
    (permitted_variable_name (g.word (g.phrase_end p)) = true →
      read_basic_phrase (g.phrase_start p + 1) ((g.phrase_end p : Int) - 1) g.argv ≠ 0 →
      ∃ text,
        make_basic_output
          (read_basic_phrase (g.phrase_start p + 1) ((g.phrase_end p : Int) - 1) g.argv)
          = .ok text ∧
        Printed argv g s p (text ++ " " ++ g.word (g.phrase_end p)) ∧
        s.var_name p = some (g.word (g.phrase_end p)) ∧
        (g.word (g.phrase_end p)).data.length ≤ 101) ∧
    (∀ (g0 : Phrases) (s0 : State),
      g0.phrase_start s0.phrase_nb + 1 ≤ g0.phrase_end s0.phrase_nb →
      check_preposition (g0.word (g0.phrase_start s0.phrase_nb))
        (g0.word (g0.phrase_start s0.phrase_nb + 1)) true = true →
      (basic_word_type (g0.word (g0.phrase_end s0.phrase_nb)) ≠ 0 →
        read_basic_phrase (g0.phrase_start s0.phrase_nb + 1) (g0.phrase_end s0.phrase_nb)
          g0.argv ≠ 0 →
        ∃ r text, first_pass_phrase g0 s0 = .ok r ∧
          make_basic_output (read_basic_phrase (g0.phrase_start s0.phrase_nb + 1)
            (g0.phrase_end s0.phrase_nb) g0.argv) = .ok text ∧
          r.2.stage s0.phrase_nb = FINISHED ∧ r.2.line s0.phrase_nb = text) ∧
      (permitted_variable_name (g0.word (g0.phrase_end s0.phrase_nb)) = true →
        read_basic_phrase (g0.phrase_start s0.phrase_nb + 1)
          ((g0.phrase_end s0.phrase_nb : Int) - 1) g0.argv ≠ 0 →
        ((g0.word (g0.phrase_end s0.phrase_nb)).data.length ≤ 101 →
          ∃ r text, first_pass_phrase g0 s0 = .ok r ∧
            make_basic_output (read_basic_phrase (g0.phrase_start s0.phrase_nb + 1)
              ((g0.phrase_end s0.phrase_nb : Int) - 1) g0.argv) = .ok text ∧
            r.2.stage s0.phrase_nb = FINISHED ∧
            r.2.line s0.phrase_nb = text ++ " " ++ g0.word (g0.phrase_end s0.phrase_nb) ∧
            r.2.var_name s0.phrase_nb = some (g0.word (g0.phrase_end s0.phrase_nb))) ∧
        (101 < (g0.word (g0.phrase_end s0.phrase_nb)).data.length →
          first_pass_phrase g0 s0 = .error Halt.undefined))) := by
  obtain ⟨gp, sp, rp, c1, c2, c3, c4, c5, hsame, hlen, hart⟩ := prepare_met argv g s p hprep hp
  have hlen' : gp.phrase_start sp.phrase_nb + 1 ≤ gp.phrase_end sp.phrase_nb := by
    rw [c3, c4, c5]; exact hlen
  have hart' : check_preposition (gp.word (gp.phrase_start sp.phrase_nb))
      (gp.word (gp.phrase_start sp.phrase_nb + 1)) true = true := by
    rw [word_same g gp c2, word_same g gp c2, c3, c5]; exact hart
  refine ⟨?_, ?_, ?_⟩
  · intro hlast hacc
    obtain ⟨text, ht⟩ := accepted_text _ hacc ⟨_, _, _, rfl⟩
    refine ⟨text, ht, ?_⟩
    obtain ⟨r, hr, r1, r2, _⟩ := first_pass_phrase_plain gp sp text hlen' hart'
      (by rw [word_same g gp c2, c4, c5]; exact hlast)
      (by rw [c2, c3, c4, c5]; exact hacc)
      (by rw [c2, c3, c4, c5]; exact ht)
    rw [c1] at hr
    injection hr with hr
    rw [← hr, c5] at r1 r2
    refine printed_of_line argv g s p text hprep hp ?_ (hsame.1.trans r1)
    rw [same_line hsame]
    exact String.ext r2
  · intro hperm hacc
    obtain ⟨text, ht⟩ := accepted_text _ hacc ⟨_, _, _, rfl⟩
    refine ⟨text, ht, ?_⟩
    have hperm' : permitted_variable_name (gp.word (gp.phrase_end sp.phrase_nb)) = true := by
      rw [word_same g gp c2, c4, c5]; exact hperm
    have hacc' : read_basic_phrase (gp.phrase_start sp.phrase_nb + 1)
        ((gp.phrase_end sp.phrase_nb : Int) - 1) gp.argv ≠ 0 := by
      rw [c2, c3, c4, c5]; exact hacc
    by_cases hroom : (g.word (g.phrase_end p)).data.length ≤ 101
    · obtain ⟨r, hr, r1, r2, r3⟩ := first_pass_phrase_named gp sp text hlen' hart' hperm' hacc'
        (by rw [c2, c3, c4, c5]; exact ht)
        (by rw [word_same g gp c2, c4, c5]; exact hroom)
      rw [c1] at hr
      injection hr with hr
      rw [← hr, c5] at r1 r2 r3
      rw [word_same g gp c2, c4] at r2 r3
      refine ⟨printed_of_line argv g s p _ hprep hp ?_ (hsame.1.trans r1),
        hsame.2.2.1.trans r3, hroom⟩
      rw [same_line hsame]
      apply String.ext
      rw [r2]
      simp [String.data_append]
    · have := first_pass_phrase_long gp sp hlen' hart' hperm' hacc'
        (by rw [word_same g gp c2, c4, c5]; omega)
      rw [this] at c1
      cases c1
  · intro g0 s0 hl ha
    refine ⟨?_, ?_⟩
    · intro hlast hacc
      obtain ⟨text, ht⟩ := accepted_text _ hacc ⟨_, _, _, rfl⟩
      obtain ⟨r, hr, r1, r2, _⟩ := first_pass_phrase_plain g0 s0 text hl ha hlast hacc ht
      exact ⟨r, text, hr, ht, r1, String.ext r2⟩
    · intro hperm hacc
      refine ⟨?_, first_pass_phrase_long g0 s0 hl ha hperm hacc⟩
      intro hroom
      obtain ⟨text, ht⟩ := accepted_text _ hacc ⟨_, _, _, rfl⟩
      obtain ⟨r, hr, r1, r2, r3⟩ := first_pass_phrase_named g0 s0 text hl ha hperm hacc ht hroom
      refine ⟨r, text, hr, ht, r1, ?_, r3⟩
      apply String.ext
      rw [r2]
      simp [String.data_append]

theorem basic_phrase_resolved_witness :
    ∃ g s, prepare ["types", "An", "int", "x.", "A", "char."] = .ok (g, s) ∧
      (∃ text,
        make_basic_output
          (read_basic_phrase (g.phrase_start 0 + 1) ((g.phrase_end 0 : Int) - 1) g.argv)
          = .ok text ∧
        Printed ["types", "An", "int", "x.", "A", "char."] g s 0
          (text ++ " " ++ g.word (g.phrase_end 0)) ∧
        s.var_name 0 = some (g.word (g.phrase_end 0)) ∧
        (g.word (g.phrase_end 0)).data.length ≤ 101) ∧
      s.line 0 = "int x" ∧ s.line 1 = "char" :=
  ⟨_, _, rfl,
    (basic_phrase_resolved ["types", "An", "int", "x.", "A", "char."] _ _ 0 rfl
      (by decide)).2.1 (by decide) (by decide),
    by decide, by decide⟩

/-! ## C29: the kinds at the start of each originating phrase -/

/-- The state in which the loop of the originating phrase of `s` starts. -/
def start_state (g : Phrases) (s : State) : State :=
  { s with phrase_nb := s.original_phrase_nb,
           current := g.phrase_start s.original_phrase_nb + 1 }

/-- The state that `after_phrase` hands to the later phrases: every kind is
reset, and the next phrase is the originating one. -/
def reset_types (g : Phrases) (s2 : State) : State :=
  { s2 with type := fun ref_phrase =>
                     if (ref_phrase : Int) ≤ g.max_phrase_index then
                       first_phrase_type (g.word (g.phrase_start ref_phrase + 1))
                     else s2.type ref_phrase,
            original_phrase_nb := s2.original_phrase_nb + 1 }

theorem second_pass_unfold (g : Phrases) (k : Nat) (s : State) :
    second_pass g (k + 1) s =
      (resolve g g.fuel (start_state g s)).bind fun s2 =>
        if s2.stage s2.original_phrase_nb = ERROR then throw Halt.incorrect_input
        else second_pass g k (reset_types g s2) := rfl

/-- The states in which the second pass over `k` phrases, entered in `s`,
starts the loop of an originating phrase: the first phrase starts in
`start_state g s`; when its loop ends in `s2` with a stage other than `ERROR`,
the later phrases are those of the pass over `k - 1` phrases entered in
`reset_types g s2`. -/
inductive Starts (g : Phrases) : Nat → State → State → Prop
  | first (k : Nat) (s : State) : Starts g (k + 1) s (start_state g s)
  | later (k : Nat) (s s2 t : State) :
    resolve g g.fuel (start_state g s) = .ok s2 →
    s2.stage s2.original_phrase_nb ≠ ERROR →
    Starts g k (reset_types g s2) t → Starts g (k + 1) s t

/-- The state `s'` in which the second pass goes on to its next originating
phrase has, with respect to the state `s` after the loop check: the kind of
its second word for every phrase, the same names, and the stage and buffer of
`s` for every phrase from the originating one on. -/
structure Fresh (g : Phrases) (s s' : State) : Prop where
  kinds : ∀ q, q < g.nb_phrases → s'.type q = intrinsic_type g q
  outside : ∀ q, g.nb_phrases ≤ q → s'.type q = s.type q
  names : s'.var_name = s.var_name
  later : ∀ q, s'.original_phrase_nb ≤ q →
    s'.stage q = s.stage q ∧ (∀ j, s'.phrase_output j q = s.phrase_output j q) ∧
    s'.output_start q = s.output_start q ∧ s'.output_end q = s.output_end q

theorem fresh_next (g : Phrases) (s s' s2 : State)
    (hstart : ∀ p, p < g.nb_phrases → s.stage p = START →
      intrinsic_type g p = ARRAY ∨ intrinsic_type g p = FUNCTION ∨
        intrinsic_type g p = POINTER)
    (hf : Fresh g s s') (hi : s'.original_phrase_nb < g.nb_phrases)
    (h2 : resolve g g.fuel (start_state g s') = .ok s2) :
    Fresh g s (reset_types g s2) := by
  have hloop := resolve_loop g _ _ _ h2
  have hown := loop_own g _ _ hloop (fun _ => rfl)
  have hfr := post_elim (resolve_frame g _ _) h2
  have hnames := loop_names g _ _ hloop (by
    intro hst
    have h1 : s.stage s'.original_phrase_nb = START := by
      rw [← (hf.later _ (le_refl _)).1]; exact hst
    have h2 := hstart _ hi h1
    rw [← hf.kinds _ hi] at h2
    exact h2) hi
  have ho : s2.original_phrase_nb = s'.original_phrase_nb := hown.1
  refine ⟨?_, ?_, ?_, ?_⟩
  · intro q hq
    have hc : (q : Int) ≤ g.max_phrase_index := by
      unfold Phrases.nb_phrases at hq; omega
    simp only [reset_types, hc, if_true]
    rfl
  · intro q hq
    have hc : ¬ (q : Int) ≤ g.max_phrase_index := by
      unfold Phrases.nb_phrases at hq; omega
    simp only [reset_types, hc, if_false]
    rw [hnames.2 q hq]
    exact hf.outside q hq
  · show s2.var_name = s.var_name
    rw [hnames.1]
    exact hf.names
  · intro q hq
    have hq' : s'.original_phrase_nb + 1 ≤ q := by
      have : (reset_types g s2).original_phrase_nb = s2.original_phrase_nb + 1 := rfl
      rw [this, ho] at hq
      exact hq
    have hne : q ≠ s'.original_phrase_nb := by omega
    obtain ⟨a1, a2, a3, a4⟩ := hf.later q (by omega)
    obtain ⟨b1, b2, b3⟩ := hown.2 q hne
    have b0 := hfr.2 q hne
    exact ⟨b0.trans a1, fun j => (b1 j).trans (a2 j), b2.trans a3, b3.trans a4⟩

/-- Every state in which the second pass starts the loop of an originating
phrase is the start state of a fresh state. -/
theorem starts_fresh (g : Phrases) (s : State)
    (hstart : ∀ p, p < g.nb_phrases → s.stage p = START →
      intrinsic_type g p = ARRAY ∨ intrinsic_type g p = FUNCTION ∨
        intrinsic_type g p = POINTER) :
    ∀ (k : Nat) (s' t : State), Starts g k s' t → Fresh g s s' →
      s'.original_phrase_nb + k ≤ g.nb_phrases →
      ∃ s'', t = start_state g s'' ∧ Fresh g s s'' ∧
        s''.original_phrase_nb < g.nb_phrases := by
  intro k s' t h
  induction h with
  | first k s' => exact fun hf hk => ⟨s', rfl, hf, by omega⟩
  | later k s' s2 t h2 _ _ ih =>
    intro hf hk
    have hn := fresh_next g s s' s2 hstart hf (by omega) h2
    have ho : s2.original_phrase_nb = s'.original_phrase_nb :=
      (loop_own g _ _ (resolve_loop g _ _ _ h2) (fun _ => rfl)).1
    exact ih hn (by
      have : (reset_types g s2).original_phrase_nb = s2.original_phrase_nb + 1 := rfl
      rw [this, ho]; omega)

theorem prepare_fresh (argv : List String) (g : Phrases) (s : State)
    (h : prepare argv = .ok (g, s)) : Fresh g s { s with original_phrase_nb := 0 } :=
  ⟨prepare_type argv g s h, fun _ _ => rfl, rfl, fun _ _ => ⟨rfl, fun _ => rfl, rfl, rfl⟩⟩

/-- The state in which the loop of phrase `i` starts when it is entered with
the state `s` that the loop check left, no earlier phrase having been
processed. -/
def direct_start (g : Phrases) (s : State) (i : Nat) : State :=
  start_state g { s with original_phrase_nb := i }

theorem start_merge (g : Phrases) (s s'' : State) (hs : Fresh g s { s with original_phrase_nb := 0 })
    (hf : Fresh g s s'') (hi : s''.original_phrase_nb < g.nb_phrases) :
    merge (start_state g s'') (direct_start g s s''.original_phrase_nb) =
      direct_start g s s''.original_phrase_nb := by
  obtain ⟨a1, a2, a3, a4⟩ := hf.later _ (le_refl _)
  apply merge_eq_right
  · rfl
  · rfl
  · rfl
  · exact hf.names
  · funext q
    show s''.type q = s.type q
    by_cases hq : q < g.nb_phrases
    · rw [hf.kinds q hq]
      exact (hs.kinds q hq).symm
    · exact hf.outside q (by omega)
  · exact a1
  · exact a2
  · exact a3
  · exact a4

/-- C29. In a run that has passed the loop check with the globals `g` and the
state `s`, let `t` be a state in which the second pass starts the loop of an
originating phrase (first part: how the second pass goes from one such state
to the next). Then the originating phrase `i` of `t` is a phrase of the input,
the loop starts at its second word, and the kind of every phrase of the input
is the kind of its second word, whatever the loops of the earlier phrases did
to the kinds. Hence the loop of phrase `i` does what it does when it is entered
directly with the state `s`, no earlier phrase having been processed: it ends
or stops in the same way, and when it ends, the output and the stage of
phrase `i` are the same. -/
theorem kind_reset (argv : List String) (g : Phrases) (s t : State)
    (hprep : prepare argv = .ok (g, s))
    (ht : Starts g g.nb_phrases { s with original_phrase_nb := 0 } t) :
    (∀ (k : Nat) (s' : State),
      second_pass g (k + 1) s' =
        (resolve g g.fuel (start_state g s')).bind fun s2 =>
          if s2.stage s2.original_phrase_nb = ERROR then throw Halt.incorrect_input
          else second_pass g k (reset_types g s2)) ∧
    (t.original_phrase_nb < g.nb_phrases ∧ t.phrase_nb = t.original_phrase_nb ∧
      t.current = g.phrase_start t.original_phrase_nb + 1) ∧
    (∀ q, q < g.nb_phrases →
      t.type q = intrinsic_type g q ∧
      intrinsic_type g q = first_phrase_type (g.word (g.phrase_start q + 1))) ∧
    resolve g g.fuel (direct_start g s t.original_phrase_nb) =
      ((resolve g g.fuel t).map fun r => merge r (direct_start g s t.original_phrase_nb)) ∧
    (∀ r, resolve g g.fuel t = .ok r →
      ∃ r0, resolve g g.fuel (direct_start g s t.original_phrase_nb) = .ok r0 ∧
        r0.line t.original_phrase_nb = r.line t.original_phrase_nb ∧
        r0.stage t.original_phrase_nb = r.stage t.original_phrase_nb) := by
  have hs := prepare_fresh argv g s hprep
  obtain ⟨s'', e, hf, hi⟩ := starts_fresh g s (prepare_started argv g s hprep) _ _ _ ht hs
    (by simp)
  have ho : t.original_phrase_nb = s''.original_phrase_nb := by rw [e]; rfl
  have hm := start_merge g s s'' hs hf hi
  have hres : resolve g g.fuel (direct_start g s t.original_phrase_nb) =
      ((resolve g g.fuel t).map fun r => merge r (direct_start g s t.original_phrase_nb)) := by
    rw [ho, ← resolve_merge g g.fuel t _ (by rw [e]; intro _; rfl), e, hm]
  refine ⟨fun _ _ => rfl, ⟨by rw [ho]; exact hi, by rw [e]; rfl, by rw [e]; rfl⟩, ?_, hres, ?_⟩
  · intro q hq
    refine ⟨?_, rfl⟩
    rw [e]
    exact hf.kinds q hq
  · intro r hr
    rw [hr] at hres
    refine ⟨_, hres, ?_, ?_⟩
    · have hor : r.original_phrase_nb = t.original_phrase_nb :=
        (post_elim (resolve_frame g _ _) hr).1
      rw [← hor]
      exact merge_line r _
    · have hor : r.original_phrase_nb = t.original_phrase_nb :=
        (post_elim (resolve_frame g _ _) hr).1
      rw [← hor]
      exact merge_stage r _

theorem kind_reset_witness :
    ∃ g s2,
      (∃ s, prepare ["types", "A", "pointer", "to", "a", "datum", "of", "type", "the", "type",
          "of", "x.", "An", "array", "x", "of", "3", "data", "of", "type", "int."]
          = .ok (g, s) ∧
        resolve g g.fuel (start_state g { s with original_phrase_nb := 0 }) = .ok s2) ∧
      s2.type 1 = BASIC ∧ intrinsic_type g 1 = ARRAY ∧
      (start_state g (reset_types g s2)).type 1 = intrinsic_type g 1 :=
  have aux : ∀ (g : Phrases) (s s2 : State),
      prepare ["types", "A", "pointer", "to", "a", "datum", "of", "type", "the", "type",
        "of", "x.", "An", "array", "x", "of", "3", "data", "of", "type", "int."]
        = .ok (g, s) →
      g.nb_phrases = 2 →
      resolve g g.fuel (start_state g { s with original_phrase_nb := 0 }) = .ok s2 →
      s2.stage s2.original_phrase_nb ≠ ERROR →
      (start_state g (reset_types g s2)).type 1 = intrinsic_type g 1 :=
    fun g s s2 hp hn h2 hne =>
      ((kind_reset _ g s _ hp
        (by rw [hn]; exact Starts.later 1 _ s2 _ h2 hne (Starts.first 0 _))).2.2.1 1
          (by omega)).1
  ⟨_, _, ⟨_, rfl, rfl⟩, by decide, by decide, aux _ _ _ rfl (by decide) rfl (by decide)⟩


/-! ## The order of the words of a basic type -/

/-- Two iterations of the loop of `read_basic_phrase`, one after the other. -/
def add_two (a x y : Nat) : Option Nat := (add_word a x).bind fun a1 => add_word a1 y

/-- The test of `add_two_comm` for one value of `basic_phrase_type`. -/
def comm_check (a : Nat) : Bool :=
  word_types.all fun x => word_types.all fun y => add_two a x y == add_two a y x

set_option maxRecDepth 1000000 in
set_option maxHeartbeats 4000000 in
theorem comm_check_all : ∀ a < 512, comm_check a = true := by
  decide

theorem add_two_comm (a : Nat) (ha : a < 512) (x y : Nat) (hx : x ∈ word_types)
    (hy : y ∈ word_types) : add_two a x y = add_two a y x := by
  have h := comm_check_all a ha
  simp only [comm_check, List.all_eq_true, beq_iff_eq] at h
  exact h x hx y hy

theorem read_run_keyword (w : String) (ws : List String) (a : Nat)
    (hw : basic_word_type w ≠ 0) :
    read_run (w :: ws) a = (add_word a (basic_word_type w)).bind (read_run ws) := by
  rw [read_run, if_neg (fun h => hw h.1)]

theorem read_run_two (x y : String) (l : List String) (a : Nat)
    (hx : basic_word_type x ≠ 0) (hy : basic_word_type y ≠ 0) :
    read_run (x :: y :: l) a
      = (add_two a (basic_word_type x) (basic_word_type y)).bind (read_run l) := by
  rw [read_run_keyword x _ a hx]
  unfold add_two
  cases add_word a (basic_word_type x) with
  | none => rfl
  | some a1 => exact read_run_keyword y l a1 hy

/-- On words that are all basic-type keywords, the loop of `read_basic_phrase`
gives the same result in every order. -/
theorem read_run_perm (ws ws' : List String) (hperm : ws.Perm ws') :
    (∀ w ∈ ws, basic_word_type w ≠ 0) → ∀ a, a < 512 → read_run ws a = read_run ws' a := by
  induction hperm with
  | nil => intro _ a _; rfl
  | cons w _ ih =>
    intro hk a ha
    have hw := hk w (List.mem_cons_self _ _)
    rw [read_run_keyword w _ a hw, read_run_keyword w _ a hw]
    cases h1 : add_word a (basic_word_type w) with
    | none => rfl
    | some a1 =>
      exact ih (fun v hv => hk v (List.mem_cons_of_mem _ hv)) a1
        (add_word_some a _ a1 ha (basic_word_type_mem w) h1).lt
  | swap x y l =>
    intro hk a ha
    have hx := hk x (List.mem_cons_of_mem _ (List.mem_cons_self _ _))
    have hy := hk y (List.mem_cons_self _ _)
    rw [read_run_two y x l a hy hx, read_run_two x y l a hx hy,
      add_two_comm a ha _ _ (basic_word_type_mem y) (basic_word_type_mem x)]
  | trans h1 _ ih1 ih2 =>
    intro hk a ha
    rw [ih1 hk a ha]
    exact ih2 (fun w hw => hk w (h1.mem_iff.mpr hw)) a ha

theorem keyword_type (w : String) (h : w ∈ keywords) : basic_word_type w ≠ 0 := by
  rcases basic_word_type_spec w with ⟨_, h1⟩ | ⟨h1, _⟩
  · exact h1
  · exact absurd h h1

/-- C33. Keyword order independence: when the words that `read_basic_phrase`
goes through in two calls are all basic-type keywords and the words of one call
are a permutation of the words of the other, both calls return the same value
(the same canonical bitmask, or `0`, the failure, for both), so that
`make_basic_output` gives the same text for both. -/
theorem keyword_order (basic_start basic_start' : Nat) (basic_end basic_end' : Int)
    (argv argv' : List String)
    (hkey : ∀ w ∈ basic_words basic_start basic_end argv, w ∈ keywords)
    (hperm : (basic_words basic_start basic_end argv).Perm
      (basic_words basic_start' basic_end' argv')) :
    read_basic_phrase basic_start basic_end argv
        = read_basic_phrase basic_start' basic_end' argv' ∧
      make_basic_output (read_basic_phrase basic_start basic_end argv)
        = make_basic_output (read_basic_phrase basic_start' basic_end' argv') := by
  have h : read_basic_phrase basic_start basic_end argv
      = read_basic_phrase basic_start' basic_end' argv' := by
    rw [read_basic_phrase_run, read_basic_phrase_run]
    unfold resolve_run
    rw [read_run_perm _ _ hperm (fun w hw => keyword_type w (hkey w hw)) 0 (by decide)]
  exact ⟨h, by rw [h]⟩

/-- The example of C33: 'unsigned long int long' and 'long long unsigned int'
give the same value, and both render as `unsigned long long`. -/
theorem keyword_order_witness :
    (∀ w ∈ basic_words 0 3 ["unsigned", "long", "int", "long"], w ∈ keywords) ∧
    (basic_words 0 3 ["unsigned", "long", "int", "long"]).Perm
      (basic_words 0 3 ["long", "long", "unsigned", "int"]) ∧
    read_basic_phrase 0 3 ["unsigned", "long", "int", "long"]
      = read_basic_phrase 0 3 ["long", "long", "unsigned", "int"] ∧
    make_basic_output (read_basic_phrase 0 3 ["long", "long", "unsigned", "int"])
      = .ok "unsigned long long" :=
  ⟨by decide, by decide,
   (keyword_order 0 0 3 3 ["unsigned", "long", "int", "long"]
      ["long", "long", "unsigned", "int"] (by decide) (by decide)).1, by decide⟩

/-! ## The loop check on phrase sets without a loop -/

theorem find_endpoints_chain : ∀ (k w : Nat) (g : Phrases) (s : State),
    Post (find_endpoints k w (g, s)) fun r => r.1.chain = g.chain := by
  intro k
  induction k with
  | zero =>
    intro w g s
    rw [find_endpoints, post_pure]
  | succ k ih =>
    intro w g s
    rw [find_endpoints_step, post_bind]
    refine post_intro fun b => ?_
    split
    · refine post_mono (ih _ _ _) ?_
      intro r hr
      rw [hr]
      split <;> rfl
    · exact ih _ _ _

theorem segment_chain (argv : List String) :
    Post (segment argv) fun r => ∀ q, r.1.chain q = 0 := by
  unfold segment
  simp only [post_bind, post_ite, post_throw]
  refine post_intro fun m => ⟨fun _ => trivial, fun _ => ?_⟩
  refine post_intro fun b => ⟨fun _ => trivial, fun _ => ?_⟩
  refine post_mono (find_endpoints_chain _ _ _ _) ?_
  intro r hr q
  rw [hr]
  rfl

theorem first_pass_phrase_chain (g : Phrases) (s : State) :
    Post (first_pass_phrase g s) fun r => r.1.chain = g.chain := by
  unfold first_pass_phrase
  simp only [post_ite, post_pure, post_ok, post_bind, post_map, post_throw]
  repeat' first | apply And.intro | intro _ | apply post_of_forall
  all_goals first
    | trivial
    | rfl
    | (intros; rfl)
    | (split <;> rfl)

theorem first_pass_chain : ∀ (k : Nat) (g : Phrases) (s : State),
    Post (first_pass k (g, s)) fun r => r.1.chain = g.chain := by
  intro k
  induction k with
  | zero =>
    intro g s
    rw [first_pass, post_pure]
  | succ k ih =>
    intro g s
    rw [first_pass_step, post_bind]
    refine post_mono (first_pass_phrase_chain g s) ?_
    intro r hr
    refine post_mono (ih _ _) ?_
    intro r2 hr2
    rw [hr2, hr]

/-- The array `chain` is all zero when the reference pass is over. -/
theorem pass_refs_chain (argv : List String) :
    Post (pass_refs argv) fun r => ∀ q, r.1.chain q = 0 := by
  unfold pass_refs pass_one
  rw [post_bind, post_bind]
  refine post_mono (segment_chain argv) ?_
  intro r0 h0
  refine post_mono (first_pass_chain _ _ _) ?_
  intro r1 h1
  rcases reference_pass_spec r1.1.nb_phrases r1.1 { r1.2 with phrase_nb := 0 }
    with ⟨he, _⟩ | ⟨cont, he, _⟩
  · rw [he, post_error]; trivial
  · rw [he, post_ok]
    intro q
    show r1.1.chain q = 0
    rw [h1]
    exact h0 q

theorem walk_succ (g : Phrases) (k : Nat) (x : Int) :
    walk g (k + 1) x = walk g k (next_phrase g x) := rfl

theorem walk_valid (g : Phrases) (hv : Valid g) : ∀ (k : Nat) (x : Int),
    (x = NO_DATA ∨ ∃ q : Nat, q < g.nb_phrases ∧ x = (q : Int)) →
    walk g k x = NO_DATA ∨ ∃ q : Nat, q < g.nb_phrases ∧ walk g k x = (q : Int) := by
  intro k
  induction k with
  | zero => intro x hx; exact hx
  | succ k ih =>
    intro x hx
    rw [walk_succ]
    apply ih
    unfold next_phrase
    split
    · left; rfl
    · rcases hx with hx | ⟨q, hq, hx⟩
      · rename_i h; exact absurd hx h
      · rw [hx]
        simpa using hv q hq

/-- A walk that ends does not stop at a marked phrase, when no phrase on it is
marked at first. -/
theorem follow_chain_passes (g : Phrases) (hv : Valid g) :
    ∀ (fuel : Nat) (x : Int) (chain : Nat → Nat),
      (x = NO_DATA ∨ ∃ q : Nat, q < g.nb_phrases ∧ x = (q : Int)) →
      (∃ d, Ends g x d) →
      (∀ j, walk g j x ≠ NO_DATA → chain (walk g j x).toNat = 0) →
      follow_chain g fuel x chain ≠ .error Halt.incorrect_input := by
  intro fuel
  induction fuel with
  | zero =>
    intro x chain _ _ _
    simp only [follow_chain]
    split
    · intro h; cases h
    · intro h; cases h
  | succ k ih =>
    intro x chain hx hends h0
    rw [follow_chain_step]
    by_cases h1 : x = NO_DATA
    · rw [if_pos h1]; intro h; cases h
    · rw [if_neg h1]
      have hz : chain x.toNat = 0 := h0 0 h1
      rw [if_neg (by simpa using hz)]
      rcases hx with hx | ⟨q, hq, hx⟩
      · exact absurd hx h1
      · have hq' : x.toNat = q := by rw [hx]; simp
        have hnext : next_phrase g x = g.continuation q := by
          unfold next_phrase
          rw [if_neg h1, hq']
        rw [hq']
        obtain ⟨d, hd⟩ := hends
        apply ih
        · exact hv q hq
        · cases d with
          | zero => exact absurd hd h1
          | succ d =>
            refine ⟨d, ?_⟩
            unfold Ends at hd ⊢
            rw [walk_succ, hnext] at hd
            exact hd
        · intro j hj
          have hw : walk g (j + 1) x = walk g j (g.continuation q) := by
            rw [walk_succ, hnext]
          have hne : (walk g j (g.continuation q)).toNat ≠ q := by
            intro heq
            rcases walk_valid g hv j _ (hv q hq) with hn | ⟨q2, _, hq2⟩
            · exact hj hn
            · rw [hq2] at heq
              have hq3 : q2 = q := by simpa using heq
              rw [hx] at hd hw
              exact not_ends_of_cycle g (j + 1) (by omega) q (by rw [hw, hq2, hq3]) d hd
          rw [upd_other _ _ _ _ hne]
          have := h0 (j + 1) (by rw [hw]; exact hj)
          rw [hw] at this
          exact this

/-- A walk marks phrase indices only. -/
theorem follow_chain_marks (g : Phrases) (hv : Valid g) :
    ∀ (fuel : Nat) (x : Int) (chain c : Nat → Nat),
      (x = NO_DATA ∨ ∃ q : Nat, q < g.nb_phrases ∧ x = (q : Int)) →
      follow_chain g fuel x chain = .ok c → ∀ q, g.nb_phrases ≤ q → c q = chain q := by
  intro fuel
  induction fuel with
  | zero =>
    intro x chain c _ h q _
    simp only [follow_chain] at h
    split at h
    · cases h; rfl
    · cases h
  | succ k ih =>
    intro x chain c hx h q hq
    rw [follow_chain_step] at h
    split at h
    · cases h; rfl
    · rename_i h1
      split at h
      · cases h
      · rcases hx with hx | ⟨p, hp, hx⟩
        · exact absurd hx h1
        · have hp' : x.toNat = p := by rw [hx]; simp
          rw [hp'] at h
          rw [ih _ _ _ (hv p hp) h q hq, upd_other _ _ _ _ (by omega)]

/-- The loop check on a phrase set in which every walk ends: when `chain` is
all zero at first, the check goes through its `k` starting phrases and leaves
every global but the loop counter as it was, `chain` all zero again. -/
theorem check_loops_passes : ∀ (k : Nat) (g : Phrases) (s : State), Valid g →
    (∀ q, g.chain q = 0) → s.phrase_nb + k ≤ g.nb_phrases →
    (∀ p, p < g.nb_phrases → ∃ d, Ends g (p : Int) d) →
    check_loops k (g, s) = .ok (g, { s with phrase_nb := s.phrase_nb + k }) := by
  intro k
  induction k with
  | zero => intro g s _ _ _ _; rfl
  | succ k ih =>
    intro g s hv h0 hle hends
    have hp : s.phrase_nb < g.nb_phrases := by omega
    rw [check_loops_step]
    obtain ⟨d, hd⟩ := hends s.phrase_nb hp
    have hnd : ((s.phrase_nb : Nat) : Int) ≠ NO_DATA := by simp only [NO_DATA]; omega
    have hnext : next_phrase g (s.phrase_nb : Int) = g.continuation s.phrase_nb := by
      unfold next_phrase
      rw [if_neg hnd]
      simp
    have hpass := follow_chain_passes g hv (g.nb_phrases + 1) (g.continuation s.phrase_nb)
      (upd g.chain s.phrase_nb 1) (hv s.phrase_nb hp)
      (by
        cases d with
        | zero => exact absurd hd hnd
        | succ d =>
          refine ⟨d, ?_⟩
          unfold Ends at hd ⊢
          rw [walk_succ, hnext] at hd
          exact hd)
      (by
        intro j hj
        have hw : walk g (j + 1) (s.phrase_nb : Int) = walk g j (g.continuation s.phrase_nb) := by
          rw [walk_succ, hnext]
        have hne : (walk g j (g.continuation s.phrase_nb)).toNat ≠ s.phrase_nb := by
          intro heq
          rcases walk_valid g hv j _ (hv s.phrase_nb hp) with hn | ⟨q2, _, hq2⟩
          · exact hj hn
          · rw [hq2] at heq
            have hq3 : q2 = s.phrase_nb := by simpa using heq
            apply not_ends_of_cycle g (j + 1) (by omega) s.phrase_nb _ d hd
            rw [hw, hq2, hq3]
        rw [upd_other _ _ _ _ hne]
        exact h0 _)
    rcases follow_chain_total g hv (g.nb_phrases + 1) (g.continuation s.phrase_nb)
        (upd g.chain s.phrase_nb 1) (hv s.phrase_nb hp)
        (Nat.lt_succ_of_le (unmarked_le g _)) with ⟨c, hc⟩ | he
    · rw [hc, bind_ok]
      have hmarks := follow_chain_marks g hv _ _ _ _ (hv s.phrase_nb hp) hc
      have hreset : (fun ref_phrase : Nat =>
          if (ref_phrase : Int) ≤ g.max_phrase_index then 0 else c ref_phrase) = g.chain := by
        funext q
        rw [h0 q]
        split
        · rfl
        · rename_i hq
          have hq2 : g.nb_phrases ≤ q := by
            unfold Phrases.nb_phrases
            omega
          rw [hmarks q hq2, upd_other _ _ _ _ (by omega), h0 q]
      rw [hreset]
      have hg : ({ g with chain := g.chain } : Phrases) = g := rfl
      rw [hg, ih g { s with phrase_nb := s.phrase_nb + 1 } hv h0 (by simp; omega) hends]
      simp [Nat.add_assoc, Nat.add_comm 1 k]
    · exact absurd he hpass

/-- C35. The cycle check has no false positives: when the reference pass has
come back with the globals `g`, `s` and from every phrase the continuation
edges lead to a phrase without continuation, the array `chain` is all zero
when the check starts, the check goes through any number `k` of starting
phrases without stopping and leaves the globals as they were (so that `chain`
is all zero at the start of the walk of every starting phrase), and the run
goes on to the second pass. -/
theorem cycle_check_passes (argv : List String) (g : Phrases) (s : State)
    (h : pass_refs argv = .ok (g, s))
    (hends : ∀ p, p < g.nb_phrases →
      ∃ d q, q < g.nb_phrases ∧ walk g d (p : Int) = (q : Int) ∧ g.continuation q = NO_DATA) :
    (∀ q, g.chain q = 0) ∧
    (∀ k, k ≤ g.nb_phrases →
      check_loops k (g, { s with phrase_nb := 0 }) = .ok (g, { s with phrase_nb := k })) ∧
    prepare argv = .ok (g, { s with phrase_nb := g.nb_phrases }) := by
  have hrefs : PassRefs argv g :=
    post_elim (Q := fun r => PassRefs argv r.1) (pass_refs_spec argv) h
  have h0 : ∀ q, g.chain q = 0 :=
    post_elim (Q := fun r => ∀ q, r.1.chain q = 0) (pass_refs_chain argv) h
  have he : ∀ p, p < g.nb_phrases → ∃ d, Ends g (p : Int) d := by
    intro p hp
    obtain ⟨d, q, _, hw, hc⟩ := hends p hp
    refine ⟨d + 1, ?_⟩
    unfold Ends
    rw [walk_add, hw]
    show walk g 0 (next_phrase g (q : Int)) = NO_DATA
    unfold next_phrase
    rw [if_neg (by simp only [NO_DATA]; omega)]
    simpa using hc
  have hall : ∀ k, k ≤ g.nb_phrases →
      check_loops k (g, { s with phrase_nb := 0 }) = .ok (g, { s with phrase_nb := k }) := by
    intro k hk
    rw [check_loops_passes k g { s with phrase_nb := 0 } hrefs.2.2.2 h0 (by simpa using hk) he]
    simp
  refine ⟨h0, hall, ?_⟩
  have hprep : prepare argv = check_loops g.nb_phrases (g, { s with phrase_nb := 0 }) := by
    simp [prepare, h]
  rw [hprep]
  exact hall _ (le_refl _)

/-- Witness of C35: in `A pointer to a datum of type the type of x. An int x.`
phrase 0 leads to phrase 1, which has no continuation, and the run goes
through the loop check. -/
theorem cycle_check_passes_witness :
    ∃ g s, pass_refs ["types", "A", "pointer", "to", "a", "datum", "of", "type", "the",
        "type", "of", "x.", "An", "int", "x."] = .ok (g, s) ∧ g.nb_phrases = 2 ∧
      g.continuation 0 = 1 ∧ g.continuation 1 = NO_DATA ∧
      prepare ["types", "A", "pointer", "to", "a", "datum", "of", "type", "the",
        "type", "of", "x.", "An", "int", "x."] = .ok (g, { s with phrase_nb := g.nb_phrases }) := by
  have aux : ∀ argv g s, pass_refs argv = .ok (g, s) → g.nb_phrases = 2 →
      g.continuation 0 = 1 → g.continuation 1 = NO_DATA →
      prepare argv = .ok (g, { s with phrase_nb := g.nb_phrases }) := by
    intro argv g s h hn h1 h2
    refine (cycle_check_passes argv g s h ?_).2.2
    intro p hp
    rw [hn] at hp
    refine ⟨1 - p, 1, by omega, ?_, h2⟩
    interval_cases p
    · show walk g 0 (next_phrase g ((0 : Nat) : Int)) = _
      unfold next_phrase
      rw [if_neg (by decide)]
      exact h1
    · rfl
  exact ⟨_, _, rfl, by decide, by decide, by decide, aux _ _ _ rfl (by decide) (by decide) (by decide)⟩

/-! ## Inputs of one complex phrase -/

/-- The word that follows the kind word (and the name, if any) of a complex
phrase. -/
def link (ty : Nat) : String :=
  if ty = ARRAY then "of" else if ty = POINTER then "to" else "returning"

theorem getD_last (pre : List String) (last : String) :
    (pre ++ [last]).getD pre.length "" = last := by
  simp [List.getD_eq_getElem?_getD]

/-- The body of the first pass on a complex phrase whose last word is no
permitted identifier. -/
theorem first_pass_phrase_complex (g : Phrases) (s : State) (nm : Option String)
    (hlen : g.phrase_start s.phrase_nb + 3 ≤ g.phrase_end s.phrase_nb)
    (hart : check_preposition (g.word (g.phrase_start s.phrase_nb))
      (g.word (g.phrase_start s.phrase_nb + 1)) true = true)
    (hkind : first_phrase_type (g.word (g.phrase_start s.phrase_nb + 1)) ≠ BASIC)
    (hname : (nm = none ∧ g.word (g.phrase_start s.phrase_nb + 2)
        = link (first_phrase_type (g.word (g.phrase_start s.phrase_nb + 1)))) ∨
      (nm = some (g.word (g.phrase_start s.phrase_nb + 2)) ∧
        g.word (g.phrase_start s.phrase_nb + 2)
          ≠ link (first_phrase_type (g.word (g.phrase_start s.phrase_nb + 1))) ∧
        permitted_variable_name (g.word (g.phrase_start s.phrase_nb + 2)) = true))
    (hlast : permitted_variable_name (g.word (g.phrase_end s.phrase_nb)) = false) :
    ∃ s', first_pass_phrase g s
        = .ok ({ g with continuation := upd g.continuation s.phrase_nb NO_DATA }, s') ∧
      s'.phrase_nb = s.phrase_nb ∧
      s'.var_name s.phrase_nb = (if nm = none then s.var_name s.phrase_nb else nm) ∧
      s'.stage s.phrase_nb = START ∧
      s'.type s.phrase_nb = first_phrase_type (g.word (g.phrase_start s.phrase_nb + 1)) ∧
      s'.output_start s.phrase_nb = 99 ∧ s'.output_end s.phrase_nb = 100 := by
  unfold first_pass_phrase
  have hb1 : ¬ ((g.phrase_end s.phrase_nb : Int) - g.phrase_start s.phrase_nb
      < (MIN_BASIC : Int) - 1) := by
    simp only [MIN_BASIC]; omega
  have hb2 : ¬ ((g.phrase_end s.phrase_nb : Int) - g.phrase_start s.phrase_nb
      < (MIN_COMPLEX : Int) - 1) := by
    simp only [MIN_COMPLEX]; omega
  have hw : ∀ i, ({ g with continuation := upd g.continuation s.phrase_nb NO_DATA } : Phrases).word i
      = g.word i := fun _ => rfl
  simp only [hw, hb1, hb2, if_false, Nat.add_sub_cancel, hart, Bool.not_true, Bool.false_eq_true,
    upd_same, hkind, hlast, pure_eq_ok]
  rcases hname with ⟨e1, e2⟩ | ⟨e1, e2, e3⟩
  · have hno : ¬ ((first_phrase_type (g.word (g.phrase_start s.phrase_nb + 1)) = ARRAY ∧
          g.word (g.phrase_start s.phrase_nb + 1 + 1) ≠ "of") ∨
        (first_phrase_type (g.word (g.phrase_start s.phrase_nb + 1)) = POINTER ∧
          g.word (g.phrase_start s.phrase_nb + 1 + 1) ≠ "to") ∨
        (first_phrase_type (g.word (g.phrase_start s.phrase_nb + 1)) = FUNCTION ∧
          g.word (g.phrase_start s.phrase_nb + 1 + 1) ≠ "returning")) := by
      rw [e2]
      rcases first_phrase_type_cases (g.word (g.phrase_start s.phrase_nb + 1)) with t | t | t | t
      · exact absurd t hkind
      all_goals (rw [t]; decide)
    rw [if_neg hno]
    refine ⟨_, rfl, rfl, ?_, ?_, ?_, ?_, ?_⟩
    · rw [if_pos e1]
    all_goals first | rfl | (simp only [upd_same]; done) | (simp only [upd_same]; rfl)
  · have hyes : ((first_phrase_type (g.word (g.phrase_start s.phrase_nb + 1)) = ARRAY ∧
          g.word (g.phrase_start s.phrase_nb + 1 + 1) ≠ "of") ∨
        (first_phrase_type (g.word (g.phrase_start s.phrase_nb + 1)) = POINTER ∧
          g.word (g.phrase_start s.phrase_nb + 1 + 1) ≠ "to") ∨
        (first_phrase_type (g.word (g.phrase_start s.phrase_nb + 1)) = FUNCTION ∧
          g.word (g.phrase_start s.phrase_nb + 1 + 1) ≠ "returning")) := by
      rcases first_phrase_type_cases (g.word (g.phrase_start s.phrase_nb + 1)) with t | t | t | t
      · exact absurd t hkind
      · rw [t] at e2; exact Or.inl ⟨t, e2⟩
      · rw [t] at e2; exact Or.inr (Or.inr ⟨t, e2⟩)
      · rw [t] at e2; exact Or.inr (Or.inl ⟨t, e2⟩)
    rw [if_pos hyes]
    have e3' : permitted_variable_name (g.word (g.phrase_start s.phrase_nb + 1 + 1)) = true := e3
    simp only [e3', Bool.not_true, Bool.false_eq_true, if_false]
    refine ⟨_, rfl, rfl, ?_, ?_, ?_, ?_, ?_⟩
    · rw [e1]; simp only [upd_same]; rfl
    all_goals first | rfl | (simp only [upd_same]; done) | (simp only [upd_same]; rfl)

/-- The run up to the second pass on an input of one complex phrase whose last
word is no permitted identifier: one phrase, without reference or continuation,
with the declared name (if the third word is one) stored, at stage `START`. -/
theorem prepare_single (prog w0 w1 w2 : String) (rest : List String) (lastdot : String)
    (nm : Option String)
    (hws : ∀ w ∈ w0 :: w1 :: w2 :: rest, ends_with_full_stop w = .ok false)
    (hl : ends_with_full_stop lastdot = .ok true)
    (hart : check_preposition w0 w1 true = true)
    (hkind : first_phrase_type w1 ≠ BASIC)
    (hname : (nm = none ∧ w2 = link (first_phrase_type w1)) ∨
      (nm = some w2 ∧ w2 ≠ link (first_phrase_type w1) ∧ permitted_variable_name w2 = true))
    (hlast : permitted_variable_name ⟨lastdot.data.dropLast⟩ = false) :
    ∃ g s, prepare (prog :: (w0 :: w1 :: w2 :: rest) ++ [lastdot]) = .ok (g, s) ∧
      g.argv = prog :: (w0 :: w1 :: w2 :: rest) ++ [⟨lastdot.data.dropLast⟩] ∧
      g.max_phrase_index = 0 ∧ g.phrase_end 0 = rest.length + 4 ∧ g.phrase_start 0 = 1 ∧
      g.continuation 0 = NO_DATA ∧
      s.var_name 0 = nm ∧ s.stage 0 = START ∧ s.type 0 = first_phrase_type w1 ∧
      s.output_start 0 = 99 ∧ s.output_end 0 = 100 := by
  have hseg := segment_single prog (w0 :: w1 :: w2 :: rest) lastdot hws hl
  unfold prepare pass_refs pass_one
  rw [hseg, bind_ok]
  have hlw : (prog :: (w0 :: w1 :: w2 :: rest) ++ [(⟨lastdot.data.dropLast⟩ : String)]).getD
      (rest.length + 4) "" = ⟨lastdot.data.dropLast⟩ := by
    simp only [List.cons_append, List.getD_cons_succ]
    exact getD_last rest _
  obtain ⟨s1, h1, f1, f2, f3, f4, f5, f6⟩ := first_pass_phrase_complex
    { argv := prog :: (w0 :: w1 :: w2 :: rest) ++ [⟨lastdot.data.dropLast⟩],
      max_phrase_index := 0,
      phrase_end := upd (fun _ => 0) 0 ((w0 :: w1 :: w2 :: rest).length + 1),
      phrase_start := upd (fun _ => 0) 0 1,
      reference := fun _ => none, continuation := fun _ => 0, chain := fun _ => 0 }
    { (resize_arrays (prog :: (w0 :: w1 :: w2 :: rest) ++ [lastdot]) 0).2 with phrase_nb := 0 }
    nm
    (by simp only [upd_same, List.length_cons]; omega)
    (by simpa [Phrases.word, upd_same] using hart)
    (by simpa [Phrases.word, upd_same] using hkind)
    (by simpa [Phrases.word, upd_same] using hname)
    (by
      simp only [upd_same, List.length_cons, Phrases.word]
      rw [hlw]
      exact hlast)
  simp only [Phrases.nb_phrases] at h1 ⊢
  simp only [first_pass, h1, bind_ok, pure_eq_ok, Int.toNat_ofNat, zero_add, Int.toNat_one]
  simp [reference_pass, match_references, check_loops, follow_chain, upd, NO_DATA]
  simp only [upd_same] at f2 f3 f4 f5 f6
  refine ⟨_, _, ⟨rfl, rfl⟩, rfl, rfl, ?_, ?_, ?_, ?_, f3, f4, f5, f6⟩
  · simp [upd]
  · simp [upd]
  · simp [upd]
  · show s1.var_name 0 = nm
    rw [f2]; simp [resize_arrays]
    rcases hname with ⟨e, _⟩ | ⟨e, _⟩ <;> simp [e]

theorem fuel_single (g : Phrases) (hmax : g.max_phrase_index = 0) : ∃ k, g.fuel = k + 3 := by
  refine ⟨g.fuel - 3, ?_⟩
  have hnb : g.nb_phrases = 1 := by simp [Phrases.nb_phrases, hmax]
  have : g.fuel = 4 * (g.argv.length + 1) := by simp [Phrases.fuel, hnb]
  omega

/-- The print loop after the second pass on an input of one phrase: when the
`while` loop ends at stage `FINISHED`, the run prints the buffer. -/
theorem main_single (argv : List String) (g : Phrases) (s : State) (text : List Char)
    (hp : prepare argv = .ok (g, s)) (hmax : g.max_phrase_index = 0)
    (hres : Returns (resolve g g.fuel
        { s with original_phrase_nb := 0, phrase_nb := 0, current := g.phrase_start 0 + 1 })
      fun s' => s'.original_phrase_nb = 0 ∧ s'.stage 0 = FINISHED ∧ (s'.line 0).data = text) :
    main argv = .ok [⟨text⟩] := by
  have hnb : g.nb_phrases = 1 := by simp [Phrases.nb_phrases, hmax]
  have key : Returns (main argv) fun r => r = [⟨text⟩] := by
    unfold main main_state
    rw [returns_map, returns_bind, hp, returns_ok]
    dsimp only
    rw [returns_map, hnb]
    simp only [second_pass]
    rw [returns_bind]
    refine returns_mono hres ?_
    intro s' hA
    obtain ⟨ho, hst, hline⟩ := hA
    have hne : ¬ (s'.stage s'.original_phrase_nb = ERROR) := by
      rw [ho, hst]; decide
    simp only [after_phrase, hne, if_false, pure_eq_ok, returns_ok, hnb]
    simp only [List.range_succ, List.range_zero, List.nil_append, List.map_cons, List.map_nil]
    congr 1
    apply String.ext
    refine Eq.trans (b := (s'.line 0).data) rfl ?_
    rw [hline]
  obtain ⟨r, e, q⟩ := key
  rw [e, q]

/-- The rule `complex_variable` at stage `START` on a phrase without a declared
name moves on by one word. -/
theorem complex_variable_unnamed (g : Phrases) (s : State) (cur ty a e : Nat)
    (text : List Char) (Q : Bool × State → Prop)
    (h : At s cur START ty none a e text) (hend : cur + 1 ≤ g.phrase_end 0)
    (k : ∀ s', At s' (cur + 1) START ty none a e text → Q (true, s')) :
    Returns (complex_variable g s) Q := by
  unfold complex_variable
  refine returns_advance g s _ _ _ (by rw [h.cur, h.nb]; omega) ?_
  have h1 := h.next
  rw [returns_bind]
  have c1 : ¬ (({ s with current := s.current + 1 } : State).stage
      ({ s with current := s.current + 1 } : State).original_phrase_nb = START ∧
      (({ s with current := s.current + 1 } : State).var_name
        ({ s with current := s.current + 1 } : State).phrase_nb).isSome) := by
    rw [h1.nb, h1.name]
    intro c; exact absurd c.2 (by decide)
  rw [if_neg c1, returns_pure]
  have c3 : ¬ (({ s with current := s.current + 1 } : State).stage
      ({ s with current := s.current + 1 } : State).original_phrase_nb = REFER) := by
    rw [h1.orig, h1.stage]; decide
  simp only [Bool.not_true, Bool.false_eq_true, if_false, c3]
  rw [returns_pure]
  exact k _ h1

/-- The array rule from the word `of` on, when the dimension is followed by
`data of type` (`datum of type` for the dimension 1) and a word other than
`the`: the dimension is written in brackets at the back, a space at the front,
and the rule returns `CONTINUE` at that word with the kind `BASIC`. -/
theorem returns_array_data (g : Phrases) {s : State} {cur st ty : Nat}
    {nm : Option String} {a e : Nat} {text : List Char} (h : At s cur st ty nm a e text)
    (Q : Nat × State → Prop) (N d : String) (n : Int)
    (w1 : g.word (cur + 1) = N) (w2 : g.word (cur + 1 + 1) = d)
    (w3 : g.word (cur + 1 + 1 + 1) = "of") (w4 : g.word (cur + 1 + 1 + 1 + 1) = "type")
    (w5 : g.word (cur + 1 + 1 + 1 + 1 + 1) ≠ "the")
    (hN : atoi N = .ok n) (hd : N.data.all Char.isDigit = true)
    (hn : (n = 1 ∧ d = "datum") ∨ (2 ≤ n ∧ d = "data"))
    (hend : cur + 5 ≤ g.phrase_end 0) (ha : 1 ≤ a)
    (he : e + N.data.length + 2 ≤ MAX_OUTPUT)
    (k : ∀ s', At s' (cur + 1 + 1 + 1 + 1 + 1) st BASIC nm (a - 1) (e + 1 + N.data.length + 1)
      (' ' :: (text ++ ['['] ++ N.data ++ [']'])) → Q (CONTINUE, s')) :
    Returns (advance g s ERROR (array_dimension g)) Q := by
  refine returns_advance_at g h _ _ _ (by omega) ?_
  intro s2 g2
  have n0 : ¬ (n = 0) := by omega
  unfold array_dimension
  simp only [g2.cur, w1, hN, bind_ok, n0, if_false, hd, Bool.not_true, Bool.false_eq_true,
    returns_bind]
  refine returns_back g2 "[" _ (by simp only [String.data, List.length]; omega) ?_
  intro s3 g3
  rw [g3.cur, w1]
  refine returns_back g3 N _ (by simp only [String.data, List.length]; omega) ?_
  intro s4 g4
  refine returns_back g4 "]" _ (by simp only [String.data, List.length]; omega) ?_
  intro s5 g5
  refine returns_advance_at g g5 _ _ _ (by omega) ?_
  intro s6 g6
  have c1 : (n = 1 ∧ d = "datum") ∨ (n > 1 ∧ d = "data") := by
    rcases hn with ⟨h1, h2⟩ | ⟨h1, h2⟩
    · exact Or.inl ⟨h1, h2⟩
    · exact Or.inr ⟨by omega, h2⟩
  unfold array_kind
  simp only [g6.cur, w2, c1, if_true]
  refine returns_data_continuation g g6 _ w3 w4 w5 (by omega) ha ?_
  intro s7 g7
  exact k s7 g7

/-- The basic rule at stage `CONTINUE`: the words from `current` to the end of
the phrase are resolved and the text of the type is written at the front. -/
theorem returns_basic_run (g : Phrases) {s : State} {cur : Nat}
    {nm : Option String} {a e : Nat} {text : List Char}
    (h : At s cur CONTINUE BASIC nm a e text) (b : Nat) (t : String)
    (hb : read_basic_phrase cur (g.phrase_end 0 : Int) g.argv = b) (hb0 : b ≠ 0)
    (ht : make_basic_output b = .ok t) (ha : t.data.length ≤ a) :
    Returns (step g s) fun s' =>
      At s' cur FINISHED BASIC nm (a - t.data.length) e (t.data ++ text) := by
  have t1 : s.type s.phrase_nb = BASIC := by rw [h.nb, h.type]
  rw [step_eq_basic g s t1, returns_map]
  have e1 : process_basic g s = finish_basic s b := by
    unfold process_basic
    have st : s.stage s.original_phrase_nb = CONTINUE := by rw [h.orig, h.stage]
    have n1 : ¬ (CONTINUE = START) := by decide
    have n2 : ¬ (CONTINUE = REFER) := by decide
    simp only [st, n1, n2, if_false, if_true, h.cur, h.nb, hb]
  rw [e1]
  unfold finish_basic
  rw [if_neg hb0, ht, bind_ok, returns_map]
  refine returns_front h t _ ha ?_
  intro s1 g1
  exact ⟨g1.cur, g1.nb, g1.orig, by simp [g1.orig, upd], g1.type, g1.name, g1.win, g1.line⟩

/-- The first state of the second pass on an input of one phrase. -/
theorem at_first (g : Phrases) (s : State) (nm : Option String) (st ty : Nat)
    (hstart : g.phrase_start 0 = 1) (hst : s.stage 0 = st)
    (hty : s.type 0 = ty) (hnm : s.var_name 0 = nm) (hos : s.output_start 0 = 99)
    (hoe : s.output_end 0 = 100) :
    At { s with original_phrase_nb := 0, phrase_nb := 0, current := g.phrase_start 0 + 1 }
      2 st ty nm 100 100 [] :=
  at_start _ _ _ _ (by simp [hstart]) rfl rfl hst hty hnm hos hoe

/-! ## C32: an array of data of a basic type -/

theorem keyword_stop : ∀ w ∈ keywords, ends_with_full_stop w = .ok false := by
  decide

theorem keyword_not_permitted : ∀ w ∈ keywords, permitted_variable_name w = false := by
  decide

theorem keyword_not_the : ∀ w ∈ keywords, w ≠ "the" := by
  decide

/-- The word `w` followed by a full stop. -/
def with_stop (w : String) : String := ⟨w.data ++ ['.']⟩

theorem with_stop_ends (w : String) : ends_with_full_stop (with_stop w) = .ok true := by
  unfold ends_with_full_stop last_char with_stop
  simp

theorem with_stop_drop (w : String) : (⟨(with_stop w).data.dropLast⟩ : String) = w := by
  unfold with_stop
  simp

theorem basic_words_suffix (pre K : List String) :
    basic_words pre.length (((pre.length + K.length : Nat) : Int) - 1) (pre ++ K) = K := by
  unfold basic_words
  have hk : (((pre.length + K.length : Nat) : Int) - 1 + 1 - (pre.length : Int)).toNat
      = K.length := by omega
  rw [hk]
  apply List.ext_getElem
  · simp
  · intro i h1 h2
    simp only [List.getElem_map, List.getElem_range, List.getD_eq_getElem?_getD]
    rw [List.getElem?_append_right (by omega)]
    simp [h2]

/-- The first step of the second pass on the array phrases of C32, from the
state in which `complex_variable` leaves the rule at the word `of`. -/
theorem step_array_data (g : Phrases) (s : State) (c : Nat) (nm : Option String)
    (a e : Nat) (text : List Char) (N d : String) (n : Int)
    (hty : s.type s.phrase_nb = ARRAY)
    (hcv : ∀ Q : Bool × State → Prop,
      (∀ s', At s' c START ARRAY nm a e text → Q (true, s')) → Returns (complex_variable g s) Q)
    (w0 : g.word c = "of")
    (w1 : g.word (c + 1) = N) (w2 : g.word (c + 1 + 1) = d)
    (w3 : g.word (c + 1 + 1 + 1) = "of") (w4 : g.word (c + 1 + 1 + 1 + 1) = "type")
    (w5 : g.word (c + 1 + 1 + 1 + 1 + 1) ≠ "the")
    (hN : atoi N = .ok n) (hd : N.data.all Char.isDigit = true)
    (hn : (n = 1 ∧ d = "datum") ∨ (2 ≤ n ∧ d = "data"))
    (hend : c + 5 ≤ g.phrase_end 0) (ha : 1 ≤ a)
    (he : e + N.data.length + 2 ≤ MAX_OUTPUT) :
    Returns (step g s) fun s' =>
      At s' (c + 1 + 1 + 1 + 1 + 1) CONTINUE BASIC nm (a - 1) (e + 1 + N.data.length + 1)
        (' ' :: (text ++ ['['] ++ N.data ++ [']'])) := by
  rw [step_eq_array g s hty, returns_map, process_array_eq, returns_bind]
  apply hcv
  intro s1 g1
  simp only [Bool.not_true, Bool.false_eq_true, if_false, g1.cur, w0, ne_eq, not_true_eq_false]
  refine returns_array_data g g1 _ N d n w1 w2 w3 w4 w5 hN hd hn hend ha he ?_
  intro s7 g7
  exact ⟨g7.cur, g7.nb, g7.orig, by simp [g7.orig, upd], g7.type, g7.name, g7.win, g7.line⟩

/-- The `while` loop of the second pass on the array phrases of C32. -/
theorem resolve_array_data (g : Phrases) (s : State) (c : Nat) (nm : Option String)
    (a e : Nat) (text : List Char) (N d : String) (n : Int) (b : Nat) (t : String)
    (hmax : g.max_phrase_index = 0)
    (h0 : At s 2 START ARRAY nm 100 100 [])
    (hcv : ∀ Q : Bool × State → Prop,
      (∀ s', At s' c START ARRAY nm a e text → Q (true, s')) → Returns (complex_variable g s) Q)
    (w0 : g.word c = "of")
    (w1 : g.word (c + 1) = N) (w2 : g.word (c + 1 + 1) = d)
    (w3 : g.word (c + 1 + 1 + 1) = "of") (w4 : g.word (c + 1 + 1 + 1 + 1) = "type")
    (w5 : g.word (c + 1 + 1 + 1 + 1 + 1) ≠ "the")
    (hN : atoi N = .ok n) (hd : N.data.all Char.isDigit = true)
    (hn : (n = 1 ∧ d = "datum") ∨ (2 ≤ n ∧ d = "data"))
    (hend : c + 5 ≤ g.phrase_end 0)
    (he : e + N.data.length + 2 ≤ MAX_OUTPUT)
    (hb : read_basic_phrase (c + 1 + 1 + 1 + 1 + 1) (g.phrase_end 0 : Int) g.argv = b)
    (hb0 : b ≠ 0) (ht : make_basic_output b = .ok t) (ha : t.data.length + 1 ≤ a) :
    Returns (resolve g g.fuel s) fun s' =>
      s'.original_phrase_nb = 0 ∧ s'.stage 0 = FINISHED ∧
        (s'.line 0).data = t.data ++ ' ' :: (text ++ ['['] ++ N.data ++ [']']) := by
  obtain ⟨k, hk⟩ := fuel_single g hmax
  rw [hk]
  refine returns_resolve_step g _ _ _ (by rw [h0.orig, h0.stage]; decide) ?_
  refine returns_mono (step_array_data g s c nm a e text N d n (by rw [h0.nb, h0.type]) hcv
    w0 w1 w2 w3 w4 w5 hN hd hn hend (by omega) he) ?_
  intro s1 h1
  refine returns_resolve_step g _ _ _ (by rw [h1.orig, h1.stage]; decide) ?_
  refine returns_mono (returns_basic_run g h1 b t hb hb0 ht (by omega)) ?_
  intro s2 h2
  exact returns_resolve_done g _ _ _ (by rw [h2.orig, h2.stage]; exact Or.inl rfl)
    ⟨h2.orig, h2.stage, h2.line⟩

theorem head_keyword (Ks : List String) (k : String) (h : ∀ w ∈ Ks ++ [k], w ∈ keywords) :
    (Ks ++ [k]).getD 0 "" ∈ keywords := by
  cases Ks with
  | nil => exact h k (by simp)
  | cons x xs => exact h x (by simp)

theorem digits_not_empty (N : String) (n : Int) (hN : atoi N = .ok n) (hn : 1 ≤ n) :
    N.data ≠ [] := by
  intro e
  have e0 : N = "" := String.ext e
  have e1 : atoi "" = .ok 0 := by decide
  rw [e0, e1] at hN
  cases hN
  omega

theorem accepted_not_zero (b : Nat) (text : String) (h : make_basic_output b = .ok text) :
    b ≠ 0 := by
  intro e
  rw [e] at h
  have h0 : make_basic_output 0 = .error Halt.undefined := by decide
  rw [h0] at h
  cases h

/-- The family `An array v of N data of type K.` (`datum` for the dimension
1): within the capacity of the buffer the line printed is the text of `K`, a
space, the name and the dimension in brackets. -/
theorem array_named_main (prog v N d : String) (Ks : List String) (k text : String) (n : Int)
    (hK : ∀ w ∈ Ks ++ [k], w ∈ keywords)
    (hacc : make_basic_output (resolve_words (Ks ++ [k])) = .ok text)
    (hd : N.data.all Char.isDigit = true) (hN : atoi N = .ok n)
    (hn : (n = 1 ∧ d = "datum") ∨ (2 ≤ n ∧ d = "data"))
    (hNl : N.data.length ≤ 98)
    (hv : permitted_variable_name v = true)
    (hvl : v.data.length + 1 + text.data.length ≤ 100) :
    main (prog :: ["An", "array", v, "of", N, d, "of", "type"] ++ Ks ++ [with_stop k])
      = .ok [⟨text.data ++ ' ' :: (v.data ++ '[' :: (N.data ++ [']']))⟩] := by
  have hn1 : 1 ≤ n := by rcases hn with ⟨h, _⟩ | ⟨h, _⟩ <;> omega
  have hne := digits_not_empty N n hN hn1
  have hvof : v ≠ "of" := by
    intro e; rw [e] at hv; revert hv; decide
  have hkk : k ∈ keywords := hK k (by simp)
  have hM := max_output_eq
  have hin : prog :: ["An", "array", v, "of", N, d, "of", "type"] ++ Ks ++ [with_stop k]
      = prog :: ("An" :: "array" :: v :: ("of" :: N :: d :: "of" :: "type" :: Ks))
          ++ [with_stop k] := rfl
  rw [hin]
  obtain ⟨g, s, hp, hg, hmax, hend, hstart, _, hname, hstage, htype, hos, hoe⟩ :=
    prepare_single prog "An" "array" v ("of" :: N :: d :: "of" :: "type" :: Ks) (with_stop k)
      (some v)
      (by
        intro w hw
        simp only [List.mem_cons] at hw
        rcases hw with h | h | h | h | h | h | h | h | h
        · rw [h]; decide
        · rw [h]; decide
        · rw [h]; exact permitted_stop v hv
        · rw [h]; decide
        · rw [h]; exact digits_stop N hne hd
        · rw [h]; rcases hn with ⟨_, e⟩ | ⟨_, e⟩ <;> rw [e] <;> decide
        · rw [h]; decide
        · rw [h]; decide
        · exact keyword_stop w (hK w (by simp [h])))
      (with_stop_ends k) (by decide) (by decide)
      (Or.inr ⟨rfl, hvof, hv⟩)
      (by rw [with_stop_drop]; exact keyword_not_permitted k hkk)
  rw [with_stop_drop] at hg
  have hw := word_of_argv g _ hg
  have w3 : g.word 3 = v := by rw [hw]; rfl
  have w4 : g.word 4 = "of" := by rw [hw]; rfl
  have w5 : g.word 5 = N := by rw [hw]; rfl
  have w6 : g.word 6 = d := by rw [hw]; rfl
  have w7 : g.word 7 = "of" := by rw [hw]; rfl
  have w8 : g.word 8 = "type" := by rw [hw]; rfl
  have w9 : g.word 9 = (Ks ++ [k]).getD 0 "" := by rw [hw]; rfl
  have hlen : g.phrase_end 0 = 9 + Ks.length := by
    rw [hend]; simp only [List.length_cons]; omega
  have hb : read_basic_phrase 9 (g.phrase_end 0 : Int) g.argv = resolve_words (Ks ++ [k]) := by
    rw [read_basic_phrase_run, resolve_words_eq, hg, hlen]
    have := basic_words_suffix [prog, "An", "array", v, "of", N, d, "of", "type"] (Ks ++ [k])
    have e1 : (([prog, "An", "array", v, "of", N, d, "of", "type"].length
        + (Ks ++ [k]).length : Nat) : Int) - 1 = ((9 + Ks.length : Nat) : Int) := by
      simp only [List.length_cons, List.length_nil, List.length_append]
      omega
    rw [e1] at this
    have e2 : prog :: ("An" :: "array" :: v :: ("of" :: N :: d :: "of" :: "type" :: Ks)) ++ [k]
        = [prog, "An", "array", v, "of", N, d, "of", "type"] ++ (Ks ++ [k]) := by simp
    rw [e2]
    exact congrArg resolve_run this
  have h0 := at_first g s (some v) START ARRAY hstart hstage htype hname hos hoe
  have hres := resolve_array_data g _ 4 (some v) (100 - v.data.length) 100 (v.data ++ []) N d n
    (resolve_words (Ks ++ [k])) text hmax h0
    (fun Q kq => complex_variable_named g _ 2 ARRAY 100 100 v [] Q h0 (by omega) (by omega) kq)
    w4 w5 w6 w7 w8 (by rw [w9]; exact keyword_not_the _ (head_keyword Ks k hK)) hN hd hn
    (by omega) (by omega) hb (accepted_not_zero _ _ hacc) hacc (by omega)
  refine main_single _ g s _ hp hmax (returns_mono hres ?_)
  intro s' hs
  refine ⟨hs.1, hs.2.1, ?_⟩
  rw [hs.2.2]
  simp

/-- The family `An array of N data of type K.` (`datum` for the dimension 1):
the line printed is the text of `K`, a space and the dimension in brackets. -/
theorem array_unnamed_main (prog N d : String) (Ks : List String) (k text : String) (n : Int)
    (hK : ∀ w ∈ Ks ++ [k], w ∈ keywords)
    (hacc : make_basic_output (resolve_words (Ks ++ [k])) = .ok text)
    (hd : N.data.all Char.isDigit = true) (hN : atoi N = .ok n)
    (hn : (n = 1 ∧ d = "datum") ∨ (2 ≤ n ∧ d = "data"))
    (hNl : N.data.length ≤ 98) :
    main (prog :: ["An", "array", "of", N, d, "of", "type"] ++ Ks ++ [with_stop k])
      = .ok [⟨text.data ++ ' ' :: '[' :: (N.data ++ [']'])⟩] := by
  have hn1 : 1 ≤ n := by rcases hn with ⟨h, _⟩ | ⟨h, _⟩ <;> omega
  have hne := digits_not_empty N n hN hn1
  have hkk : k ∈ keywords := hK k (by simp)
  have hM := max_output_eq
  have htl := text_length _ _ hacc
  have hin : prog :: ["An", "array", "of", N, d, "of", "type"] ++ Ks ++ [with_stop k]
      = prog :: ("An" :: "array" :: "of" :: (N :: d :: "of" :: "type" :: Ks))
          ++ [with_stop k] := rfl
  rw [hin]
  obtain ⟨g, s, hp, hg, hmax, hend, hstart, _, hname, hstage, htype, hos, hoe⟩ :=
    prepare_single prog "An" "array" "of" (N :: d :: "of" :: "type" :: Ks) (with_stop k)
      none
      (by
        intro w hw
        simp only [List.mem_cons] at hw
        rcases hw with h | h | h | h | h | h | h | h
        · rw [h]; decide
        · rw [h]; decide
        · rw [h]; decide
        · rw [h]; exact digits_stop N hne hd
        · rw [h]; rcases hn with ⟨_, e⟩ | ⟨_, e⟩ <;> rw [e] <;> decide
        · rw [h]; decide
        · rw [h]; decide
        · exact keyword_stop w (hK w (by simp [h])))
      (with_stop_ends k) (by decide) (by decide)
      (Or.inl ⟨rfl, by decide⟩)
      (by rw [with_stop_drop]; exact keyword_not_permitted k hkk)
  rw [with_stop_drop] at hg
  have hw := word_of_argv g _ hg
  have w3 : g.word 3 = "of" := by rw [hw]; rfl
  have w4 : g.word 4 = N := by rw [hw]; rfl
  have w5 : g.word 5 = d := by rw [hw]; rfl
  have w6 : g.word 6 = "of" := by rw [hw]; rfl
  have w7 : g.word 7 = "type" := by rw [hw]; rfl
  have w8 : g.word 8 = (Ks ++ [k]).getD 0 "" := by rw [hw]; rfl
  have hlen : g.phrase_end 0 = 8 + Ks.length := by
    rw [hend]; simp only [List.length_cons]; omega
  have hb : read_basic_phrase 8 (g.phrase_end 0 : Int) g.argv = resolve_words (Ks ++ [k]) := by
    rw [read_basic_phrase_run, resolve_words_eq, hg, hlen]
    have := basic_words_suffix [prog, "An", "array", "of", N, d, "of", "type"] (Ks ++ [k])
    have e1 : (([prog, "An", "array", "of", N, d, "of", "type"].length
        + (Ks ++ [k]).length : Nat) : Int) - 1 = ((8 + Ks.length : Nat) : Int) := by
      simp only [List.length_cons, List.length_nil, List.length_append]
      omega
    rw [e1] at this
    have e2 : prog :: ("An" :: "array" :: "of" :: (N :: d :: "of" :: "type" :: Ks)) ++ [k]
        = [prog, "An", "array", "of", N, d, "of", "type"] ++ (Ks ++ [k]) := by simp
    rw [e2]
    exact congrArg resolve_run this
  have h0 := at_first g s none START ARRAY hstart hstage htype hname hos hoe
  have hres := resolve_array_data g _ 3 none 100 100 [] N d n
    (resolve_words (Ks ++ [k])) text hmax h0
    (fun Q kq => complex_variable_unnamed g _ 2 ARRAY 100 100 [] Q h0 (by omega) kq)
    w3 w4 w5 w6 w7 (by rw [w8]; exact keyword_not_the _ (head_keyword Ks k hK)) hN hd hn
    (by omega) (by omega) hb (accepted_not_zero _ _ hacc) hacc (by omega)
  refine main_single _ g s _ hp hmax (returns_mono hres ?_)
  intro s' hs
  refine ⟨hs.1, hs.2.1, ?_⟩
  rw [hs.2.2]
  simp

/-- C32, as stated, fails: with a permitted identifier of 97 letters the front
of the buffer (the name, a space, `int`) needs 101 rows of the 100 before row
100, and the run on `An array v of 2 data of type int.` leaves the buffer. -/
theorem array_of_basic_refuted :
    permitted_variable_name
      "aaaaaaaaaaaaaaaaaaaaaaaaaaaaaaaaaaaaaaaaaaaaaaaaaaaaaaaaaaaaaaaaaaaaaaaaaaaaaaaaaaaaaaaaaaaaaaaaa"
      = true ∧
    atoi "2" = .ok 2 ∧
    make_basic_output (resolve_words ["int"]) = .ok "int" ∧
    main ["types", "An", "array",
      "aaaaaaaaaaaaaaaaaaaaaaaaaaaaaaaaaaaaaaaaaaaaaaaaaaaaaaaaaaaaaaaaaaaaaaaaaaaaaaaaaaaaaaaaaaaaaaaaa",
      "of", "2", "data", "of", "type", "int."]
      = .error Halt.undefined := by
  decide

/-- C32, amended. Array of an inline basic type, end to end: for every run
`Ks ++ [k]` of basic-type keywords that `read_basic_phrase` accepts, with the
text `text` of its type, and every dimension token `N` of at most 98 decimal
digits whose value fits an `int` and is at least 2 (at least 1, with `datum` in
place of `data` for the value 1), the input `An array v of N data of type K.`
prints exactly the line `text ++ " " ++ v ++ "[" ++ N ++ "]"` for every
permitted identifier `v` for which the name, the space and the text fit the 100
rows before row 100, and the unnamed input `An array of N data of type K.`
prints exactly `text ++ " [" ++ N ++ "]"`. -/
theorem array_of_basic (prog N d : String) (Ks : List String) (k text : String) (n : Int)
    (hK : ∀ w ∈ Ks ++ [k], w ∈ keywords)
    (hacc : make_basic_output (resolve_words (Ks ++ [k])) = .ok text)
    (hd : N.data.all Char.isDigit = true) (hN : atoi N = .ok n)
    (hn : (n = 1 ∧ d = "datum") ∨ (2 ≤ n ∧ d = "data"))
    (hNl : N.data.length ≤ 98) :
    (∀ v : String, permitted_variable_name v = true →
      v.data.length + 1 + text.data.length ≤ 100 →
      main (prog :: ["An", "array", v, "of", N, d, "of", "type"] ++ Ks ++ [k ++ "."])
        = .ok [text ++ " " ++ v ++ "[" ++ N ++ "]"]) ∧
    main (prog :: ["An", "array", "of", N, d, "of", "type"] ++ Ks ++ [k ++ "."])
      = .ok [text ++ " [" ++ N ++ "]"] := by
  have hstop : k ++ "." = with_stop k := rfl
  constructor
  · intro v hv hvl
    rw [hstop, array_named_main prog v N d Ks k text n hK hacc hd hN hn hNl hv hvl]
    congr 2
    apply String.ext
    simp [String.data_append]
  · rw [hstop, array_unnamed_main prog N d Ks k text n hK hacc hd hN hn hNl]
    congr 2
    apply String.ext
    simp [String.data_append]

/-- Witness of C32: `An array x of 3 data of type unsigned long.` prints
`unsigned long x[3]`, and `An array of 3 data of type unsigned long.` prints
`unsigned long [3]`. -/
theorem array_of_basic_witness :
    main ["types", "An", "array", "x", "of", "3", "data", "of", "type", "unsigned", "long."]
      = .ok ["unsigned long x[3]"] ∧
    main ["types", "An", "array", "of", "3", "data", "of", "type", "unsigned", "long."]
      = .ok ["unsigned long [3]"] :=
  ⟨(array_of_basic "types" "3" "data" ["unsigned"] "long" "unsigned long" 3 (by decide)
      (by decide) (by decide) (by decide) (by decide) (by decide)).1 "x" (by decide) (by decide),
   (array_of_basic "types" "3" "data" ["unsigned"] "long" "unsigned long" 3 (by decide)
      (by decide) (by decide) (by decide) (by decide) (by decide)).2⟩

/-! ## C34: the words after the end of the grammar -/

/-- The pointer rule on `pointer to void`: it returns `FINISHED` at the word
`void`, wherever the phrase ends. -/
theorem step_pointer_void (g : Phrases) (s : State)
    (h0 : At s 2 START POINTER none 100 100 [])
    (w2 : g.word 2 = "pointer") (w3 : g.word 3 = "to") (w4 : g.word 4 = "void")
    (hend : 4 ≤ g.phrase_end 0) :
    Returns (step g s) fun s' => At s' 4 FINISHED POINTER none 94 100 "void *".data := by
  rw [step_eq_pointer g s (by rw [h0.nb, h0.type]), returns_map]
  unfold process_pointer
  have hl : last_char (g.word s.current) = .ok 'r' := by
    rw [h0.cur, w2]; rfl
  rw [hl, bind_ok, returns_bind]
  refine complex_variable_unnamed g s 2 POINTER 100 100 [] _ h0 (by omega) ?_
  intro s1 g1
  simp only [Bool.not_true, Bool.false_eq_true, if_false, g1.cur, w3, ne_eq, not_true_eq_false]
  refine returns_advance_at g g1 _ _ _ (by omega) ?_
  intro s2 g2
  rw [returns_bind]
  refine returns_front g2 "*" _ (by decide) ?_
  intro s3 g3
  unfold pointer_target
  rw [g3.cur, w4, if_pos rfl, returns_map]
  refine returns_front g3 "void " _ (by decide) ?_
  intro s4 g4
  exact ⟨g4.cur, g4.nb, g4.orig, by simp [g4.orig, upd], g4.type, g4.name, g4.win, g4.line⟩

/-- The function rule on `function returning void`: it returns `FINISHED` at
the word `void`, wherever the phrase ends. -/
theorem step_function_void (g : Phrases) (s : State)
    (h0 : At s 2 START FUNCTION none 100 100 [])
    (w3 : g.word 3 = "returning") (w4 : g.word 4 = "void")
    (hend : 4 ≤ g.phrase_end 0) :
    Returns (step g s) fun s' => At s' 4 FINISHED FUNCTION none 95 102 "void ()".data := by
  have t1 : s.type s.phrase_nb = FUNCTION := by rw [h0.nb, h0.type]
  have e1 : step g s = (process_function g s).map fun r =>
      { r.2 with stage := upd r.2.stage r.2.original_phrase_nb r.1 } := by
    simp [step, t1, FUNCTION, ARRAY]
  rw [e1, returns_map, process_function_eq, returns_bind]
  refine complex_variable_unnamed g s 2 FUNCTION 100 100 [] _ h0 (by omega) ?_
  intro s1 g1
  simp only [Bool.not_true, Bool.false_eq_true, if_false, g1.cur, w3, ne_eq, not_true_eq_false]
  refine returns_advance_at g g1 _ _ _ (by omega) ?_
  intro s2 g2
  rw [returns_bind]
  refine returns_back g2 "()" _ (by decide) ?_
  intro s3 g3
  unfold function_result
  rw [g3.cur, w4, if_pos rfl, returns_map]
  refine returns_front g3 "void " _ (by decide) ?_
  intro s4 g4
  exact ⟨g4.cur, g4.nb, g4.orig, by simp [g4.orig, upd], g4.type, g4.name, g4.win, g4.line⟩

/-- The family `A pointer to void T last.`: the words after `void` are not
read. -/
theorem pointer_void_main (prog : String) (T : List String) (lastdot : String)
    (hT : ∀ w ∈ T, ends_with_full_stop w = .ok false)
    (hl : ends_with_full_stop lastdot = .ok true)
    (hlast : permitted_variable_name ⟨lastdot.data.dropLast⟩ = false) :
    main (prog :: ["A", "pointer", "to", "void"] ++ T ++ [lastdot]) = .ok ["void *"] := by
  have hin : prog :: ["A", "pointer", "to", "void"] ++ T ++ [lastdot]
      = prog :: ("A" :: "pointer" :: "to" :: ("void" :: T)) ++ [lastdot] := rfl
  rw [hin]
  obtain ⟨g, s, hp, hg, hmax, hend, hstart, _, hname, hstage, htype, hos, hoe⟩ :=
    prepare_single prog "A" "pointer" "to" ("void" :: T) lastdot none
      (by
        intro w hw
        simp only [List.mem_cons] at hw
        rcases hw with h | h | h | h | h
        · rw [h]; decide
        · rw [h]; decide
        · rw [h]; decide
        · rw [h]; decide
        · exact hT w h)
      hl (by decide) (by decide) (Or.inl ⟨rfl, by decide⟩) hlast
  have hw := word_of_argv g _ hg
  have w2 : g.word 2 = "pointer" := by rw [hw]; rfl
  have w3 : g.word 3 = "to" := by rw [hw]; rfl
  have w4 : g.word 4 = "void" := by rw [hw]; rfl
  have h0 := at_first g s none START POINTER hstart hstage htype hname hos hoe
  refine main_single _ g s _ hp hmax ?_
  obtain ⟨k, hk⟩ := fuel_single g hmax
  rw [hk]
  refine returns_resolve_step g _ _ _ (by rw [h0.orig, h0.stage]; decide) ?_
  refine returns_mono (step_pointer_void g _ h0 w2 w3 w4 (by rw [hend]; omega)) ?_
  intro s1 h1
  exact returns_resolve_done g _ _ _ (by rw [h1.orig, h1.stage]; exact Or.inl rfl)
    ⟨h1.orig, h1.stage, h1.line⟩

/-- The family `A function returning void T last.`: the words after `void` are
not read. -/
theorem function_void_main (prog : String) (T : List String) (lastdot : String)
    (hT : ∀ w ∈ T, ends_with_full_stop w = .ok false)
    (hl : ends_with_full_stop lastdot = .ok true)
    (hlast : permitted_variable_name ⟨lastdot.data.dropLast⟩ = false) :
    main (prog :: ["A", "function", "returning", "void"] ++ T ++ [lastdot]) = .ok ["void ()"] := by
  have hin : prog :: ["A", "function", "returning", "void"] ++ T ++ [lastdot]
      = prog :: ("A" :: "function" :: "returning" :: ("void" :: T)) ++ [lastdot] := rfl
  rw [hin]
  obtain ⟨g, s, hp, hg, hmax, hend, hstart, _, hname, hstage, htype, hos, hoe⟩ :=
    prepare_single prog "A" "function" "returning" ("void" :: T) lastdot none
      (by
        intro w hw
        simp only [List.mem_cons] at hw
        rcases hw with h | h | h | h | h
        · rw [h]; decide
        · rw [h]; decide
        · rw [h]; decide
        · rw [h]; decide
        · exact hT w h)
      hl (by decide) (by decide) (Or.inl ⟨rfl, by decide⟩) hlast
  have hw := word_of_argv g _ hg
  have w3 : g.word 3 = "returning" := by rw [hw]; rfl
  have w4 : g.word 4 = "void" := by rw [hw]; rfl
  have h0 := at_first g s none START FUNCTION hstart hstage htype hname hos hoe
  refine main_single _ g s _ hp hmax ?_
  obtain ⟨k, hk⟩ := fuel_single g hmax
  rw [hk]
  refine returns_resolve_step g _ _ _ (by rw [h0.orig, h0.stage]; decide) ?_
  refine returns_mono (step_function_void g _ h0 w3 w4 (by rw [hend]; omega)) ?_
  intro s1 h1
  exact returns_resolve_done g _ _ _ (by rw [h1.orig, h1.stage]; exact Or.inl rfl)
    ⟨h1.orig, h1.stage, h1.line⟩

/-- The hop reads no word: it depends on the phrases only by the continuation,
the number of phrases and the phrase starts. -/
theorem refer_words (g g' : Phrases) (previous_type : Nat) (s : State)
    (h1 : g'.continuation = g.continuation) (h2 : g'.max_phrase_index = g.max_phrase_index)
    (h3 : g'.phrase_start = g.phrase_start) :
    refer g' previous_type s = refer g previous_type s := by
  unfold refer
  rw [h1, h2, h3]

/-- C34, as stated, fails: in `A pointer to void int.` and in `A function
returning void int.` the word `void` is not the last word of the phrase, and
in `A pointer to a datum of type the type of foo x.` two words follow the word
`of`; the three phrases are accepted and their lines are printed. -/
theorem fully_consumed_refuted :
    main ["types", "A", "pointer", "to", "void", "int."] = .ok ["void *"] ∧
    main ["types", "A", "function", "returning", "void", "int."] = .ok ["void ()"] ∧
    main ["types", "A", "pointer", "to", "a", "datum", "of", "type", "the", "type", "of", "foo",
      "x.", "An", "int", "x."] = .ok ["int *", "int x"] := by
  decide

/-- C34, amended. A complex phrase is read only up to the word that ends its
grammar. (1) For all words `T` (none empty or ending in a full stop) and every
last word that is no permitted identifier, the input `A pointer to void T
last.` is accepted and prints `void *`: the pointer rule returns `FINISHED` at
the word `void` and the words after it are never read. (2) Likewise `A
function returning void T last.` prints `void ()`. (3) The rule
`data_continuation` on the words `of type the type of` gives the same result
for two sets of phrases that agree on these five words, on the continuations
and on the phrase starts, whatever words follow the last `of` in each and
wherever the phrase ends after it: the rule hops without reading or counting
the words after `of`. -/
theorem trailing_words_ignored :
    (∀ (prog : String) (T : List String) (lastdot : String),
      (∀ w ∈ T, ends_with_full_stop w = .ok false) →
      ends_with_full_stop lastdot = .ok true →
      permitted_variable_name ⟨lastdot.data.dropLast⟩ = false →
      main (prog :: ["A", "pointer", "to", "void"] ++ T ++ [lastdot]) = .ok ["void *"]) ∧
    (∀ (prog : String) (T : List String) (lastdot : String),
      (∀ w ∈ T, ends_with_full_stop w = .ok false) →
      ends_with_full_stop lastdot = .ok true →
      permitted_variable_name ⟨lastdot.data.dropLast⟩ = false →
      main (prog :: ["A", "function", "returning", "void"] ++ T ++ [lastdot])
        = .ok ["void ()"]) ∧
    (∀ (g g' : Phrases) (s : State),
      g.word (s.current + 1) = "of" → g.word (s.current + 2) = "type" →
      g.word (s.current + 3) = "the" → g.word (s.current + 4) = "type" →
      g.word (s.current + 5) = "of" →
      (∀ i, i ≤ 5 → g'.word (s.current + i) = g.word (s.current + i)) →
      s.current + 5 ≤ g.phrase_end s.phrase_nb →
      s.current + 5 ≤ g'.phrase_end s.phrase_nb →
      g'.continuation = g.continuation → g'.max_phrase_index = g.max_phrase_index →
      g'.phrase_start = g.phrase_start →
      data_continuation g' s = data_continuation g s) := by
  refine ⟨pointer_void_main, function_void_main, ?_⟩
  intro g g' s w1 w2 w3 w4 w5 hsame hend hend' h1 h2 h3
  rw [data_continuation_refer g s w1 w2 w3 w4 w5 hend,
    data_continuation_refer g' s (by rw [hsame 1 (by omega), w1])
      (by rw [hsame 2 (by omega), w2]) (by rw [hsame 3 (by omega), w3])
      (by rw [hsame 4 (by omega), w4]) (by rw [hsame 5 (by omega), w5]) hend']
  exact refer_words g g' _ _ h1 h2 h3

/-- Witness of C34: `A pointer to void foo bar int.` prints `void *`, and `A
function returning void foo bar int.` prints `void ()`. -/
theorem trailing_words_ignored_witness :
    main ["types", "A", "pointer", "to", "void", "foo", "bar", "int."] = .ok ["void *"] ∧
    main ["types", "A", "function", "returning", "void", "foo", "bar", "int."]
      = .ok ["void ()"] :=
  ⟨trailing_words_ignored.1 "types" ["foo", "bar"] "int." (by decide) (by decide) (by decide),
   trailing_words_ignored.2.1 "types" ["foo", "bar"] "int." (by decide) (by decide) (by decide)⟩

/-! ## Two runs side by side -/

/-- Two computations stop together, or return related values. -/
def Rel {α β : Type} (R : α → β → Prop) (x : M α) (y : M β) : Prop :=
  match x, y with
  | .ok a, .ok b => R a b
  | .error _, .error _ => True
  | _, _ => False

theorem rel_ok {α β : Type} (R : α → β → Prop) (a : α) (b : β) :
    Rel R (Except.ok a : M α) (Except.ok b : M β) ↔ R a b := Iff.rfl

theorem rel_pure {α β : Type} (R : α → β → Prop) (a : α) (b : β) :
    Rel R (pure a : M α) (pure b : M β) ↔ R a b := Iff.rfl

theorem rel_error {α β : Type} (R : α → β → Prop) (e e' : Halt) :
    Rel R (Except.error e : M α) (Except.error e' : M β) := trivial

theorem rel_throw {α β : Type} (R : α → β → Prop) (e e' : Halt) :
    Rel R (throw e : M α) (throw e' : M β) := trivial

theorem rel_right {α β : Type} {R : α → β → Prop} {x : M α} {y : M β} (h : Rel R x y) (b : β)
    (hy : y = .ok b) : ∃ a, x = .ok a ∧ R a b := by
  subst hy
  cases x with
  | error e => exact h.elim
  | ok a => exact ⟨a, rfl, h⟩

theorem rel_same {α : Type} {R : α → α → Prop} (x : M α) (h : ∀ a, R a a) : Rel R x x := by
  cases x with
  | error e => exact trivial
  | ok a => exact h a

/-- The two states agree on the originating phrase, the buffers, the names and
the stages of the other phrases; when `F` holds, also on the stage of the
originating phrase. -/
structure Agree (F : Prop) (s1 s2 : State) : Prop where
  orig : s2.original_phrase_nb = s1.original_phrase_nb
  out : s2.phrase_output = s1.phrase_output
  ostart : s2.output_start = s1.output_start
  oend : s2.output_end = s1.output_end
  name : s2.var_name = s1.var_name
  stage : ∀ p, p ≠ s1.original_phrase_nb ∨ F → s2.stage p = s1.stage p

/-- The state `s2` on the phrases `g2` reads the same remaining words as `s1`
on `g1`, in a phrase of the same kind and with the same continuation, and the
kinds of the phrases that the continuation edges lead to agree. -/
structure Sim (F : Prop) (g1 g2 : Phrases) (s1 s2 : State) : Prop where
  agree : Agree F s1 s2
  nb1 : s1.phrase_nb < g1.nb_phrases
  nb2 : s2.phrase_nb < g1.nb_phrases
  cur1 : s1.current ≤ g1.phrase_end s1.phrase_nb
  cur2 : s2.current ≤ g2.phrase_end s2.phrase_nb
  len : g2.phrase_end s2.phrase_nb - s2.current = g1.phrase_end s1.phrase_nb - s1.current
  words : ∀ k, s1.current + k ≤ g1.phrase_end s1.phrase_nb →
    g2.word (s2.current + k) = g1.word (s1.current + k)
  ty : s2.type s2.phrase_nb = s1.type s1.phrase_nb
  tyout : ∀ t, g1.nb_phrases ≤ t → s2.type t = s1.type t
  cont : g2.continuation s2.phrase_nb = g1.continuation s1.phrase_nb
  clean : ∀ (k t : Nat), walk g1 (k + 1) (s1.phrase_nb : Int) = (t : Int) →
    s2.type t = s1.type t
  apart1 : ∀ k, walk g1 (k + 1) (s1.phrase_nb : Int) ≠ (s1.phrase_nb : Int)
  apart2 : ∀ k, walk g1 (k + 1) (s1.phrase_nb : Int) ≠ (s2.phrase_nb : Int)

theorem Sim.word {F : Prop} {g1 g2 : Phrases} {s1 s2 : State} (h : Sim F g1 g2 s1 s2) :
    g2.word s2.current = g1.word s1.current :=
  h.words 0 h.cur1

theorem output_at_front_eq (s : State) (o : Nat) (str : String) :
    output_at_front s o str =
      (put_chars s.phrase_output o (s.output_start o - str.data.length + 1) str.data).map
        fun out => { s with output_start := upd s.output_start o
                              (s.output_start o - str.data.length),
                            phrase_output := out } := rfl

/-- The phrases `g2` are the phrases `g1` with another phrase `i`: the other
phrases have the same words and continuations, no phrase continues with phrase
`i`, and the continuation edges of `g1` form no loop. -/
structure Twin (g1 g2 : Phrases) (i : Nat) : Prop where
  max : g2.max_phrase_index = g1.max_phrase_index
  valid : Valid g1
  ends : ∀ p, p < g1.nb_phrases → ∃ d, Ends g1 (p : Int) d
  away : ∀ p, p < g1.nb_phrases → g1.continuation p ≠ (i : Int)
  le1 : ∀ p, p < g1.nb_phrases → g1.phrase_start p + 1 ≤ g1.phrase_end p
  le2 : ∀ p, p < g1.nb_phrases → g2.phrase_start p + 1 ≤ g2.phrase_end p
  len : ∀ p, p < g1.nb_phrases → p ≠ i →
    g2.phrase_end p - g2.phrase_start p = g1.phrase_end p - g1.phrase_start p
  words : ∀ p, p < g1.nb_phrases → p ≠ i → ∀ k, g1.phrase_start p + k ≤ g1.phrase_end p →
    g2.word (g2.phrase_start p + k) = g1.word (g1.phrase_start p + k)
  cont : ∀ p, p < g1.nb_phrases → p ≠ i → g2.continuation p = g1.continuation p
  kind : g2.word (g2.phrase_start i + 1) = g1.word (g1.phrase_start i + 1)

theorem Twin.nb {g1 g2 : Phrases} {i : Nat} (tw : Twin g1 g2 i) :
    g2.nb_phrases = g1.nb_phrases := by
  unfold Phrases.nb_phrases
  rw [tw.max]

theorem walk_one (g : Phrases) (p : Nat) (k : Nat) :
    walk g (k + 1) (p : Int) = walk g k (g.continuation p) := by
  rw [walk_succ]
  unfold next_phrase
  rw [if_neg (by simp only [NO_DATA]; omega)]
  simp

/-- The pointer rule after `complex_variable`. -/
def pointer_rest (g : Phrases) (singular : Bool) (r : Bool × State) : M (Nat × State) :=
  if !r.1 then pure (ERROR, r.2)
  else if g.word r.2.current ≠ "to" then pure (ERROR, r.2)
  else advance g r.2 ERROR fun s1 =>
    (output_at_front s1 s1.original_phrase_nb "*").bind fun s2 =>
      pointer_target g singular s2

theorem process_pointer_rest (g : Phrases) (s : State) :
    process_pointer g s =
      (last_char (g.word s.current)).bind fun c =>
        (complex_variable g s).bind (pointer_rest g (!decide (c = 's'))) := rfl

/-- The relation of the two runs when the loop of an originating phrase has
ended. -/
structure Done (g1 : Phrases) (s1 s2 : State) : Prop where
  agree : Agree True s1 s2
  tyout : ∀ t, g1.nb_phrases ≤ t → s2.type t = s1.type t

theorem Sim.done {g1 g2 : Phrases} {s1 s2 : State} (h : Sim True g1 g2 s1 s2) :
    Done g1 s1 s2 := ⟨h.agree, h.tyout⟩

theorem Agree.line {F : Prop} {s1 s2 : State} (h : Agree F s1 s2) (p : Nat) :
    s2.line p = s1.line p := by
  unfold State.line
  rw [h.out, h.ostart, h.oend]

theorem complex_variable_skip (g : Phrases) (s : State)
    (h1 : ¬ (s.stage s.original_phrase_nb = START ∧ (s.var_name s.phrase_nb).isSome))
    (h2 : s.stage s.original_phrase_nb ≠ REFER)
    (hne : s.current ≠ g.phrase_end s.phrase_nb) :
    complex_variable g s = .ok (true, { s with current := s.current + 1 }) := by
  unfold complex_variable
  rw [advance_eq, if_neg hne]
  dsimp only
  rw [if_neg h1]
  simp only [pure_eq_ok, bind_ok, Bool.not_true, Bool.false_eq_true, if_false, if_neg h2]

/-- The pointer rule on `pointer to a datum of type the type of`: the star is
written, then the rule hops. -/
theorem pointer_datum_refer (g : Phrases) (s : State)
    (h1 : ¬ (s.stage s.original_phrase_nb = START ∧ (s.var_name s.phrase_nb).isSome))
    (h2 : s.stage s.original_phrase_nb ≠ REFER)
    (hend : s.current + 9 ≤ g.phrase_end s.phrase_nb)
    (w0 : g.word s.current = "pointer") (w1 : g.word (s.current + 1) = "to")
    (w2 : g.word (s.current + 2) = "a") (w3 : g.word (s.current + 3) = "datum")
    (w4 : g.word (s.current + 4) = "of") (w5 : g.word (s.current + 5) = "type")
    (w6 : g.word (s.current + 6) = "the") (w7 : g.word (s.current + 7) = "type")
    (w8 : g.word (s.current + 8) = "of") :
    process_pointer g s =
      (put_chars s.phrase_output s.original_phrase_nb
          (s.output_start s.original_phrase_nb - "*".data.length + 1) "*".data).bind fun out =>
        refer g (s.type s.phrase_nb)
          { s with current := s.current + 8,
                   type := upd s.type s.phrase_nb BASIC,
                   output_start := upd s.output_start s.original_phrase_nb
                     (s.output_start s.original_phrase_nb - "*".data.length),
                   phrase_output := out } := by
  rw [process_pointer_rest, w0]
  have hl : last_char "pointer" = .ok 'r' := rfl
  have hsing : (!decide ('r' = 's')) = true := by decide
  rw [hl, bind_ok, complex_variable_skip g s h1 h2 (by omega), bind_ok, hsing]
  unfold pointer_rest
  have e0 : ¬ s.current + 1 = g.phrase_end s.phrase_nb := by omega
  simp only [Bool.not_true, Bool.false_eq_true, if_false, w1, ne_eq, not_true_eq_false,
    advance_eq, e0]
  rw [output_at_front_eq]
  cases put_chars s.phrase_output s.original_phrase_nb
      (s.output_start s.original_phrase_nb - "*".data.length + 1) "*".data with
  | error e => rfl
  | ok out =>
    simp only [map_ok, bind_ok]
    unfold pointer_target
    have e2 : ¬ s.current + 1 + 1 = g.phrase_end s.phrase_nb := by omega
    have v : ¬ ("a" = "void") := by decide
    have cp : check_preposition "a" "datum" false = true := by decide
    simp only [w2, v, if_false, if_true, advance_eq, e2, Nat.add_sub_cancel, w3, cp,
      Bool.not_true, Bool.false_eq_true]
    unfold pointer_kind
    have d1 : ¬ ("datum" = "pointer") := by decide
    have d2 : ¬ ("datum" = "array") := by decide
    have d3 : ¬ ("datum" = "function") := by decide
    simp only [w3, d1, d2, d3, and_false, Bool.not_true, Bool.false_eq_true, false_and,
      or_self, if_false, and_self, true_or, if_true]
    rw [data_continuation_refer g _ w4 w5 w6 w7 w8 (by
      show s.current + 1 + 1 + 1 + 5 ≤ g.phrase_end s.phrase_nb
      omega)]

/-- What the body of the first pass reads of a phrase: the number of words
after the article, the article, the second, third and last words, and the two
values of `read_basic_phrase` (without and with the last word). A word that
the phrase is too short to have is left out. -/
structure View where
  len : Int
  article : String
  kind : String
  third : String
  last : String
  named : Nat
  plain : Nat

/-- The view of the phrase `p`. -/
def view (g : Phrases) (p : Nat) : View :=
  { len := (g.phrase_end p : Int) - g.phrase_start p
    article := g.word (g.phrase_start p)
    kind := if (g.phrase_end p : Int) - g.phrase_start p < 1 then ""
      else g.word (g.phrase_start p + 1)
    third := if (g.phrase_end p : Int) - g.phrase_start p < 3 then ""
      else g.word (g.phrase_start p + 1 + 1)
    last := if (g.phrase_end p : Int) - g.phrase_start p < 1 then ""
      else g.word (g.phrase_end p)
    named := if (g.phrase_end p : Int) - g.phrase_start p < 1 then 0
      else read_basic_phrase (g.phrase_start p + 1) ((g.phrase_end p : Int) - 1) g.argv
    plain := if (g.phrase_end p : Int) - g.phrase_start p < 1 then 0
      else read_basic_phrase (g.phrase_start p + 1) (g.phrase_end p : Int) g.argv }

theorem view_congr {g g' : Phrases} (h1 : g'.argv = g.argv)
    (h2 : g'.phrase_start = g.phrase_start) (h3 : g'.phrase_end = g.phrase_end) (p : Nat) :
    view g' p = view g p := by
  unfold view Phrases.word
  rw [h1, h2, h3]

/-- The body of the first pass leaves a phrase that is not basic at stage
`START` or `ERROR`. -/
theorem first_pass_phrase_complex_stage (g : Phrases) (s : State) :
    Post (first_pass_phrase g s) fun r =>
      intrinsic_type g s.phrase_nb ≠ BASIC →
        r.2.stage s.phrase_nb = START ∨ r.2.stage s.phrase_nb = ERROR := by
  unfold first_pass_phrase
  simp only [post_ite, post_pure, post_ok, post_bind, post_map, post_throw]
  repeat' first
    | apply And.intro
    | intro _
    | refine post_mono (post_and (process_basic_result _ _) (process_basic_phrase_nb _ _)) ?_
  all_goals first
    | trivial
    | (simp_all [intrinsic_type, Phrases.word, upd]; done)
    | (split_ifs <;> simp_all [intrinsic_type, Phrases.word, upd])

/-- After the loop check a phrase that is not basic is at stage `START` or
`ERROR`. -/
theorem prepare_complex_stage (argv : List String) (g : Phrases) (s : State)
    (h : prepare argv = .ok (g, s)) (p : Nat) (hp : p < g.nb_phrases)
    (hk : intrinsic_type g p ≠ BASIC) : s.stage p = START ∨ s.stage p = ERROR := by
  obtain ⟨rp, ⟨gp, sp, c1, c2, c3, c4, c5⟩, hs⟩ := prepare_same argv g s h p hp
  have ht := post_elim (first_pass_phrase_complex_stage gp sp) c1
  have e : intrinsic_type gp p = intrinsic_type g p := by
    unfold intrinsic_type Phrases.word
    rw [c2, c3]
  rw [c5, e, ← hs.1] at ht
  exact ht hk

/-- When the second pass completes it has started the loop of every phrase it
had to go through, and none of these loops has ended in `ERROR`. -/
theorem second_pass_starts (g : Phrases) : ∀ (k : Nat) (s s' : State),
    second_pass g k s = .ok s' →
    ∀ p, s.original_phrase_nb ≤ p → p < s.original_phrase_nb + k →
      ∃ t r, Starts g k s t ∧ t.original_phrase_nb = p ∧ resolve g g.fuel t = .ok r ∧
        r.stage p ≠ ERROR := by
  intro k
  induction k with
  | zero =>
    intro s s' _ p h1 h2
    omega
  | succ k ih =>
    intro s s' h p h1 h2
    rw [second_pass_unfold] at h
    obtain ⟨s2, hs2, h3⟩ := bind_eq_ok h
    have ho : s2.original_phrase_nb = s.original_phrase_nb :=
      (post_elim (resolve_frame g _ _) hs2).1
    by_cases he : s2.stage s2.original_phrase_nb = ERROR
    · rw [if_pos he] at h3
      cases h3
    · rw [if_neg he] at h3
      by_cases hp : p = s.original_phrase_nb
      · refine ⟨start_state g s, s2, Starts.first k s, hp.symm, hs2, ?_⟩
        rw [hp, ← ho]
        exact he
      · have hn : (reset_types g s2).original_phrase_nb = s2.original_phrase_nb + 1 := rfl
        obtain ⟨t, r, a1, a2, a3, a4⟩ := ih (reset_types g s2) s' h3 p
          (by rw [hn, ho]; omega) (by rw [hn, ho]; omega)
        exact ⟨t, r, Starts.later k s s2 t hs2 he a1, a2, a3, a4⟩

/-- At stage `START` the name, when there is one, is one word. -/
theorem complex_variable_start (g : Phrases) (t : State)
    (hst : t.stage t.original_phrase_nb = START) :
    Post (complex_variable g t) fun r =>
      r.1 = true → r.2.phrase_nb = t.phrase_nb ∧
        r.2.original_phrase_nb = t.original_phrase_nb ∧
        (r.2.current = t.current + 1 ∨ r.2.current = t.current + 2) := by
  unfold complex_variable
  simp only [post_advance, post_bind, post_ite, post_pure, post_map,
    post_output_at_front_iff]
  repeat' first | apply And.intro | intro _
  all_goals first
    | trivial
    | (simp_all; done)
    | (simp_all [START, REFER]; done)

/-- The pointer rule on a singular pointer whose article after `to` disagrees
with the next word returns `ERROR`, when it returns. -/
theorem pointer_mismatch_error (g : Phrases) (t : State) (c : Nat)
    (hst : t.stage t.original_phrase_nb = START)
    (hk : g.word t.current = "pointer")
    (hc : c = t.current + 1 ∨ (c = t.current + 2 ∧ g.word (t.current + 1) ≠ "to"))
    (hto : g.word c = "to") (hend : c + 2 ≤ g.phrase_end t.phrase_nb)
    (hart : (g.word (c + 1) = "a" ∧ check_vowel (first_char (g.word (c + 2))) = true) ∨
      (g.word (c + 1) = "an" ∧ check_vowel (first_char (g.word (c + 2))) = false)) :
    Post (process_pointer g t) fun r => r.1 = ERROR := by
  have hl : last_char (g.word t.current) = .ok 'r' := by
    rw [hk]
    rfl
  have hs : (!decide ('r' = 's')) = true := by decide
  have hna : g.word (c + 1) ≠ "to" := by
    rcases hart with ⟨h, _⟩ | ⟨h, _⟩ <;> rw [h] <;> decide
  unfold process_pointer
  rw [hl, bind_ok]
  simp only [hs]
  rw [post_bind]
  refine post_mono (complex_variable_start g t hst) ?_
  intro r hr
  cases h1 : r.1 with
  | false =>
    simp only [Bool.not_false, if_true, post_pure]
  | true =>
    obtain ⟨e1, e2, e3⟩ := hr h1
    simp only [Bool.not_true, Bool.false_eq_true, if_false]
    rw [post_ite, post_pure]
    refine ⟨fun _ => rfl, fun h2 => ?_⟩
    have h2' : g.word r.2.current = "to" := not_not.mp h2
    have ecur : r.2.current = c := by
      rcases e3 with e | e
      · rcases hc with hc | ⟨hc, hn⟩
        · rw [e, hc]
        · rw [e] at h2'
          exact absurd h2' hn
      · rcases hc with hc | ⟨hc, _⟩
        · have e4 : t.current + 2 = c + 1 := by omega
          rw [e, e4] at h2'
          exact absurd h2' hna
        · rw [e, hc]
    rw [post_advance]
    refine ⟨fun _ => rfl, fun _ => ?_⟩
    rw [post_bind]
    refine post_output_at_front _ _ _ _ ?_
    intro out start
    obtain ⟨s', hs', _⟩ := pointer_target_mismatch g
      { ({ r.2 with current := r.2.current + 1 } : State) with
        output_start := start, phrase_output := out } (by
        show (g.word (r.2.current + 1) = "a" ∧ _) ∨ (g.word (r.2.current + 1) = "an" ∧ _)
        rw [ecur]
        exact hart)
    rw [hs', post_ok]

/-- The loop of a singular pointer phrase whose article after `to` disagrees
with the next word ends in `ERROR`, when it ends. -/
theorem mismatch_loop_error (g : Phrases) (t : State) (c k : Nat)
    (hty : t.type t.phrase_nb = POINTER)
    (hst : t.stage t.original_phrase_nb = START)
    (hk : g.word t.current = "pointer")
    (hc : c = t.current + 1 ∨ (c = t.current + 2 ∧ g.word (t.current + 1) ≠ "to"))
    (hto : g.word c = "to") (hend : c + 2 ≤ g.phrase_end t.phrase_nb)
    (hart : (g.word (c + 1) = "a" ∧ check_vowel (first_char (g.word (c + 2))) = true) ∨
      (g.word (c + 1) = "an" ∧ check_vowel (first_char (g.word (c + 2))) = false)) :
    Post (resolve g (k + 1) t) fun r => r.stage t.original_phrase_nb = ERROR := by
  rw [resolve_step g k t (by rw [hst]; decide), post_bind]
  unfold step
  have n1 : ¬ (POINTER = ARRAY) := by decide
  have n2 : ¬ (POINTER = FUNCTION) := by decide
  simp only [hty, n1, n2, if_false, if_true]
  rw [post_map]
  refine post_mono (post_and (pointer_mismatch_error g t c hst hk hc hto hend hart)
    (process_pointer_outcome g t)) ?_
  rintro r ⟨h1, h2⟩
  have e : ({ r.2 with stage := upd r.2.stage r.2.original_phrase_nb r.1 } : State).stage
      ({ r.2 with stage := upd r.2.stage r.2.original_phrase_nb r.1 } :
        State).original_phrase_nb = ERROR := by
    show upd r.2.stage r.2.original_phrase_nb r.1 r.2.original_phrase_nb = ERROR
    rw [upd_same, h1]
  rw [resolve_done g k _ (Or.inr e), post_ok]
  show upd r.2.stage r.2.original_phrase_nb r.1 t.original_phrase_nb = ERROR
  rw [← h2.1, upd_same, h1]

/-- Counterexample for C5: in `A pointer NAME to an pointer.` the article
`an` disagrees with `pointer`, but with a name of 100 letters the run prints
no diagnostic: the pointer rule writes the star before it tests the article,
and the star falls before the first row of the buffer. -/
theorem article_mismatch_refuted :
    main ["types", "A", "pointer",
      "bbbbbbbbbbbbbbbbbbbbbbbbbbbbbbbbbbbbbbbbbbbbbbbbbbbbbbbbbbbbbbbbbbbbbbbbbbbbbbbbbbbbbbbbbbbbbbbbbbbb",
      "to", "an", "pointer."] = .error Halt.undefined := by
  decide

/-- C5, amended. Let the run get as far as the second pass, and let phrase
`p` of the input be a singular pointer phrase (`pointer`, then a name or none,
then `to` at the word `c`) whose article after `to`, `a` or `an`, disagrees
with the vowel-initial-ness of the word that follows it. Then whenever the
second pass starts the loop of phrase `p`, the loop ends with the stage
`ERROR` if it ends at all; the run prints no phrase line; and it stops with
the diagnostic, unless it has left the bounds of an array before the article
is tested (as when the star is written before the first row of the buffer). -/
theorem article_mismatch_stops (argv : List String) (g : Phrases) (s : State) (p c : Nat)
    (hprep : prepare argv = .ok (g, s)) (hp : p < g.nb_phrases)
    (hk : g.word (g.phrase_start p + 1) = "pointer")
    (hc : c = g.phrase_start p + 2 ∨
      (c = g.phrase_start p + 3 ∧ g.word (g.phrase_start p + 2) ≠ "to"))
    (hto : g.word c = "to") (hend : c + 2 ≤ g.phrase_end p)
    (hart : (g.word (c + 1) = "a" ∧ check_vowel (first_char (g.word (c + 2))) = true) ∨
      (g.word (c + 1) = "an" ∧ check_vowel (first_char (g.word (c + 2))) = false)) :
    (∀ t, Starts g g.nb_phrases { s with original_phrase_nb := 0 } t →
      t.original_phrase_nb = p → ∀ r, resolve g g.fuel t = .ok r → r.stage p = ERROR) ∧
    (∀ lines, main argv ≠ .ok lines) ∧
    (main argv = .error Halt.incorrect_input ∨ main argv = .error Halt.undefined) := by
  have hkind : intrinsic_type g p = POINTER := by
    unfold intrinsic_type
    rw [hk]
    rfl
  have key : ∀ t, Starts g g.nb_phrases { s with original_phrase_nb := 0 } t →
      t.original_phrase_nb = p → ∀ r, resolve g g.fuel t = .ok r → r.stage p = ERROR := by
    intro t ht hor r hr
    obtain ⟨s'', e, hf, _⟩ := starts_fresh g s (prepare_started argv g s hprep) _ _ _ ht
      (prepare_fresh argv g s hprep) (by simp)
    have hs'' : s''.original_phrase_nb = p := by
      rw [e] at hor
      exact hor
    have hstage : t.stage p = s.stage p := by
      rw [e]
      exact (hf.later p (by rw [hs''])).1
    have hnb : t.phrase_nb = p := by rw [e]; exact hs''
    have hcur : t.current = g.phrase_start p + 1 := by
      rw [e]
      show g.phrase_start s''.original_phrase_nb + 1 = _
      rw [hs'']
    have hty : t.type t.phrase_nb = POINTER := by
      rw [hnb, e]
      show s''.type p = POINTER
      rw [hf.kinds p hp, hkind]
    rcases prepare_complex_stage argv g s hprep p hp (by rw [hkind]; decide) with hS | hE
    · obtain ⟨k, hk'⟩ : ∃ k, g.fuel = k + 1 :=
        ⟨g.fuel - 1, (Nat.succ_pred_eq_of_pos (Nat.mul_pos (by omega) (by omega))).symm⟩
      rw [hk'] at hr
      have h := post_elim (mismatch_loop_error g t c k hty (by rw [hor, hstage]; exact hS)
        (by rw [hcur]; exact hk)
        (by rw [hcur]; exact hc) hto (by rw [hnb]; exact hend) hart) hr
      rw [hor] at h
      exact h
    · have hd : resolve g g.fuel t = .ok t :=
        resolve_done g _ t (Or.inr (by rw [hor, hstage]; exact hE))
      rw [hd] at hr
      injection hr with hr
      rw [← hr, hstage]
      exact hE
  have quiet : ∀ lines, main argv ≠ .ok lines := by
    intro lines hm
    obtain ⟨s', h1, _⟩ := main_lines argv g s lines hprep hm
    obtain ⟨t, r, a1, a2, a3, a4⟩ := second_pass_starts g _ _ _ h1 p (Nat.zero_le _)
      (by simp only [Nat.zero_add]; exact hp)
    exact a4 (key t a1 a2 r a3)
  exact ⟨key, quiet, quiet_or_undefined argv quiet⟩

/-- Witness of C5: on `A pointer to an pointer.` and on `An int x. A pointer p
to an pointer.` the run prints no line and stops with the diagnostic. -/
theorem article_mismatch_stops_witness :
    main ["types", "A", "pointer", "to", "an", "pointer."] = .error Halt.incorrect_input ∧
    main ["types", "An", "int", "x.", "A", "pointer", "p", "to", "an", "pointer."]
      = .error Halt.incorrect_input ∧
    (∀ lines, main ["types", "A", "pointer", "to", "an", "pointer."] ≠ .ok lines) ∧
    (∀ lines, main ["types", "An", "int", "x.", "A", "pointer", "p", "to", "an", "pointer."]
      ≠ .ok lines) :=
  ⟨by decide, by decide,
    (article_mismatch_stops ["types", "A", "pointer", "to", "an", "pointer."] _ _ 0 3 rfl
      (by decide) (by decide) (Or.inl (by decide)) (by decide) (by decide)
      (Or.inr ⟨by decide, by decide⟩)).2.1,
    (article_mismatch_stops
      ["types", "An", "int", "x.", "A", "pointer", "p", "to", "an", "pointer."] _ _ 1 7 rfl
      (by decide) (by decide) (Or.inr ⟨by decide, by decide⟩) (by decide) (by decide)
      (Or.inr ⟨by decide, by decide⟩)).2.1⟩

/-! ## C19: a reference that no phrase can resolve -/

/-- C19, the code at the failing input `A pointer to a datum of type the type
of int.`: `int` is not a permitted identifier, so the first pass stores no
reference, the reference pass and the loop check pass, and `continuation[0]`
is `NO_DATA`. In the second pass the pointer rule of phrase 0 writes the star
and `data_continuation` reads `of type the type of`: whatever the table of
continuations, the rule is the jump `refer` from a state `s5` that reads
phrase 0 at the word `of` before `int`. With `continuation[0] = NO_DATA` the
jump is `phrase_nb = continuation[phrase_nb]` with the index -1, and the C
program reads `phrase_start` and `type` before their first cell; what it does
from there on is not given by its source. -/
theorem unresolved_reference_read :
    permitted_variable_name "int" = false ∧
    ∃ g s, prepare ["types", "A", "pointer", "to", "a", "datum", "of", "type", "the", "type",
        "of", "int."] = .ok (g, s) ∧
      g.nb_phrases = 1 ∧ g.reference 0 = none ∧ g.continuation 0 = NO_DATA ∧
      ∃ s5, s5.phrase_nb = 0 ∧ s5.original_phrase_nb = 0 ∧ s5.current = 10 ∧
        g.word s5.current = "of" ∧ g.word (s5.current + 1) = "int" ∧
        ∀ cont : Nat → Int,
          process_pointer { g with continuation := cont }
              (start_state g { s with original_phrase_nb := 0 }) =
            refer { g with continuation := cont } POINTER s5 :=
  have aux : ∀ (g : Phrases) (s : State),
      ¬ (s.stage 0 = START ∧ (s.var_name 0).isSome) → s.stage 0 ≠ REFER →
      g.phrase_start 0 = 1 → 11 ≤ g.phrase_end 0 → s.type 0 = POINTER →
      s.output_start 0 = 99 →
      g.word 2 = "pointer" → g.word 3 = "to" → g.word 4 = "a" → g.word 5 = "datum" →
      g.word 6 = "of" → g.word 7 = "type" → g.word 8 = "the" → g.word 9 = "type" →
      g.word 10 = "of" → g.word 11 = "int" →
      ∃ s5, s5.phrase_nb = 0 ∧ s5.original_phrase_nb = 0 ∧ s5.current = 10 ∧
        g.word s5.current = "of" ∧ g.word (s5.current + 1) = "int" ∧
        ∀ cont : Nat → Int,
          process_pointer { g with continuation := cont }
              (start_state g { s with original_phrase_nb := 0 }) =
            refer { g with continuation := cont } POINTER s5 := by
    intro g s n1 n2 hs he hty ho w0 w1 w2 w3 w4 w5 w6 w7 w8 w9
    have hcur : (start_state g { s with original_phrase_nb := 0 }).current = 2 := by
      show g.phrase_start 0 + 1 = 2
      rw [hs]
    have hput : put_chars s.phrase_output 0 ((99 : Int) - "*".data.length + 1) "*".data
        = .ok (written s.phrase_output 0 99 "*".data) :=
      put_chars_eq 0 "*".data s.phrase_output 99 (by decide)
    refine ⟨{ start_state g { s with original_phrase_nb := 0 } with
        current := 2 + 8,
        type := upd s.type 0 BASIC,
        output_start := upd s.output_start 0 ((99 : Int) - "*".data.length),
        phrase_output := written s.phrase_output 0 99 "*".data },
      rfl, rfl, rfl, w8, w9, fun cont => ?_⟩
    have hw : ∀ i, ({ g with continuation := cont } : Phrases).word i = g.word i := fun _ => rfl
    rw [pointer_datum_refer { g with continuation := cont }
      (start_state g { s with original_phrase_nb := 0 }) n1 n2
      (by rw [hcur]; exact he) (by rw [hcur, hw]; exact w0) (by rw [hcur, hw]; exact w1)
      (by rw [hcur, hw]; exact w2) (by rw [hcur, hw]; exact w3) (by rw [hcur, hw]; exact w4)
      (by rw [hcur, hw]; exact w5) (by rw [hcur, hw]; exact w6) (by rw [hcur, hw]; exact w7)
      (by rw [hcur, hw]; exact w8)]
    have e1 : (start_state g { s with original_phrase_nb := 0 }).output_start
        (start_state g { s with original_phrase_nb := 0 }).original_phrase_nb = 99 := ho
    have e2 : (start_state g { s with original_phrase_nb := 0 }).phrase_output
        = s.phrase_output := rfl
    have e3 : (start_state g { s with original_phrase_nb := 0 }).original_phrase_nb = 0 := rfl
    rw [e1, e2, e3, hput, bind_ok]
    have e4 : (start_state g { s with original_phrase_nb := 0 }).type
        (start_state g { s with original_phrase_nb := 0 }).phrase_nb = POINTER := hty
    rw [e4, hcur]
    rfl
  ⟨by decide, _, _, rfl, by decide, by decide, by decide,
    aux _ _ (by decide) (by decide) (by decide) (by decide) (by decide) (by decide)
      (by decide) (by decide) (by decide) (by decide) (by decide) (by decide) (by decide)
      (by decide) (by decide) (by decide)⟩

/-! ## C8: the kind that a reference finds, in a run -/

/-- After the loop check no phrase comes back to itself along the
continuation edges. -/
theorem ready_acyclic (argv : List String) (g : Phrases) (h : Ready argv g) (p : Nat)
    (hp : p < g.nb_phrases) (k : Nat) : walk g (k + 1) (p : Int) ≠ (p : Int) := by
  intro hc
  obtain ⟨d, _, hd⟩ := h.2 p hp
  have he : Ends g (p : Int) (d + 1) := by
    unfold Ends at hd ⊢
    rw [walk_one]
    exact hd
  exact not_ends_of_cycle g (k + 1) (by omega) p hc (d + 1) he

/-- The phrase that the loop is reading is a phrase of the input, and every
phrase that the continuation edges lead to from it still has the kind of its
second word. -/
def Ahead (g : Phrases) (u : State) : Prop :=
  u.phrase_nb < g.nb_phrases ∧
  ∀ (k q : Nat), walk g (k + 1) (u.phrase_nb : Int) = (q : Int) →
    u.type q = intrinsic_type g q

theorem step_ahead (argv : List String) (g : Phrases) (h : Ready argv g) (s s1 : State)
    (ha : Ahead g s)
    (hst : s.stage s.original_phrase_nb = START →
      s.type s.phrase_nb = ARRAY ∨ s.type s.phrase_nb = FUNCTION ∨
        s.type s.phrase_nb = POINTER)
    (hs : step g s = .ok s1)
    (hnd : ¬ (s1.stage s1.original_phrase_nb = FINISHED ∨
      s1.stage s1.original_phrase_nb = ERROR)) : Ahead g s1 := by
  have h1 := post_elim (step_names g s hst) hs
  have h3 := post_elim (step_spec g s) hs
  rcases h3.2.2 with hd | hd | ⟨c1, _⟩ | ⟨c1, c2, c3, _⟩
  · exact absurd (Or.inl hd) hnd
  · exact absurd (Or.inr hd) hnd
  · refine ⟨by rw [c1]; exact ha.1, fun k q hq => ?_⟩
    rw [c1] at hq
    have hne : q ≠ s.phrase_nb := by
      intro e
      rw [e] at hq
      exact ready_acyclic argv g h _ ha.1 k hq
    rw [h1.2 q hne]
    exact ha.2 k q hq
  · have hc : g.continuation s.phrase_nb = ((g.continuation s.phrase_nb).toNat : Int) := by
      omega
    refine ⟨by rw [c3]; exact phrase_index g _ c1 c2, fun k q hq => ?_⟩
    rw [c3, ← hc] at hq
    have hq2 : walk g (k + 1 + 1) (s.phrase_nb : Int) = (q : Int) := by
      rw [walk_one]
      exact hq
    have hne : q ≠ s.phrase_nb := by
      intro e
      rw [e] at hq2
      exact ready_acyclic argv g h _ ha.1 (k + 1) hq2
    rw [h1.2 q hne]
    exact ha.2 (k + 1) q hq2

theorem loop_ahead (argv : List String) (g : Phrases) (h : Ready argv g) (s u : State)
    (hl : Loop g s u) :
    (s.stage s.original_phrase_nb = START →
      s.type s.phrase_nb = ARRAY ∨ s.type s.phrase_nb = FUNCTION ∨
        s.type s.phrase_nb = POINTER) →
    Ahead g s →
    ¬ (u.stage u.original_phrase_nb = FINISHED ∨ u.stage u.original_phrase_nb = ERROR) →
    Ahead g u := by
  induction hl with
  | start s => exact fun _ ha _ => ha
  | next s s1 t _ hs hloop ih =>
    intro hst ha hnd
    have h2 := post_elim (step_started g s) hs
    by_cases hd : s1.stage s1.original_phrase_nb = FINISHED ∨
        s1.stage s1.original_phrase_nb = ERROR
    · rw [loop_ended g s1 t hloop hd] at hnd
      exact absurd hd hnd
    · exact ih (fun e => absurd e h2) (step_ahead argv g h s s1 ha hst hs hd) hnd

/-- In a run, the kinds ahead of every state of every loop of the second
pass. -/
theorem run_ahead (argv : List String) (g : Phrases) (s0 t u : State)
    (hprep : prepare argv = .ok (g, s0))
    (ht : Starts g g.nb_phrases { s0 with original_phrase_nb := 0 } t)
    (hu : Loop g t u)
    (hrun : ¬ (u.stage u.original_phrase_nb = FINISHED ∨
      u.stage u.original_phrase_nb = ERROR)) : Ahead g u := by
  have hr : Ready argv g := by
    have h3 := post_elim (prepare_spec argv) hprep
    exact h3
  obtain ⟨s'', e, hf, hi⟩ := starts_fresh g s0 (prepare_started argv g s0 hprep) _ _ _ ht
    (prepare_fresh argv g s0 hprep) (by simp)
  have hnb : t.phrase_nb = s''.original_phrase_nb := by rw [e]; rfl
  have hor : t.original_phrase_nb = s''.original_phrase_nb := by rw [e]; rfl
  have hty : ∀ q, q < g.nb_phrases → t.type q = intrinsic_type g q := by
    intro q hq
    rw [e]
    exact hf.kinds q hq
  refine loop_ahead argv g hr t u hu ?_ ?_ hrun
  · intro hst
    rw [hnb, hty _ hi]
    apply prepare_started argv g s0 hprep _ hi
    rw [← (hf.later _ (le_refl _)).1, ← hor]
    rw [e] at hst ⊢
    exact hst
  · refine ⟨by rw [hnb]; exact hi, fun k q hq => ?_⟩
    rcases walk_valid g hr.1.2.2.2 (k + 1) (t.phrase_nb : Int)
        (Or.inr ⟨t.phrase_nb, by rw [hnb]; exact hi, rfl⟩) with hw | ⟨q', hq', hw⟩
    · rw [hw] at hq
      simp only [NO_DATA] at hq
      omega
    · rw [hw] at hq
      have : q' = q := by omega
      rw [← this]
      exact hty q' hq'

/-- Counterexample for C8: in `A pointer NAME to a datum of type the type of
X. An int X.` the reference leads to a basic phrase, but with a name of 99
letters no space is prepended: the name and the star fill the rows before the
buffer, the space falls before the first row, and the run stops without a
line. -/
theorem hop_text_refuted :
    main ["types", "A", "pointer",
      "aaaaaaaaaaaaaaaaaaaaaaaaaaaaaaaaaaaaaaaaaaaaaaaaaaaaaaaaaaaaaaaaaaaaaaaaaaaaaaaaaaaaaaaaaaaaaaaaaaa",
      "to", "a", "datum", "of", "type", "the", "type", "of", "X.", "An", "int", "X."]
      = .error Halt.undefined := by
  decide

/-- C8, amended. In a run that has passed the loop check, let `u` be a state
in which an iteration of the loop of an originating phrase starts, and `s`
the state in which the rule of that iteration calls `data_continuation` (the
rule has moved the cursor and written to the buffer; the phrase and the kinds
are those of `u`). Let `data_continuation` read `of type the type of`, let the
continuation of the phrase be a phrase index `tgt`, and let the buffer have
room for one more character on each side. Then `tgt` is another phrase of the
input, its kind in `type` is its intrinsic kind, `data_continuation` returns
`REFER` at the second word of phrase `tgt`, and the content `c` of the
originating buffer becomes `(c)` if and only if the kind in force before the
data word was `POINTER` and the intrinsic kind of `tgt` is `ARRAY` or
`FUNCTION`; it becomes `c` preceded by one space if and only if the intrinsic
kind of `tgt` is `BASIC`; otherwise it stays `c`: the jump writes nothing
else. -/
theorem hop_text_in_run (argv : List String) (g : Phrases) (s0 t u s : State)
    (tgt a e : Nat)
    (hprep : prepare argv = .ok (g, s0))
    (ht : Starts g g.nb_phrases { s0 with original_phrase_nb := 0 } t)
    (hu : Loop g t u)
    (hrun : ¬ (u.stage u.original_phrase_nb = FINISHED ∨
      u.stage u.original_phrase_nb = ERROR))
    (hnb : s.phrase_nb = u.phrase_nb) (hty : s.type = u.type)
    (h1 : g.word (s.current + 1) = "of") (h2 : g.word (s.current + 2) = "type")
    (h3 : g.word (s.current + 3) = "the") (h4 : g.word (s.current + 4) = "type")
    (h5 : g.word (s.current + 5) = "of")
    (hend : s.current + 5 ≤ g.phrase_end s.phrase_nb)
    (hcont : g.continuation s.phrase_nb = (tgt : Int))
    (hw : Window s s.original_phrase_nb a e) (ha : 1 ≤ a) (he : e + 1 ≤ MAX_OUTPUT) :
    tgt < g.nb_phrases ∧ tgt ≠ s.phrase_nb ∧ s.type tgt = intrinsic_type g tgt ∧
    ∃ s', data_continuation g s = .ok (REFER, s') ∧
      s'.phrase_nb = tgt ∧ s'.current = g.phrase_start tgt + 1 ∧
      ((s'.line s.original_phrase_nb).data = '(' :: (s.line s.original_phrase_nb).data ++ [')']
        ↔ s.type s.phrase_nb = POINTER ∧
          (intrinsic_type g tgt = ARRAY ∨ intrinsic_type g tgt = FUNCTION)) ∧
      ((s'.line s.original_phrase_nb).data = ' ' :: (s.line s.original_phrase_nb).data
        ↔ intrinsic_type g tgt = BASIC) ∧
      ((s'.line s.original_phrase_nb).data = '(' :: (s.line s.original_phrase_nb).data ++ [')'] ∨
        (s'.line s.original_phrase_nb).data = ' ' :: (s.line s.original_phrase_nb).data ∨
        (s'.line s.original_phrase_nb).data = (s.line s.original_phrase_nb).data) := by
  have hr : Ready argv g := by
    have h3 := post_elim (prepare_spec argv) hprep
    exact h3
  obtain ⟨hlt, hah⟩ := run_ahead argv g s0 t u hprep ht hu hrun
  have hwalk : walk g (0 + 1) (u.phrase_nb : Int) = (tgt : Int) := by
    rw [walk_one, ← hnb, hcont]
    rfl
  have hk : s.type tgt = intrinsic_type g tgt := by
    rw [hty]
    exact hah 0 tgt hwalk
  have hne : tgt ≠ s.phrase_nb := by
    intro e1
    rw [hnb] at e1
    rw [e1] at hwalk
    exact ready_acyclic argv g hr _ hlt 0 hwalk
  have hvalid : tgt < g.nb_phrases := by
    rcases hr.1.2.2.2 s.phrase_nb (by rw [hnb]; exact hlt) with hv | ⟨q, hq, hv⟩
    · rw [hv] at hcont
      simp only [NO_DATA] at hcont
      omega
    · rw [hv] at hcont
      have : q = tgt := by omega
      rw [← this]
      exact hq
  refine ⟨hvalid, hne, hk, ?_⟩
  exact reference_hop_text g s tgt a e h1 h2 h3 h4 h5 hend hcont
    (by unfold Phrases.nb_phrases at hvalid; omega) hne hk hw ha he

/-- Witness of C8 on `A pointer to a datum of type the type of X. An array X
of 2 data of type int.`: the loop of the first phrase starts; when its pointer
rule reaches `datum` the buffer holds `*`, the kind in force is `POINTER` and
the continuation is the array phrase 1, and the jump turns the buffer into
`(*)`. -/
theorem hop_text_in_run_witness :
    ∃ g s0, prepare ["types", "A", "pointer", "to", "a", "datum", "of", "type", "the", "type",
        "of", "X.", "An", "array", "X", "of", "2", "data", "of", "type", "int."] = .ok (g, s0) ∧
      intrinsic_type g 1 = ARRAY ∧
      ∃ s', data_continuation g
          (front_state { start_state g { s0 with original_phrase_nb := 0 } with current := 5 }
            0 "*") = .ok (REFER, s') ∧
        (s'.line 0).data = ['(', '*', ')'] :=
  have aux : ∀ (g : Phrases) (s0 : State),
      prepare ["types", "A", "pointer", "to", "a", "datum", "of", "type", "the", "type",
        "of", "X.", "An", "array", "X", "of", "2", "data", "of", "type", "int."] = .ok (g, s0) →
      g.nb_phrases = 2 →
      ¬ (s0.stage 0 = FINISHED ∨ s0.stage 0 = ERROR) →
      g.word 6 = "of" → g.word 7 = "type" → g.word 8 = "the" → g.word 9 = "type" →
      g.word 10 = "of" → 10 ≤ g.phrase_end 0 → g.continuation 0 = ((1 : Nat) : Int) →
      Window (front_state { start_state g { s0 with original_phrase_nb := 0 } with
        current := 5 } 0 "*") 0 99 100 →
      s0.type 0 = POINTER → intrinsic_type g 1 = ARRAY →
      ((front_state { start_state g { s0 with original_phrase_nb := 0 } with
        current := 5 } 0 "*").line 0).data = ['*'] →
      ∃ s', data_continuation g
          (front_state { start_state g { s0 with original_phrase_nb := 0 } with current := 5 }
            0 "*") = .ok (REFER, s') ∧
        (s'.line 0).data = ['(', '*', ')'] := by
    intro g s0 hp hn hrun w1 w2 w3 w4 w5 hend hc hw hty hk hl
    obtain ⟨_, _, _, s', e1, _, _, e4, _, _⟩ := hop_text_in_run _ g s0
      (start_state g { s0 with original_phrase_nb := 0 })
      (start_state g { s0 with original_phrase_nb := 0 })
      (front_state { start_state g { s0 with original_phrase_nb := 0 } with current := 5 }
        0 "*") 1 99 100 hp
      (by rw [hn]; exact Starts.first 1 _) (Loop.start _) hrun rfl rfl w1 w2 w3 w4 w5 hend hc
      hw (by decide) (by decide)
    refine ⟨s', e1, ?_⟩
    exact (e4.mpr ⟨hty, Or.inl hk⟩).trans (congrArg (fun l => '(' :: l ++ [')']) hl)
  ⟨_, _, rfl, by decide,
    aux _ _ rfl (by decide) (by decide) (by decide) (by decide) (by decide) (by decide)
      (by decide) (by decide) (by decide) ⟨by decide, by decide, by decide, by decide⟩
      (by decide) (by decide) (by decide)⟩
end Types

/-! # The program `frieze.c`: the test `test_if_frieze` -/

namespace Frieze

/-- The globals of `frieze.c` that `test_if_frieze` reads and writes. When
`main` calls `test_if_frieze`, `load_and_check` has returned `true`: the cells
of `frieze` are numbers from 0 to 15, `length` is from 4 to 50, `height` from 2
to 16, and `period` still has its initial value 0. None of these `int`s is
negative; they are natural numbers here. -/
structure Globals where
  frieze : Nat → Nat → Nat
  shifted_frieze : Nat → Nat → Nat
  rotated_frieze : Nat → Nat → Nat
  length : Nat
  height : Nat
  period : Nat

/-- Mirrors `clear_frieze`: the cells `[i][j]` with `i <= height` and
`j <= length` are set to zero. -/
def clear_frieze (G : Globals) (rotated : Bool) : Globals :=
  if rotated then
    { G with rotated_frieze := fun i j =>
        if i ≤ G.height ∧ j ≤ G.length then 0 else G.rotated_frieze i j }
  else
    { G with shifted_frieze := fun i j =>
        if i ≤ G.height ∧ j ≤ G.length then 0 else G.shifted_frieze i j }

/-- Mirrors `shift_left`: after `clear_frieze(false)`, the cells `[i][j]` with
`i <= height` and `j + shift <= length` receive `frieze[i][j + shift]`. -/
def shift_left (G : Globals) (shift : Nat) : Globals :=
  let G1 := clear_frieze G false
  { G1 with shifted_frieze := fun i j =>
      if i ≤ G1.height ∧ j + shift ≤ G1.length then G1.frieze i (j + shift)
      else G1.shifted_frieze i j }

/-- Mirrors `compare_friezes`: the two loops return `false` at the first cell
that fails one of the two tests. -/
def compare_friezes (G : Globals) (compare_height compare_length : Nat) (rotated : Bool) :
    Bool :=
  (List.range (compare_height + 1)).all fun i =>
    (List.range (compare_length + 1)).all fun j =>
      let testcase := if rotated then G.rotated_frieze i j else G.shifted_frieze i j
      !decide (j = compare_length ∧ testcase ≠ (G.frieze i j &&& (1 <<< 0))) &&
        !decide (j ≠ compare_length ∧ testcase ≠ G.frieze i j)

/-- The last loop of `test_if_frieze`, for `n` values of `k` from `k` on: the
first `k` for which the comparison succeeds is stored in `period`, and the loop
ends. -/
def find_period : Nat → Nat → Globals → Globals
  | 0, _, G => G
  | n + 1, k, G =>
    let G1 := shift_left G k
    if compare_friezes G1 G1.height (G1.length - k) false then { G1 with period := k }
    else find_period n (k + 1) G1

/-- Mirrors `test_if_frieze`: the result and the globals after the call. -/
def test_if_frieze (G : Globals) : Bool × Globals :=
  if !((List.range G.length).all fun j =>
      !decide (((1 <<< 2) &&& G.frieze 0 j) = 0 ∨ ((1 <<< 0) &&& G.frieze 0 j) ≠ 0 ∨
        ((1 <<< 1) &&& G.frieze 0 j) ≠ 0) &&
      !decide (((1 <<< 2) &&& G.frieze G.height j) = 0 ∨
        ((1 <<< 3) &&& G.frieze G.height j) ≠ 0)) then (false, G)
  else if !((List.range (G.height + 1)).all fun i =>
      !decide (G.frieze i G.length > 1) &&
      !decide (((1 <<< 0) &&& G.frieze i 0) ≠ ((1 <<< 0) &&& G.frieze i G.length))) then
    (false, G)
  else if !((List.range G.height).all fun i =>
      (List.range (G.length + 1)).all fun j =>
        !decide (((1 <<< 3) &&& G.frieze i j) ≠ 0 ∧ ((1 <<< 1) &&& G.frieze (i + 1) j) ≠ 0))
      then (false, G)
  else
    let G1 := find_period (G.length / 2) 1 G
    if G1.period ≤ 1 then (false, G1) else (true, G1)

/-- The top and bottom borders: in the columns `0 .. length - 1`, every cell of
the top row has bit 2 set and bits 0 and 1 clear, every cell of the bottom row
has bit 2 set and bit 3 clear. -/
def TopBottom (G : Globals) : Prop :=
  ∀ j, j < G.length →
    ((G.frieze 0 j).testBit 2 = true ∧ (G.frieze 0 j).testBit 0 = false ∧
      (G.frieze 0 j).testBit 1 = false) ∧
    ((G.frieze G.height j).testBit 2 = true ∧ (G.frieze G.height j).testBit 3 = false)

/-- The vertical borders: every cell of column `length` is 0 or 1, and its bit
0 is bit 0 of the cell of column 0 in the same row. -/
def Borders (G : Globals) : Prop :=
  ∀ i, i ≤ G.height →
    (G.frieze i G.length = 0 ∨ G.frieze i G.length = 1) ∧
    (G.frieze i G.length).testBit 0 = (G.frieze i 0).testBit 0

/-- No cell with bit 3 set is directly above a cell with bit 1 set. -/
def NoCrossing (G : Globals) : Prop :=
  ∀ i j, i < G.height → j ≤ G.length →
    ¬ ((G.frieze i j).testBit 3 = true ∧ (G.frieze (i + 1) j).testBit 1 = true)

/-- The frieze shifted left by `k` agrees with the original on the columns
`0 .. length - k`, the last of them on bit 0 only. -/
def Agrees (G : Globals) (k : Nat) : Prop :=
  ∀ i, i ≤ G.height →
    (∀ j, j < G.length - k → G.frieze i (j + k) = G.frieze i j) ∧
    (G.frieze i (G.length - k + k)).testBit 0 = (G.frieze i (G.length - k)).testBit 0

/-- The number `k` is the least shift in `1 .. length / 2` for which the
shifted frieze agrees with the original. -/
def LeastShift (G : Globals) (k : Nat) : Prop :=
  1 ≤ k ∧ k ≤ G.length / 2 ∧ Agrees G k ∧ ∀ k', 1 ≤ k' → k' < k → ¬ Agrees G k'

theorem and_bit (b x : Nat) : ((1 <<< b) &&& x) ≠ 0 ↔ x.testBit b = true := by
  rw [Nat.one_shiftLeft]
  constructor
  · intro h
    cases hb : x.testBit b with
    | true => rfl
    | false =>
      exfalso
      apply h
      apply Nat.eq_of_testBit_eq
      intro i
      rw [Nat.testBit_and, Nat.testBit_two_pow, Nat.zero_testBit]
      by_cases hi : b = i
      · rw [← hi, hb, Bool.and_false]
      · simp [hi]
  · intro h h0
    have : (2 ^ b &&& x).testBit b = true := by
      rw [Nat.testBit_and, Nat.testBit_two_pow_self, h]
      rfl
    rw [h0, Nat.zero_testBit] at this
    cases this

theorem and_bit_zero (b x : Nat) : ((1 <<< b) &&& x) = 0 ↔ x.testBit b = false := by
  have := and_bit b x
  cases hb : x.testBit b with
  | true =>
    rw [hb] at this
    simp only [iff_true] at this
    simp [this]
  | false =>
    rw [hb] at this
    simp only [Bool.false_eq_true, iff_false, ne_eq, not_not] at this
    simp [this]

theorem top_cell (x : Nat) :
    (!decide (((1 <<< 2) &&& x) = 0 ∨ ((1 <<< 0) &&& x) ≠ 0 ∨ ((1 <<< 1) &&& x) ≠ 0)) = true ↔
      x.testBit 2 = true ∧ x.testBit 0 = false ∧ x.testBit 1 = false := by
  rw [Bool.not_eq_true', decide_eq_false_iff_not, and_bit_zero, and_bit, and_bit]
  cases x.testBit 2 <;> cases x.testBit 0 <;> cases x.testBit 1 <;> decide

theorem bottom_cell (x : Nat) :
    (!decide (((1 <<< 2) &&& x) = 0 ∨ ((1 <<< 3) &&& x) ≠ 0)) = true ↔
      x.testBit 2 = true ∧ x.testBit 3 = false := by
  rw [Bool.not_eq_true', decide_eq_false_iff_not, and_bit_zero, and_bit]
  cases x.testBit 2 <;> cases x.testBit 3 <;> decide

theorem crossing_cell (x y : Nat) :
    (!decide (((1 <<< 3) &&& x) ≠ 0 ∧ ((1 <<< 1) &&& y) ≠ 0)) = true ↔
      ¬ (x.testBit 3 = true ∧ y.testBit 1 = true) := by
  rw [Bool.not_eq_true', decide_eq_false_iff_not, and_bit, and_bit]

theorem bit_zero_eq (x y : Nat) :
    ((1 <<< 0) &&& x) = ((1 <<< 0) &&& y) ↔ x.testBit 0 = y.testBit 0 := by
  have hx := and_bit 0 x
  have hy := and_bit 0 y
  have h1 : ∀ z : Nat, ((1 <<< 0) &&& z) = z % 2 := fun z => Nat.one_and_eq_mod_two z
  rw [h1] at hx hy ⊢
  rw [h1]
  constructor
  · intro h
    rw [h] at hx
    cases hb : y.testBit 0 with
    | true => exact hx.1 (hy.2 hb)
    | false =>
      cases ha : x.testBit 0 with
      | false => rfl
      | true =>
        have := hy.1 (hx.2 ha)
        rw [hb] at this
        cases this
  · intro h
    rw [h] at hx
    have e1 := Nat.mod_two_eq_zero_or_one x
    have e2 := Nat.mod_two_eq_zero_or_one y
    by_cases hb : y.testBit 0 = true
    · have a := hx.2 hb
      have b := hy.2 hb
      omega
    · have a : ¬ (x % 2 ≠ 0) := fun c => hb (hx.1 c)
      have b : ¬ (y % 2 ≠ 0) := fun c => hb (hy.1 c)
      omega

theorem border_cell (x y : Nat) :
    (!decide (y > 1) && !decide (((1 <<< 0) &&& x) ≠ ((1 <<< 0) &&& y))) = true ↔
      (y = 0 ∨ y = 1) ∧ y.testBit 0 = x.testBit 0 := by
  rw [Bool.and_eq_true, Bool.not_eq_true', decide_eq_false_iff_not, Bool.not_eq_true',
    decide_eq_false_iff_not, not_not, bit_zero_eq]
  constructor
  · rintro ⟨h1, h2⟩
    exact ⟨by omega, h2.symm⟩
  · rintro ⟨h1, h2⟩
    exact ⟨by omega, h2.symm⟩

theorem top_bottom_iff (G : Globals) :
    ((List.range G.length).all fun j =>
      !decide (((1 <<< 2) &&& G.frieze 0 j) = 0 ∨ ((1 <<< 0) &&& G.frieze 0 j) ≠ 0 ∨
        ((1 <<< 1) &&& G.frieze 0 j) ≠ 0) &&
      !decide (((1 <<< 2) &&& G.frieze G.height j) = 0 ∨
        ((1 <<< 3) &&& G.frieze G.height j) ≠ 0)) = true ↔ TopBottom G := by
  rw [List.all_eq_true]
  constructor
  · intro h j hj
    have := h j (List.mem_range.2 hj)
    rw [Bool.and_eq_true, top_cell, bottom_cell] at this
    exact this
  · intro h j hj
    rw [Bool.and_eq_true, top_cell, bottom_cell]
    exact h j (List.mem_range.1 hj)

theorem borders_iff (G : Globals) :
    ((List.range (G.height + 1)).all fun i =>
      !decide (G.frieze i G.length > 1) &&
      !decide (((1 <<< 0) &&& G.frieze i 0) ≠ ((1 <<< 0) &&& G.frieze i G.length))) = true ↔
      Borders G := by
  rw [List.all_eq_true]
  constructor
  · intro h i hi
    have := h i (List.mem_range.2 (by omega))
    rw [border_cell] at this
    exact this
  · intro h i hi
    rw [border_cell]
    exact h i (by have := List.mem_range.1 hi; omega)

theorem crossing_iff (G : Globals) :
    ((List.range G.height).all fun i =>
      (List.range (G.length + 1)).all fun j =>
        !decide (((1 <<< 3) &&& G.frieze i j) ≠ 0 ∧ ((1 <<< 1) &&& G.frieze (i + 1) j) ≠ 0))
      = true ↔ NoCrossing G := by
  rw [List.all_eq_true]
  constructor
  · intro h i j hi hj
    have := h i (List.mem_range.2 hi)
    rw [List.all_eq_true] at this
    have := this j (List.mem_range.2 (by omega))
    rw [crossing_cell] at this
    exact this
  · intro h i hi
    rw [List.all_eq_true]
    intro j hj
    rw [crossing_cell]
    exact h i j (List.mem_range.1 hi) (by have := List.mem_range.1 hj; omega)

/-- The test that the last loop of `test_if_frieze` makes for the shift `k`. -/
def Matches (G : Globals) (k : Nat) : Prop :=
  ∀ i, i ≤ G.height → ∀ j, j ≤ G.length - k →
    (j = G.length - k → G.frieze i (j + k) = (G.frieze i j &&& (1 <<< 0))) ∧
    (j ≠ G.length - k → G.frieze i (j + k) = G.frieze i j)

theorem shifted_cell (G : Globals) (k i j : Nat) (hi : i ≤ G.height) (hj : j + k ≤ G.length) :
    (shift_left G k).shifted_frieze i j = G.frieze i (j + k) := by
  have h : i ≤ G.height ∧ j + k ≤ G.length := ⟨hi, hj⟩
  show (if i ≤ G.height ∧ j + k ≤ G.length then G.frieze i (j + k) else _) = _
  rw [if_pos h]

theorem compare_cell (t x y : Nat) (c : Prop) [Decidable c] :
    (!decide (c ∧ t ≠ x) && !decide (¬ c ∧ t ≠ y)) = true ↔ (c → t = x) ∧ (¬ c → t = y) := by
  rw [Bool.and_eq_true, Bool.not_eq_true', decide_eq_false_iff_not, Bool.not_eq_true',
    decide_eq_false_iff_not]
  by_cases hc : c
  · simp [hc]
  · simp [hc]

theorem compare_shift_iff (G : Globals) (k : Nat) (hk : k ≤ G.length) :
    compare_friezes (shift_left G k) (shift_left G k).height ((shift_left G k).length - k)
      false = true ↔ Matches G k := by
  have e1 : (shift_left G k).height = G.height := rfl
  have e2 : (shift_left G k).length = G.length := rfl
  have e3 : (shift_left G k).frieze = G.frieze := rfl
  unfold compare_friezes Matches
  rw [e1, e2, e3, List.all_eq_true]
  constructor
  · intro h i hi j hj
    have h1 := h i (List.mem_range.2 (by omega))
    rw [List.all_eq_true] at h1
    have h2 := h1 j (List.mem_range.2 (by omega))
    simp only [Bool.false_eq_true, if_false] at h2
    have h3 := (compare_cell _ _ _ (j = G.length - k)).1 h2
    rw [shifted_cell G k i j hi (by omega)] at h3
    exact h3
  · intro h i hi
    rw [List.all_eq_true]
    intro j hj
    have hi' : i ≤ G.height := by have := List.mem_range.1 hi; omega
    have hj' : j ≤ G.length - k := by have := List.mem_range.1 hj; omega
    simp only [Bool.false_eq_true, if_false]
    apply (compare_cell _ _ _ (j = G.length - k)).2
    rw [shifted_cell G k i j hi' (by omega)]
    exact h i hi' j hj'

theorem matches_congr (G G' : Globals) (k : Nat) (h1 : G'.frieze = G.frieze)
    (h2 : G'.length = G.length) (h3 : G'.height = G.height) : Matches G' k ↔ Matches G k := by
  unfold Matches
  rw [h1, h2, h3]

/-- The last loop stores in `period` the first shift for which the comparison
succeeds, and leaves `period` as it is when there is none. -/
theorem find_period_spec : ∀ (n k : Nat) (G : Globals), k + n ≤ G.length + 1 →
    (find_period n k G).frieze = G.frieze ∧ (find_period n k G).length = G.length ∧
    (find_period n k G).height = G.height ∧
    ((∃ k', k ≤ k' ∧ k' < k + n ∧ Matches G k' ∧
        (∀ k'', k ≤ k'' → k'' < k' → ¬ Matches G k'') ∧ (find_period n k G).period = k') ∨
      ((∀ k', k ≤ k' → k' < k + n → ¬ Matches G k') ∧
        (find_period n k G).period = G.period)) := by
  intro n
  induction n with
  | zero =>
    intro k G _
    refine ⟨rfl, rfl, rfl, Or.inr ⟨fun k' h1 h2 => by omega, rfl⟩⟩
  | succ n ih =>
    intro k G hk
    have hiff := compare_shift_iff G k (by omega)
    unfold find_period
    by_cases hc : compare_friezes (shift_left G k) (shift_left G k).height
        ((shift_left G k).length - k) false = true
    · simp only [hc, if_true]
      exact ⟨rfl, rfl, rfl, Or.inl ⟨k, le_refl _, by omega, hiff.1 hc,
        fun k'' h1 h2 => by omega, rfl⟩⟩
    · simp only [hc, if_false]
      have hno : ¬ Matches G k := fun h => hc (hiff.2 h)
      obtain ⟨a1, a2, a3, a4⟩ := ih (k + 1) (shift_left G k) (by
        have : (shift_left G k).length = G.length := rfl
        rw [this]; omega)
      have hm : ∀ k', Matches (shift_left G k) k' ↔ Matches G k' :=
        fun k' => matches_congr G (shift_left G k) k' rfl rfl rfl
      refine ⟨a1, a2, a3, ?_⟩
      rcases a4 with ⟨k', b1, b2, b3, b4, b5⟩ | ⟨b1, b2⟩
      · refine Or.inl ⟨k', by omega, by omega, (hm k').1 b3, ?_, b5⟩
        intro k'' c1 c2
        by_cases hkk : k'' = k
        · rw [hkk]; exact hno
        · exact fun h => b4 k'' (by omega) c2 ((hm k'').2 h)
      · refine Or.inr ⟨?_, b2⟩
        intro k' c1 c2
        by_cases hkk : k' = k
        · rw [hkk]; exact hno
        · exact fun h => b1 k' (by omega) (by omega) ((hm k').2 h)

theorem bit_zero_mod (x y : Nat) (hx : x = 0 ∨ x = 1) :
    x = (y &&& (1 <<< 0)) ↔ x.testBit 0 = y.testBit 0 := by
  have h1 : (y &&& (1 <<< 0)) = y % 2 := Nat.and_one_is_mod y
  rw [h1, Nat.testBit_zero, Nat.testBit_zero]
  have e2 := Nat.mod_two_eq_zero_or_one y
  rcases hx with hx | hx <;> rcases e2 with e2 | e2 <;> simp [hx, e2]

/-- With the vertical borders in order, the test of the loop is the agreement
of the shifted frieze with the original. -/
theorem matches_iff_agrees (G : Globals) (k : Nat) (hb : Borders G) (hk : k ≤ G.length) :
    Matches G k ↔ Agrees G k := by
  have hL : G.length - k + k = G.length := by omega
  unfold Matches Agrees
  constructor
  · intro h i hi
    refine ⟨fun j hj => (h i hi j (by omega)).2 (by omega), ?_⟩
    have h1 := (h i hi (G.length - k) (le_refl _)).1 rfl
    rw [hL] at h1 ⊢
    exact (bit_zero_mod _ _ (hb i hi).1).1 h1
  · intro h i hi j hj
    obtain ⟨h1, h2⟩ := h i hi
    refine ⟨fun hj' => ?_, fun hj' => h1 j (by omega)⟩
    rw [hj', hL]
    rw [hL] at h2
    exact (bit_zero_mod _ _ (hb i hi).1).2 h2

theorem test_if_frieze_checked (G : Globals) (ha : TopBottom G) (hb : Borders G)
    (hc : NoCrossing G) :
    test_if_frieze G =
      (if (find_period (G.length / 2) 1 G).period ≤ 1 then
        (false, find_period (G.length / 2) 1 G)
      else (true, find_period (G.length / 2) 1 G)) := by
  unfold test_if_frieze
  rw [(top_bottom_iff G).2 ha, (borders_iff G).2 hb, (crossing_iff G).2 hc]
  rfl

theorem test_if_frieze_checks (G : Globals) (h : (test_if_frieze G).1 = true) :
    TopBottom G ∧ Borders G ∧ NoCrossing G := by
  unfold test_if_frieze at h
  refine ⟨?_, ?_, ?_⟩
  · rw [← top_bottom_iff]
    cases ht : ((List.range G.length).all fun j =>
      !decide (((1 <<< 2) &&& G.frieze 0 j) = 0 ∨ ((1 <<< 0) &&& G.frieze 0 j) ≠ 0 ∨
        ((1 <<< 1) &&& G.frieze 0 j) ≠ 0) &&
      !decide (((1 <<< 2) &&& G.frieze G.height j) = 0 ∨
        ((1 <<< 3) &&& G.frieze G.height j) ≠ 0)) with
    | true => rfl
    | false =>
      rw [ht] at h
      cases h
  · rw [← borders_iff]
    cases ht : ((List.range (G.height + 1)).all fun i =>
      !decide (G.frieze i G.length > 1) &&
      !decide (((1 <<< 0) &&& G.frieze i 0) ≠ ((1 <<< 0) &&& G.frieze i G.length))) with
    | true => rfl
    | false =>
      rw [ht] at h
      split at h <;> cases h
  · rw [← crossing_iff]
    cases ht : ((List.range G.height).all fun i =>
      (List.range (G.length + 1)).all fun j =>
        !decide (((1 <<< 3) &&& G.frieze i j) ≠ 0 ∧ ((1 <<< 1) &&& G.frieze (i + 1) j) ≠ 0))
      with
    | true => rfl
    | false =>
      rw [ht] at h
      split at h
      · cases h
      · split at h <;> cases h

/-- C30. When `test_if_frieze` is called with `period` at its initial value 0:
it returns `true` exactly when (a) the top and bottom borders are in order, (b)
the vertical borders are in order, (c) no two segments cross, and (d) there is a
least shift `k` in `1 .. length / 2` for which the shifted frieze agrees with
the original, and this `k` is at least 2; and when it returns `true`, `period`
is that least shift. -/
theorem frieze_validation (G : Globals) (h0 : G.period = 0) :
    ((test_if_frieze G).1 = true ↔
      TopBottom G ∧ Borders G ∧ NoCrossing G ∧ ∃ k, LeastShift G k ∧ 2 ≤ k) ∧
    (∀ k, (test_if_frieze G).1 = true → LeastShift G k → (test_if_frieze G).2.period = k) := by
  have key : ∀ (_ : Borders G),
      (∃ k', LeastShift G k' ∧ (find_period (G.length / 2) 1 G).period = k') ∨
      ((∀ k', ¬ LeastShift G k') ∧ (find_period (G.length / 2) 1 G).period = 0) := by
    intro hb
    have hdiv : G.length / 2 ≤ G.length := Nat.div_le_self _ _
    have hm : ∀ k, k ≤ G.length / 2 → (Matches G k ↔ Agrees G k) :=
      fun k hk => matches_iff_agrees G k hb (by omega)
    obtain ⟨_, _, _, hs⟩ := find_period_spec (G.length / 2) 1 G (by omega)
    rcases hs with ⟨k', b1, b2, b3, b4, b5⟩ | ⟨b1, b2⟩
    · refine Or.inl ⟨k', ⟨b1, by omega, (hm k' (by omega)).1 b3, ?_⟩, b5⟩
      intro k'' c1 c2 hag
      exact b4 k'' c1 c2 ((hm k'' (by omega)).2 hag)
    · refine Or.inr ⟨?_, b2.trans h0⟩
      rintro k' ⟨c1, c2, c3, _⟩
      exact b1 k' c1 (by omega) ((hm k' c2).2 c3)
  have uniq : ∀ k k', LeastShift G k → LeastShift G k' → k = k' := by
    rintro k k' ⟨a1, a2, a3, a4⟩ ⟨b1, b2, b3, b4⟩
    by_contra hne
    rcases Nat.lt_or_gt_of_ne hne with h | h
    · exact b4 k a1 h a3
    · exact a4 k' b1 h b3
  constructor
  · constructor
    · intro h
      obtain ⟨ha, hb, hc⟩ := test_if_frieze_checks G h
      refine ⟨ha, hb, hc, ?_⟩
      rw [test_if_frieze_checked G ha hb hc] at h
      rcases key hb with ⟨k', hl, hp⟩ | ⟨_, hp⟩
      · refine ⟨k', hl, ?_⟩
        rw [hp] at h
        by_cases hk : k' ≤ 1
        · rw [if_pos hk] at h; cases h
        · omega
      · rw [hp] at h
        rw [if_pos (by omega)] at h
        cases h
    · rintro ⟨ha, hb, hc, k, hl, hk⟩
      rw [test_if_frieze_checked G ha hb hc]
      rcases key hb with ⟨k', hl', hp⟩ | ⟨hno, _⟩
      · have := uniq k k' hl hl'
        rw [hp, if_neg (by omega)]
      · exact absurd hl (hno k)
  · intro k h hl
    obtain ⟨ha, hb, hc⟩ := test_if_frieze_checks G h
    rw [test_if_frieze_checked G ha hb hc]
    rcases key hb with ⟨k', hl', hp⟩ | ⟨hno, _⟩
    · have := uniq k k' hl hl'
      split <;> rw [hp, this]
    · exact absurd hl (hno k)

/-- A frieze of length 4 and height 2 with a pattern of period 2. -/
def sample : Globals :=
  { frieze := fun i j =>
      if i = 0 then (if j = 0 ∨ j = 2 then 4 else if j = 1 ∨ j = 3 then 12 else 0)
      else if i = 2 then (if j < 4 then 4 else 0)
      else 0,
    shifted_frieze := fun _ _ => 0, rotated_frieze := fun _ _ => 0,
    length := 4, height := 2, period := 0 }

theorem frieze_validation_witness :
    (test_if_frieze sample).1 = true ∧ (test_if_frieze sample).2.period = 2 ∧
      TopBottom sample ∧ Borders sample ∧ NoCrossing sample ∧
      ∃ k, LeastShift sample k ∧ 2 ≤ k :=
  ⟨by decide, by decide, (frieze_validation sample rfl).1.1 (by decide)⟩

end Frieze
